import Mathlib

/-!
# Digital filters: ring buffer, moving average filter, rank filter

A shallow embedding of the C sources

* `src/filters/fifo/FIFO8.c`  (byte ring buffer),
* `src/filters/fifo/FIFO.c`   (item ring buffer on top of the byte ring),
* `src/filters/filter.c`      (output length helper),
* `src/filters/moving_average_filter.c`,
* `src/filters/rank_filter.c`,
* `src/Filters.cpp`           (the streaming drivers of the tests),

followed by the statements proved about them.

Conventions of the embedding.

* Unsigned fields (`uint8_t`, `uint16_t`, `uint32_t`) are `Nat`, signed values
  (`int16_t`, `int32_t`, `int`) are `Int`; every narrowing store is an explicit
  `to_uint16`, `to_int16`, `to_int32` (two's complement wrap).  `int` is 32 bits.
* A C function that mutates its handle returns the new handle; an output
  parameter (`*y`, `*y_len`) is an `Option` that is `none` when the function
  returns without storing to it.
* An `int16_t` array handed to the byte ring is its byte image
  (`int16s_to_bytes`, little endian two's complement).
* The output array `y` of the batch functions is the list of its stores
  `(index, value)` in program order.
* Array reads are `List.getD _ _ 0`: the theorems below only read inside the
  arrays.
-/

namespace DigitalFilters

/-! ## Machine integers -/

/-- Conversion of an integer to `uint16_t`. -/
def to_uint16 (n : Int) : Nat := (n % 65536).toNat

/-- Conversion of an integer to `uint32_t`. -/
def to_uint32 (n : Int) : Nat := (n % 4294967296).toNat

/-- Conversion of an integer to `int16_t` (two's complement wrap). -/
def to_int16 (n : Int) : Int := (n + 32768) % 65536 - 32768

/-- Conversion of an integer to `int32_t` (two's complement wrap). -/
def to_int32 (n : Int) : Int := (n + 2147483648) % 4294967296 - 2147483648

/-- The byte image of one `int16_t` (little endian, two's complement). -/
def int16_to_bytes (v : Int) : List Nat :=
  [to_uint16 v % 256, to_uint16 v / 256]

/-- The `int16_t` stored in two consecutive bytes (little endian). -/
def int16_of_bytes (b0 b1 : Nat) : Int :=
  to_int16 ((b0 : Int) + 256 * (b1 : Int))

/-- The byte image of an `int16_t` array. -/
def int16s_to_bytes : List Int → List Nat
  | [] => []
  | v :: vs => int16_to_bytes v ++ int16s_to_bytes vs

/-- Element `i` of the `int16_t` array whose byte image is `bytes`. -/
def int16_at (bytes : List Nat) (i : Nat) : Int :=
  int16_of_bytes (bytes.getD (2 * i) 0) (bytes.getD (2 * i + 1) 0)

/-- The first `n` elements of the `int16_t` array whose byte image is `bytes`. -/
def bytes_to_int16s (bytes : List Nat) (n : Nat) : List Int :=
  (List.range n).map (int16_at bytes)

/-! ## `FIFO_def.h` -/

/-- The enum `FIFO_error_t`. -/
inductive FIFO_error_t where
  | FIFO_OK
  | FIFO_OVERFLOW
  | FIFO_UNDERFLOW
  | FIFO_NOT_INITIALIZED
deriving DecidableEq, Repr

/-- Flag value `FIFO_NO_FLAGS = 0x00`. -/
def FIFO_NO_FLAGS : Nat := 0

/-- Flag value `FIFO_LOOP = 0x01`. -/
def FIFO_LOOP : Nat := 1

/-! ## `FIFO8.c`: the byte ring -/

/-- The struct `FIFO8_t`.  `pBuffer` is `none` for a NULL pointer, otherwise the
bytes of the backing storage. -/
structure FIFO8_t where
  pBuffer : Option (List Nat)
  FIFO_size : Nat
  flags : Nat
  counter : Nat
  r_index : Nat
  w_index : Nat
deriving DecidableEq, Repr

/-- The read `pBuffer[i]`. -/
def load_byte (pBuffer : Option (List Nat)) (i : Nat) : Nat :=
  (pBuffer.getD []).getD i 0

/-- The store `pBuffer[i] = b`. -/
def store_byte (pBuffer : Option (List Nat)) (i : Nat) (b : Nat) : Option (List Nat) :=
  pBuffer.map (fun buf => buf.set i b)

/-- `FIFO8_init`. -/
def FIFO8_init (pFIFO : FIFO8_t) (pBuffer : Option (List Nat)) (size : Nat) (flags : Nat) :
    FIFO8_t :=
  { pFIFO with
    pBuffer := pBuffer, FIFO_size := size, flags := flags,
    w_index := 0, r_index := 0, counter := 0 }

/-- The `while (len != 0)` loop of `FIFO8_read`: status, new handle, the bytes
copied to `pData` in order, and `bytes_read`.  The test
`r_index == FIFO_size - 1` is made in `int`, so with `FIFO_size = 0` it is never
true: this is `r_index + 1 = FIFO_size` on naturals.  `bytes_read` counts at most
`len <= 65535` bytes and cannot wrap. -/
def FIFO8_read_loop : Nat → FIFO8_t → FIFO_error_t × FIFO8_t × List Nat × Nat
  | 0, f => (FIFO_error_t.FIFO_OK, f, [], 0)
  | len + 1, f =>
    if f.counter ≠ 0 then
      let b := load_byte f.pBuffer f.r_index
      let r1 := if f.r_index + 1 = f.FIFO_size then 0 else (f.r_index + 1) % 65536
      let rest := FIFO8_read_loop len { f with r_index := r1, counter := f.counter - 1 }
      (rest.1, rest.2.1, b :: rest.2.2.1, rest.2.2.2 + 1)
    else
      (FIFO_error_t.FIFO_UNDERFLOW, f, [], 0)

/-- `FIFO8_read` with a non-NULL destination `pData`. -/
def FIFO8_read (pFIFO : FIFO8_t) (len : Nat) : FIFO_error_t × FIFO8_t × List Nat × Nat :=
  if pFIFO.pBuffer = none then (FIFO_error_t.FIFO_NOT_INITIALIZED, pFIFO, [], 0)
  else FIFO8_read_loop len pFIFO

/-- The `while (len != 0)` loop of `FIFO8_write`: status, new handle and
`bytes_written`.  `pFIFO->flags && FIFO_LOOP` is the logical conjunction of the
source. -/
def FIFO8_write_loop : Nat → FIFO8_t → List Nat → FIFO_error_t × FIFO8_t × Nat
  | 0, f, _ => (FIFO_error_t.FIFO_OK, f, 0)
  | len + 1, f, pData =>
    if f.counter ≠ f.FIFO_size ∨ (f.flags ≠ 0 ∧ FIFO_LOOP ≠ 0) then
      let buf1 := store_byte f.pBuffer f.w_index (pData.headD 0)
      let w1 := if f.w_index + 1 = f.FIFO_size then 0 else (f.w_index + 1) % 65536
      let r1 := if (f.flags ≠ 0 ∧ FIFO_LOOP ≠ 0) ∧ f.counter = f.FIFO_size then w1
                else f.r_index
      let c1 := if f.counter < f.FIFO_size then f.counter + 1 else f.counter
      let rest := FIFO8_write_loop len
        { f with pBuffer := buf1, w_index := w1, r_index := r1, counter := c1 } pData.tail
      (rest.1, rest.2.1, rest.2.2 + 1)
    else
      (FIFO_error_t.FIFO_OVERFLOW, f, 0)

/-- `FIFO8_write`: `pData` are the bytes at the source pointer. -/
def FIFO8_write (pFIFO : FIFO8_t) (pData : List Nat) (len : Nat) :
    FIFO_error_t × FIFO8_t × Nat :=
  if pFIFO.pBuffer = none then (FIFO_error_t.FIFO_NOT_INITIALIZED, pFIFO, 0)
  else FIFO8_write_loop len pFIFO pData

/-- `FIFO8_get_data_count`. -/
def FIFO8_get_data_count (pFIFO : FIFO8_t) : Nat := pFIFO.counter

/-- `FIFO8_get_free_space`: the `int` difference stored to `uint16_t`. -/
def FIFO8_get_free_space (pFIFO : FIFO8_t) : Nat :=
  to_uint16 ((pFIFO.FIFO_size : Int) - (pFIFO.counter : Int))

/-- `FIFO8_is_enough_free_space`: a comparison in `int`. -/
def FIFO8_is_enough_free_space (pFIFO : FIFO8_t) (len : Nat) : Bool :=
  decide ((pFIFO.FIFO_size : Int) - (pFIFO.counter : Int) ≥ (len : Int))

/-- `FIFO8_not_empty`. -/
def FIFO8_not_empty (pFIFO : FIFO8_t) : Bool := decide (pFIFO.counter ≠ 0)

/-- `FIFO8_flush`. -/
def FIFO8_flush (pFIFO : FIFO8_t) : FIFO8_t :=
  { pFIFO with counter := 0, r_index := 0, w_index := 0 }

/-! ## `FIFO.c`: the item ring -/

/-- The struct `FIFO_t`. -/
structure FIFO_t where
  fifo8 : FIFO8_t
  item_size : Nat
  fifo_size : Nat
deriving DecidableEq, Repr

/-- `FIFO_init`: the byte size is the product stored to `uint16_t`. -/
def FIFO_init (fifo : FIFO_t) (buffer : Option (List Nat)) (fifo_size item_size : Nat)
    (flags : Nat) : FIFO_t :=
  let buffer_size := to_uint16 ((fifo_size : Int) * (item_size : Int))
  { fifo8 := FIFO8_init fifo.fifo8 buffer buffer_size flags,
    item_size := item_size, fifo_size := fifo_size }

/-- `FIFO_read`: status, new handle, bytes copied to `pData`, items read.  The
byte length `len * item_size` is a `uint32_t` product passed as `uint16_t`. -/
def FIFO_read (fifo : FIFO_t) (len : Nat) : FIFO_error_t × FIFO_t × List Nat × Nat :=
  let r := FIFO8_read fifo.fifo8 (to_uint16 (to_uint32 ((len : Int) * (fifo.item_size : Int))))
  (r.1, { fifo with fifo8 := r.2.1 }, r.2.2.1, r.2.2.2 / fifo.item_size)

/-- `FIFO_write`: status, new handle, items written. -/
def FIFO_write (fifo : FIFO_t) (pData : List Nat) (len : Nat) : FIFO_error_t × FIFO_t × Nat :=
  let r := FIFO8_write fifo.fifo8 pData
    (to_uint16 (to_uint32 ((len : Int) * (fifo.item_size : Int))))
  (r.1, { fifo with fifo8 := r.2.1 }, r.2.2 / fifo.item_size)

/-- The copy `memcpy(item, pBuffer + ptr, item_size)`. -/
def load_item (pBuffer : Option (List Nat)) (ptr item_size : Nat) : List Nat :=
  (List.range item_size).map (fun j => load_byte pBuffer (ptr + j))

/-- `FIFO_get_first_item`: the offset is a `uint32_t` difference stored to
`uint16_t`. -/
def FIFO_get_first_item (fifo : FIFO_t) : List Nat :=
  let fifo8 := fifo.fifo8
  let bytes_buffer_ptr :=
    if fifo8.w_index = 0 then to_uint16 ((fifo8.FIFO_size : Int) - (fifo.item_size : Int))
    else to_uint16 ((fifo8.w_index : Int) - (fifo.item_size : Int))
  load_item fifo8.pBuffer bytes_buffer_ptr fifo.item_size

/-- The offset computed by `FIFO_get_middle_item` (all sums in `int`, each store
to `uint16_t`). -/
def FIFO_middle_ptr (fifo : FIFO_t) : Nat :=
  let fifo8_size := fifo.fifo8.FIFO_size
  let read_ptr := fifo.fifo8.r_index
  let wr_ptr := fifo.fifo8.w_index
  let fifo8_middle_ptr :=
    if wr_ptr > read_ptr then
      to_uint16 (((wr_ptr : Int) + (read_ptr : Int)).tdiv 2)
    else
      let mis := to_uint16 (((wr_ptr : Int) + ((fifo8_size : Int) - (read_ptr : Int))).tdiv 2)
      if read_ptr + mis < fifo8_size then to_uint16 ((mis : Int) + (read_ptr : Int))
      else to_uint16 ((mis : Int) - ((fifo8_size : Int) - (read_ptr : Int)))
  to_uint16 ((fifo8_middle_ptr : Int) - ((fifo8_middle_ptr % fifo.item_size : Nat) : Int))

/-- `FIFO_get_middle_item`. -/
def FIFO_get_middle_item (fifo : FIFO_t) : List Nat :=
  load_item fifo.fifo8.pBuffer (FIFO_middle_ptr fifo) fifo.item_size

/-- `FIFO_get_last_item`. -/
def FIFO_get_last_item (fifo : FIFO_t) : List Nat :=
  load_item fifo.fifo8.pBuffer fifo.fifo8.r_index fifo.item_size

/-- `FIFO_get_data_count`. -/
def FIFO_get_data_count (fifo : FIFO_t) : Nat :=
  to_uint16 ((FIFO8_get_data_count fifo.fifo8 / fifo.item_size : Nat) : Int)

/-- `FIFO_get_free_space`. -/
def FIFO_get_free_space (fifo : FIFO_t) : Nat :=
  to_uint16 ((FIFO8_get_free_space fifo.fifo8 / fifo.item_size : Nat) : Int)

/-- `FIFO_is_enough_free_space`. -/
def FIFO_is_enough_free_space (fifo : FIFO_t) (len : Nat) : Bool :=
  FIFO8_is_enough_free_space fifo.fifo8
    (to_uint16 (to_uint32 ((len : Int) * (fifo.item_size : Int))))

/-- `FIFO_not_empty`. -/
def FIFO_not_empty (fifo : FIFO_t) : Bool := FIFO8_not_empty fifo.fifo8

/-- `FIFO_flush`. -/
def FIFO_flush (fifo : FIFO_t) : FIFO_t := { fifo with fifo8 := FIFO8_flush fifo.fifo8 }

/-! ## `filter.h`, `filter.c` -/

/-- The enum `FilterType_t`. -/
inductive FilterType_t where
  | FilterLowPass
  | FilterHighPass
deriving DecidableEq, Repr

/-- The enum `FilterStatus_t` (`FilterOK = 0`, `FilterError = 1`). -/
inductive FilterStatus_t where
  | FilterOK
  | FilterError
deriving DecidableEq, Repr

/-- `filter_windowed_get_expected_output_len`: `uint32_t` arithmetic. -/
def filter_windowed_get_expected_output_len (data_len window_size : Nat) : Nat :=
  to_uint32 ((data_len : Int) - (window_size : Int) + 1)

/-! ## `moving_average_filter.c` -/

/-- The struct `MovingAverageFilter_t`. -/
structure MovingAverageFilter_t where
  buffer_size : Nat
  window_size : Nat
  prev_acc : Int
  initialized : Nat
  type : FilterType_t
  fifo : FIFO_t
deriving DecidableEq, Repr

/-- The accumulation loop `for (i = 0; i < n; i++) acc += (int32_t)a[i];`
starting from `acc = 0`, each sum stored to `int32_t`. -/
def window_acc (a : List Int) (n : Nat) : Int :=
  (List.range n).foldl (fun acc i => to_int32 (acc + a.getD i 0)) 0

/-- `produce_output`: `int` arithmetic, the result stored to `int16_t`.  The C
division truncates toward zero (`Int.tdiv`). -/
def produce_output (current_sample : Int) (acc : Int) (window_size : Nat)
    (ftype : FilterType_t) : Int :=
  if ftype = FilterType_t.FilterHighPass then
    to_int16 (current_sample - acc.tdiv (to_int32 window_size))
  else
    to_int16 (acc.tdiv (to_int32 window_size))

/-- `moving_avg_init` (`sizeof(*buffer) = 2`). -/
def moving_avg_init (filter : MovingAverageFilter_t) (ftype : FilterType_t)
    (buffer : Option (List Nat)) (window_size : Nat) :
    FilterStatus_t × MovingAverageFilter_t :=
  (FilterStatus_t.FilterOK,
   { filter with
     type := ftype, window_size := window_size, prev_acc := 0, initialized := 0,
     fifo := FIFO_init filter.fifo buffer window_size 2 FIFO_LOOP })

/-- `moving_avg_compute_first_output`: new handle and returned sample.  On a
ring failure the source returns the status constant `FilterError = 1` as the
sample. -/
def moving_avg_compute_first_output (filter : MovingAverageFilter_t) :
    MovingAverageFilter_t × Int :=
  let window_size := filter.window_size
  let rd := FIFO_read filter.fifo (to_uint16 window_size)
  if rd.1 ≠ FIFO_error_t.FIFO_OK then ({ filter with fifo := rd.2.1 }, 1)
  else
    let buf := bytes_to_int16s rd.2.2.1 filter.window_size
    let wr := FIFO_write rd.2.1 rd.2.2.1 (to_uint16 window_size)
    if wr.1 ≠ FIFO_error_t.FIFO_OK then ({ filter with fifo := wr.2.1 }, 1)
    else
      let acc := window_acc buf filter.window_size
      let middle := int16_at (FIFO_get_middle_item wr.2.1) 0
      ({ filter with fifo := wr.2.1, prev_acc := acc },
       produce_output middle acc window_size filter.type)

/-- `moving_avg_filter_initalize`. -/
def moving_avg_filter_initalize (filter : MovingAverageFilter_t) :
    MovingAverageFilter_t × Int :=
  moving_avg_compute_first_output { filter with initialized := 1 }

/-- `moving_avg_fill_buffer`: status, new handle, and the sample stored to `*y`. -/
def moving_avg_fill_buffer (filter : MovingAverageFilter_t) (data : List Int) :
    FilterStatus_t × MovingAverageFilter_t × Option Int :=
  if filter.initialized ≠ 0 then (FilterStatus_t.FilterError, filter, none)
  else
    let wr := FIFO_write filter.fifo (int16s_to_bytes data) (to_uint16 filter.window_size)
    if wr.1 ≠ FIFO_error_t.FIFO_OK then
      (FilterStatus_t.FilterError, { filter with fifo := wr.2.1 }, none)
    else
      let r := moving_avg_filter_initalize { filter with fifo := wr.2.1 }
      (FilterStatus_t.FilterOK, r.1, some r.2)

/-- `moving_avg_filter_sample`: status, new handle, and the sample stored to `*y`. -/
def moving_avg_filter_sample (filter : MovingAverageFilter_t) (new_sample : Int) :
    FilterStatus_t × MovingAverageFilter_t × Option Int :=
  if filter.initialized = 0 then (FilterStatus_t.FilterError, filter, none)
  else
    let rd := FIFO_read filter.fifo 1
    if rd.1 ≠ FIFO_error_t.FIFO_OK then
      (FilterStatus_t.FilterError, { filter with fifo := rd.2.1 }, none)
    else
      let last_x := int16_at rd.2.2.1 0
      let wr := FIFO_write rd.2.1 (int16_to_bytes new_sample) 1
      if wr.1 ≠ FIFO_error_t.FIFO_OK then
        (FilterStatus_t.FilterError, { filter with fifo := wr.2.1 }, none)
      else
        let new_x := new_sample
        let middle := int16_at (FIFO_get_middle_item wr.2.1) 0
        let acc := to_int32 (filter.prev_acc + (new_x - last_x))
        (FilterStatus_t.FilterOK, { filter with fifo := wr.2.1, prev_acc := acc },
         some (produce_output middle acc filter.window_size filter.type))

/-- The recursive part of `moving_avg_filter_sequence`: the stores
`y[i + item_shift]` of the iterations `i, i + 1, ...` (`remaining` of them),
with `item_shift = 1`. -/
def moving_avg_sequence_loop (data : List Int) (window_size p : Nat) :
    Nat → Nat → Int → List (Nat × Int)
  | 0, _, _ => []
  | remaining + 1, i, acc =>
    let prev_sample_id := i
    let next_sample_id := to_uint32 ((i : Int) + 2 * (p : Int) + 1)
    let acc1 := to_int32 (acc + (data.getD next_sample_id 0 - data.getD prev_sample_id 0))
    (i + 1, to_int16 (acc1.tdiv (to_int32 window_size))) ::
      moving_avg_sequence_loop data window_size p remaining (i + 1) acc1

/-- `moving_avg_filter_sequence`: status, the stores to `y` in program order,
and the value stored to `*y_data_len`. -/
def moving_avg_filter_sequence (data : List Int) (data_size window_size : Nat) :
    FilterStatus_t × List (Nat × Int) × Option Nat :=
  if window_size > data_size then (FilterStatus_t.FilterError, [], none)
  else
    let filtered_len := filter_windowed_get_expected_output_len data_size window_size
    let recursive_items_num := to_uint32 ((filtered_len : Int) - 1)
    let acc := window_acc data window_size
    let p := to_uint32 (((window_size : Int) - 1).tdiv 2)
    (FilterStatus_t.FilterOK,
     (0, to_int16 (acc.tdiv (window_size : Int))) ::
       moving_avg_sequence_loop data window_size p recursive_items_num 0 acc,
     some (to_uint16 filtered_len))

/-- `moving_avg_get_output_data_len`: status and the value stored to `*y_len`. -/
def moving_avg_get_output_data_len (data_size window_size : Nat) :
    FilterStatus_t × Option Nat :=
  if window_size > data_size then (FilterStatus_t.FilterError, none)
  else
    (FilterStatus_t.FilterOK,
     some (to_uint16 (filter_windowed_get_expected_output_len data_size window_size)))

/-- `moving_avg_flush`. -/
def moving_avg_flush (filter : MovingAverageFilter_t) : MovingAverageFilter_t :=
  { filter with fifo := FIFO_flush filter.fifo, initialized := 0 }

/-- The calls of `test_moving_average_ring_buffer_fifo` after the fill: one
`moving_avg_filter_sample` per sample, collecting status and `*y`. -/
def moving_avg_run (filter : MovingAverageFilter_t) :
    List Int → MovingAverageFilter_t × List (FilterStatus_t × Option Int)
  | [] => (filter, [])
  | s :: rest =>
    let r := moving_avg_filter_sample filter s
    let t := moving_avg_run r.2.1 rest
    (t.1, (r.1, r.2.2) :: t.2)

/-- The driver of `test_moving_average_ring_buffer_fifo`: init, fill from the
start of `samples`, then one step per remaining sample.  Returns the final
handle and every `(status, *y)`. -/
def moving_avg_stream (filter : MovingAverageFilter_t) (ftype : FilterType_t)
    (buffer : Option (List Nat)) (window_size : Nat) (samples : List Int) :
    MovingAverageFilter_t × List (FilterStatus_t × Option Int) :=
  let i := moving_avg_init filter ftype buffer window_size
  let f := moving_avg_fill_buffer i.2 samples
  let t := moving_avg_run f.2.1 (samples.drop window_size)
  (t.1, (f.1, f.2.2) :: t.2)

/-! ## `rank_filter.c` -/

/-- The struct `RankFilter_t`.  `sorted_window` is `none` for a NULL pointer,
otherwise the `window_size` elements of the allocated `int16_t` array that the
code accesses. -/
structure RankFilter_t where
  sorted_window : Option (List Int)
  window_size : Nat
  rank : Nat
  initialized : Nat
  fifo : FIFO_t
deriving DecidableEq, Repr

/-- `sort_cmp_func`: the `int` difference of two `int16_t` values. -/
def sort_cmp_func (pdata1 pdata2 : Int) : Int := pdata1 - pdata2

/-- Insertion of one element before the first element that does not compare
below it. -/
def qsort_insert (cmp : Int → Int → Int) (x : Int) : List Int → List Int
  | [] => [x]
  | y :: ys => if cmp x y ≤ 0 then x :: y :: ys else y :: qsort_insert cmp x ys

/-- The C library `qsort` on a whole array, by its contract: the elements
rearranged in ascending order of the comparator (here by insertion). -/
def qsort_list (cmp : Int → Int → Int) : List Int → List Int
  | [] => []
  | x :: xs => qsort_insert cmp x (qsort_list cmp xs)

/-- The call `qsort(base, nmemb, 2, cmp)`: the first `nmemb` elements sorted. -/
def qsort (base : List Int) (nmemb : Nat) (cmp : Int → Int → Int) : List Int :=
  qsort_list cmp (base.take nmemb) ++ base.drop nmemb

/-- The call `memcpy(dst, src, 2 * n)` on `int16_t` arrays, inside both arrays. -/
def memcpy_items (dst src : List Int) (n : Nat) : List Int :=
  src.take n ++ dst.drop n

/-- The call `memmove(a + dst, a + src, bytes)` on an `int16_t` array, inside
the array: the `bytes / 2` elements from `src` replace those from `dst`. -/
def memmove_items (a : List Int) (dst src : Int) (bytes : Nat) : List Int :=
  a.take dst.toNat ++ (a.drop src.toNat).take (bytes / 2) ++ a.drop (dst.toNat + bytes / 2)

/-- The store `a[i] = v` with an `int32_t` index. -/
def store_item (a : List Int) (i : Int) (v : Int) : List Int :=
  if i < 0 then a else a.set i.toNat v

/-- The scan loop of `rank_filter_compute_next_sample`, from index `i` with
`remaining` iterations left: `(last_sample_rank, new_sample_rank)`. -/
def rank_scan (sorted_window : List Int) (last_sample new_sample : Int) :
    Nat → Nat → Int → Int → Int × Int
  | 0, _, last_sample_rank, new_sample_rank => (last_sample_rank, new_sample_rank)
  | remaining + 1, i, last_sample_rank, new_sample_rank =>
    let lr := if sorted_window.getD i 0 = last_sample ∧ last_sample_rank = -1 then (i : Int)
              else last_sample_rank
    let nr := if sorted_window.getD i 0 ≥ new_sample ∧ new_sample_rank = -1 then (i : Int)
              else new_sample_rank
    if lr ≠ -1 ∧ nr ≠ -1 then (lr, nr)
    else rank_scan sorted_window last_sample new_sample remaining (i + 1) lr nr

/-- The in-place update of `sorted_window` in `rank_filter_compute_next_sample`
(everything after the two ring calls and before the output store). -/
def rank_filter_update_window (sorted_window : List Int) (window_size : Nat)
    (last_sample new_sample : Int) : List Int :=
  let item_size : Int := 2
  let scan := rank_scan sorted_window last_sample new_sample window_size 0 (-1) (-1)
  let last_sample_rank := scan.1
  let new_sample_rank := if scan.2 = -1 then (window_size : Int) - 1 else scan.2
  let new_sample_rank_shift : Int := if scan.2 = -1 then 0 else 1
  if last_sample_rank < new_sample_rank then
    let bytes_to_move := to_uint32 ((new_sample_rank - last_sample_rank) * item_size)
    store_item
      (memmove_items sorted_window last_sample_rank (last_sample_rank + 1) bytes_to_move)
      (new_sample_rank - new_sample_rank_shift) new_sample
  else if last_sample_rank > new_sample_rank then
    let bytes_to_move := to_uint32 ((last_sample_rank - new_sample_rank) * item_size)
    store_item
      (memmove_items sorted_window (new_sample_rank + 1) new_sample_rank bytes_to_move)
      new_sample_rank new_sample
  else
    store_item sorted_window last_sample_rank new_sample

/-- `rank_filter_init`.  `alloc` is the result of `_malloc`: `none` for NULL,
otherwise the fresh array. -/
def rank_filter_init (rank_filter : RankFilter_t) (buffer : Option (List Nat))
    (window_size rank : Nat) (alloc : Option (List Int)) :
    FilterStatus_t × RankFilter_t :=
  if (rank : Int) > (window_size : Int) - 1 then (FilterStatus_t.FilterError, rank_filter)
  else
    let rf1 : RankFilter_t :=
      { rank_filter with
        window_size := window_size, rank := rank, initialized := 0, sorted_window := alloc }
    if alloc = none then (FilterStatus_t.FilterError, rf1)
    else
      (FilterStatus_t.FilterOK,
       { rf1 with fifo := FIFO_init rf1.fifo buffer window_size 2 FIFO_NO_FLAGS })

/-- `rank_filter_compute_first_output` with a non-NULL `y`: status, new handle
and the sample stored to `*y`. -/
def rank_filter_compute_first_output (filter : RankFilter_t) :
    FilterStatus_t × RankFilter_t × Option Int :=
  let window_size := filter.window_size
  let rank := filter.rank
  let rd := FIFO_read filter.fifo window_size
  if rd.1 ≠ FIFO_error_t.FIFO_OK then
    (FilterStatus_t.FilterError, { filter with fifo := rd.2.1 }, none)
  else
    let samples := bytes_to_int16s rd.2.2.1 window_size
    let wr := FIFO_write rd.2.1 rd.2.2.1 window_size
    if wr.1 ≠ FIFO_error_t.FIFO_OK then
      (FilterStatus_t.FilterError, { filter with fifo := wr.2.1 }, none)
    else
      let sorted_window := filter.sorted_window.map
        (fun sw => qsort (memcpy_items sw samples window_size) window_size sort_cmp_func)
      (FilterStatus_t.FilterOK,
       { filter with fifo := wr.2.1, sorted_window := sorted_window },
       some ((sorted_window.getD []).getD rank 0))

/-- `rank_filter_fill_buffer`. -/
def rank_filter_fill_buffer (rf : RankFilter_t) (samples : List Int) :
    FilterStatus_t × RankFilter_t × Option Int :=
  if rf.initialized ≠ 0 then (FilterStatus_t.FilterError, rf, none)
  else
    let wr := FIFO_write rf.fifo (int16s_to_bytes samples) rf.window_size
    if wr.1 ≠ FIFO_error_t.FIFO_OK then
      (FilterStatus_t.FilterError, { rf with fifo := wr.2.1 }, none)
    else
      rank_filter_compute_first_output { rf with fifo := wr.2.1, initialized := 1 }

/-- `rank_filter_compute_next_sample` with a non-NULL `y`. -/
def rank_filter_compute_next_sample (filter : RankFilter_t) (new_sample : Int) :
    FilterStatus_t × RankFilter_t × Option Int :=
  let rank := filter.rank
  let window_size := filter.window_size
  let rd := FIFO_read filter.fifo 1
  if rd.1 ≠ FIFO_error_t.FIFO_OK then
    (FilterStatus_t.FilterError, { filter with fifo := rd.2.1 }, none)
  else
    let last_sample := int16_at rd.2.2.1 0
    let wr := FIFO_write rd.2.1 (int16_to_bytes new_sample) 1
    if wr.1 ≠ FIFO_error_t.FIFO_OK then
      (FilterStatus_t.FilterError, { filter with fifo := wr.2.1 }, none)
    else
      let sorted_window := filter.sorted_window.map
        (fun sw => rank_filter_update_window sw window_size last_sample new_sample)
      (FilterStatus_t.FilterOK,
       { filter with fifo := wr.2.1, sorted_window := sorted_window },
       some ((sorted_window.getD []).getD rank 0))

/-- `rank_filter_filter_sample`. -/
def rank_filter_filter_sample (rank_filter : RankFilter_t) (new_sample : Int) :
    FilterStatus_t × RankFilter_t × Option Int :=
  if rank_filter.initialized = 0 then (FilterStatus_t.FilterError, rank_filter, none)
  else rank_filter_compute_next_sample rank_filter new_sample

/-- `rank_filter_filter_sequence`: status, the stores to `y` in program order,
and the value stored to `*y_len`.  `data_size` is an `int16_t`, converted to
`uint32_t` for the length helper, whose result is stored to `uint16_t`. -/
def rank_filter_filter_sequence (data : List Int) (data_size : Int) (window_size rank : Nat) :
    FilterStatus_t × List (Nat × Int) × Option Nat :=
  if rank > window_size then (FilterStatus_t.FilterError, [], none)
  else
    let filtered_len :=
      to_uint16 (filter_windowed_get_expected_output_len (to_uint32 data_size) window_size)
    (FilterStatus_t.FilterOK,
     (List.range filtered_len).map (fun i =>
       let window := memcpy_items (List.replicate window_size 0) (data.drop i) window_size
       (i, (qsort window window_size sort_cmp_func).getD rank 0)),
     some filtered_len)

/-- `rank_filter_get_output_data_len`: status and the value stored to `*y_len`. -/
def rank_filter_get_output_data_len (data_size window_size : Nat) :
    FilterStatus_t × Option Nat :=
  if window_size > data_size then (FilterStatus_t.FilterError, none)
  else
    (FilterStatus_t.FilterOK,
     some (to_uint16 (filter_windowed_get_expected_output_len data_size window_size)))

/-- `rank_filter_flush`. -/
def rank_filter_flush (rank_filter : RankFilter_t) : RankFilter_t :=
  { rank_filter with fifo := FIFO_flush rank_filter.fifo, initialized := 0 }

/-- The calls of `test_rank_filter_ring_buffer` after the fill: one
`rank_filter_filter_sample` per sample, collecting status and `*y`. -/
def rank_filter_run (filter : RankFilter_t) :
    List Int → RankFilter_t × List (FilterStatus_t × Option Int)
  | [] => (filter, [])
  | s :: rest =>
    let r := rank_filter_filter_sample filter s
    let t := rank_filter_run r.2.1 rest
    (t.1, (r.1, r.2.2) :: t.2)

/-- The driver of `test_rank_filter_ring_buffer`: init, fill from the start of
`samples`, then one step per remaining sample.  Returns the status of the init,
the final handle and every `(status, *y)` of the fill and the steps. -/
def rank_filter_stream (filter : RankFilter_t) (buffer : Option (List Nat))
    (window_size rank : Nat) (alloc : Option (List Int)) (samples : List Int) :
    FilterStatus_t × RankFilter_t × List (FilterStatus_t × Option Int) :=
  let i := rank_filter_init filter buffer window_size rank alloc
  let f := rank_filter_fill_buffer i.2 samples
  let t := rank_filter_run f.2.1 (samples.drop window_size)
  (i.1, t.1, (f.1, f.2.2) :: t.2)

/-! ## Numeric examples of the tests -/

example :
    (moving_avg_filter_sequence
      [5, 2, 1, 5, 10, 14, 32, 65, 13, 18, -10, -25, -30, 13, 1, 1] 16 3).2.1.map Prod.snd
      = [2, 2, 5, 9, 18, 37, 36, 32, 7, -5, -21, -14, -5, 5] := by decide

example :
    (rank_filter_filter_sequence
      [44, 2, 21, 5, 11, 14, 32, 65, 13, 11, -10, -25, 30, -40, 50, 1] 16 3 2).2.1.map Prod.snd
      = [44, 21, 21, 14, 32, 65, 65, 65, 13, 11, 30, 30, 50, 50] := by decide

example :
    (moving_avg_stream
      ⟨0, 0, 0, 0, FilterType_t.FilterLowPass, ⟨⟨none, 0, 0, 0, 0, 0⟩, 0, 0⟩⟩
      FilterType_t.FilterLowPass (some [0, 0, 0, 0, 0, 0]) 3
      [5, 2, 1, 5, 10, 14, 32, 65, 13, 18, -10, -25, -30, 13, 1, 1]).2.map Prod.snd
      = [2, 2, 5, 9, 18, 37, 36, 32, 7, -5, -21, -14, -5, 5].map some := by decide

example :
    (rank_filter_stream
      ⟨none, 0, 0, 0, ⟨⟨none, 0, 0, 0, 0, 0⟩, 0, 0⟩⟩ (some [0, 0, 0, 0, 0, 0]) 3 2
      (some [0, 0, 0])
      [44, 2, 21, 5, 11, 14, 32, 65, 13, 11, -10, -25, 30, -40, 50, 1]).2.2.map Prod.snd
      = [44, 21, 21, 14, 32, 65, 65, 65, 13, 11, 30, 30, 50, 50].map some := by decide

/-! ## Specification vocabulary -/

/-- A value of type `int16_t`. -/
def is_int16 (v : Int) : Prop := -32768 ≤ v ∧ v ≤ 32767

/-- The ring `f` over the storage `buf` is well formed: non-NULL storage of at
least `FIFO_size` bytes, indices inside it, and the write index `counter` bytes
after the read index. -/
structure FIFO8_wf (f : FIFO8_t) (buf : List Nat) : Prop where
  hbuf : f.pBuffer = some buf
  hpos : 0 < f.FIFO_size
  hmax : f.FIFO_size ≤ 65535
  hlen : f.FIFO_size ≤ buf.length
  hr : f.r_index < f.FIFO_size
  hc : f.counter ≤ f.FIFO_size
  hw : f.w_index = (f.r_index + f.counter) % f.FIFO_size

/-- The ring `f` holds exactly `bytes`, oldest first. -/
def FIFO8_holds (f : FIFO8_t) (bytes : List Nat) : Prop :=
  ∃ buf, FIFO8_wf f buf ∧ f.counter = bytes.length ∧
    ∀ i, i < bytes.length → buf.getD ((f.r_index + i) % f.FIFO_size) 0 = bytes.getD i 0

instance : DecidablePred is_int16 := fun v => by
  unfold is_int16
  infer_instance

/-- The `k`-th window of `w` consecutive samples of `x`: `x[k], ..., x[k + w - 1]`. -/
def window_at (x : List Int) (w k : Nat) : List Int := (x.drop k).take w

/-- The moving-average filter is initialised with window size `w`, its ring is
full and holds the samples `window` oldest first, the read index is item
aligned, and `prev_acc` is their sum. -/
def MA_state (filter : MovingAverageFilter_t) (w : Nat) (window : List Int) : Prop :=
  filter.window_size = w ∧ filter.initialized = 1 ∧ filter.fifo.item_size = 2 ∧
  filter.fifo.fifo8.FIFO_size = 2 * w ∧ filter.fifo.fifo8.r_index % 2 = 0 ∧
  FIFO8_holds filter.fifo.fifo8 (int16s_to_bytes window) ∧ window.length = w ∧
  (∀ x ∈ window, is_int16 x) ∧ filter.prev_acc = window.sum

/-- The first index `j` with `i <= j < i + k` whose element satisfies `p`, or
`-1` when there is none. -/
def first_index_from (p : Int → Bool) (a : List Int) : Nat → Nat → Int
  | 0, _ => -1
  | k + 1, i => if p (a.getD i 0) then (i : Int) else first_index_from p a k (i + 1)

/-- The rank filter is initialised with window size `w` and rank `rank`, its
ring is full and holds the samples `window` oldest first, and `sorted_window`
is the ascending sort of `window`. -/
def RF_state (filter : RankFilter_t) (w rank : Nat) (window : List Int) : Prop :=
  filter.window_size = w ∧ filter.rank = rank ∧ filter.initialized = 1 ∧
  filter.fifo.item_size = 2 ∧ filter.fifo.fifo8.FIFO_size = 2 * w ∧
  FIFO8_holds filter.fifo.fifo8 (int16s_to_bytes window) ∧ window.length = w ∧
  (∀ x ∈ window, is_int16 x) ∧
  filter.sorted_window = some (qsort_list sort_cmp_func window)

/-- The moving-average filter of kind `ftype` and window size `w` is not
initialised and its ring is empty with both indices at zero (the state left by
`moving_avg_init` and by `moving_avg_flush`). -/
def MA_empty (filter : MovingAverageFilter_t) (ftype : FilterType_t) (w : Nat) : Prop :=
  filter.window_size = w ∧ filter.type = ftype ∧ filter.initialized = 0 ∧
  filter.fifo.item_size = 2 ∧ filter.fifo.fifo8.FIFO_size = 2 * w ∧
  filter.fifo.fifo8.r_index = 0 ∧ FIFO8_holds filter.fifo.fifo8 []

/-- The rank filter of window size `w` and rank `rank` is not initialised, its
ring is empty, and it owns a sorted-window array of `w` elements (the state left
by a successful `rank_filter_init` and by `rank_filter_flush`). -/
def RF_empty (filter : RankFilter_t) (w rank : Nat) : Prop :=
  filter.window_size = w ∧ filter.rank = rank ∧ filter.initialized = 0 ∧
  filter.fifo.item_size = 2 ∧ filter.fifo.fifo8.FIFO_size = 2 * w ∧
  FIFO8_holds filter.fifo.fifo8 [] ∧
  ∃ sw, filter.sorted_window = some sw ∧ sw.length = w

/-- The handles reachable from `moving_avg_init` (kind `ftype`, window size `w`,
storage of at least `2 * w` bytes) by calls of `moving_avg_fill_buffer` on at
least `w` `int16_t` samples, of `moving_avg_filter_sample` on an `int16_t`
sample, and of `moving_avg_flush`, whatever their status. -/
inductive MA_reachable (ftype : FilterType_t) (w : Nat) : MovingAverageFilter_t → Prop where
  | init (f0 : MovingAverageFilter_t) (buf : List Nat) (hbuf : 2 * w ≤ buf.length) :
      MA_reachable ftype w (moving_avg_init f0 ftype (some buf) w).2
  | fill (f : MovingAverageFilter_t) (data : List Int) (hf : MA_reachable ftype w f)
      (hd : w ≤ data.length) (hr : ∀ x ∈ data, is_int16 x) :
      MA_reachable ftype w (moving_avg_fill_buffer f data).2.1
  | step (f : MovingAverageFilter_t) (s : Int) (hf : MA_reachable ftype w f)
      (hs : is_int16 s) :
      MA_reachable ftype w (moving_avg_filter_sample f s).2.1
  | flush (f : MovingAverageFilter_t) (hf : MA_reachable ftype w f) :
      MA_reachable ftype w (moving_avg_flush f)

/-- The handles reachable from a successful `rank_filter_init` (window size `w`,
rank below `w`, storage of at least `2 * w` bytes, an allocated array of `w`
elements) by calls of `rank_filter_fill_buffer` on at least `w` `int16_t`
samples, of `rank_filter_filter_sample` on an `int16_t` sample, and of
`rank_filter_flush`, whatever their status. -/
inductive RF_reachable (w rank : Nat) : RankFilter_t → Prop where
  | init (f0 : RankFilter_t) (buf : List Nat) (mem : List Int) (hrank : rank < w)
      (hbuf : 2 * w ≤ buf.length) (hmem : mem.length = w) :
      RF_reachable w rank (rank_filter_init f0 (some buf) w rank (some mem)).2
  | fill (f : RankFilter_t) (data : List Int) (hf : RF_reachable w rank f)
      (hd : w ≤ data.length) (hr : ∀ x ∈ data, is_int16 x) :
      RF_reachable w rank (rank_filter_fill_buffer f data).2.1
  | step (f : RankFilter_t) (s : Int) (hf : RF_reachable w rank f) (hs : is_int16 s) :
      RF_reachable w rank (rank_filter_filter_sample f s).2.1
  | flush (f : RankFilter_t) (hf : RF_reachable w rank f) :
      RF_reachable w rank (rank_filter_flush f)

/-- The bytes held by the byte ring, oldest first: the `counter` bytes of the
storage from `r_index` on, wrapping at `FIFO_size`. -/
def FIFO8_contents (f : FIFO8_t) : List Nat :=
  (List.range f.counter).map (fun i => load_byte f.pBuffer ((f.r_index + i) % f.FIFO_size))

/-- The bytes held by the item ring, oldest first (the byte images of its items
in read order). -/
def FIFO_contents (fifo : FIFO_t) : List Nat := FIFO8_contents fifo.fifo8

/-- The last `n` elements of a list (the whole list when it is shorter). -/
def last_n (n : Nat) (l : List Nat) : List Nat := l.drop (l.length - n)

/-- The item ring of capacity `cap` items of `isz` bytes, with the given flags,
is in an item-aligned state holding `bytes` oldest first: the byte ring is well
formed with byte size `cap * isz`, and the stored length and the read index are
multiples of the item size. -/
def FIFO_aligned (fifo : FIFO_t) (cap isz flags : Nat) (bytes : List Nat) : Prop :=
  fifo.item_size = isz ∧ fifo.fifo_size = cap ∧ fifo.fifo8.FIFO_size = cap * isz ∧
  fifo.fifo8.flags = flags ∧ FIFO8_holds fifo.fifo8 bytes ∧
  isz ∣ bytes.length ∧ isz ∣ fifo.fifo8.r_index

/-- The item rings reachable from `FIFO_init` (capacity `cap`, item size `isz`,
the given flags, storage of at least `cap * isz` bytes) by item-granular calls,
whatever their status: `FIFO_write` of `n` items given as `n * isz` bytes,
`FIFO_read` of `n` items, with `n * isz <= 65535`, and `FIFO_flush`. -/
inductive FIFO_reachable (cap isz flags : Nat) : FIFO_t → Prop where
  | init (fifo0 : FIFO_t) (buf : List Nat) (hbuf : cap * isz ≤ buf.length) :
      FIFO_reachable cap isz flags (FIFO_init fifo0 (some buf) cap isz flags)
  | write (fifo : FIFO_t) (data : List Nat) (n : Nat) (h : FIFO_reachable cap isz flags fifo)
      (hd : data.length = n * isz) (hn : n * isz ≤ 65535) :
      FIFO_reachable cap isz flags (FIFO_write fifo data n).2.1
  | read (fifo : FIFO_t) (n : Nat) (h : FIFO_reachable cap isz flags fifo)
      (hn : n * isz ≤ 65535) :
      FIFO_reachable cap isz flags (FIFO_read fifo n).2.1
  | flush (fifo : FIFO_t) (h : FIFO_reachable cap isz flags fifo) :
      FIFO_reachable cap isz flags (FIFO_flush fifo)

/-- One call on an item ring: a write of `n` items given by their bytes, or a
read of `n` items. -/
inductive FIFO_op where
  | write (data : List Nat) (n : Nat)
  | read (n : Nat)

/-- The ring after a sequence of `FIFO_write` and `FIFO_read` calls. -/
def FIFO_run (fifo : FIFO_t) : List FIFO_op → FIFO_t
  | [] => fifo
  | FIFO_op.write data n :: rest => FIFO_run (FIFO_write fifo data n).2.1 rest
  | FIFO_op.read n :: rest => FIFO_run (FIFO_read fifo n).2.1 rest

/-- Every write of the sequence carries the bytes of its `n` items and fits in
the free space reported before it, and every read asks for no more items than
the count reported before it. -/
def FIFO_ops_fit (fifo : FIFO_t) : List FIFO_op → Prop
  | [] => True
  | FIFO_op.write data n :: rest =>
    data.length = n * fifo.item_size ∧ n ≤ FIFO_get_free_space fifo ∧
    FIFO_ops_fit (FIFO_write fifo data n).2.1 rest
  | FIFO_op.read n :: rest =>
    n ≤ FIFO_get_data_count fifo ∧ FIFO_ops_fit (FIFO_read fifo n).2.1 rest

/-- The total number of items the writes of the sequence ask to store. -/
def FIFO_items_written : List FIFO_op → Nat
  | [] => 0
  | FIFO_op.write _ n :: rest => n + FIFO_items_written rest
  | FIFO_op.read _ :: rest => FIFO_items_written rest

/-- The total number of items the reads of the sequence ask for. -/
def FIFO_items_read : List FIFO_op → Nat
  | [] => 0
  | FIFO_op.write _ _ :: rest => FIFO_items_read rest
  | FIFO_op.read n :: rest => n + FIFO_items_read rest

/-- The item rings reachable from `FIFO_init` (capacity `cap`, item size `isz`,
the given flags, storage of at least `cap * isz` bytes) by calls with any
arguments, whatever their status: `FIFO_write` of `n` items from a source that
holds at least the bytes the call copies, `FIFO_read` of `n` items, and
`FIFO_flush`. -/
inductive FIFO_reachable_any (cap isz flags : Nat) : FIFO_t → Prop where
  | init (fifo0 : FIFO_t) (buf : List Nat) (hbuf : cap * isz ≤ buf.length) :
      FIFO_reachable_any cap isz flags (FIFO_init fifo0 (some buf) cap isz flags)
  | write (fifo : FIFO_t) (data : List Nat) (n : Nat)
      (h : FIFO_reachable_any cap isz flags fifo)
      (hd : to_uint16 (to_uint32 ((n : Int) * (isz : Int))) ≤ data.length) :
      FIFO_reachable_any cap isz flags (FIFO_write fifo data n).2.1
  | read (fifo : FIFO_t) (n : Nat) (h : FIFO_reachable_any cap isz flags fifo) :
      FIFO_reachable_any cap isz flags (FIFO_read fifo n).2.1
  | flush (fifo : FIFO_t) (h : FIFO_reachable_any cap isz flags fifo) :
      FIFO_reachable_any cap isz flags (FIFO_flush fifo)

/-- A value of type `int32_t`. -/
def is_int32 (v : Int) : Prop := -2147483648 ≤ v ∧ v ≤ 2147483647

/-- The exact values of the updates `acc += (int32_t)a[i]` of the accumulation
loop, each before it is stored to `int32_t`: `n` iterations from index `i` with
the accumulator `acc`. -/
def window_acc_values (a : List Int) : Nat → Nat → Int → List Int
  | 0, _, _ => []
  | n + 1, i, acc =>
    (acc + a.getD i 0) :: window_acc_values a n (i + 1) (to_int32 (acc + a.getD i 0))

/-- The exact values of the updates
`acc += data[next_sample_id] - data[prev_sample_id]` of the recursive part of
`moving_avg_filter_sequence`, each before it is stored to `int32_t`. -/
def moving_avg_sequence_acc_values (data : List Int) (p : Nat) : Nat → Nat → Int → List Int
  | 0, _, _ => []
  | remaining + 1, i, acc =>
    let prev_sample_id := i
    let next_sample_id := to_uint32 ((i : Int) + 2 * (p : Int) + 1)
    let e := acc + (data.getD next_sample_id 0 - data.getD prev_sample_id 0)
    e :: moving_avg_sequence_acc_values data p remaining (i + 1) (to_int32 e)

/-- Every value computed for the accumulator of `moving_avg_filter_sequence`, in
program order: those of the first sum, then those of the recursive part. -/
def moving_avg_filter_sequence_acc_values (data : List Int) (data_size window_size : Nat) :
    List Int :=
  if window_size > data_size then []
  else
    let filtered_len := filter_windowed_get_expected_output_len data_size window_size
    let recursive_items_num := to_uint32 ((filtered_len : Int) - 1)
    let p := to_uint32 (((window_size : Int) - 1).tdiv 2)
    window_acc_values data window_size 0 0 ++
      moving_avg_sequence_acc_values data p recursive_items_num 0
        (window_acc data window_size)

/-- Every value computed for the accumulator of
`moving_avg_compute_first_output`, in program order (none when a ring call
fails). -/
def moving_avg_compute_first_output_acc_values (filter : MovingAverageFilter_t) : List Int :=
  let window_size := filter.window_size
  let rd := FIFO_read filter.fifo (to_uint16 window_size)
  if rd.1 ≠ FIFO_error_t.FIFO_OK then []
  else
    let buf := bytes_to_int16s rd.2.2.1 filter.window_size
    let wr := FIFO_write rd.2.1 rd.2.2.1 (to_uint16 window_size)
    if wr.1 ≠ FIFO_error_t.FIFO_OK then []
    else window_acc_values buf filter.window_size 0 0

/-- Every value computed for the accumulator during `moving_avg_fill_buffer`. -/
def moving_avg_fill_buffer_acc_values (filter : MovingAverageFilter_t) (data : List Int) :
    List Int :=
  if filter.initialized ≠ 0 then []
  else
    let wr := FIFO_write filter.fifo (int16s_to_bytes data) (to_uint16 filter.window_size)
    if wr.1 ≠ FIFO_error_t.FIFO_OK then []
    else
      moving_avg_compute_first_output_acc_values
        { filter with fifo := wr.2.1, initialized := 1 }

/-- The value computed by `acc += (int32_t)new_x - (int32_t)last_x` in
`moving_avg_filter_sample`, before it is stored to `int32_t`; `none` when the
call returns before the update. -/
def moving_avg_filter_sample_acc_value (filter : MovingAverageFilter_t) (new_sample : Int) :
    Option Int :=
  if filter.initialized = 0 then none
  else
    let rd := FIFO_read filter.fifo 1
    if rd.1 ≠ FIFO_error_t.FIFO_OK then none
    else
      let last_x := int16_at rd.2.2.1 0
      let wr := FIFO_write rd.2.1 (int16_to_bytes new_sample) 1
      if wr.1 ≠ FIFO_error_t.FIFO_OK then none
      else some (filter.prev_acc + (new_sample - last_x))

/-- The accumulator values of the calls of `moving_avg_run`, one per sample. -/
def moving_avg_run_acc_values (filter : MovingAverageFilter_t) : List Int → List (Option Int)
  | [] => []
  | s :: rest =>
    moving_avg_filter_sample_acc_value filter s ::
      moving_avg_run_acc_values (moving_avg_filter_sample filter s).2.1 rest

/-- The accumulator values of the driver `moving_avg_stream`: those of the fill,
and one per step. -/
def moving_avg_stream_acc_values (filter : MovingAverageFilter_t) (ftype : FilterType_t)
    (buffer : Option (List Nat)) (window_size : Nat) (samples : List Int) :
    List Int × List (Option Int) :=
  let i := moving_avg_init filter ftype buffer window_size
  let f := moving_avg_fill_buffer i.2 samples
  (moving_avg_fill_buffer_acc_values i.2 samples,
   moving_avg_run_acc_values f.2.1 (samples.drop window_size))

/-- The array accesses of the in-place update of `sorted_window` in
`rank_filter_compute_next_sample`: the destination index, the source index and
the byte count of the `memmove` (a count of 0 in the branch without one), and
the index of the store of the new sample. -/
def rank_filter_update_accesses (sorted_window : List Int) (window_size : Nat)
    (last_sample new_sample : Int) : Int × Int × Nat × Int :=
  let item_size : Int := 2
  let scan := rank_scan sorted_window last_sample new_sample window_size 0 (-1) (-1)
  let last_sample_rank := scan.1
  let new_sample_rank := if scan.2 = -1 then (window_size : Int) - 1 else scan.2
  let new_sample_rank_shift : Int := if scan.2 = -1 then 0 else 1
  if last_sample_rank < new_sample_rank then
    (last_sample_rank, last_sample_rank + 1,
     to_uint32 ((new_sample_rank - last_sample_rank) * item_size),
     new_sample_rank - new_sample_rank_shift)
  else if last_sample_rank > new_sample_rank then
    (new_sample_rank + 1, new_sample_rank,
     to_uint32 ((last_sample_rank - new_sample_rank) * item_size),
     new_sample_rank)
  else
    (last_sample_rank, last_sample_rank, 0, last_sample_rank)

/-- The bytes returned by the reads of a sequence of calls, concatenated in call
order. -/
def FIFO_bytes_read (fifo : FIFO_t) : List FIFO_op → List Nat
  | [] => []
  | FIFO_op.write data n :: rest => FIFO_bytes_read (FIFO_write fifo data n).2.1 rest
  | FIFO_op.read n :: rest =>
    (FIFO_read fifo n).2.2.1 ++ FIFO_bytes_read (FIFO_read fifo n).2.1 rest

/-- The bytes of the items actually stored by the writes of a sequence of calls,
concatenated in call order: of each write, the first `items written` items of
its data. -/
def FIFO_bytes_stored (fifo : FIFO_t) : List FIFO_op → List Nat
  | [] => []
  | FIFO_op.write data n :: rest =>
    data.take ((FIFO_write fifo data n).2.2 * fifo.item_size) ++
      FIFO_bytes_stored (FIFO_write fifo data n).2.1 rest
  | FIFO_op.read n :: rest => FIFO_bytes_stored (FIFO_read fifo n).2.1 rest

/-- Every call of the sequence is item-granular for items of `isz` bytes: a
write carries the bytes of its `n` items, and every byte length `n * isz` fits
16 bits. -/
def FIFO_ops_item_granular (isz : Nat) : List FIFO_op → Prop
  | [] => True
  | FIFO_op.write data n :: rest =>
    data.length = n * isz ∧ n * isz ≤ 65535 ∧ FIFO_ops_item_granular isz rest
  | FIFO_op.read n :: rest => n * isz ≤ 65535 ∧ FIFO_ops_item_granular isz rest

/-- The indices of `data` read by the recursive part of
`moving_avg_filter_sequence`, in program order: `next_sample_id` then
`prev_sample_id` of each iteration, with `item_shift = 1`. -/
def moving_avg_sequence_read_indices (p : Nat) : Nat → Nat → List Nat
  | 0, _ => []
  | remaining + 1, i =>
    let prev_sample_id := i
    let next_sample_id := to_uint32 ((i : Int) + 2 * (p : Int) + 1)
    next_sample_id :: prev_sample_id :: moving_avg_sequence_read_indices p remaining (i + 1)

/-- Every index of `data` read by `moving_avg_filter_sequence`, in program
order: those of the first sum, then those of the recursive part. -/
def moving_avg_filter_sequence_read_indices (data_size window_size : Nat) : List Nat :=
  if window_size > data_size then []
  else
    let filtered_len := filter_windowed_get_expected_output_len data_size window_size
    let recursive_items_num := to_uint32 ((filtered_len : Int) - 1)
    let p := to_uint32 (((window_size : Int) - 1).tdiv 2)
    List.range window_size ++ moving_avg_sequence_read_indices p recursive_items_num 0

/-! ## Machine integers and byte images: lemmas -/

theorem to_int16_of_range {v : Int} (h : is_int16 v) : to_int16 v = v := by
  unfold is_int16 at h
  unfold to_int16
  omega

theorem to_int32_of_range {v : Int} (h1 : -2147483648 ≤ v) (h2 : v ≤ 2147483647) :
    to_int32 v = v := by
  unfold to_int32
  omega

theorem to_uint16_of_range {n : Nat} (h : n ≤ 65535) : to_uint16 (n : Int) = n := by
  unfold to_uint16
  omega

theorem to_uint32_of_range {n : Nat} (h : n ≤ 4294967295) : to_uint32 (n : Int) = n := by
  unfold to_uint32
  omega

theorem is_int16_to_int16 (v : Int) : is_int16 (to_int16 v) := by
  unfold is_int16 to_int16
  omega

theorem int16_of_bytes_to_bytes {v : Int} (h : is_int16 v) :
    int16_of_bytes (to_uint16 v % 256) (to_uint16 v / 256) = v := by
  unfold is_int16 at h
  unfold int16_of_bytes to_int16 to_uint16
  omega

theorem wrap_mod {a S : Nat} (h : a < 2 * S) : a % S = if a < S then a else a - S := by
  split
  · exact Nat.mod_eq_of_lt (by assumption)
  · rw [Nat.mod_eq_sub_mod (by omega)]
    exact Nat.mod_eq_of_lt (by omega)

theorem ring_index_ne {r S i j : Nat} (hr : r < S) (hij : i < j) (hj : j < S) :
    (r + i) % S ≠ (r + j) % S := by
  rw [wrap_mod (by omega), wrap_mod (by omega)]
  split <;> split <;> omega

theorem ring_index_lt {a S : Nat} (hS : 0 < S) : a % S < S := Nat.mod_lt _ hS

theorem int16s_to_bytes_length (l : List Int) : (int16s_to_bytes l).length = 2 * l.length := by
  induction l with
  | nil => rfl
  | cons v vs ih => simp [int16s_to_bytes, int16_to_bytes, ih]; omega

theorem int16s_to_bytes_append (a b : List Int) :
    int16s_to_bytes (a ++ b) = int16s_to_bytes a ++ int16s_to_bytes b := by
  induction a with
  | nil => rfl
  | cons v vs ih => simp [int16s_to_bytes, ih]

theorem int16_at_bytes (l : List Int) (extra : List Nat) (hl : ∀ x ∈ l, is_int16 x) :
    ∀ i, i < l.length → int16_at (int16s_to_bytes l ++ extra) i = l.getD i 0 := by
  induction l with
  | nil => intro i hi; simp at hi
  | cons v vs ih =>
    intro i hi
    cases i with
    | zero =>
      simp [int16_at, int16s_to_bytes, int16_to_bytes]
      exact int16_of_bytes_to_bytes (hl v (by simp))
    | succ j =>
      have := ih (fun x hx => hl x (by simp [hx])) j (by simpa using hi)
      simp only [int16_at, int16s_to_bytes, int16_to_bytes] at this ⊢
      rw [show 2 * (j + 1) = (2 * j) + 1 + 1 by omega,
          show 2 * j + 1 + 1 + 1 = (2 * j + 1) + 1 + 1 by omega]
      simpa using this

theorem bytes_to_int16s_bytes (l : List Int) (extra : List Nat) (hl : ∀ x ∈ l, is_int16 x) :
    bytes_to_int16s (int16s_to_bytes l ++ extra) l.length = l := by
  apply List.ext_getElem
  · simp [bytes_to_int16s]
  · intro i h1 h2
    simp only [bytes_to_int16s, List.getElem_map, List.getElem_range]
    rw [int16_at_bytes l extra hl i h2]
    simp [List.getD_eq_getElem?_getD, List.getElem?_eq_getElem h2]

theorem int16s_to_bytes_take (l : List Int) (n : Nat) :
    (int16s_to_bytes l).take (2 * n) = int16s_to_bytes (l.take n) := by
  induction l generalizing n with
  | nil => simp [int16s_to_bytes]
  | cons v vs ih =>
    cases n with
    | zero => simp [int16s_to_bytes]
    | succ m =>
      simp only [int16s_to_bytes, int16_to_bytes, List.take_succ_cons]
      rw [show 2 * (m + 1) = (2 * m) + 1 + 1 by omega]
      simp [ih]

theorem int16s_to_bytes_drop (l : List Int) (n : Nat) :
    (int16s_to_bytes l).drop (2 * n) = int16s_to_bytes (l.drop n) := by
  induction l generalizing n with
  | nil => simp [int16s_to_bytes]
  | cons v vs ih =>
    cases n with
    | zero => simp [int16s_to_bytes]
    | succ m =>
      simp only [int16s_to_bytes, int16_to_bytes, List.drop_succ_cons]
      rw [show 2 * (m + 1) = (2 * m) + 1 + 1 by omega]
      simp [ih]

theorem sum_int16_bounds (l : List Int) (hl : ∀ x ∈ l, is_int16 x) :
    -32768 * (l.length : Int) ≤ l.sum ∧ l.sum ≤ 32767 * (l.length : Int) := by
  induction l with
  | nil => simp
  | cons v vs ih =>
    have hv := hl v (by simp)
    have := ih (fun x hx => hl x (by simp [hx]))
    unfold is_int16 at hv
    simp only [List.sum_cons, List.length_cons]
    push_cast
    omega

theorem take_succ_sum (a : List Int) (n : Nat) (h : n < a.length) :
    (a.take (n + 1)).sum = (a.take n).sum + a.getD n 0 := by
  rw [List.take_succ, List.sum_append]
  simp [List.getD_eq_getElem?_getD, List.getElem?_eq_getElem h]

theorem window_acc_eq_sum (a : List Int) (ha : ∀ x ∈ a, is_int16 x) :
    ∀ n, n ≤ a.length → n ≤ 65535 → window_acc a n = (a.take n).sum := by
  intro n
  induction n with
  | zero => intro _ _; simp [window_acc]
  | succ n ih =>
    intro h1 h2
    have e : window_acc a (n + 1) = to_int32 (window_acc a n + a.getD n 0) := by
      simp [window_acc, List.range_succ, List.foldl_append]
    rw [e, ih (by omega) (by omega), ← take_succ_sum a n (by omega)]
    have hb := sum_int16_bounds (a.take (n + 1))
      (fun x hx => ha x (List.mem_of_mem_take hx))
    have hlen : (a.take (n + 1)).length = n + 1 := by simp; omega
    rw [hlen] at hb
    push_cast at hb
    exact to_int32_of_range (by omega) (by omega)

theorem tdiv_int16 (S : Int) (w : Nat) (hw : 1 ≤ w)
    (h1 : -32768 * (w : Int) ≤ S) (h2 : S ≤ 32767 * (w : Int)) : is_int16 (S.tdiv w) := by
  have hwpos : (0 : Int) < w := by omega
  unfold is_int16
  rcases le_or_lt 0 S with hS | hS
  · rw [Int.tdiv_eq_ediv hS (by omega)]
    constructor
    · have := Int.ediv_nonneg hS (le_of_lt hwpos)
      omega
    · have := Int.ediv_le_ediv hwpos h2
      rwa [Int.mul_ediv_cancel _ (ne_of_gt hwpos)] at this
  · have hneg : S.tdiv w = -((-S).tdiv w) := by rw [Int.neg_tdiv]; omega
    rw [hneg, Int.tdiv_eq_ediv (by omega) (by omega)]
    constructor
    · have h3 : -S ≤ 32768 * (w : Int) := by omega
      have := Int.ediv_le_ediv hwpos h3
      rw [Int.mul_ediv_cancel _ (ne_of_gt hwpos)] at this
      omega
    · have := Int.ediv_nonneg (show 0 ≤ -S by omega) (le_of_lt hwpos)
      omega

theorem ring_next {r S : Nat} (hr : r < S) (hS : S ≤ 65535) :
    (if r + 1 = S then 0 else (r + 1) % 65536) = (r + 1) % S := by
  split
  · rename_i h
    rw [h, Nat.mod_self]
  · rw [Nat.mod_eq_of_lt (by omega), Nat.mod_eq_of_lt (by omega)]

theorem FIFO8_read_loop_holds (n : Nat) :
    ∀ (f : FIFO8_t) (bytes : List Nat), FIFO8_holds f bytes → n ≤ bytes.length →
      ∃ f2, FIFO8_read_loop n f = (FIFO_error_t.FIFO_OK, f2, bytes.take n, n) ∧
        FIFO8_holds f2 (bytes.drop n) ∧ f2.FIFO_size = f.FIFO_size ∧ f2.flags = f.flags ∧
        f2.w_index = f.w_index ∧ f2.r_index = (f.r_index + n) % f.FIFO_size := by
  induction n with
  | zero =>
    intro f bytes h _
    obtain ⟨buf, hwf, hc, hb⟩ := h
    refine ⟨f, by simp [FIFO8_read_loop], ⟨buf, hwf, by simpa using hc, by simpa using hb⟩,
      rfl, rfl, rfl, ?_⟩
    simp [Nat.mod_eq_of_lt hwf.hr]
  | succ n ih =>
    intro f bytes h hn
    obtain ⟨buf, hwf, hc, hb⟩ := h
    match bytes, hn, hc, hb with
    | [], hn, _, _ => simp at hn
    | b :: bs, hn, hc, hb =>
      have hS := hwf.hpos
      have hr1 := ring_next hwf.hr hwf.hmax
      have hcnt : f.counter = bs.length + 1 := by simpa using hc
      have hlenS : bs.length + 1 ≤ f.FIFO_size := by have := hwf.hc; omega
      have hb0 : buf.getD f.r_index 0 = b := by
        have := hb 0 (by simp)
        simpa [Nat.mod_eq_of_lt hwf.hr] using this
      have hholds : FIFO8_holds
          { f with r_index := (f.r_index + 1) % f.FIFO_size, counter := f.counter - 1 } bs := by
        refine ⟨buf, ⟨hwf.hbuf, hS, hwf.hmax, hwf.hlen, Nat.mod_lt _ hS, ?_, ?_⟩, ?_, ?_⟩
        · have := hwf.hc
          simp only
          omega
        · simp only
          rw [hwf.hw, Nat.mod_add_mod]
          congr 1
          omega
        · simp only
          omega
        · intro i hi
          simp only
          rw [Nat.mod_add_mod]
          have := hb (i + 1) (by simpa using hi)
          rw [show f.r_index + 1 + i = f.r_index + (i + 1) by omega, this]
          simp
      obtain ⟨f2, heq, hh2, hs2, hfl2, hw2, hr2⟩ := ih _ bs hholds (by simpa using hn)
      refine ⟨f2, ?_, by simpa using hh2, by simpa using hs2, by simpa using hfl2,
        by simpa using hw2, ?_⟩
      · rw [FIFO8_read_loop]
        have hne : f.counter ≠ 0 := by omega
        simp only [hne, ne_eq, not_false_eq_true, if_true, hr1, heq]
        simpa [load_byte, hwf.hbuf] using hb0
      · rw [hr2]
        simp only
        rw [Nat.mod_add_mod]
        congr 1
        omega

theorem FIFO8_write_loop_holds (data : List Nat) :
    ∀ (f : FIFO8_t) (bytes extra : List Nat), FIFO8_holds f bytes →
      bytes.length + data.length ≤ f.FIFO_size →
      ∃ f2, FIFO8_write_loop data.length f (data ++ extra)
            = (FIFO_error_t.FIFO_OK, f2, data.length) ∧
        FIFO8_holds f2 (bytes ++ data) ∧ f2.FIFO_size = f.FIFO_size ∧ f2.flags = f.flags ∧
        f2.r_index = f.r_index ∧ f2.w_index = (f.w_index + data.length) % f.FIFO_size := by
  induction data with
  | nil =>
    intro f bytes extra h _
    obtain ⟨buf, hwf, hc, hb⟩ := h
    refine ⟨f, by simp [FIFO8_write_loop], ⟨buf, hwf, by simpa using hc, by simpa using hb⟩,
      rfl, rfl, rfl, ?_⟩
    have := hwf.hw
    simp only [List.length_nil, Nat.add_zero]
    rw [this, Nat.mod_mod]
  | cons b rest ih =>
    intro f bytes extra h hfit
    obtain ⟨buf, hwf, hc, hb⟩ := h
    have hS := hwf.hpos
    have hfit2 : bytes.length + rest.length + 1 ≤ f.FIFO_size := by
      simpa [Nat.add_assoc] using hfit
    have hwlt : f.w_index < f.FIFO_size := by rw [hwf.hw]; exact Nat.mod_lt _ hS
    have hw1 := ring_next hwlt hwf.hmax
    have hcne : f.counter ≠ f.FIFO_size := by omega
    have hclt : f.counter < f.FIFO_size := by omega
    have hholds : FIFO8_holds
        { f with pBuffer := some (buf.set f.w_index b),
                 w_index := (f.w_index + 1) % f.FIFO_size,
                 counter := f.counter + 1 } (bytes ++ [b]) := by
      refine ⟨buf.set f.w_index b,
        ⟨rfl, hS, hwf.hmax, by simpa using hwf.hlen, hwf.hr, ?_, ?_⟩, ?_, ?_⟩
      · simp only
        omega
      · simp only
        rw [hwf.hw, Nat.mod_add_mod]
        congr 1
      · simp only [List.length_append, List.length_singleton]
        omega
      · intro i hi
        simp only [List.length_append, List.length_singleton] at hi
        simp only
        by_cases hic : i = bytes.length
        · subst hic
          have hwi : (f.r_index + bytes.length) % f.FIFO_size = f.w_index := by
            rw [hwf.hw, hc]
          have hl := hwf.hlen
          rw [hwi]
          simp [List.getD_eq_getElem?_getD, List.getElem?_set, show f.w_index < buf.length by omega]
        · have hi2 : i < bytes.length := by omega
          have hne : f.w_index ≠ (f.r_index + i) % f.FIFO_size := by
            rw [hwf.hw]
            exact (ring_index_ne hwf.hr (by omega) (by omega)).symm
          have := hb i hi2
          simp only [List.getD_eq_getElem?_getD] at this ⊢
          rw [List.getElem?_set, if_neg hne, this, List.getElem?_append_left hi2]
    obtain ⟨f2, heq, hh2, hs2, hfl2, hr2, hw2⟩ :=
      ih _ (bytes ++ [b]) extra hholds (by simp only [List.length_append, List.length_singleton]; omega)
    refine ⟨f2, ?_, by simpa using hh2, by simpa using hs2, by simpa using hfl2,
      by simpa using hr2, ?_⟩
    · simp only [List.length_cons, List.cons_append]
      rw [FIFO8_write_loop]
      simp only [hcne, ne_eq, not_false_eq_true, true_or, if_true, hw1, and_false, if_false,
        hclt, List.headD_cons, List.tail_cons, store_byte, hwf.hbuf, Option.map_some', heq]
    · rw [hw2]
      simp only [List.length_cons]
      rw [Nat.mod_add_mod]
      congr 1
      omega

theorem item_bytes_len {n : Nat} (h : 2 * n ≤ 65535) :
    to_uint16 (to_uint32 ((n : Int) * ((2 : Nat) : Int))) = 2 * n := by
  unfold to_uint16 to_uint32
  omega

theorem middle_arith (r w : Nat) (hw1 : 1 ≤ w) (hrS : r < 2 * w) (hr : r % 2 = 0) :
    (if r + w < 2 * w then (r + w) - (r + w) % 2 else (r - w) - (r - w) % 2)
        = (r + 2 * (w / 2)) % (2 * w) ∧
    (if r + w < 2 * w then (r + w) - (r + w) % 2 else (r - w) - (r - w) % 2) + 1
        = (r + (2 * (w / 2) + 1)) % (2 * w) := by
  have e1 := @wrap_mod (r + 2 * (w / 2)) (2 * w) (by omega)
  have e2 := @wrap_mod (r + (2 * (w / 2) + 1)) (2 * w) (by omega)
  rw [e1, e2]
  constructor
  · split <;> split <;> omega
  · split <;> split <;> omega

theorem FIFO_middle_ptr_full (fifo : FIFO_t) (w : Nat) (hw1 : 1 ≤ w) (hw2 : w ≤ 32767)
    (his : fifo.item_size = 2) (hS : fifo.fifo8.FIFO_size = 2 * w)
    (hwi : fifo.fifo8.w_index = fifo.fifo8.r_index) (hrS : fifo.fifo8.r_index < 2 * w)
    (hr : fifo.fifo8.r_index % 2 = 0) :
    FIFO_middle_ptr fifo = (fifo.fifo8.r_index + 2 * (w / 2)) % (2 * w) ∧
    FIFO_middle_ptr fifo + 1 = (fifo.fifo8.r_index + (2 * (w / 2) + 1)) % (2 * w) := by
  have hmid : FIFO_middle_ptr fifo =
      if fifo.fifo8.r_index + w < 2 * w then
        (fifo.fifo8.r_index + w) - (fifo.fifo8.r_index + w) % 2
      else (fifo.fifo8.r_index - w) - (fifo.fifo8.r_index - w) % 2 := by
    unfold FIFO_middle_ptr
    simp only [his, hS, hwi, gt_iff_lt, lt_irrefl, if_false]
    have h1 : ((fifo.fifo8.r_index : Int) +
        (((2 * w : Nat) : Int) - (fifo.fifo8.r_index : Int))).tdiv 2 = (w : Int) := by
      rw [Int.tdiv_eq_ediv (by omega) (by omega)]
      omega
    rw [h1, to_uint16_of_range (by omega)]
    by_cases h : fifo.fifo8.r_index + w < 2 * w
    · simp only [h, if_true]
      unfold to_uint16
      omega
    · simp only [h, if_false]
      unfold to_uint16
      omega
  rw [hmid]
  exact middle_arith _ w hw1 hrS hr

theorem FIFO_get_middle_item_full (fifo : FIFO_t) (w : Nat) (bytes : List Nat)
    (hw1 : 1 ≤ w) (hw2 : w ≤ 32767)
    (his : fifo.item_size = 2) (hS : fifo.fifo8.FIFO_size = 2 * w)
    (hh : FIFO8_holds fifo.fifo8 bytes) (hlen : bytes.length = 2 * w)
    (hr : fifo.fifo8.r_index % 2 = 0) :
    int16_at (FIFO_get_middle_item fifo) 0 = int16_at bytes (w / 2) := by
  obtain ⟨buf, hwf, hc, hb⟩ := hh
  have hwi : fifo.fifo8.w_index = fifo.fifo8.r_index := by
    rw [hwf.hw, hc, hlen, hS, Nat.add_mod_right]
    exact Nat.mod_eq_of_lt (by have := hwf.hr; omega)
  have hrS : fifo.fifo8.r_index < 2 * w := by have := hwf.hr; omega
  obtain ⟨hm0, hm1⟩ := FIFO_middle_ptr_full fifo w hw1 hw2 his hS hwi hrS hr
  have hb0 := hb (2 * (w / 2)) (by omega)
  have hb1 := hb (2 * (w / 2) + 1) (by omega)
  rw [hS, ← hm0] at hb0
  rw [hS, ← hm1] at hb1
  unfold FIFO_get_middle_item load_item int16_at
  rw [his, hwf.hbuf]
  simp only [List.range_succ, List.range_zero, List.nil_append, List.cons_append,
    List.map_cons, List.map_nil, load_byte, Option.getD_some, Nat.add_zero, Nat.mul_zero,
    Nat.zero_add, List.getD_cons_zero, List.getD_cons_succ]
  rw [hb0, hb1]

/-! ## The item ring: lemmas -/

theorem FIFO_read_holds (fifo : FIFO_t) (bytes : List Nat) (n : Nat)
    (his : fifo.item_size = 2) (hh : FIFO8_holds fifo.fifo8 bytes) (hn : 2 * n ≤ bytes.length) :
    ∃ fifo2, FIFO_read fifo n = (FIFO_error_t.FIFO_OK, fifo2, bytes.take (2 * n), n) ∧
      FIFO8_holds fifo2.fifo8 (bytes.drop (2 * n)) ∧ fifo2.item_size = 2 ∧
      fifo2.fifo_size = fifo.fifo_size ∧
      fifo2.fifo8.FIFO_size = fifo.fifo8.FIFO_size ∧ fifo2.fifo8.flags = fifo.fifo8.flags ∧
      fifo2.fifo8.r_index = (fifo.fifo8.r_index + 2 * n) % fifo.fifo8.FIFO_size := by
  have hbound : 2 * n ≤ 65535 := by
    obtain ⟨buf, hwf, hc, _⟩ := hh
    have := hwf.hc
    have := hwf.hmax
    omega
  have hnn : fifo.fifo8.pBuffer ≠ none := by
    obtain ⟨buf, hwf, _, _⟩ := hh
    rw [hwf.hbuf]
    simp
  obtain ⟨f2, heq, hh2, hs2, hfl2, _, hr2⟩ := FIFO8_read_loop_holds (2 * n) fifo.fifo8 bytes hh hn
  refine ⟨{ fifo with fifo8 := f2 }, ?_, hh2, his, rfl, hs2, hfl2, hr2⟩
  unfold FIFO_read FIFO8_read
  rw [his, item_bytes_len hbound]
  simp only [hnn, if_false, heq]
  simp

theorem FIFO_write_holds (fifo : FIFO_t) (bytes data extra : List Nat) (n : Nat)
    (his : fifo.item_size = 2) (hh : FIFO8_holds fifo.fifo8 bytes) (hd : data.length = 2 * n)
    (hfit : bytes.length + 2 * n ≤ fifo.fifo8.FIFO_size) :
    ∃ fifo2, FIFO_write fifo (data ++ extra) n = (FIFO_error_t.FIFO_OK, fifo2, n) ∧
      FIFO8_holds fifo2.fifo8 (bytes ++ data) ∧ fifo2.item_size = 2 ∧
      fifo2.fifo_size = fifo.fifo_size ∧
      fifo2.fifo8.FIFO_size = fifo.fifo8.FIFO_size ∧ fifo2.fifo8.flags = fifo.fifo8.flags ∧
      fifo2.fifo8.r_index = fifo.fifo8.r_index := by
  have hbound : 2 * n ≤ 65535 := by
    obtain ⟨buf, hwf, hc, _⟩ := hh
    have := hwf.hmax
    omega
  have hnn : fifo.fifo8.pBuffer ≠ none := by
    obtain ⟨buf, hwf, _, _⟩ := hh
    rw [hwf.hbuf]
    simp
  obtain ⟨f2, heq, hh2, hs2, hfl2, hr2, _⟩ :=
    FIFO8_write_loop_holds data fifo.fifo8 bytes extra hh (by omega)
  refine ⟨{ fifo with fifo8 := f2 }, ?_, hh2, his, rfl, hs2, hfl2, hr2⟩
  unfold FIFO_write FIFO8_write
  rw [his, item_bytes_len hbound, ← hd]
  simp only [hnn, if_false, heq]
  simp [hd]

theorem ring_parity (r n w : Nat) (hr : r % 2 = 0) : (r + 2 * n) % (2 * w) % 2 = 0 := by
  rw [Nat.mod_mod_of_dvd _ (Dvd.intro w rfl)]
  omega

theorem FIFO_init_holds (fifo : FIFO_t) (buf : List Nat) (w flags : Nat)
    (hw1 : 1 ≤ w) (hw2 : w ≤ 32767) (hbuf : 2 * w ≤ buf.length) :
    FIFO8_holds (FIFO_init fifo (some buf) w 2 flags).fifo8 [] ∧
    (FIFO_init fifo (some buf) w 2 flags).item_size = 2 ∧
    (FIFO_init fifo (some buf) w 2 flags).fifo_size = w ∧
    (FIFO_init fifo (some buf) w 2 flags).fifo8.FIFO_size = 2 * w ∧
    (FIFO_init fifo (some buf) w 2 flags).fifo8.flags = flags ∧
    (FIFO_init fifo (some buf) w 2 flags).fifo8.r_index = 0 := by
  have hsz : to_uint16 ((w : Int) * ((2 : Nat) : Int)) = 2 * w := by
    unfold to_uint16
    omega
  have e : FIFO_init fifo (some buf) w 2 flags =
      { fifo8 := { pBuffer := some buf, FIFO_size := 2 * w, flags := flags,
                   counter := 0, r_index := 0, w_index := 0 },
        item_size := 2, fifo_size := w } := by
    unfold FIFO_init FIFO8_init
    simp only [hsz]
  rw [e]
  refine ⟨⟨buf, ?_, rfl, ?_⟩, rfl, rfl, rfl, rfl, rfl⟩
  · exact
      { hbuf := rfl
        hpos := by show 0 < 2 * w; omega
        hmax := by show 2 * w ≤ 65535; omega
        hlen := hbuf
        hr := by show 0 < 2 * w; omega
        hc := by show 0 ≤ 2 * w; omega
        hw := by show 0 = (0 + 0) % (2 * w); simp }
  · intro i hi
    simp at hi

/-! ## Moving average filter: the streaming invariant -/

theorem int16_at_bytes_nil (l : List Int) (hl : ∀ x ∈ l, is_int16 x) (i : Nat)
    (hi : i < l.length) : int16_at (int16s_to_bytes l) i = l.getD i 0 := by
  have := int16_at_bytes l [] hl i hi
  simpa using this

theorem bytes_to_int16s_bytes_nil (l : List Int) (hl : ∀ x ∈ l, is_int16 x) :
    bytes_to_int16s (int16s_to_bytes l) l.length = l := by
  have := bytes_to_int16s_bytes l [] hl
  simpa using this

theorem produce_output_of_sum (window : List Int) (w : Nat) (ftype : FilterType_t)
    (hw1 : 1 ≤ w) (hw2 : w ≤ 65535) :
    produce_output (window.getD (w / 2) 0) window.sum w ftype =
      if ftype = FilterType_t.FilterHighPass then
        to_int16 (window.getD (w / 2) 0 - window.sum.tdiv w)
      else to_int16 (window.sum.tdiv w) := by
  unfold produce_output
  rw [to_int32_of_range (by omega) (by omega)]

theorem moving_avg_filter_sample_state (f : MovingAverageFilter_t) (w : Nat) (x : Int)
    (xs : List Int) (s : Int) (hw1 : 1 ≤ w) (hw2 : w ≤ 32767) (hs : is_int16 s)
    (h : MA_state f w (x :: xs)) :
    ∃ f2, moving_avg_filter_sample f s =
        (FilterStatus_t.FilterOK, f2,
          some (produce_output ((xs ++ [s]).getD (w / 2) 0) (xs ++ [s]).sum w f.type)) ∧
      MA_state f2 w (xs ++ [s]) ∧ f2.type = f.type := by
  obtain ⟨hws, hinit, his, hS, hr, hh, hlen, hrange, hacc⟩ := h
  have hxsr : ∀ y ∈ xs, is_int16 y := fun y hy => hrange y (by simp [hy])
  have hx : is_int16 x := hrange x (by simp)
  have hnewr : ∀ y ∈ xs ++ [s], is_int16 y := by
    intro y hy
    rcases List.mem_append.mp hy with h1 | h1
    · exact hxsr y h1
    · simp at h1; rw [h1]; exact hs
  have hlen2 : xs.length + 1 = w := by simpa using hlen
  have hbl : (int16s_to_bytes (x :: xs)).length = 2 * w := by
    rw [int16s_to_bytes_length, hlen]
  obtain ⟨fifo2, hrd, hh2, his2, hfs2, hS2, hfl2, hr2⟩ :=
    FIFO_read_holds f.fifo (int16s_to_bytes (x :: xs)) 1 his hh (by omega)
  have htake : (int16s_to_bytes (x :: xs)).take (2 * 1) = int16s_to_bytes [x] := by
    rw [int16s_to_bytes_take]; rfl
  have hdrop : (int16s_to_bytes (x :: xs)).drop (2 * 1) = int16s_to_bytes xs := by
    rw [int16s_to_bytes_drop]; rfl
  rw [htake] at hrd
  rw [hdrop] at hh2
  have hsb : int16_to_bytes s = int16s_to_bytes [s] := by simp [int16s_to_bytes]
  obtain ⟨fifo3, hwr, hh3, his3, hfs3, hS3, hfl3, hr3⟩ :=
    FIFO_write_holds fifo2 (int16s_to_bytes xs) (int16_to_bytes s) [] 1 his2 hh2
      (by simp [int16_to_bytes])
      (by rw [int16s_to_bytes_length, hS2, hS]; omega)
  rw [List.append_nil] at hwr
  rw [hsb, ← int16s_to_bytes_append] at hh3
  have hlast : int16_at (int16s_to_bytes [x]) 0 = x := by
    have := int16_at_bytes_nil [x] (by intro y hy; simp at hy; rw [hy]; exact hx) 0 (by simp)
    simpa using this
  have hr3e : fifo3.fifo8.r_index % 2 = 0 := by
    rw [hr3, hr2, hS]
    exact ring_parity _ 1 w hr
  have hmid : int16_at (FIFO_get_middle_item fifo3) 0 = (xs ++ [s]).getD (w / 2) 0 := by
    rw [FIFO_get_middle_item_full fifo3 w (int16s_to_bytes (xs ++ [s])) hw1 hw2 his3
      (by rw [hS3, hS2, hS]) hh3 (by rw [int16s_to_bytes_length]; simp; omega) hr3e]
    exact int16_at_bytes_nil _ hnewr _ (by simp; omega)
  have hsum : to_int32 (f.prev_acc + (s - x)) = (xs ++ [s]).sum := by
    have hb := sum_int16_bounds (xs ++ [s]) hnewr
    have hl : ((xs ++ [s]).length : Int) = w := by simp; omega
    rw [hl] at hb
    have e : f.prev_acc + (s - x) = (xs ++ [s]).sum := by
      rw [hacc]; simp; ring
    rw [e]
    exact to_int32_of_range (by omega) (by omega)
  refine ⟨{ f with fifo := fifo3, prev_acc := (xs ++ [s]).sum }, ?_,
    ⟨hws, hinit, his3, by rw [hS3, hS2, hS], hr3e, hh3, by simp; omega, hnewr, rfl⟩, rfl⟩
  unfold moving_avg_filter_sample
  have hi : ¬ f.initialized = 0 := by omega
  simp only [hi, if_false, hrd, ne_eq, not_true_eq_false, hwr, hlast, hmid, hsum, hws]

theorem moving_avg_fill_state (f0 : MovingAverageFilter_t) (ftype : FilterType_t)
    (buf : List Nat) (w : Nat) (data : List Int) (hw1 : 1 ≤ w) (hw2 : w ≤ 32767)
    (hbuf : 2 * w ≤ buf.length) (hd : w ≤ data.length) (hdr : ∀ x ∈ data, is_int16 x) :
    ∃ f2, moving_avg_fill_buffer (moving_avg_init f0 ftype (some buf) w).2 data =
        (FilterStatus_t.FilterOK, f2,
          some (produce_output ((data.take w).getD (w / 2) 0) (data.take w).sum w ftype)) ∧
      MA_state f2 w (data.take w) ∧ f2.type = ftype := by
  have hwr : ∀ y ∈ data.take w, is_int16 y := fun y hy => hdr y (List.mem_of_mem_take hy)
  have htl : (data.take w).length = w := by simp; omega
  have hbl : (int16s_to_bytes (data.take w)).length = 2 * w := by
    rw [int16s_to_bytes_length, htl]
  obtain ⟨hh0, his0, hfs0, hS0, hfl0, hr0⟩ := FIFO_init_holds f0.fifo buf w FIFO_LOOP hw1 hw2 hbuf
  have hsplit : int16s_to_bytes data =
      int16s_to_bytes (data.take w) ++ int16s_to_bytes (data.drop w) := by
    rw [← int16s_to_bytes_append, List.take_append_drop]
  obtain ⟨fifo1, hwr1, hh1, his1, hfs1, hS1, hfl1, hr1⟩ :=
    FIFO_write_holds (FIFO_init f0.fifo (some buf) w 2 FIFO_LOOP) []
      (int16s_to_bytes (data.take w)) (int16s_to_bytes (data.drop w)) w his0 hh0 hbl
      (by rw [hS0]; simp)
  rw [← hsplit] at hwr1
  rw [List.nil_append] at hh1
  obtain ⟨fifo2, hrd2, hh2, his2, hfs2, hS2, hfl2, hr2⟩ :=
    FIFO_read_holds fifo1 (int16s_to_bytes (data.take w)) w his1 hh1 (by omega)
  rw [List.take_of_length_le (by omega)] at hrd2
  rw [List.drop_of_length_le (by omega)] at hh2
  obtain ⟨fifo3, hwr3, hh3, his3, hfs3, hS3, hfl3, hr3⟩ :=
    FIFO_write_holds fifo2 [] (int16s_to_bytes (data.take w)) [] w his2 hh2 hbl
      (by rw [hS2, hS1, hS0]; simp)
  rw [List.append_nil] at hwr3
  rw [List.nil_append] at hh3
  have hr3e : fifo3.fifo8.r_index % 2 = 0 := by
    rw [hr3, hr2, hr1, hr0, hS1, hS0]
    exact ring_parity 0 w w rfl
  have hS3e : fifo3.fifo8.FIFO_size = 2 * w := by rw [hS3, hS2, hS1, hS0]
  have hmid : int16_at (FIFO_get_middle_item fifo3) 0 = (data.take w).getD (w / 2) 0 := by
    rw [FIFO_get_middle_item_full fifo3 w (int16s_to_bytes (data.take w)) hw1 hw2 his3
      hS3e hh3 hbl hr3e]
    exact int16_at_bytes_nil _ hwr _ (by rw [htl]; omega)
  have hbuf2 : bytes_to_int16s (int16s_to_bytes (data.take w)) w = data.take w := by
    have := bytes_to_int16s_bytes_nil (data.take w) hwr
    rwa [htl] at this
  have hacc : window_acc (data.take w) w = (data.take w).sum := by
    rw [window_acc_eq_sum (data.take w) hwr w (by omega) (by omega),
      List.take_of_length_le (by omega)]
  have hu : to_uint16 (w : Int) = w := to_uint16_of_range (by omega)
  refine ⟨{ (moving_avg_init f0 ftype (some buf) w).2 with
            initialized := 1, fifo := fifo3, prev_acc := (data.take w).sum }, ?_,
    ⟨rfl, rfl, his3, hS3e, hr3e, hh3, htl, hwr, rfl⟩, rfl⟩
  unfold moving_avg_fill_buffer moving_avg_filter_initalize moving_avg_compute_first_output
  simp only [moving_avg_init, ne_eq, not_true_eq_false, if_false, hu, hwr1, hrd2, hwr3,
    hbuf2, hacc, hmid]

theorem moving_avg_run_state (w : Nat) (hw1 : 1 ≤ w) (hw2 : w ≤ 32767) (rest : List Int) :
    ∀ (f : MovingAverageFilter_t) (win : List Int), MA_state f w win →
      (∀ s ∈ rest, is_int16 s) →
      ∃ f2, moving_avg_run f rest =
          (f2, (List.range rest.length).map (fun k =>
            (FilterStatus_t.FilterOK,
              some (produce_output ((window_at (win ++ rest) w (k + 1)).getD (w / 2) 0)
                (window_at (win ++ rest) w (k + 1)).sum w f.type)))) ∧
        MA_state f2 w (window_at (win ++ rest) w rest.length) ∧ f2.type = f.type := by
  induction rest with
  | nil =>
    intro f win h _
    have hl : win.length = w := h.2.2.2.2.2.2.1
    refine ⟨f, by simp [moving_avg_run], ?_, rfl⟩
    simpa [window_at, List.take_of_length_le (le_of_eq hl)] using h
  | cons s rest ih =>
    intro f win h hr
    have hl : win.length = w := h.2.2.2.2.2.2.1
    match win, h, hl with
    | [], _, hl => simp at hl; omega
    | x :: xs, h, hl =>
      have hxl : xs.length + 1 = w := by simpa using hl
      obtain ⟨f1, hstep, hst1, hty1⟩ :=
        moving_avg_filter_sample_state f w x xs s hw1 hw2 (hr s (by simp)) h
      obtain ⟨f2, hrun, hst2, hty2⟩ := ih f1 (xs ++ [s]) hst1 (fun y hy => hr y (by simp [hy]))
      have e1 : window_at (x :: xs ++ s :: rest) w (0 + 1) = xs ++ [s] := by
        simp only [window_at, Nat.zero_add, List.cons_append, List.drop_succ_cons, List.drop_zero]
        rw [show xs ++ s :: rest = (xs ++ [s]) ++ rest by simp,
          List.take_left' (by simp; omega)]
      have e2 : ∀ k, window_at (x :: xs ++ s :: rest) w (k + 1 + 1)
          = window_at (xs ++ [s] ++ rest) w (k + 1) := by
        intro k
        simp [window_at]
      refine ⟨f2, ?_, ?_, by rw [hty2, hty1]⟩
      · rw [moving_avg_run]
        simp only [hstep, hrun, List.length_cons, List.range_succ_eq_map, List.map_cons,
          List.map_map, e1, hty1]
        congr 2
        apply List.map_congr_left
        intro k _
        simp only [Function.comp, e2]
      · have e3 : window_at (x :: xs ++ s :: rest) w (s :: rest).length
            = window_at (xs ++ [s] ++ rest) w rest.length := by
          simp [window_at]
        rw [e3]
        exact hst2

/-! ## Moving average filter: streaming theorems -/

theorem moving_avg_stream_spec (f0 : MovingAverageFilter_t) (ftype : FilterType_t)
    (buf : List Nat) (w : Nat) (x : List Int) (hw1 : 1 ≤ w) (hw2 : w ≤ 32767)
    (hbuf : 2 * w ≤ buf.length) (hx : w ≤ x.length) (hxr : ∀ s ∈ x, is_int16 s) :
    ∃ f2, moving_avg_stream f0 ftype (some buf) w x =
        (f2, (List.range (x.length - w + 1)).map (fun k =>
          (FilterStatus_t.FilterOK,
            some (produce_output ((window_at x w k).getD (w / 2) 0)
              (window_at x w k).sum w ftype)))) ∧
      MA_state f2 w (window_at x w (x.length - w)) ∧ f2.type = ftype := by
  obtain ⟨f1, hfill, hst1, hty1⟩ := moving_avg_fill_state f0 ftype buf w x hw1 hw2 hbuf hx hxr
  obtain ⟨f2, hrun, hst2, hty2⟩ := moving_avg_run_state w hw1 hw2 (x.drop w) f1 (x.take w) hst1
    (fun s hs => hxr s (List.mem_of_mem_drop hs))
  rw [List.take_append_drop] at hrun hst2
  rw [List.length_drop] at hrun hst2
  refine ⟨f2, ?_, hst2, by rw [hty2, hty1]⟩
  unfold moving_avg_stream
  simp only [hfill, hrun, List.range_succ_eq_map, List.map_cons, List.map_map, hty1]
  have e0 : window_at x w 0 = x.take w := by simp [window_at]
  rw [e0]
  rfl

theorem produce_output_low_pass (window : List Int) (w : Nat) (c : Int)
    (hw1 : 1 ≤ w) (hw2 : w ≤ 65535) (hl : window.length = w)
    (hr : ∀ s ∈ window, is_int16 s) :
    produce_output c window.sum w FilterType_t.FilterLowPass = window.sum.tdiv w := by
  unfold produce_output
  rw [to_int32_of_range (by omega) (by omega)]
  have hb := sum_int16_bounds window hr
  rw [hl] at hb
  simp only [reduceCtorEq, if_false]
  exact to_int16_of_range (tdiv_int16 _ w hw1 hb.1 hb.2)

theorem window_at_length (x : List Int) (w k : Nat) (h : k + w ≤ x.length) :
    (window_at x w k).length = w := by
  simp [window_at]; omega

theorem window_at_int16 (x : List Int) (w k : Nat) (hxr : ∀ s ∈ x, is_int16 s) :
    ∀ s ∈ window_at x w k, is_int16 s :=
  fun s hs => hxr s (List.mem_of_mem_drop (List.mem_of_mem_take hs))

/-- C1: streaming low-pass moving average.  For a window size `1 <= w <= 32767`,
storage of `2 * w` bytes and `int16_t` samples `x` with at least `w` elements,
init, fill and the steps on `x[w..]` all return `FilterOK`, there are
`n - w + 1` outputs, and output `k` is the sum of `x[k..k+w-1]` divided by `w`
with truncation toward zero. -/
theorem C1_streaming_low_pass (f0 : MovingAverageFilter_t) (buf : List Nat) (w : Nat)
    (x : List Int) (hw1 : 1 ≤ w) (hw2 : w ≤ 32767) (hbuf : buf.length = 2 * w)
    (hx : w ≤ x.length) (hxr : ∀ s ∈ x, is_int16 s) :
    (moving_avg_init f0 FilterType_t.FilterLowPass (some buf) w).1 = FilterStatus_t.FilterOK ∧
    (moving_avg_stream f0 FilterType_t.FilterLowPass (some buf) w x).2 =
      (List.range (x.length - w + 1)).map (fun k =>
        (FilterStatus_t.FilterOK, some ((window_at x w k).sum.tdiv w))) := by
  obtain ⟨f2, hs, _, _⟩ := moving_avg_stream_spec f0 FilterType_t.FilterLowPass buf w x hw1 hw2
    (by omega) hx hxr
  refine ⟨rfl, ?_⟩
  rw [hs]
  apply List.map_congr_left
  intro k hk
  have hk2 : k + w ≤ x.length := by
    have := List.mem_range.mp hk
    omega
  rw [produce_output_low_pass _ w _ hw1 (by omega) (window_at_length x w k hk2)
    (window_at_int16 x w k hxr)]

theorem C1_streaming_low_pass_witness :
    (moving_avg_init ⟨0, 0, 0, 0, FilterType_t.FilterLowPass, ⟨⟨none, 0, 0, 0, 0, 0⟩, 0, 0⟩⟩
      FilterType_t.FilterLowPass (some [0, 0, 0, 0, 0, 0]) 3).1 = FilterStatus_t.FilterOK ∧
    (moving_avg_stream ⟨0, 0, 0, 0, FilterType_t.FilterLowPass, ⟨⟨none, 0, 0, 0, 0, 0⟩, 0, 0⟩⟩
      FilterType_t.FilterLowPass (some [0, 0, 0, 0, 0, 0]) 3 [5, 2, 1, 5, -10, 14]).2 =
      (List.range ([5, 2, 1, 5, -10, 14].length - 3 + 1)).map (fun k =>
        (FilterStatus_t.FilterOK, some ((window_at [5, 2, 1, 5, -10, 14] 3 k).sum.tdiv 3))) :=
  C1_streaming_low_pass _ [0, 0, 0, 0, 0, 0] 3 [5, 2, 1, 5, -10, 14] (by decide) (by decide)
    (by decide) (by decide) (by decide)

theorem MA_state_observe (f : MovingAverageFilter_t) (w : Nat) (win : List Int)
    (hw1 : 1 ≤ w) (hw2 : w ≤ 32767) (h : MA_state f w win) :
    f.prev_acc = win.sum ∧ FIFO_get_data_count f.fifo = w ∧
    (FIFO_read f.fifo w).1 = FIFO_error_t.FIFO_OK ∧
    bytes_to_int16s (FIFO_read f.fifo w).2.2.1 w = win ∧
    int16_at (FIFO_get_middle_item f.fifo) 0 = win.getD (w / 2) 0 := by
  obtain ⟨hws, hinit, his, hS, hr, hh, hlen, hrange, hacc⟩ := h
  have hbl : (int16s_to_bytes win).length = 2 * w := by rw [int16s_to_bytes_length, hlen]
  obtain ⟨fifo2, hrd, _⟩ := FIFO_read_holds f.fifo (int16s_to_bytes win) w his hh (by omega)
  rw [List.take_of_length_le (by omega)] at hrd
  have hcnt : f.fifo.fifo8.counter = 2 * w := by
    obtain ⟨buf, _, hc, _⟩ := hh
    rw [hc, hbl]
  refine ⟨hacc, ?_, by rw [hrd], ?_, ?_⟩
  · unfold FIFO_get_data_count FIFO8_get_data_count
    rw [hcnt, his]
    unfold to_uint16
    omega
  · rw [hrd]
    have := bytes_to_int16s_bytes_nil win hrange
    rwa [hlen] at this
  · rw [FIFO_get_middle_item_full f.fifo w (int16s_to_bytes win) hw1 hw2 his hS hh hbl hr]
    exact int16_at_bytes_nil _ hrange _ (by omega)

/-- C8: moving average running-sum invariant.  For either filter kind, a window
size `1 <= w <= 32767` and `int16_t` samples `x` (the first `w` given to the
fill, the others to the steps, every call returning `FilterOK`), the state after
the last call has `prev_acc` equal to the exact integer sum of the last `w`
samples, the ring reports `w` items, and reading `w` items from the ring returns
exactly the last `w` samples in arrival order. -/
theorem C8_running_sum_invariant (f0 : MovingAverageFilter_t) (ftype : FilterType_t)
    (buf : List Nat) (w : Nat) (x : List Int) (hw1 : 1 ≤ w) (hw2 : w ≤ 32767)
    (hbuf : buf.length = 2 * w) (hx : w ≤ x.length) (hxr : ∀ s ∈ x, is_int16 s) :
    (∀ r ∈ (moving_avg_stream f0 ftype (some buf) w x).2, r.1 = FilterStatus_t.FilterOK) ∧
    (moving_avg_stream f0 ftype (some buf) w x).1.prev_acc
      = (window_at x w (x.length - w)).sum ∧
    FIFO_get_data_count (moving_avg_stream f0 ftype (some buf) w x).1.fifo = w ∧
    (FIFO_read (moving_avg_stream f0 ftype (some buf) w x).1.fifo w).1
      = FIFO_error_t.FIFO_OK ∧
    bytes_to_int16s (FIFO_read (moving_avg_stream f0 ftype (some buf) w x).1.fifo w).2.2.1 w
      = window_at x w (x.length - w) := by
  obtain ⟨f2, hs, hst, _⟩ := moving_avg_stream_spec f0 ftype buf w x hw1 hw2 (by omega) hx hxr
  obtain ⟨h1, h2, h3, h4, _⟩ := MA_state_observe f2 w _ hw1 hw2 hst
  rw [hs]
  refine ⟨?_, h1, h2, h3, h4⟩
  intro r hr
  simp only [List.mem_map] at hr
  obtain ⟨k, _, hk⟩ := hr
  rw [← hk]

theorem C8_running_sum_invariant_witness :
    (∀ r ∈ (moving_avg_stream
        ⟨0, 0, 0, 0, FilterType_t.FilterLowPass, ⟨⟨none, 0, 0, 0, 0, 0⟩, 0, 0⟩⟩
        FilterType_t.FilterHighPass (some [0, 0, 0, 0]) 2 [7, -3, 4, 9, -32768]).2,
      r.1 = FilterStatus_t.FilterOK) ∧
    (moving_avg_stream
        ⟨0, 0, 0, 0, FilterType_t.FilterLowPass, ⟨⟨none, 0, 0, 0, 0, 0⟩, 0, 0⟩⟩
        FilterType_t.FilterHighPass (some [0, 0, 0, 0]) 2 [7, -3, 4, 9, -32768]).1.prev_acc
      = (window_at [7, -3, 4, 9, -32768] 2 ([7, -3, 4, 9, -32768].length - 2)).sum ∧
    FIFO_get_data_count (moving_avg_stream
        ⟨0, 0, 0, 0, FilterType_t.FilterLowPass, ⟨⟨none, 0, 0, 0, 0, 0⟩, 0, 0⟩⟩
        FilterType_t.FilterHighPass (some [0, 0, 0, 0]) 2 [7, -3, 4, 9, -32768]).1.fifo = 2 ∧
    (FIFO_read (moving_avg_stream
        ⟨0, 0, 0, 0, FilterType_t.FilterLowPass, ⟨⟨none, 0, 0, 0, 0, 0⟩, 0, 0⟩⟩
        FilterType_t.FilterHighPass (some [0, 0, 0, 0]) 2 [7, -3, 4, 9, -32768]).1.fifo 2).1
      = FIFO_error_t.FIFO_OK ∧
    bytes_to_int16s (FIFO_read (moving_avg_stream
        ⟨0, 0, 0, 0, FilterType_t.FilterLowPass, ⟨⟨none, 0, 0, 0, 0, 0⟩, 0, 0⟩⟩
        FilterType_t.FilterHighPass (some [0, 0, 0, 0]) 2 [7, -3, 4, 9, -32768]).1.fifo 2).2.2.1 2
      = window_at [7, -3, 4, 9, -32768] 2 ([7, -3, 4, 9, -32768].length - 2) :=
  C8_running_sum_invariant _ FilterType_t.FilterHighPass [0, 0, 0, 0] 2 [7, -3, 4, 9, -32768]
    (by decide) (by decide) (by decide) (by decide) (by decide)

theorem produce_output_high_pass (c S : Int) (w : Nat) (hw2 : w ≤ 65535)
    (h : is_int16 (c - S.tdiv w)) :
    produce_output c S w FilterType_t.FilterHighPass = c - S.tdiv w := by
  unfold produce_output
  rw [to_int32_of_range (by omega) (by omega)]
  simp only [if_true]
  exact to_int16_of_range h

/-- C7: streaming high-pass output.  For a high-pass filter with window size
`1 <= w <= 32767` fed the `int16_t` samples `x`, after the last call the middle
item fetched by `FIFO_get_middle_item` is element `w / 2` of the current window
(oldest first); there are `n - w + 1` outputs; and output `k` is
`v[w / 2] - trunc(S / w)` for the window `v = x[k..k+w-1]` with sum `S`, whenever
that difference is an `int16_t`. -/
theorem C7_streaming_high_pass (f0 : MovingAverageFilter_t) (buf : List Nat) (w : Nat)
    (x : List Int) (hw1 : 1 ≤ w) (hw2 : w ≤ 32767) (hbuf : buf.length = 2 * w)
    (hx : w ≤ x.length) (hxr : ∀ s ∈ x, is_int16 s) :
    int16_at (FIFO_get_middle_item
        (moving_avg_stream f0 FilterType_t.FilterHighPass (some buf) w x).1.fifo) 0
      = (window_at x w (x.length - w)).getD (w / 2) 0 ∧
    (moving_avg_stream f0 FilterType_t.FilterHighPass (some buf) w x).2.length
      = x.length - w + 1 ∧
    ∀ k, k ≤ x.length - w →
      is_int16 ((window_at x w k).getD (w / 2) 0 - (window_at x w k).sum.tdiv w) →
      (moving_avg_stream f0 FilterType_t.FilterHighPass (some buf) w x).2.getD k
          (FilterStatus_t.FilterError, none)
        = (FilterStatus_t.FilterOK,
            some ((window_at x w k).getD (w / 2) 0 - (window_at x w k).sum.tdiv w)) := by
  obtain ⟨f2, hs, hst, _⟩ := moving_avg_stream_spec f0 FilterType_t.FilterHighPass buf w x
    hw1 hw2 (by omega) hx hxr
  obtain ⟨_, _, _, _, h5⟩ := MA_state_observe f2 w _ hw1 hw2 hst
  rw [hs]
  refine ⟨h5, by simp, ?_⟩
  intro k hk hr
  rw [List.getD_eq_getElem?_getD, List.getElem?_map,
    List.getElem?_range (by omega)]
  simp only [Option.map_some', Option.getD_some]
  rw [produce_output_high_pass _ _ w (by omega) hr]

theorem C7_streaming_high_pass_witness :
    int16_at (FIFO_get_middle_item
        (moving_avg_stream
          ⟨0, 0, 0, 0, FilterType_t.FilterLowPass, ⟨⟨none, 0, 0, 0, 0, 0⟩, 0, 0⟩⟩
          FilterType_t.FilterHighPass (some [0, 0, 0, 0, 0, 0]) 3 [5, 2, 1, 5, -10]).1.fifo) 0
      = (window_at [5, 2, 1, 5, -10] 3 ([5, 2, 1, 5, -10].length - 3)).getD (3 / 2) 0 ∧
    (moving_avg_stream
        ⟨0, 0, 0, 0, FilterType_t.FilterLowPass, ⟨⟨none, 0, 0, 0, 0, 0⟩, 0, 0⟩⟩
        FilterType_t.FilterHighPass (some [0, 0, 0, 0, 0, 0]) 3 [5, 2, 1, 5, -10]).2.length
      = [5, 2, 1, 5, -10].length - 3 + 1 ∧
    (moving_avg_stream
        ⟨0, 0, 0, 0, FilterType_t.FilterLowPass, ⟨⟨none, 0, 0, 0, 0, 0⟩, 0, 0⟩⟩
        FilterType_t.FilterHighPass (some [0, 0, 0, 0, 0, 0]) 3 [5, 2, 1, 5, -10]).2.getD 2
        (FilterStatus_t.FilterError, none)
      = (FilterStatus_t.FilterOK,
          some ((window_at [5, 2, 1, 5, -10] 3 2).getD (3 / 2) 0
            - (window_at [5, 2, 1, 5, -10] 3 2).sum.tdiv (3 : Nat))) :=
  ⟨(C7_streaming_high_pass _ [0, 0, 0, 0, 0, 0] 3 [5, 2, 1, 5, -10]
      (by decide) (by decide) (by decide) (by decide) (by decide)).1,
   (C7_streaming_high_pass _ [0, 0, 0, 0, 0, 0] 3 [5, 2, 1, 5, -10]
      (by decide) (by decide) (by decide) (by decide) (by decide)).2.1,
   (C7_streaming_high_pass _ [0, 0, 0, 0, 0, 0] 3 [5, 2, 1, 5, -10]
      (by decide) (by decide) (by decide) (by decide) (by decide)).2.2 2
      (by decide) (by decide)⟩

/-! ## Moving average filter: the batch function -/

theorem window_at_slide (data : List Int) (w i : Nat) (hw1 : 1 ≤ w) (h : i + w < data.length) :
    (window_at data w (i + 1)).sum
      = (window_at data w i).sum + (data.getD (i + w) 0 - data.getD i 0) := by
  have hi : i < data.length := by omega
  have hd : data.drop i = data[i] :: data.drop (i + 1) := by
    rw [List.drop_eq_getElem_cons hi]
  obtain ⟨v, rfl⟩ : ∃ v, w = v + 1 := ⟨w - 1, by omega⟩
  have h1 : window_at data (v + 1) i = data[i] :: (data.drop (i + 1)).take v := by
    unfold window_at
    rw [hd, List.take_succ_cons]
  have h2 : (window_at data (v + 1) (i + 1)).sum
      = ((data.drop (i + 1)).take v).sum + (data.drop (i + 1)).getD v 0 := by
    unfold window_at
    exact take_succ_sum _ v (by simp; omega)
  have h3 : (data.drop (i + 1)).getD v 0 = data.getD (i + (v + 1)) 0 := by
    simp only [List.getD_eq_getElem?_getD, List.getElem?_drop]
    congr 2
    omega
  have h4 : data.getD i 0 = data[i] := by
    simp [List.getD_eq_getElem?_getD, List.getElem?_eq_getElem hi]
  rw [h2, h1, h3, h4, List.sum_cons]
  ring

theorem window_tdiv_store (data : List Int) (w i : Nat) (hw1 : 1 ≤ w) (hw2 : w ≤ 65535)
    (h : i + w ≤ data.length) (hr : ∀ s ∈ data, is_int16 s) :
    to_int16 ((window_at data w i).sum.tdiv (to_int32 w)) = (window_at data w i).sum.tdiv w := by
  rw [to_int32_of_range (by omega) (by omega)]
  have hb := sum_int16_bounds _ (window_at_int16 data w i hr)
  rw [window_at_length data w i h] at hb
  exact to_int16_of_range (tdiv_int16 _ w hw1 hb.1 hb.2)

theorem window_sum_int32 (data : List Int) (w i : Nat) (hw2 : w ≤ 65535)
    (h : i + w ≤ data.length) (hr : ∀ s ∈ data, is_int16 s) :
    to_int32 (window_at data w i).sum = (window_at data w i).sum := by
  have hb := sum_int16_bounds _ (window_at_int16 data w i hr)
  rw [window_at_length data w i h] at hb
  exact to_int32_of_range (by omega) (by omega)

theorem moving_avg_sequence_loop_odd (data : List Int) (w p : Nat) (hw1 : 1 ≤ w)
    (hw2 : w ≤ 65535) (hp : 2 * p + 1 = w) (hr : ∀ s ∈ data, is_int16 s) (hn : data.length ≤ 65535)
    (remaining : Nat) :
    ∀ i, i + remaining + w ≤ data.length →
      moving_avg_sequence_loop data w p remaining i (window_at data w i).sum
        = (List.range remaining).map (fun j =>
            (i + j + 1, (window_at data w (i + j + 1)).sum.tdiv w)) := by
  induction remaining with
  | zero => intro i _; simp [moving_avg_sequence_loop]
  | succ r ih =>
    intro i hi
    have hnext : to_uint32 ((i : Int) + 2 * (p : Int) + 1) = i + w := by
      unfold to_uint32
      omega
    have hacc : to_int32 ((window_at data w i).sum +
        (data.getD (i + w) 0 - data.getD i 0)) = (window_at data w (i + 1)).sum := by
      rw [← window_at_slide data w i hw1 (by omega)]
      exact window_sum_int32 data w (i + 1) hw2 (by omega) hr
    rw [moving_avg_sequence_loop]
    simp only [hnext, hacc]
    rw [ih (i + 1) (by omega), window_tdiv_store data w (i + 1) hw1 hw2 (by omega) hr,
      List.range_succ_eq_map, List.map_cons, List.map_map]
    congr 1
    apply List.map_congr_left
    intro j _
    simp only [Function.comp]
    rw [show i + 1 + j + 1 = i + (j + 1) + 1 by omega]

/-- C6: batch moving average for an odd window.  For `int16_t` data of length
`n <= 65535` and an odd window size `1 <= w <= n`, `moving_avg_filter_sequence`
returns `FilterOK`, stores `y[i]` for `i = 0, ..., n - w` with `y[i]` the sum of
`data[i..i+w-1]` divided by `w` with truncation toward zero, and reports the
length `n - w + 1`. -/
theorem C6_batch_moving_average_odd (data : List Int) (w : Nat) (hw1 : 1 ≤ w)
    (hodd : w % 2 = 1) (hwn : w ≤ data.length) (hn : data.length ≤ 65535)
    (hr : ∀ s ∈ data, is_int16 s) :
    moving_avg_filter_sequence data data.length w =
      (FilterStatus_t.FilterOK,
       (List.range (data.length - w + 1)).map (fun i => (i, (window_at data w i).sum.tdiv w)),
       some (data.length - w + 1)) := by
  have hlen : filter_windowed_get_expected_output_len data.length w = data.length - w + 1 := by
    unfold filter_windowed_get_expected_output_len to_uint32
    omega
  have hrec : to_uint32 (((data.length - w + 1 : Nat) : Int) - 1) = data.length - w := by
    unfold to_uint32
    omega
  have hp : to_uint32 (((w : Int) - 1).tdiv 2) = (w - 1) / 2 := by
    rw [Int.tdiv_eq_ediv (by omega) (by omega)]
    unfold to_uint32
    omega
  have hacc : window_acc data w = (window_at data w 0).sum := by
    rw [window_acc_eq_sum data hr w hwn (by omega)]
    simp [window_at]
  have h0 : to_int16 ((window_at data w 0).sum.tdiv (w : Int)) = (window_at data w 0).sum.tdiv w := by
    have := window_tdiv_store data w 0 hw1 (by omega) (by omega) hr
    rwa [to_int32_of_range (by omega) (by omega)] at this
  have hu : to_uint16 ((data.length - w + 1 : Nat) : Int) = data.length - w + 1 :=
    to_uint16_of_range (by omega)
  unfold moving_avg_filter_sequence
  have hgt : ¬ w > data.length := by omega
  simp only [hgt, if_false, hlen, hrec, hp, hacc, h0, hu]
  rw [moving_avg_sequence_loop_odd data w ((w - 1) / 2) hw1 (by omega) (by omega) hr hn
    (data.length - w) 0 (by omega), List.range_succ_eq_map, List.map_cons, List.map_map]
  congr 3
  apply List.map_congr_left
  intro j _
  simp only [Function.comp]
  rw [show 0 + j + 1 = j + 1 by omega]

theorem C6_batch_moving_average_odd_witness :
    moving_avg_filter_sequence [5, 2, 1, 5, 10, 14, 32, 65, 13, 18, -10, -25, -30, 13, 1, 1]
        [5, 2, 1, 5, 10, 14, 32, 65, 13, 18, -10, -25, -30, 13, 1, 1].length 3 =
      (FilterStatus_t.FilterOK,
       (List.range
          ([5, 2, 1, 5, 10, 14, 32, 65, 13, 18, -10, -25, -30, 13, 1, 1].length - 3 + 1)).map
         (fun i => (i,
           (window_at [5, 2, 1, 5, 10, 14, 32, 65, 13, 18, -10, -25, -30, 13, 1, 1] 3 i).sum.tdiv
             (3 : Nat))),
       some ([5, 2, 1, 5, 10, 14, 32, 65, 13, 18, -10, -25, -30, 13, 1, 1].length - 3 + 1)) :=
  C6_batch_moving_average_odd [5, 2, 1, 5, 10, 14, 32, 65, 13, 18, -10, -25, -30, 13, 1, 1] 3
    (by decide) (by decide) (by decide) (by decide) (by decide)

/-! ## Output lengths, rank filter construction, and the even-window batch average -/

theorem moving_avg_sequence_loop_indices (data : List Int) (w p : Nat) (remaining : Nat) :
    ∀ i acc, (moving_avg_sequence_loop data w p remaining i acc).map Prod.fst
        = (List.range remaining).map (fun j => i + j + 1) := by
  induction remaining with
  | zero => intro i acc; simp [moving_avg_sequence_loop]
  | succ r ih =>
    intro i acc
    rw [moving_avg_sequence_loop]
    simp only [List.map_cons, ih, List.range_succ_eq_map, List.map_map]
    congr 1
    apply List.map_congr_left
    intro j _
    simp only [Function.comp]
    omega

theorem output_len_eq (n w : Nat) (hw : w ≤ n) (hw1 : 1 ≤ w) (hn : n ≤ 65535) :
    to_uint16 (filter_windowed_get_expected_output_len n w) = n - w + 1 ∧
    filter_windowed_get_expected_output_len n w = n - w + 1 := by
  unfold filter_windowed_get_expected_output_len to_uint32 to_uint16
  omega

/-- C9: output length law.  For a data size `n <= 65535` and a window size `w`
with `n >= w > 0`, both length helpers return `FilterOK` and store `n - w + 1`;
`moving_avg_filter_sequence` returns `FilterOK`, stores `n - w + 1` to the length
output and its stores to `y` are exactly the slots `0, ..., n - w`, each once; and
so does `rank_filter_filter_sequence` when `n <= 32767` and `rank < w`. -/
theorem C9_output_length_law (data : List Int) (n w rank : Nat) (hw1 : 0 < w) (hwn : w ≤ n)
    (hn : n ≤ 65535) :
    moving_avg_get_output_data_len n w = (FilterStatus_t.FilterOK, some (n - w + 1)) ∧
    rank_filter_get_output_data_len n w = (FilterStatus_t.FilterOK, some (n - w + 1)) ∧
    (moving_avg_filter_sequence data n w).1 = FilterStatus_t.FilterOK ∧
    (moving_avg_filter_sequence data n w).2.2 = some (n - w + 1) ∧
    (moving_avg_filter_sequence data n w).2.1.map Prod.fst = List.range (n - w + 1) ∧
    (n ≤ 32767 → rank < w →
      (rank_filter_filter_sequence data n w rank).1 = FilterStatus_t.FilterOK ∧
      (rank_filter_filter_sequence data n w rank).2.2 = some (n - w + 1) ∧
      (rank_filter_filter_sequence data n w rank).2.1.map Prod.fst = List.range (n - w + 1)) := by
  obtain ⟨hl16, hl32⟩ := output_len_eq n w hwn hw1 hn
  have hgt : ¬ w > n := by omega
  have hrec : to_uint32 (((n - w + 1 : Nat) : Int) - 1) = n - w := by
    unfold to_uint32
    omega
  refine ⟨?_, ?_, ?_, ?_, ?_, ?_⟩
  · simp only [moving_avg_get_output_data_len, hgt, if_false, hl16]
  · simp only [rank_filter_get_output_data_len, hgt, if_false, hl16]
  · simp only [moving_avg_filter_sequence, hgt, if_false]
  · simp only [moving_avg_filter_sequence, hgt, if_false, hl16]
  · simp only [moving_avg_filter_sequence, hgt, if_false, hl32, hrec, List.map_cons,
      moving_avg_sequence_loop_indices, List.range_succ_eq_map]
    congr 1
    apply List.map_congr_left
    intro j _
    omega
  · intro hn2 hrk
    have hgt2 : ¬ rank > w := by omega
    have hds : to_uint32 ((n : Nat) : Int) = n := to_uint32_of_range (by omega)
    simp only [rank_filter_filter_sequence, hgt2, if_false, hds, hl16, List.map_map, true_and]
    apply List.ext_getElem
    · simp
    · intro i h1 h2
      simp

theorem C9_output_length_law_witness :
    moving_avg_get_output_data_len 16 3 = (FilterStatus_t.FilterOK, some (16 - 3 + 1)) ∧
    rank_filter_get_output_data_len 16 3 = (FilterStatus_t.FilterOK, some (16 - 3 + 1)) ∧
    (moving_avg_filter_sequence
      [44, 2, 21, 5, 11, 14, 32, 65, 13, 11, -10, -25, 30, -40, 50, 1] 16 3).1
        = FilterStatus_t.FilterOK ∧
    (moving_avg_filter_sequence
      [44, 2, 21, 5, 11, 14, 32, 65, 13, 11, -10, -25, 30, -40, 50, 1] 16 3).2.2
        = some (16 - 3 + 1) ∧
    (moving_avg_filter_sequence
      [44, 2, 21, 5, 11, 14, 32, 65, 13, 11, -10, -25, 30, -40, 50, 1] 16 3).2.1.map Prod.fst
        = List.range (16 - 3 + 1) ∧
    (rank_filter_filter_sequence
      [44, 2, 21, 5, 11, 14, 32, 65, 13, 11, -10, -25, 30, -40, 50, 1] 16 3 2).1
        = FilterStatus_t.FilterOK ∧
    (rank_filter_filter_sequence
      [44, 2, 21, 5, 11, 14, 32, 65, 13, 11, -10, -25, 30, -40, 50, 1] 16 3 2).2.2
        = some (16 - 3 + 1) ∧
    (rank_filter_filter_sequence
      [44, 2, 21, 5, 11, 14, 32, 65, 13, 11, -10, -25, 30, -40, 50, 1] 16 3 2).2.1.map Prod.fst
        = List.range (16 - 3 + 1) :=
  ⟨(C9_output_length_law [44, 2, 21, 5, 11, 14, 32, 65, 13, 11, -10, -25, 30, -40, 50, 1]
      16 3 2 (by decide) (by decide) (by decide)).1,
   (C9_output_length_law [44, 2, 21, 5, 11, 14, 32, 65, 13, 11, -10, -25, 30, -40, 50, 1]
      16 3 2 (by decide) (by decide) (by decide)).2.1,
   (C9_output_length_law [44, 2, 21, 5, 11, 14, 32, 65, 13, 11, -10, -25, 30, -40, 50, 1]
      16 3 2 (by decide) (by decide) (by decide)).2.2.1,
   (C9_output_length_law [44, 2, 21, 5, 11, 14, 32, 65, 13, 11, -10, -25, 30, -40, 50, 1]
      16 3 2 (by decide) (by decide) (by decide)).2.2.2.1,
   (C9_output_length_law [44, 2, 21, 5, 11, 14, 32, 65, 13, 11, -10, -25, 30, -40, 50, 1]
      16 3 2 (by decide) (by decide) (by decide)).2.2.2.2.1,
   (C9_output_length_law [44, 2, 21, 5, 11, 14, 32, 65, 13, 11, -10, -25, 30, -40, 50, 1]
      16 3 2 (by decide) (by decide) (by decide)).2.2.2.2.2 (by decide) (by decide)⟩

/-- C10: rank filter construction boundary.  With a successful allocation,
`rank_filter_init` returns `FilterOK` exactly when `rank <= window_size - 1` in
`int` arithmetic (never for `window_size = 0`); it succeeds for
`rank = window_size - 1` and fails for `rank = window_size`.  On success the
handle stores the window size and the rank, is not initialized, holds the
allocated array, and its ring is empty (count and both indices zero) with
`FIFO_NO_FLAGS`; on the rank error the handle is returned unmodified. -/
theorem C10_rank_filter_init_boundary (rf : RankFilter_t) (buffer : Option (List Nat))
    (w r : Nat) (mem : List Int) :
    ((rank_filter_init rf buffer w r (some mem)).1 = FilterStatus_t.FilterOK
      ↔ (r : Int) ≤ (w : Int) - 1) ∧
    (rank_filter_init rf buffer 0 r (some mem)).1 = FilterStatus_t.FilterError ∧
    (rank_filter_init rf buffer (w + 1) w (some mem)).1 = FilterStatus_t.FilterOK ∧
    (rank_filter_init rf buffer w w (some mem)).1 = FilterStatus_t.FilterError ∧
    ((r : Int) ≤ (w : Int) - 1 →
      (rank_filter_init rf buffer w r (some mem)).2.window_size = w ∧
      (rank_filter_init rf buffer w r (some mem)).2.rank = r ∧
      (rank_filter_init rf buffer w r (some mem)).2.initialized = 0 ∧
      (rank_filter_init rf buffer w r (some mem)).2.sorted_window = some mem ∧
      FIFO_get_data_count (rank_filter_init rf buffer w r (some mem)).2.fifo = 0 ∧
      FIFO_not_empty (rank_filter_init rf buffer w r (some mem)).2.fifo = false ∧
      (rank_filter_init rf buffer w r (some mem)).2.fifo.fifo8.counter = 0 ∧
      (rank_filter_init rf buffer w r (some mem)).2.fifo.fifo8.r_index = 0 ∧
      (rank_filter_init rf buffer w r (some mem)).2.fifo.fifo8.w_index = 0 ∧
      (rank_filter_init rf buffer w r (some mem)).2.fifo.fifo8.flags = FIFO_NO_FLAGS) ∧
    (¬ (r : Int) ≤ (w : Int) - 1 →
      rank_filter_init rf buffer w r (some mem) = (FilterStatus_t.FilterError, rf)) := by
  refine ⟨?_, ?_, ?_, ?_, ?_, ?_⟩
  · unfold rank_filter_init
    by_cases h : (r : Int) > (w : Int) - 1
    · simp only [h, if_true, reduceCtorEq, false_iff]
      omega
    · simp only [h, if_false, reduceCtorEq, true_iff]
      omega
  · unfold rank_filter_init
    have h : (r : Int) > ((0 : Nat) : Int) - 1 := by omega
    simp only [h, if_true]
  · unfold rank_filter_init
    have h : ¬ (w : Int) > ((w + 1 : Nat) : Int) - 1 := by omega
    simp only [h, if_false, reduceCtorEq]
  · unfold rank_filter_init
    have h : (w : Int) > (w : Int) - 1 := by omega
    simp only [h, if_true]
  · intro h
    have h2 : ¬ (r : Int) > (w : Int) - 1 := by omega
    unfold rank_filter_init
    simp only [h2, if_false, reduceCtorEq]
    simp [FIFO_init, FIFO8_init, FIFO_get_data_count, FIFO8_get_data_count, FIFO_not_empty,
      FIFO8_not_empty, to_uint16]
  · intro h
    have h2 : (r : Int) > (w : Int) - 1 := by omega
    unfold rank_filter_init
    simp only [h2, if_true]

theorem C10_rank_filter_init_boundary_witness :
    (rank_filter_init ⟨none, 7, 7, 1, ⟨⟨none, 0, 0, 0, 0, 0⟩, 0, 0⟩⟩ (some [0, 0, 0, 0, 0, 0])
        3 2 (some [9, 9, 9])).2.window_size = 3 ∧
    (rank_filter_init ⟨none, 7, 7, 1, ⟨⟨none, 0, 0, 0, 0, 0⟩, 0, 0⟩⟩ (some [0, 0, 0, 0, 0, 0])
        3 2 (some [9, 9, 9])).2.rank = 2 ∧
    (rank_filter_init ⟨none, 7, 7, 1, ⟨⟨none, 0, 0, 0, 0, 0⟩, 0, 0⟩⟩ (some [0, 0, 0, 0, 0, 0])
        3 2 (some [9, 9, 9])).2.initialized = 0 ∧
    rank_filter_init ⟨none, 7, 7, 1, ⟨⟨none, 0, 0, 0, 0, 0⟩, 0, 0⟩⟩ (some [0, 0, 0, 0, 0, 0])
        3 3 (some [9, 9, 9])
      = (FilterStatus_t.FilterError, ⟨none, 7, 7, 1, ⟨⟨none, 0, 0, 0, 0, 0⟩, 0, 0⟩⟩) :=
  ⟨((C10_rank_filter_init_boundary ⟨none, 7, 7, 1, ⟨⟨none, 0, 0, 0, 0, 0⟩, 0, 0⟩⟩
      (some [0, 0, 0, 0, 0, 0]) 3 2 [9, 9, 9]).2.2.2.2.1 (by decide)).1,
   ((C10_rank_filter_init_boundary ⟨none, 7, 7, 1, ⟨⟨none, 0, 0, 0, 0, 0⟩, 0, 0⟩⟩
      (some [0, 0, 0, 0, 0, 0]) 3 2 [9, 9, 9]).2.2.2.2.1 (by decide)).2.1,
   ((C10_rank_filter_init_boundary ⟨none, 7, 7, 1, ⟨⟨none, 0, 0, 0, 0, 0⟩, 0, 0⟩⟩
      (some [0, 0, 0, 0, 0, 0]) 3 2 [9, 9, 9]).2.2.2.2.1 (by decide)).2.2.1,
   (C10_rank_filter_init_boundary ⟨none, 7, 7, 1, ⟨⟨none, 0, 0, 0, 0, 0⟩, 0, 0⟩⟩
      (some [0, 0, 0, 0, 0, 0]) 3 3 [9, 9, 9]).2.2.2.2.2 (by decide)⟩

/-- C4 (divergence): with the even window size 2 on the samples `[1, 3, 5]`, the
streaming low-pass filter outputs the window means `2, 4`, while
`moving_avg_filter_sequence` stores `2, 3`: its second update adds
`data[i + 2 * ((w - 1) / 2) + 1] = data[1]`, a sample already in the window,
in place of the entering sample `data[2]`. -/
theorem C4_even_window_divergence :
    (moving_avg_stream ⟨0, 0, 0, 0, FilterType_t.FilterLowPass, ⟨⟨none, 0, 0, 0, 0, 0⟩, 0, 0⟩⟩
        FilterType_t.FilterLowPass (some [0, 0, 0, 0]) 2 [1, 3, 5]).2
      = [(FilterStatus_t.FilterOK, some 2), (FilterStatus_t.FilterOK, some 4)] ∧
    moving_avg_filter_sequence [1, 3, 5] 3 2
      = (FilterStatus_t.FilterOK, [(0, 2), (1, 3)], some 2) := by
  decide

/-! ## Rank filter: the scan loop -/

theorem first_index_from_spec (p : Int → Bool) (a : List Int) (k : Nat) :
    ∀ i, (first_index_from p a k i = -1 ∧ ∀ j, i ≤ j → j < i + k → p (a.getD j 0) = false) ∨
      (∃ m : Nat, first_index_from p a k i = (m : Int) ∧ i ≤ m ∧ m < i + k ∧
        p (a.getD m 0) = true ∧ ∀ j, i ≤ j → j < m → p (a.getD j 0) = false) := by
  induction k with
  | zero =>
    intro i
    left
    exact ⟨rfl, fun j h1 h2 => by omega⟩
  | succ k ih =>
    intro i
    rw [first_index_from]
    by_cases hp : p (a.getD i 0) = true
    · right
      refine ⟨i, by simp only [hp, if_true], le_refl _, by omega, hp, fun j h1 h2 => by omega⟩
    · simp only [hp, Bool.false_eq_true, if_false]
      rcases ih (i + 1) with ⟨h1, h2⟩ | ⟨m, h1, h2, h3, h4, h5⟩
      · left
        refine ⟨h1, fun j hj1 hj2 => ?_⟩
        rcases Nat.eq_or_lt_of_le hj1 with e | e
        · subst e; simpa using hp
        · exact h2 j (by omega) (by omega)
      · right
        refine ⟨m, h1, by omega, by omega, h4, fun j hj1 hj2 => ?_⟩
        rcases Nat.eq_or_lt_of_le hj1 with e | e
        · subst e; simpa using hp
        · exact h5 j (by omega) hj2

theorem first_index_from_ge (p : Int → Bool) (a : List Int) (k i : Nat) :
    -1 ≤ first_index_from p a k i := by
  rcases first_index_from_spec p a k i with ⟨h, _⟩ | ⟨m, h, _⟩ <;> omega

theorem rank_scan_eq (sw : List Int) (last new : Int) (k : Nat) :
    ∀ (i : Nat) (lr nr : Int),
      rank_scan sw last new k i lr nr =
        (if lr = -1 then first_index_from (fun v => decide (v = last)) sw k i else lr,
         if nr = -1 then first_index_from (fun v => decide (v ≥ new)) sw k i else nr) := by
  induction k with
  | zero =>
    intro i lr nr
    simp only [rank_scan, first_index_from]
    split <;> split <;> simp_all
  | succ k ih =>
    intro i lr nr
    have hi : (i : Int) ≠ -1 := by omega
    rw [rank_scan, first_index_from, first_index_from]
    simp only [ih, decide_eq_true_eq]
    generalize sw.getD i 0 = v
    have hge : ∀ a b : Int, (a ≥ b) = (b ≤ a) := fun a b => rfl
    rcases Classical.em (v = last) with h1 | h1
    · have e1 := eq_true h1
      by_cases h2 : new ≤ v <;> by_cases h3 : lr = -1 <;> by_cases h4 : nr = -1 <;>
        simp only [e1, h2, h3, h4, hi, hge, ne_eq, not_true_eq_false, not_false_eq_true,
          and_true, and_false, true_and, false_and, if_true, if_false, and_self]
    · by_cases h2 : new ≤ v <;> by_cases h3 : lr = -1 <;> by_cases h4 : nr = -1 <;>
        simp only [h1, h2, h3, h4, hi, hge, ne_eq, not_true_eq_false, not_false_eq_true,
          and_true, and_false, true_and, false_and, if_true, if_false, and_self]

/-! ## Rank filter: the shifts as list operations -/

theorem set_at_prefix_length (a b : List Int) (v u : Int) (k : Nat) (hk : k = a.length) :
    (a ++ v :: b).set k u = a ++ u :: b := by
  subst hk
  induction a with
  | nil => rfl
  | cons x xs ih => simp [ih]

theorem store_item_form (sw : List Int) (L : Nat) (new : Int) (hL : L < sw.length) :
    store_item sw (L : Int) new = sw.take L ++ new :: sw.drop (L + 1) := by
  unfold store_item
  have h : ¬ (L : Int) < 0 := by omega
  simp only [h, if_false, Int.toNat_ofNat]
  have hs : sw = sw.take L ++ sw[L] :: sw.drop (L + 1) := by
    rw [← List.drop_eq_getElem_cons hL, List.take_append_drop]
  conv_lhs => rw [hs]
  exact set_at_prefix_length _ _ _ _ _ (by simp; omega)

theorem shift_left_form (sw : List Int) (L N : Nat) (new : Int) (hLN : L < N)
    (hN : N < sw.length) (hlen : sw.length ≤ 65535) :
    store_item
        (memmove_items sw (L : Int) ((L : Int) + 1) (to_uint32 (((N : Int) - (L : Int)) * 2)))
        ((N : Int) - 1) new
      = (sw.take L ++ (sw.drop (L + 1)).take (N - L - 1)) ++ new :: sw.drop N := by
  have hb : to_uint32 (((N : Int) - (L : Int)) * 2) / 2 = N - L := by
    unfold to_uint32
    omega
  have h1 : ((L : Int) + 1).toNat = L + 1 := by omega
  have h2 : ¬ ((N : Int) - 1 < 0) := by omega
  have h3 : ((N : Int) - 1).toNat = N - 1 := by omega
  unfold store_item memmove_items
  simp only [hb, h1, h2, h3, if_false, Int.toNat_ofNat]
  have ht : (sw.drop (L + 1)).take (N - L) =
      (sw.drop (L + 1)).take (N - L - 1) ++ [sw[N]] := by
    have e : N - L = (N - L - 1) + 1 := by omega
    conv_lhs => rw [e]
    rw [List.take_succ, List.getElem?_drop]
    have e2 : L + 1 + (N - L - 1) = N := by omega
    rw [e2, List.getElem?_eq_getElem hN]
    rfl
  have hd : sw.drop (L + (N - L)) = sw.drop N := by
    congr 1
    omega
  rw [ht, hd]
  have hshape : sw.take L ++ ((sw.drop (L + 1)).take (N - L - 1) ++ [sw[N]]) ++ sw.drop N
      = (sw.take L ++ (sw.drop (L + 1)).take (N - L - 1)) ++ sw[N] :: sw.drop N := by
    simp only [List.append_assoc, List.singleton_append]
  rw [hshape]
  exact set_at_prefix_length _ _ _ _ _ (by simp; omega)

theorem shift_left_end_form (sw : List Int) (L : Nat) (new : Int) (hL : L + 1 < sw.length)
    (hlen : sw.length ≤ 65535) :
    store_item
        (memmove_items sw (L : Int) ((L : Int) + 1)
          (to_uint32 ((((sw.length : Int) - 1) - (L : Int)) * 2)))
        (((sw.length : Int) - 1) - 0) new
      = (sw.take L ++ sw.drop (L + 1)) ++ new :: [] := by
  have hb : to_uint32 ((((sw.length : Int) - 1) - (L : Int)) * 2) / 2 = sw.length - 1 - L := by
    unfold to_uint32
    omega
  have h1 : ((L : Int) + 1).toNat = L + 1 := by omega
  have h2 : ¬ (((sw.length : Int) - 1) - 0 < 0) := by omega
  have h3 : (((sw.length : Int) - 1) - 0).toNat = sw.length - 1 := by omega
  unfold store_item memmove_items
  simp only [hb, h1, h2, h3, if_false, Int.toNat_ofNat]
  have ht : (sw.drop (L + 1)).take (sw.length - 1 - L) = sw.drop (L + 1) :=
    List.take_of_length_le (by simp; omega)
  have hlast : sw.length - 1 < sw.length := by omega
  have hd : sw.drop (L + (sw.length - 1 - L)) = [sw[sw.length - 1]] := by
    have e : L + (sw.length - 1 - L) = sw.length - 1 := by omega
    rw [e, List.drop_eq_getElem_cons hlast, List.drop_of_length_le (by omega)]
  rw [ht, hd]
  exact set_at_prefix_length _ _ _ _ _ (by simp; omega)

theorem shift_right_form (sw : List Int) (L N : Nat) (new : Int) (hNL : N < L)
    (hL : L < sw.length) (hlen : sw.length ≤ 65535) :
    store_item
        (memmove_items sw ((N : Int) + 1) (N : Int) (to_uint32 (((L : Int) - (N : Int)) * 2)))
        (N : Int) new
      = sw.take N ++ new :: ((sw.drop N).take (L - N) ++ sw.drop (L + 1)) := by
  have hb : to_uint32 (((L : Int) - (N : Int)) * 2) / 2 = L - N := by
    unfold to_uint32
    omega
  have h1 : ((N : Int) + 1).toNat = N + 1 := by omega
  have h2 : ¬ ((N : Int) < 0) := by omega
  unfold store_item memmove_items
  simp only [hb, h1, h2, if_false, Int.toNat_ofNat]
  have hN : N < sw.length := by omega
  have ht : sw.take (N + 1) = sw.take N ++ [sw[N]] := by
    rw [List.take_succ, List.getElem?_eq_getElem hN]
    rfl
  have hd : sw.drop (N + 1 + (L - N)) = sw.drop (L + 1) := by
    congr 1
    omega
  rw [ht, hd]
  have hshape : sw.take N ++ [sw[N]] ++ (sw.drop N).take (L - N) ++ sw.drop (L + 1)
      = sw.take N ++ sw[N] :: ((sw.drop N).take (L - N) ++ sw.drop (L + 1)) := by
    simp only [List.append_assoc, List.singleton_append, List.cons_append, List.nil_append]
  rw [hshape]
  exact set_at_prefix_length _ _ _ _ _ (by simp; omega)

/-! ## Rank filter: the in-place update of the sorted window -/

theorem getD_of_lt (sw : List Int) (j : Nat) (h : j < sw.length) : sw.getD j 0 = sw[j] := by
  simp [List.getD_eq_getElem?_getD, List.getElem?_eq_getElem h]

theorem mem_take_index (sw : List Int) (n : Nat) (x : Int) (h : x ∈ sw.take n) :
    ∃ j, j < n ∧ j < sw.length ∧ sw.getD j 0 = x := by
  obtain ⟨j, hj, e⟩ := List.mem_iff_getElem.mp h
  have hj2 : j < n ∧ j < sw.length := by
    simp only [List.length_take] at hj
    omega
  refine ⟨j, hj2.1, hj2.2, ?_⟩
  rw [getD_of_lt sw j hj2.2, ← e, List.getElem_take]

theorem mem_drop_index (sw : List Int) (n : Nat) (x : Int) (h : x ∈ sw.drop n) :
    ∃ j, n ≤ j ∧ j < sw.length ∧ sw.getD j 0 = x := by
  obtain ⟨j, hj, e⟩ := List.mem_iff_getElem.mp h
  have hj2 : n + j < sw.length := by
    simp only [List.length_drop] at hj
    omega
  refine ⟨n + j, by omega, hj2, ?_⟩
  rw [getD_of_lt sw (n + j) hj2, ← e, List.getElem_drop]

theorem sorted_getD (sw : List Int) (hs : sw.Sorted (· ≤ ·)) (i j : Nat) (hij : i ≤ j)
    (hj : j < sw.length) : sw.getD i 0 ≤ sw.getD j 0 := by
  rw [getD_of_lt sw i (by omega), getD_of_lt sw j hj]
  rcases Nat.eq_or_lt_of_le hij with e | e
  · subst e; exact le_refl _
  · exact (List.pairwise_iff_getElem.mp hs) i j (by omega) hj e

theorem rank_filter_update_window_decomp (sw : List Int) (last new : Int)
    (hlen2 : sw.length ≤ 65535) (hs : sw.Sorted (· ≤ ·)) (hmem : last ∈ sw) :
    ∃ (L : Nat) (A B : List Int), L < sw.length ∧ sw.getD L 0 = last ∧
      rank_filter_update_window sw sw.length last new = A ++ new :: B ∧
      A ++ B = sw.take L ++ sw.drop (L + 1) ∧ (∀ a ∈ A, a < new) ∧ (∀ b ∈ B, new ≤ b) := by
  have hscan := rank_scan_eq sw last new sw.length 0 (-1) (-1)
  simp only [if_true] at hscan
  -- the retired sample is found
  obtain ⟨L, hFL, hL, hLp⟩ : ∃ L : Nat,
      first_index_from (fun v => decide (v = last)) sw sw.length 0 = (L : Int) ∧
      L < sw.length ∧ sw.getD L 0 = last := by
    rcases first_index_from_spec (fun v => decide (v = last)) sw sw.length 0 with
      ⟨_, h2⟩ | ⟨m, h1, _, h3, h4, _⟩
    · obtain ⟨j, hj, e⟩ := List.mem_iff_getElem.mp hmem
      have := h2 j (by omega) (by omega)
      rw [getD_of_lt sw j hj, e] at this
      simp at this
    · exact ⟨m, h1, by omega, by simpa using h4⟩
  refine ⟨L, ?_⟩
  unfold rank_filter_update_window
  rw [hscan]
  simp only [hFL]
  rcases first_index_from_spec (fun v => decide (v ≥ new)) sw sw.length 0 with
    ⟨hFN, hall⟩ | ⟨N, hFN, _, hN, hNp, hbelow⟩
  · -- every element is below the new sample
    have hlt : ∀ x ∈ sw, x < new := by
      intro x hx
      obtain ⟨j, hj, e⟩ := List.mem_iff_getElem.mp hx
      have := hall j (by omega) (by omega)
      rw [getD_of_lt sw j hj, e] at this
      simpa using this
    simp only [hFN, if_true]
    by_cases hc : L + 1 < sw.length
    · have hc1 : (L : Int) < (sw.length : Int) - 1 := by omega
      simp only [hc1, if_true]
      refine ⟨sw.take L ++ sw.drop (L + 1), [], hL, hLp,
        shift_left_end_form sw L new hc hlen2, by simp, ?_, by simp⟩
      intro a ha
      rcases List.mem_append.mp ha with h | h
      · exact hlt a (List.mem_of_mem_take h)
      · exact hlt a (List.mem_of_mem_drop h)
    · have hc1 : ¬ (L : Int) < (sw.length : Int) - 1 := by omega
      have hc2 : ¬ (L : Int) > (sw.length : Int) - 1 := by omega
      simp only [hc1, hc2, if_false]
      refine ⟨sw.take L, sw.drop (L + 1), hL, hLp, store_item_form sw L new hL, rfl, ?_, ?_⟩
      · intro a ha
        exact hlt a (List.mem_of_mem_take ha)
      · intro b hb
        rw [List.drop_of_length_le (by omega)] at hb
        simp at hb
  · -- the new sample goes before index N
    have hNge : new ≤ sw.getD N 0 := by simpa using hNp
    have hbelow2 : ∀ j, j < N → sw.getD j 0 < new := by
      intro j hj
      have := hbelow j (by omega) hj
      simpa using this
    have hA : ∀ x ∈ sw.take N, x < new := by
      intro x hx
      obtain ⟨j, hj1, _, e⟩ := mem_take_index sw N x hx
      rw [← e]
      exact hbelow2 j hj1
    have hB : ∀ x ∈ sw.drop N, new ≤ x := by
      intro x hx
      obtain ⟨j, hj1, hj2, e⟩ := mem_drop_index sw N x hx
      rw [← e]
      exact le_trans hNge (sorted_getD sw hs N j hj1 hj2)
    have hne : ¬ ((N : Int) = -1) := by omega
    simp only [hFN, hne, if_false]
    rcases Nat.lt_trichotomy L N with hlt | heq | hgt
    · have hc1 : (L : Int) < (N : Int) := by omega
      simp only [hc1, if_true]
      refine ⟨sw.take L ++ (sw.drop (L + 1)).take (N - L - 1), sw.drop N, hL, hLp,
        shift_left_form sw L N new hlt (by omega) hlen2, ?_, ?_, hB⟩
      · rw [List.append_assoc]
        congr 1
        have e : sw.drop N = (sw.drop (L + 1)).drop (N - L - 1) := by
          rw [List.drop_drop]
          congr 1
          omega
        rw [e, List.take_append_drop]
      · intro a ha
        rcases List.mem_append.mp ha with h | h
        · obtain ⟨j, hj1, _, e⟩ := mem_take_index sw L a h
          rw [← e]
          exact hbelow2 j (by omega)
        · obtain ⟨j, hj1, hj2, e⟩ := mem_take_index _ _ a h
          rw [List.getD_eq_getElem?_getD, List.getElem?_drop,
            ← List.getD_eq_getElem?_getD] at e
          rw [← e]
          exact hbelow2 _ (by omega)
    · subst heq
      have hc1 : ¬ (L : Int) < (L : Int) := by omega
      have hc2 : ¬ (L : Int) > (L : Int) := by omega
      simp only [hc1, hc2, if_false]
      refine ⟨sw.take L, sw.drop (L + 1), hL, hLp, store_item_form sw L new hL, rfl, hA, ?_⟩
      intro b hb
      exact hB b (by
        have e : sw.drop (L + 1) = (sw.drop L).drop 1 := by rw [List.drop_drop]
        rw [e] at hb
        exact List.mem_of_mem_drop hb)
    · have hc1 : ¬ (L : Int) < (N : Int) := by omega
      have hc2 : (L : Int) > (N : Int) := by omega
      simp only [hc1, hc2, if_false, if_true]
      refine ⟨sw.take N, (sw.drop N).take (L - N) ++ sw.drop (L + 1), hL, hLp,
        shift_right_form sw L N new hgt hL hlen2, ?_, hA, ?_⟩
      · rw [← List.append_assoc]
        congr 1
        have e : L = N + (L - N) := by omega
        conv_rhs => rw [e]
        rw [List.take_add]
      · intro b hb
        rcases List.mem_append.mp hb with h | h
        · exact hB b (List.mem_of_mem_take h)
        · have e : sw.drop (L + 1) = (sw.drop N).drop (L + 1 - N) := by
            rw [List.drop_drop]
            congr 1
            omega
          rw [e] at h
          exact hB b (List.mem_of_mem_drop h)

/-! ## Rank filter: sorting -/

theorem qsort_insert_perm (x : Int) (l : List Int) :
    (qsort_insert sort_cmp_func x l).Perm (x :: l) := by
  induction l with
  | nil => exact List.Perm.refl _
  | cons y ys ih =>
    rw [qsort_insert]
    split
    · exact List.Perm.refl _
    · exact (List.Perm.cons y ih).trans (List.Perm.swap x y ys)

theorem qsort_list_perm (l : List Int) : (qsort_list sort_cmp_func l).Perm l := by
  induction l with
  | nil => exact List.Perm.refl _
  | cons x xs ih =>
    rw [qsort_list]
    exact (qsort_insert_perm x _).trans (List.Perm.cons x ih)

theorem qsort_insert_sorted (x : Int) (l : List Int) (h : l.Sorted (· ≤ ·)) :
    (qsort_insert sort_cmp_func x l).Sorted (· ≤ ·) := by
  induction l with
  | nil => simp [qsort_insert]
  | cons y ys ih =>
    rw [qsort_insert]
    have hy := List.sorted_cons.mp h
    split
    · rename_i hc
      have hxy : x ≤ y := by unfold sort_cmp_func at hc; omega
      exact List.sorted_cons.mpr ⟨fun b hb => by
        rcases List.mem_cons.mp hb with e | e
        · rw [e]; exact hxy
        · exact le_trans hxy (hy.1 b e), h⟩
    · rename_i hc
      have hyx : y ≤ x := by unfold sort_cmp_func at hc; omega
      refine List.sorted_cons.mpr ⟨fun b hb => ?_, ih hy.2⟩
      have := (qsort_insert_perm x ys).subset hb
      rcases List.mem_cons.mp this with e | e
      · rw [e]; exact hyx
      · exact hy.1 b e

theorem qsort_list_sorted (l : List Int) : (qsort_list sort_cmp_func l).Sorted (· ≤ ·) := by
  induction l with
  | nil => simp [qsort_list]
  | cons x xs ih =>
    rw [qsort_list]
    exact qsort_insert_sorted x _ ih

theorem qsort_list_length (l : List Int) : (qsort_list sort_cmp_func l).length = l.length :=
  (qsort_list_perm l).length_eq

theorem sorted_perm_unique (a b : List Int) (ha : a.Sorted (· ≤ ·)) (hb : b.Sorted (· ≤ ·))
    (h : a.Perm b) : a = b :=
  List.eq_of_perm_of_sorted h ha hb

theorem qsort_list_unique (s l : List Int) (hs : s.Sorted (· ≤ ·)) (hp : s.Perm l) :
    qsort_list sort_cmp_func l = s :=
  sorted_perm_unique _ _ (qsort_list_sorted l) hs ((qsort_list_perm l).trans hp.symm)

theorem rank_filter_update_window_sorted_perm (sw : List Int) (last new : Int)
    (hlen2 : sw.length ≤ 65535) (hs : sw.Sorted (· ≤ ·)) (hmem : last ∈ sw) :
    (rank_filter_update_window sw sw.length last new).Sorted (· ≤ ·) ∧
    (rank_filter_update_window sw sw.length last new).Perm (new :: sw.erase last) := by
  obtain ⟨L, A, B, hL, hLp, hres, hAB, hA, hB⟩ :=
    rank_filter_update_window_decomp sw last new hlen2 hs hmem
  have hsplit : sw = sw.take L ++ sw[L] :: sw.drop (L + 1) := by
    rw [← List.drop_eq_getElem_cons hL, List.take_append_drop]
  have hlast : sw[L] = last := by rw [← getD_of_lt sw L hL]; exact hLp
  have hsub : (A ++ B).Sublist sw := by
    rw [hAB]
    conv_rhs => rw [hsplit]
    exact List.Sublist.append (List.Sublist.refl _) (List.sublist_cons_self _ _)
  have hsAB : (A ++ B).Sorted (· ≤ ·) := List.Pairwise.sublist hsub hs
  have hpw := List.pairwise_append.mp hsAB
  refine ⟨?_, ?_⟩
  · rw [hres]
    refine List.pairwise_append.mpr ⟨hpw.1, ?_, ?_⟩
    · exact List.sorted_cons.mpr ⟨hB, hpw.2.1⟩
    · intro a ha b hb
      rcases List.mem_cons.mp hb with e | e
      · rw [e]; exact le_of_lt (hA a ha)
      · exact hpw.2.2 a ha b e
  · rw [hres]
    have h1 : (A ++ new :: B).Perm (new :: (A ++ B)) := List.perm_middle
    have h2 : sw.Perm (last :: (A ++ B)) := by
      rw [hAB]
      conv_lhs => rw [hsplit, hlast]
      exact List.perm_middle
    have h3 : sw.Perm (last :: sw.erase last) := List.perm_cons_erase hmem
    have h4 : (A ++ B).Perm (sw.erase last) := (List.Perm.cons_inv (h2.symm.trans h3))
    exact h1.trans (List.Perm.cons new h4)

theorem rank_filter_update_window_sort (last new : Int) (tail : List Int)
    (hlen : tail.length + 1 ≤ 65535) :
    rank_filter_update_window (qsort_list sort_cmp_func (last :: tail)) (tail.length + 1)
        last new
      = qsort_list sort_cmp_func (tail ++ [new]) := by
  have hl : (qsort_list sort_cmp_func (last :: tail)).length = tail.length + 1 := by
    rw [qsort_list_length]; rfl
  have hp := qsort_list_perm (last :: tail)
  have hmem : last ∈ qsort_list sort_cmp_func (last :: tail) :=
    hp.symm.subset (List.mem_cons_self _ _)
  obtain ⟨h1, h2⟩ := rank_filter_update_window_sorted_perm
    (qsort_list sort_cmp_func (last :: tail)) last new (by omega)
    (qsort_list_sorted _) hmem
  rw [hl] at h1 h2
  have h3 : ((qsort_list sort_cmp_func (last :: tail)).erase last).Perm tail := by
    have := List.Perm.erase last hp
    simpa using this
  symm
  apply qsort_list_unique _ _ h1
  exact h2.trans ((List.Perm.cons new h3).trans (List.perm_append_singleton new tail).symm)

/-! ## Rank filter: the streaming invariant -/

theorem rank_filter_filter_sample_state (f : RankFilter_t) (w rank : Nat) (x : Int)
    (xs : List Int) (s : Int) (hw1 : 1 ≤ w) (hw2 : w ≤ 32767) (hs : is_int16 s)
    (h : RF_state f w rank (x :: xs)) :
    ∃ f2, rank_filter_filter_sample f s =
        (FilterStatus_t.FilterOK, f2,
          some ((qsort_list sort_cmp_func (xs ++ [s])).getD rank 0)) ∧
      RF_state f2 w rank (xs ++ [s]) := by
  obtain ⟨hws, hrk, hinit, his, hS, hh, hlen, hrange, hsw⟩ := h
  have hxsr : ∀ y ∈ xs, is_int16 y := fun y hy => hrange y (by simp [hy])
  have hx : is_int16 x := hrange x (by simp)
  have hnewr : ∀ y ∈ xs ++ [s], is_int16 y := by
    intro y hy
    rcases List.mem_append.mp hy with h1 | h1
    · exact hxsr y h1
    · simp at h1; rw [h1]; exact hs
  have hlen2 : xs.length + 1 = w := by simpa using hlen
  have hbl : (int16s_to_bytes (x :: xs)).length = 2 * w := by
    rw [int16s_to_bytes_length, hlen]
  obtain ⟨fifo2, hrd, hh2, his2, hfs2, hS2, hfl2, hr2⟩ :=
    FIFO_read_holds f.fifo (int16s_to_bytes (x :: xs)) 1 his hh (by omega)
  have htake : (int16s_to_bytes (x :: xs)).take (2 * 1) = int16s_to_bytes [x] := by
    rw [int16s_to_bytes_take]; rfl
  have hdrop : (int16s_to_bytes (x :: xs)).drop (2 * 1) = int16s_to_bytes xs := by
    rw [int16s_to_bytes_drop]; rfl
  rw [htake] at hrd
  rw [hdrop] at hh2
  have hsb : int16_to_bytes s = int16s_to_bytes [s] := by simp [int16s_to_bytes]
  obtain ⟨fifo3, hwr, hh3, his3, hfs3, hS3, hfl3, hr3⟩ :=
    FIFO_write_holds fifo2 (int16s_to_bytes xs) (int16_to_bytes s) [] 1 his2 hh2
      (by simp [int16_to_bytes])
      (by rw [int16s_to_bytes_length, hS2, hS]; omega)
  rw [List.append_nil] at hwr
  rw [hsb, ← int16s_to_bytes_append] at hh3
  have hlast : int16_at (int16s_to_bytes [x]) 0 = x := by
    have := int16_at_bytes_nil [x] (by intro y hy; simp at hy; rw [hy]; exact hx) 0 (by simp)
    simpa using this
  have hupd : rank_filter_update_window (qsort_list sort_cmp_func (x :: xs)) w x s
      = qsort_list sort_cmp_func (xs ++ [s]) := by
    rw [← hlen2]
    exact rank_filter_update_window_sort x s xs (by omega)
  refine ⟨{ f with fifo := fifo3,
                   sorted_window := some (qsort_list sort_cmp_func (xs ++ [s])) }, ?_,
    ⟨hws, hrk, hinit, his3, by rw [hS3, hS2, hS], hh3, by simp; omega, hnewr, rfl⟩⟩
  unfold rank_filter_filter_sample rank_filter_compute_next_sample
  have hi : ¬ f.initialized = 0 := by omega
  simp only [hi, if_false, hrd, ne_eq, not_true_eq_false, hwr, hlast, hws, hrk, hsw,
    Option.map_some', hupd, Option.getD_some]

theorem rank_filter_fill_state (f0 : RankFilter_t) (buf : List Nat) (w rank : Nat)
    (mem : List Int) (data : List Int) (hw1 : 1 ≤ w) (hw2 : w ≤ 32767) (hrank : rank < w)
    (hbuf : 2 * w ≤ buf.length) (hmem : mem.length = w) (hd : w ≤ data.length)
    (hdr : ∀ x ∈ data, is_int16 x) :
    (rank_filter_init f0 (some buf) w rank (some mem)).1 = FilterStatus_t.FilterOK ∧
    ∃ f2, rank_filter_fill_buffer (rank_filter_init f0 (some buf) w rank (some mem)).2 data =
        (FilterStatus_t.FilterOK, f2,
          some ((qsort_list sort_cmp_func (data.take w)).getD rank 0)) ∧
      RF_state f2 w rank (data.take w) := by
  have hwr : ∀ y ∈ data.take w, is_int16 y := fun y hy => hdr y (List.mem_of_mem_take hy)
  have htl : (data.take w).length = w := by simp; omega
  have hbl : (int16s_to_bytes (data.take w)).length = 2 * w := by
    rw [int16s_to_bytes_length, htl]
  have hrk : ¬ (rank : Int) > (w : Int) - 1 := by omega
  have hinit : rank_filter_init f0 (some buf) w rank (some mem) =
      (FilterStatus_t.FilterOK,
       { f0 with window_size := w, rank := rank, initialized := 0, sorted_window := some mem,
                 fifo := FIFO_init f0.fifo (some buf) w 2 FIFO_NO_FLAGS }) := by
    unfold rank_filter_init
    simp only [hrk, if_false, reduceCtorEq]
  obtain ⟨hh0, his0, hfs0, hS0, hfl0, hr0⟩ :=
    FIFO_init_holds f0.fifo buf w FIFO_NO_FLAGS hw1 hw2 hbuf
  have hsplit : int16s_to_bytes data =
      int16s_to_bytes (data.take w) ++ int16s_to_bytes (data.drop w) := by
    rw [← int16s_to_bytes_append, List.take_append_drop]
  obtain ⟨fifo1, hwr1, hh1, his1, hfs1, hS1, hfl1, hr1⟩ :=
    FIFO_write_holds (FIFO_init f0.fifo (some buf) w 2 FIFO_NO_FLAGS) []
      (int16s_to_bytes (data.take w)) (int16s_to_bytes (data.drop w)) w his0 hh0 hbl
      (by rw [hS0]; simp)
  rw [← hsplit] at hwr1
  rw [List.nil_append] at hh1
  obtain ⟨fifo2, hrd2, hh2, his2, hfs2, hS2, hfl2, hr2⟩ :=
    FIFO_read_holds fifo1 (int16s_to_bytes (data.take w)) w his1 hh1 (by omega)
  rw [List.take_of_length_le (by omega)] at hrd2
  rw [List.drop_of_length_le (by omega)] at hh2
  obtain ⟨fifo3, hwr3, hh3, his3, hfs3, hS3, hfl3, hr3⟩ :=
    FIFO_write_holds fifo2 [] (int16s_to_bytes (data.take w)) [] w his2 hh2 hbl
      (by rw [hS2, hS1, hS0]; simp)
  rw [List.append_nil] at hwr3
  rw [List.nil_append] at hh3
  have hS3e : fifo3.fifo8.FIFO_size = 2 * w := by rw [hS3, hS2, hS1, hS0]
  have hbuf2 : bytes_to_int16s (int16s_to_bytes (data.take w)) w = data.take w := by
    have := bytes_to_int16s_bytes_nil (data.take w) hwr
    rwa [htl] at this
  have hsort : qsort (memcpy_items mem (data.take w) w) w sort_cmp_func
      = qsort_list sort_cmp_func (data.take w) := by
    unfold qsort memcpy_items
    rw [List.take_of_length_le (le_of_eq htl), List.drop_of_length_le (le_of_eq hmem),
      List.append_nil, List.take_of_length_le (le_of_eq htl),
      List.drop_of_length_le (le_of_eq htl), List.append_nil]
  refine ⟨by rw [hinit], ?_⟩
  rw [hinit]
  refine ⟨{ f0 with window_size := w, rank := rank, initialized := 1,
                    sorted_window := some (qsort_list sort_cmp_func (data.take w)),
                    fifo := fifo3 }, ?_,
    ⟨rfl, rfl, rfl, his3, hS3e, hh3, htl, hwr, rfl⟩⟩
  unfold rank_filter_fill_buffer rank_filter_compute_first_output
  simp only [ne_eq, not_true_eq_false, if_false, hwr1, hrd2, hwr3, hbuf2, Option.map_some',
    hsort, Option.getD_some]

theorem rank_filter_run_state (w rank : Nat) (hw1 : 1 ≤ w) (hw2 : w ≤ 32767) (rest : List Int) :
    ∀ (f : RankFilter_t) (win : List Int), RF_state f w rank win →
      (∀ s ∈ rest, is_int16 s) →
      ∃ f2, rank_filter_run f rest =
          (f2, (List.range rest.length).map (fun k =>
            (FilterStatus_t.FilterOK,
              some ((qsort_list sort_cmp_func
                (window_at (win ++ rest) w (k + 1))).getD rank 0)))) ∧
        RF_state f2 w rank (window_at (win ++ rest) w rest.length) := by
  induction rest with
  | nil =>
    intro f win h _
    have hl : win.length = w := h.2.2.2.2.2.2.1
    refine ⟨f, by simp [rank_filter_run], ?_⟩
    simpa [window_at, List.take_of_length_le (le_of_eq hl)] using h
  | cons s rest ih =>
    intro f win h hr
    have hl : win.length = w := h.2.2.2.2.2.2.1
    match win, h, hl with
    | [], _, hl => simp at hl; omega
    | x :: xs, h, hl =>
      have hxl : xs.length + 1 = w := by simpa using hl
      obtain ⟨f1, hstep, hst1⟩ :=
        rank_filter_filter_sample_state f w rank x xs s hw1 hw2 (hr s (by simp)) h
      obtain ⟨f2, hrun, hst2⟩ := ih f1 (xs ++ [s]) hst1 (fun y hy => hr y (by simp [hy]))
      have e1 : window_at (x :: xs ++ s :: rest) w (0 + 1) = xs ++ [s] := by
        simp only [window_at, Nat.zero_add, List.cons_append, List.drop_succ_cons, List.drop_zero]
        rw [show xs ++ s :: rest = (xs ++ [s]) ++ rest by simp,
          List.take_left' (by simp; omega)]
      have e2 : ∀ k, window_at (x :: xs ++ s :: rest) w (k + 1 + 1)
          = window_at (xs ++ [s] ++ rest) w (k + 1) := by
        intro k
        simp [window_at]
      refine ⟨f2, ?_, ?_⟩
      · rw [rank_filter_run]
        simp only [hstep, hrun, List.length_cons, List.range_succ_eq_map, List.map_cons,
          List.map_map, e1]
        congr 2
        apply List.map_congr_left
        intro k _
        simp only [Function.comp, e2]
      · have e3 : window_at (x :: xs ++ s :: rest) w (s :: rest).length
            = window_at (xs ++ [s] ++ rest) w rest.length := by
          simp [window_at]
        rw [e3]
        exact hst2

theorem rank_filter_stream_spec (f0 : RankFilter_t) (buf : List Nat) (w rank : Nat)
    (mem : List Int) (x : List Int) (hw1 : 1 ≤ w) (hw2 : w ≤ 32767) (hrank : rank < w)
    (hbuf : 2 * w ≤ buf.length) (hmem : mem.length = w) (hx : w ≤ x.length)
    (hxr : ∀ s ∈ x, is_int16 s) :
    ∃ f2, rank_filter_stream f0 (some buf) w rank (some mem) x =
        (FilterStatus_t.FilterOK, f2,
          (List.range (x.length - w + 1)).map (fun k =>
            (FilterStatus_t.FilterOK,
              some ((qsort_list sort_cmp_func (window_at x w k)).getD rank 0)))) ∧
      RF_state f2 w rank (window_at x w (x.length - w)) := by
  obtain ⟨hi, f1, hfill, hst1⟩ :=
    rank_filter_fill_state f0 buf w rank mem x hw1 hw2 hrank hbuf hmem hx hxr
  obtain ⟨f2, hrun, hst2⟩ := rank_filter_run_state w rank hw1 hw2 (x.drop w) f1 (x.take w) hst1
    (fun s hs => hxr s (List.mem_of_mem_drop hs))
  rw [List.take_append_drop] at hrun hst2
  rw [List.length_drop] at hrun hst2
  refine ⟨f2, ?_, hst2⟩
  unfold rank_filter_stream
  simp only [hi, hfill, hrun, List.range_succ_eq_map, List.map_cons, List.map_map]
  have e0 : window_at x w 0 = x.take w := by simp [window_at]
  rw [e0]
  rfl

/-! ## Rank filter: theorems -/

theorem RF_state_observe (f : RankFilter_t) (w rank : Nat) (win : List Int)
    (h : RF_state f w rank win) :
    f.sorted_window = some (qsort_list sort_cmp_func win) ∧
    (FIFO_read f.fifo w).1 = FIFO_error_t.FIFO_OK ∧
    bytes_to_int16s (FIFO_read f.fifo w).2.2.1 w = win := by
  obtain ⟨hws, hrk, hinit, his, hS, hh, hlen, hrange, hsw⟩ := h
  have hbl : (int16s_to_bytes win).length = 2 * w := by rw [int16s_to_bytes_length, hlen]
  obtain ⟨fifo2, hrd, _⟩ := FIFO_read_holds f.fifo (int16s_to_bytes win) w his hh (by omega)
  rw [List.take_of_length_le (by omega)] at hrd
  refine ⟨hsw, by rw [hrd], ?_⟩
  rw [hrd]
  have := bytes_to_int16s_bytes_nil win hrange
  rwa [hlen] at this

theorem rank_filter_filter_sequence_eq (data : List Int) (n w rank : Nat) (hw1 : 1 ≤ w)
    (hwn : w ≤ n) (hn : n ≤ 32767) (hrank : rank ≤ w) :
    rank_filter_filter_sequence data (n : Int) w rank =
      (FilterStatus_t.FilterOK,
       (List.range (n - w + 1)).map (fun i =>
         (i, (qsort_list sort_cmp_func (window_at data w i)).getD rank 0)),
       some (n - w + 1)) := by
  have hgt : ¬ rank > w := by omega
  have hds : to_uint32 ((n : Nat) : Int) = n := to_uint32_of_range (by omega)
  have hl := (output_len_eq n w hwn hw1 (by omega)).1
  have hwin : ∀ i, qsort (memcpy_items (List.replicate w 0) (data.drop i) w) w sort_cmp_func
      = qsort_list sort_cmp_func (window_at data w i) := by
    intro i
    have hle : (window_at data w i).length ≤ w := by simp [window_at]
    have hrep : (List.replicate w (0 : Int)).drop w = [] :=
      List.drop_of_length_le (by simp)
    have hm : memcpy_items (List.replicate w 0) (data.drop i) w = window_at data w i := by
      unfold memcpy_items window_at
      rw [hrep, List.append_nil]
    rw [hm]
    unfold qsort
    rw [List.take_of_length_le hle, List.drop_of_length_le hle, List.append_nil]
  unfold rank_filter_filter_sequence
  simp only [hgt, if_false, hds, hl, hwin]

/-- C2: rank filter sorted-window invariant.  For a window size
`1 <= w <= 32767`, a rank below `w`, storage of `2 * w` bytes, an allocated
sorted window of `w` elements and `int16_t` samples `x` (the first `w` given to
the fill, the others to the steps): the init, the fill and every step return
`FilterOK`; after the last call `sorted_window` has `w` elements in ascending
order and is a permutation of the `w` samples read back from the ring, which are
the `w` most recent samples in arrival order.  Moreover the in-place update
turns every ascending window containing the retired sample into an ascending
permutation of the window with one occurrence of the retired sample replaced by
the new sample. -/
theorem C2_sorted_window_invariant (f0 : RankFilter_t) (buf : List Nat) (w rank : Nat)
    (mem : List Int) (x : List Int) (hw1 : 1 ≤ w) (hw2 : w ≤ 32767) (hrank : rank < w)
    (hbuf : buf.length = 2 * w) (hmem : mem.length = w) (hx : w ≤ x.length)
    (hxr : ∀ s ∈ x, is_int16 s) :
    (rank_filter_stream f0 (some buf) w rank (some mem) x).1 = FilterStatus_t.FilterOK ∧
    (∀ r ∈ (rank_filter_stream f0 (some buf) w rank (some mem) x).2.2,
      r.1 = FilterStatus_t.FilterOK) ∧
    (∃ sw, (rank_filter_stream f0 (some buf) w rank (some mem) x).2.1.sorted_window = some sw ∧
      sw.length = w ∧ sw.Sorted (· ≤ ·) ∧
      sw.Perm (bytes_to_int16s
        (FIFO_read (rank_filter_stream f0 (some buf) w rank (some mem) x).2.1.fifo w).2.2.1 w)) ∧
    (FIFO_read (rank_filter_stream f0 (some buf) w rank (some mem) x).2.1.fifo w).1
      = FIFO_error_t.FIFO_OK ∧
    bytes_to_int16s
        (FIFO_read (rank_filter_stream f0 (some buf) w rank (some mem) x).2.1.fifo w).2.2.1 w
      = window_at x w (x.length - w) ∧
    (∀ (sw : List Int) (last new : Int), sw.length ≤ 65535 → sw.Sorted (· ≤ ·) → last ∈ sw →
      (rank_filter_update_window sw sw.length last new).Sorted (· ≤ ·) ∧
      (rank_filter_update_window sw sw.length last new).Perm (new :: sw.erase last)) := by
  obtain ⟨f2, hs, hst⟩ := rank_filter_stream_spec f0 buf w rank mem x hw1 hw2 hrank
    (by omega) hmem hx hxr
  obtain ⟨h1, h2, h3⟩ := RF_state_observe f2 w rank _ hst
  have hwl : (window_at x w (x.length - w)).length = w :=
    window_at_length x w (x.length - w) (by omega)
  rw [hs]
  refine ⟨rfl, ?_, ⟨_, h1, ?_, qsort_list_sorted _, ?_⟩, h2, h3,
    fun sw last new hl hso hm => rank_filter_update_window_sorted_perm sw last new hl hso hm⟩
  · intro r hr
    simp only [List.mem_map] at hr
    obtain ⟨k, _, hk⟩ := hr
    rw [← hk]
  · rw [qsort_list_length, hwl]
  · show (qsort_list sort_cmp_func (window_at x w (x.length - w))).Perm
      (bytes_to_int16s (FIFO_read f2.fifo w).2.2.1 w)
    rw [h3]
    exact qsort_list_perm _

theorem C2_sorted_window_invariant_witness :
    (rank_filter_stream ⟨none, 0, 0, 0, ⟨⟨none, 0, 0, 0, 0, 0⟩, 0, 0⟩⟩ (some [0, 0, 0, 0, 0, 0])
        3 1 (some [0, 0, 0]) [3, 1, 3, 9, -5]).1 = FilterStatus_t.FilterOK ∧
    (∃ sw, (rank_filter_stream ⟨none, 0, 0, 0, ⟨⟨none, 0, 0, 0, 0, 0⟩, 0, 0⟩⟩
        (some [0, 0, 0, 0, 0, 0]) 3 1 (some [0, 0, 0]) [3, 1, 3, 9, -5]).2.1.sorted_window
          = some sw ∧
      sw.length = 3 ∧ sw.Sorted (· ≤ ·) ∧
      sw.Perm (bytes_to_int16s
        (FIFO_read (rank_filter_stream ⟨none, 0, 0, 0, ⟨⟨none, 0, 0, 0, 0, 0⟩, 0, 0⟩⟩
          (some [0, 0, 0, 0, 0, 0]) 3 1 (some [0, 0, 0]) [3, 1, 3, 9, -5]).2.1.fifo 3).2.2.1 3)) ∧
    bytes_to_int16s
        (FIFO_read (rank_filter_stream ⟨none, 0, 0, 0, ⟨⟨none, 0, 0, 0, 0, 0⟩, 0, 0⟩⟩
          (some [0, 0, 0, 0, 0, 0]) 3 1 (some [0, 0, 0]) [3, 1, 3, 9, -5]).2.1.fifo 3).2.2.1 3
      = window_at [3, 1, 3, 9, -5] 3 ([3, 1, 3, 9, -5].length - 3) ∧
    (rank_filter_update_window [1, 3, 3] [1, 3, 3].length 3 100).Sorted (· ≤ ·) ∧
    (rank_filter_update_window [1, 3, 3] [1, 3, 3].length 3 100).Perm
      (100 :: [1, 3, 3].erase 3) :=
  ⟨(C2_sorted_window_invariant _ [0, 0, 0, 0, 0, 0] 3 1 [0, 0, 0] [3, 1, 3, 9, -5]
      (by decide) (by decide) (by decide) (by decide) (by decide) (by decide) (by decide)).1,
   (C2_sorted_window_invariant _ [0, 0, 0, 0, 0, 0] 3 1 [0, 0, 0] [3, 1, 3, 9, -5]
      (by decide) (by decide) (by decide) (by decide) (by decide) (by decide)
      (by decide)).2.2.1,
   (C2_sorted_window_invariant _ [0, 0, 0, 0, 0, 0] 3 1 [0, 0, 0] [3, 1, 3, 9, -5]
      (by decide) (by decide) (by decide) (by decide) (by decide) (by decide)
      (by decide)).2.2.2.2.1,
   (C2_sorted_window_invariant ⟨none, 0, 0, 0, ⟨⟨none, 0, 0, 0, 0, 0⟩, 0, 0⟩⟩
      [0, 0, 0, 0, 0, 0] 3 1 [0, 0, 0] [3, 1, 3, 9, -5]
      (by decide) (by decide) (by decide) (by decide) (by decide) (by decide)
      (by decide)).2.2.2.2.2 [1, 3, 3] 3 100 (by decide) (by decide) (by decide)⟩

/-- C3: rank filter streaming/batch equivalence.  For `int16_t` data of length
`n <= 32767`, a window size `1 <= w <= n` and a rank below `w`, the batch call
returns `FilterOK`, reports `n - w + 1` outputs and stores the slots
`0, ..., n - w` in order; the streaming init succeeds, and the fill and the steps
all return `FilterOK` with exactly the batch values in the same order. -/
theorem C3_rank_stream_batch_equivalence (f0 : RankFilter_t) (buf : List Nat) (w rank : Nat)
    (mem : List Int) (data : List Int) (hw1 : 1 ≤ w) (hwn : w ≤ data.length)
    (hn : data.length ≤ 32767) (hrank : rank < w) (hbuf : buf.length = 2 * w)
    (hmem : mem.length = w) (hdr : ∀ s ∈ data, is_int16 s) :
    (rank_filter_filter_sequence data (data.length : Int) w rank).1 = FilterStatus_t.FilterOK ∧
    (rank_filter_filter_sequence data (data.length : Int) w rank).2.2
      = some (data.length - w + 1) ∧
    (rank_filter_filter_sequence data (data.length : Int) w rank).2.1.map Prod.fst
      = List.range (data.length - w + 1) ∧
    (rank_filter_stream f0 (some buf) w rank (some mem) data).1 = FilterStatus_t.FilterOK ∧
    (rank_filter_stream f0 (some buf) w rank (some mem) data).2.2
      = (rank_filter_filter_sequence data (data.length : Int) w rank).2.1.map
          (fun p => (FilterStatus_t.FilterOK, some p.2)) := by
  obtain ⟨f2, hs, _⟩ := rank_filter_stream_spec f0 buf w rank mem data hw1 (by omega) hrank
    (by omega) hmem hwn hdr
  rw [hs, rank_filter_filter_sequence_eq data data.length w rank hw1 hwn hn (by omega)]
  refine ⟨rfl, rfl, ?_, rfl, ?_⟩
  · simp only [List.map_map]
    apply List.ext_getElem
    · simp
    · intro i h1 h2
      simp
  · simp only [List.map_map]
    apply List.map_congr_left
    intro k _
    rfl

theorem C3_rank_stream_batch_equivalence_witness :
    (rank_filter_filter_sequence [44, 2, 21, 5, 11, 14, 32, 65]
      (([44, 2, 21, 5, 11, 14, 32, 65] : List Int).length : Int) 3 2).1
        = FilterStatus_t.FilterOK ∧
    (rank_filter_filter_sequence [44, 2, 21, 5, 11, 14, 32, 65]
      (([44, 2, 21, 5, 11, 14, 32, 65] : List Int).length : Int) 3 2).2.2
        = some (([44, 2, 21, 5, 11, 14, 32, 65] : List Int).length - 3 + 1) ∧
    (rank_filter_filter_sequence [44, 2, 21, 5, 11, 14, 32, 65]
      (([44, 2, 21, 5, 11, 14, 32, 65] : List Int).length : Int) 3 2).2.1.map Prod.fst
        = List.range (([44, 2, 21, 5, 11, 14, 32, 65] : List Int).length - 3 + 1) ∧
    (rank_filter_stream ⟨none, 0, 0, 0, ⟨⟨none, 0, 0, 0, 0, 0⟩, 0, 0⟩⟩
      (some [0, 0, 0, 0, 0, 0]) 3 2 (some [0, 0, 0]) [44, 2, 21, 5, 11, 14, 32, 65]).1
        = FilterStatus_t.FilterOK ∧
    (rank_filter_stream ⟨none, 0, 0, 0, ⟨⟨none, 0, 0, 0, 0, 0⟩, 0, 0⟩⟩
      (some [0, 0, 0, 0, 0, 0]) 3 2 (some [0, 0, 0]) [44, 2, 21, 5, 11, 14, 32, 65]).2.2
        = (rank_filter_filter_sequence [44, 2, 21, 5, 11, 14, 32, 65]
            (([44, 2, 21, 5, 11, 14, 32, 65] : List Int).length : Int) 3 2).2.1.map
              (fun p => (FilterStatus_t.FilterOK, some p.2)) :=
  C3_rank_stream_batch_equivalence _ [0, 0, 0, 0, 0, 0] 3 2 [0, 0, 0]
    [44, 2, 21, 5, 11, 14, 32, 65] (by decide) (by decide) (by decide) (by decide)
    (by decide) (by decide) (by decide)

theorem qsort_list_eq_insertionSort (l : List Int) :
    qsort_list sort_cmp_func l = l.insertionSort (· ≤ ·) :=
  qsort_list_unique _ _ (List.sorted_insertionSort _ _) (List.perm_insertionSort _ _)

theorem rank_filter_filter_sequence_wrapped (data : List Int) (n w rank : Nat) (hw1 : 1 ≤ w)
    (hwn : w ≤ n) (hn : n ≤ 65535) (hrank : rank ≤ w) :
    rank_filter_filter_sequence data (to_int16 (n : Int)) w rank =
      (FilterStatus_t.FilterOK,
       (List.range (n - w + 1)).map (fun i =>
         (i, (qsort_list sort_cmp_func (window_at data w i)).getD rank 0)),
       some (n - w + 1)) := by
  have hgt : ¬ rank > w := by omega
  have hl : to_uint16 (filter_windowed_get_expected_output_len
      (to_uint32 (to_int16 (n : Int))) w) = n - w + 1 := by
    unfold filter_windowed_get_expected_output_len to_uint32 to_uint16 to_int16
    omega
  have hwin : ∀ i, qsort (memcpy_items (List.replicate w 0) (data.drop i) w) w sort_cmp_func
      = qsort_list sort_cmp_func (window_at data w i) := by
    intro i
    have hle : (window_at data w i).length ≤ w := by simp [window_at]
    have hrep : (List.replicate w (0 : Int)).drop w = [] :=
      List.drop_of_length_le (by simp)
    have hm : memcpy_items (List.replicate w 0) (data.drop i) w = window_at data w i := by
      unfold memcpy_items window_at
      rw [hrep, List.append_nil]
    rw [hm]
    unfold qsort
    rw [List.take_of_length_le hle, List.drop_of_length_le hle, List.append_nil]
  unfold rank_filter_filter_sequence
  simp only [hgt, if_false, hl, hwin]

/-- C5: batch rank filter equals the order statistic.  For data of length
`n <= 65535`, passed in the `int16_t` size parameter, a window size
`1 <= w <= n` and a rank below `w`, `rank_filter_filter_sequence` returns
`FilterOK`, reports `n - w + 1` outputs, and stores for `i = 0, ..., n - w` in
`y[i]` the element at index `rank` of the ascending sort of `data[i..i+w-1]`.
That element is a sample of the window; for `rank = w - 1` it is the window
maximum and for `rank = 0` the window minimum. -/
theorem C5_batch_rank_order_statistic (data : List Int) (w rank : Nat) (hw1 : 1 ≤ w)
    (hwn : w ≤ data.length) (hn : data.length ≤ 65535) (hrank : rank < w) :
    rank_filter_filter_sequence data (to_int16 (data.length : Int)) w rank =
      (FilterStatus_t.FilterOK,
       (List.range (data.length - w + 1)).map (fun i =>
         (i, ((window_at data w i).insertionSort (· ≤ ·)).getD rank 0)),
       some (data.length - w + 1)) ∧
    ∀ i, i ≤ data.length - w →
      ((window_at data w i).insertionSort (· ≤ ·)).getD rank 0 ∈ window_at data w i ∧
      (rank = w - 1 → ∀ v ∈ window_at data w i,
        v ≤ ((window_at data w i).insertionSort (· ≤ ·)).getD rank 0) ∧
      (rank = 0 → ∀ v ∈ window_at data w i,
        ((window_at data w i).insertionSort (· ≤ ·)).getD rank 0 ≤ v) := by
  refine ⟨?_, ?_⟩
  · rw [rank_filter_filter_sequence_wrapped data data.length w rank hw1 hwn hn (by omega)]
    simp only [qsort_list_eq_insertionSort]
  · intro i hi
    have hso : ((window_at data w i).insertionSort (· ≤ ·)).Sorted (· ≤ ·) :=
      List.sorted_insertionSort _ _
    have hpe : ((window_at data w i).insertionSort (· ≤ ·)).Perm (window_at data w i) :=
      List.perm_insertionSort _ _
    have hlen : ((window_at data w i).insertionSort (· ≤ ·)).length = w := by
      rw [hpe.length_eq]
      exact window_at_length data w i (by omega)
    refine ⟨?_, ?_, ?_⟩
    · apply hpe.subset
      rw [getD_of_lt _ rank (by omega)]
      exact List.getElem_mem _
    · intro hr v hv
      obtain ⟨j, hj, e⟩ := List.mem_iff_getElem.mp (hpe.symm.subset hv)
      rw [← e, ← getD_of_lt _ j hj]
      exact sorted_getD _ hso j rank (by omega) (by omega)
    · intro hr v hv
      obtain ⟨j, hj, e⟩ := List.mem_iff_getElem.mp (hpe.symm.subset hv)
      rw [← e, ← getD_of_lt _ j hj]
      exact sorted_getD _ hso rank j (by omega) hj

theorem C5_batch_rank_order_statistic_witness :
    rank_filter_filter_sequence [44, 2, 21, 5, 11, 14, 32, 65, 13, 11, -10, -25, 30, -40, 50, 1]
        (to_int16 (([44, 2, 21, 5, 11, 14, 32, 65, 13, 11, -10, -25, 30, -40, 50, 1]
          : List Int).length : Int)) 3 2 =
      (FilterStatus_t.FilterOK,
       (List.range
          (([44, 2, 21, 5, 11, 14, 32, 65, 13, 11, -10, -25, 30, -40, 50, 1] : List Int).length
            - 3 + 1)).map (fun i =>
         (i, ((window_at [44, 2, 21, 5, 11, 14, 32, 65, 13, 11, -10, -25, 30, -40, 50, 1]
                3 i).insertionSort (· ≤ ·)).getD 2 0)),
       some (([44, 2, 21, 5, 11, 14, 32, 65, 13, 11, -10, -25, 30, -40, 50, 1]
          : List Int).length - 3 + 1)) ∧
    ((window_at [44, 2, 21, 5, 11, 14, 32, 65, 13, 11, -10, -25, 30, -40, 50, 1]
        3 4).insertionSort (· ≤ ·)).getD 2 0
      ∈ window_at [44, 2, 21, 5, 11, 14, 32, 65, 13, 11, -10, -25, 30, -40, 50, 1] 3 4 ∧
    ∀ v ∈ window_at [44, 2, 21, 5, 11, 14, 32, 65, 13, 11, -10, -25, 30, -40, 50, 1] 3 4,
      v ≤ ((window_at [44, 2, 21, 5, 11, 14, 32, 65, 13, 11, -10, -25, 30, -40, 50, 1]
        3 4).insertionSort (· ≤ ·)).getD 2 0 :=
  ⟨(C5_batch_rank_order_statistic
      [44, 2, 21, 5, 11, 14, 32, 65, 13, 11, -10, -25, 30, -40, 50, 1] 3 2
      (by decide) (by decide) (by decide) (by decide)).1,
   ((C5_batch_rank_order_statistic
      [44, 2, 21, 5, 11, 14, 32, 65, 13, 11, -10, -25, 30, -40, 50, 1] 3 2
      (by decide) (by decide) (by decide) (by decide)).2 4 (by decide)).1,
   ((C5_batch_rank_order_statistic
      [44, 2, 21, 5, 11, 14, 32, 65, 13, 11, -10, -25, 30, -40, 50, 1] 3 2
      (by decide) (by decide) (by decide) (by decide)).2 4 (by decide)).2.1 (by decide)⟩

/-! ## Batch validation and lifecycle guards -/

/-- C11 (divergence): `rank_filter_filter_sequence` accepts `rank = window_size`.
On `data = [5, 7, 9]` with `window_size = 3` and `rank = 3` the validation
`rank > window_size` passes, the call returns `FilterOK`, and the stored `y[0]`
is `window[3]`, read past the three-element sorted window (`0` in this model),
which is none of the samples `5, 7, 9`. -/
theorem C11_rank_equal_window_size_accepted :
    (rank_filter_filter_sequence [5, 7, 9] 3 3 3).1 = FilterStatus_t.FilterOK ∧
    ¬ (3 < 3) ∧
    (qsort (memcpy_items (List.replicate 3 0) [5, 7, 9] 3) 3 sort_cmp_func).length = 3 ∧
    (rank_filter_filter_sequence [5, 7, 9] 3 3 3).2.1 = [(0, 0)] ∧
    (0 : Int) ∉ window_at [5, 7, 9] 3 0 := by
  decide

/-- C12 (divergence): `rank_filter_filter_sequence` has no `window_size > data_size`
test.  With `data_size = 2` and `window_size = 3` it returns `FilterOK` and stores
the length `0`; with `window_size = 4` it returns `FilterOK` and stores the length
`65535`, the `uint16_t` image of `2 - 4 + 1`, with as many stores to `y`. -/
theorem C12_oversized_window_accepted :
    rank_filter_filter_sequence [1, 2] 2 3 0 = (FilterStatus_t.FilterOK, [], some 0) ∧
    (rank_filter_filter_sequence [1, 2] 2 4 0).1 = FilterStatus_t.FilterOK ∧
    (rank_filter_filter_sequence [1, 2] 2 4 0).2.2 = some 65535 ∧
    (rank_filter_filter_sequence [1, 2] 2 4 0).2.1.length = 65535 := by
  refine ⟨by decide, by decide, by decide, ?_⟩
  simp [rank_filter_filter_sequence, filter_windowed_get_expected_output_len, to_uint16,
    to_uint32]

/-- C13 (divergence): a zero window is not rejected.  For every `data_size`
the test `window_size > data_size` is false at `window_size = 0`: both length
helpers return `FilterOK` and store a length, and `moving_avg_filter_sequence`
returns `FilterOK` after dividing the accumulator by `window_size = 0`. -/
theorem C13_zero_window_accepted (data : List Int) (n : Nat) :
    moving_avg_get_output_data_len n 0 =
      (FilterStatus_t.FilterOK,
        some (to_uint16 (filter_windowed_get_expected_output_len n 0))) ∧
    rank_filter_get_output_data_len n 0 =
      (FilterStatus_t.FilterOK,
        some (to_uint16 (filter_windowed_get_expected_output_len n 0))) ∧
    (moving_avg_filter_sequence data n 0).1 = FilterStatus_t.FilterOK ∧
    (moving_avg_filter_sequence data n 0).2.2 =
      some (to_uint16 (filter_windowed_get_expected_output_len n 0)) ∧
    moving_avg_get_output_data_len 3 0 = (FilterStatus_t.FilterOK, some 4) ∧
    (moving_avg_filter_sequence [1, 2, 3] 3 0).1 = FilterStatus_t.FilterOK := by
  have h : ¬ 0 > n := by omega
  refine ⟨?_, ?_, ?_, ?_, by decide, by decide⟩
  · simp only [moving_avg_get_output_data_len, h, if_false]
  · simp only [rank_filter_get_output_data_len, h, if_false]
  · simp only [moving_avg_filter_sequence, h, if_false]
  · simp only [moving_avg_filter_sequence, h, if_false]

/-- C14: an oversized window is rejected by the moving-average batch function
and by both length helpers.  For every `data_size` `n` and `window_size` `w > n`
each of them returns `FilterError`; no store is made to the output array and
nothing is stored to the output length. -/
theorem C14_oversized_window_rejected (data : List Int) (n w : Nat) (h : w > n) :
    moving_avg_filter_sequence data n w = (FilterStatus_t.FilterError, [], none) ∧
    moving_avg_get_output_data_len n w = (FilterStatus_t.FilterError, none) ∧
    rank_filter_get_output_data_len n w = (FilterStatus_t.FilterError, none) := by
  refine ⟨?_, ?_, ?_⟩
  · simp only [moving_avg_filter_sequence, h, if_true]
  · simp only [moving_avg_get_output_data_len, h, if_true]
  · simp only [rank_filter_get_output_data_len, h, if_true]

theorem C14_oversized_window_rejected_witness :
    moving_avg_filter_sequence [1, 2] 2 3 = (FilterStatus_t.FilterError, [], none) ∧
    moving_avg_get_output_data_len 2 3 = (FilterStatus_t.FilterError, none) ∧
    rank_filter_get_output_data_len 2 3 = (FilterStatus_t.FilterError, none) :=
  C14_oversized_window_rejected [1, 2] 2 3 (by decide)

/-- C15: the lifecycle guards are atomic.  A fill on a handle whose
`initialized` flag is set, and a step on a handle whose flag is clear, return
`FilterError`, store nothing to `*y`, and return the handle unchanged (ring
indices, count and storage, running sum or sorted window, flag), for the moving
average filter and for the rank filter. -/
theorem C15_lifecycle_guards_atomic (ma : MovingAverageFilter_t) (rf : RankFilter_t)
    (data : List Int) (s : Int) :
    (ma.initialized ≠ 0 →
      moving_avg_fill_buffer ma data = (FilterStatus_t.FilterError, ma, none)) ∧
    (ma.initialized = 0 →
      moving_avg_filter_sample ma s = (FilterStatus_t.FilterError, ma, none)) ∧
    (rf.initialized ≠ 0 →
      rank_filter_fill_buffer rf data = (FilterStatus_t.FilterError, rf, none)) ∧
    (rf.initialized = 0 →
      rank_filter_filter_sample rf s = (FilterStatus_t.FilterError, rf, none)) := by
  refine ⟨?_, ?_, ?_, ?_⟩
  · intro h
    simp only [moving_avg_fill_buffer, h, ne_eq, not_false_eq_true, if_true]
  · intro h
    simp only [moving_avg_filter_sample, h, if_true]
  · intro h
    simp only [rank_filter_fill_buffer, h, ne_eq, not_false_eq_true, if_true]
  · intro h
    simp only [rank_filter_filter_sample, h, if_true]

theorem C15_lifecycle_guards_atomic_witness :
    moving_avg_fill_buffer
        ⟨0, 2, 4, 1, FilterType_t.FilterLowPass, ⟨⟨some [1, 0, 3, 0], 4, 1, 4, 0, 0⟩, 2, 2⟩⟩
        [5, 6]
      = (FilterStatus_t.FilterError,
          ⟨0, 2, 4, 1, FilterType_t.FilterLowPass, ⟨⟨some [1, 0, 3, 0], 4, 1, 4, 0, 0⟩, 2, 2⟩⟩,
          none) ∧
    moving_avg_filter_sample
        ⟨0, 2, 0, 0, FilterType_t.FilterLowPass, ⟨⟨some [1, 0, 3, 0], 4, 1, 0, 0, 0⟩, 2, 2⟩⟩ 7
      = (FilterStatus_t.FilterError,
          ⟨0, 2, 0, 0, FilterType_t.FilterLowPass, ⟨⟨some [1, 0, 3, 0], 4, 1, 0, 0, 0⟩, 2, 2⟩⟩,
          none) ∧
    rank_filter_fill_buffer
        ⟨some [1, 3], 2, 1, 1, ⟨⟨some [1, 0, 3, 0], 4, 0, 4, 0, 0⟩, 2, 2⟩⟩ [5, 6]
      = (FilterStatus_t.FilterError,
          ⟨some [1, 3], 2, 1, 1, ⟨⟨some [1, 0, 3, 0], 4, 0, 4, 0, 0⟩, 2, 2⟩⟩, none) ∧
    rank_filter_filter_sample
        ⟨some [0, 0], 2, 1, 0, ⟨⟨some [1, 0, 3, 0], 4, 0, 0, 0, 0⟩, 2, 2⟩⟩ 7
      = (FilterStatus_t.FilterError,
          ⟨some [0, 0], 2, 1, 0, ⟨⟨some [1, 0, 3, 0], 4, 0, 0, 0, 0⟩, 2, 2⟩⟩, none) :=
  ⟨(C15_lifecycle_guards_atomic
      ⟨0, 2, 4, 1, FilterType_t.FilterLowPass, ⟨⟨some [1, 0, 3, 0], 4, 1, 4, 0, 0⟩, 2, 2⟩⟩
      ⟨some [1, 3], 2, 1, 1, ⟨⟨some [1, 0, 3, 0], 4, 0, 4, 0, 0⟩, 2, 2⟩⟩ [5, 6] 7).1
      (by decide),
   (C15_lifecycle_guards_atomic
      ⟨0, 2, 0, 0, FilterType_t.FilterLowPass, ⟨⟨some [1, 0, 3, 0], 4, 1, 0, 0, 0⟩, 2, 2⟩⟩
      ⟨some [1, 3], 2, 1, 1, ⟨⟨some [1, 0, 3, 0], 4, 0, 4, 0, 0⟩, 2, 2⟩⟩ [5, 6] 7).2.1
      (by decide),
   (C15_lifecycle_guards_atomic
      ⟨0, 2, 4, 1, FilterType_t.FilterLowPass, ⟨⟨some [1, 0, 3, 0], 4, 1, 4, 0, 0⟩, 2, 2⟩⟩
      ⟨some [1, 3], 2, 1, 1, ⟨⟨some [1, 0, 3, 0], 4, 0, 4, 0, 0⟩, 2, 2⟩⟩ [5, 6] 7).2.2.1
      (by decide),
   (C15_lifecycle_guards_atomic
      ⟨0, 2, 4, 1, FilterType_t.FilterLowPass, ⟨⟨some [1, 0, 3, 0], 4, 1, 4, 0, 0⟩, 2, 2⟩⟩
      ⟨some [0, 0], 2, 1, 0, ⟨⟨some [1, 0, 3, 0], 4, 0, 0, 0, 0⟩, 2, 2⟩⟩ [5, 6] 7).2.2.2
      (by decide)⟩

/-! ## Moving average filter: reachable states -/

theorem FIFO8_flush_holds (f : FIFO8_t) (bytes : List Nat) (h : FIFO8_holds f bytes) :
    FIFO8_holds (FIFO8_flush f) [] := by
  obtain ⟨buf, hwf, _, _⟩ := h
  refine ⟨buf, ?_, rfl, ?_⟩
  · exact
      { hbuf := hwf.hbuf
        hpos := hwf.hpos
        hmax := hwf.hmax
        hlen := hwf.hlen
        hr := hwf.hpos
        hc := Nat.zero_le _
        hw := by show 0 = (0 + 0) % f.FIFO_size; simp }
  · intro i hi
    simp at hi

theorem moving_avg_fill_from_empty (f : MovingAverageFilter_t) (ftype : FilterType_t)
    (w : Nat) (data : List Int) (hw1 : 1 ≤ w) (hw2 : w ≤ 32767) (he : MA_empty f ftype w)
    (hd : w ≤ data.length) (hdr : ∀ x ∈ data, is_int16 x) :
    ∃ f2, moving_avg_fill_buffer f data =
        (FilterStatus_t.FilterOK, f2,
          some (produce_output ((data.take w).getD (w / 2) 0) (data.take w).sum w ftype)) ∧
      MA_state f2 w (data.take w) ∧ f2.type = ftype := by
  obtain ⟨hws, hty, hinit, his0, hS0, hr0, hh0⟩ := he
  have hwr : ∀ y ∈ data.take w, is_int16 y := fun y hy => hdr y (List.mem_of_mem_take hy)
  have htl : (data.take w).length = w := by simp; omega
  have hbl : (int16s_to_bytes (data.take w)).length = 2 * w := by
    rw [int16s_to_bytes_length, htl]
  have hsplit : int16s_to_bytes data =
      int16s_to_bytes (data.take w) ++ int16s_to_bytes (data.drop w) := by
    rw [← int16s_to_bytes_append, List.take_append_drop]
  obtain ⟨fifo1, hwr1, hh1, his1, hfs1, hS1, hfl1, hr1⟩ :=
    FIFO_write_holds f.fifo []
      (int16s_to_bytes (data.take w)) (int16s_to_bytes (data.drop w)) w his0 hh0 hbl
      (by rw [hS0]; simp)
  rw [← hsplit] at hwr1
  rw [List.nil_append] at hh1
  obtain ⟨fifo2, hrd2, hh2, his2, hfs2, hS2, hfl2, hr2⟩ :=
    FIFO_read_holds fifo1 (int16s_to_bytes (data.take w)) w his1 hh1 (by omega)
  rw [List.take_of_length_le (by omega)] at hrd2
  rw [List.drop_of_length_le (by omega)] at hh2
  obtain ⟨fifo3, hwr3, hh3, his3, hfs3, hS3, hfl3, hr3⟩ :=
    FIFO_write_holds fifo2 [] (int16s_to_bytes (data.take w)) [] w his2 hh2 hbl
      (by rw [hS2, hS1, hS0]; simp)
  rw [List.append_nil] at hwr3
  rw [List.nil_append] at hh3
  have hr3e : fifo3.fifo8.r_index % 2 = 0 := by
    rw [hr3, hr2, hr1, hr0, hS1, hS0]
    exact ring_parity 0 w w rfl
  have hS3e : fifo3.fifo8.FIFO_size = 2 * w := by rw [hS3, hS2, hS1, hS0]
  have hmid : int16_at (FIFO_get_middle_item fifo3) 0 = (data.take w).getD (w / 2) 0 := by
    rw [FIFO_get_middle_item_full fifo3 w (int16s_to_bytes (data.take w)) hw1 hw2 his3
      hS3e hh3 hbl hr3e]
    exact int16_at_bytes_nil _ hwr _ (by rw [htl]; omega)
  have hbuf2 : bytes_to_int16s (int16s_to_bytes (data.take w)) w = data.take w := by
    have := bytes_to_int16s_bytes_nil (data.take w) hwr
    rwa [htl] at this
  have hacc : window_acc (data.take w) w = (data.take w).sum := by
    rw [window_acc_eq_sum (data.take w) hwr w (by omega) (by omega),
      List.take_of_length_le (by omega)]
  have hu : to_uint16 (w : Int) = w := to_uint16_of_range (by omega)
  refine ⟨{ f with initialized := 1, fifo := fifo3, prev_acc := (data.take w).sum }, ?_,
    ⟨hws, rfl, his3, hS3e, hr3e, hh3, htl, hwr, rfl⟩, hty⟩
  unfold moving_avg_fill_buffer moving_avg_filter_initalize moving_avg_compute_first_output
  simp only [hinit, hws, hty, ne_eq, not_true_eq_false, if_false, hu, hwr1, hrd2, hwr3,
    hbuf2, hacc, hmid]

theorem moving_avg_init_empty (f0 : MovingAverageFilter_t) (ftype : FilterType_t)
    (buf : List Nat) (w : Nat) (hw1 : 1 ≤ w) (hw2 : w ≤ 32767) (hbuf : 2 * w ≤ buf.length) :
    MA_empty (moving_avg_init f0 ftype (some buf) w).2 ftype w := by
  obtain ⟨hh0, his0, _, hS0, _, hr0⟩ := FIFO_init_holds f0.fifo buf w FIFO_LOOP hw1 hw2 hbuf
  exact ⟨rfl, rfl, rfl, his0, hS0, hr0, hh0⟩

theorem moving_avg_flush_empty (f : MovingAverageFilter_t) (ftype : FilterType_t) (w : Nat)
    (bytes : List Nat) (hws : f.window_size = w) (hty : f.type = ftype)
    (his : f.fifo.item_size = 2) (hS : f.fifo.fifo8.FIFO_size = 2 * w)
    (hh : FIFO8_holds f.fifo.fifo8 bytes) :
    MA_empty (moving_avg_flush f) ftype w :=
  ⟨hws, hty, rfl, his, hS, rfl, FIFO8_flush_holds _ _ hh⟩

theorem MA_reachable_cases (ftype : FilterType_t) (w : Nat) (hw1 : 1 ≤ w) (hw2 : w ≤ 32767)
    (f : MovingAverageFilter_t) (h : MA_reachable ftype w f) :
    MA_empty f ftype w ∨ ∃ win, MA_state f w win ∧ f.type = ftype := by
  induction h with
  | init f0 buf hbuf => exact Or.inl (moving_avg_init_empty f0 ftype buf w hw1 hw2 hbuf)
  | fill f data _ hd hr ih =>
    rcases ih with he | ⟨win, hst, hty⟩
    · obtain ⟨f2, heq, hst2, hty2⟩ := moving_avg_fill_from_empty f ftype w data hw1 hw2 he hd hr
      rw [heq]
      exact Or.inr ⟨_, hst2, hty2⟩
    · have hi : f.initialized ≠ 0 := by rw [hst.2.1]; omega
      have : moving_avg_fill_buffer f data = (FilterStatus_t.FilterError, f, none) := by
        simp only [moving_avg_fill_buffer, hi, ne_eq, not_false_eq_true, if_true]
      rw [this]
      exact Or.inr ⟨win, hst, hty⟩
  | step f s _ hs ih =>
    rcases ih with he | ⟨win, hst, hty⟩
    · have hi : f.initialized = 0 := he.2.2.1
      have : moving_avg_filter_sample f s = (FilterStatus_t.FilterError, f, none) := by
        simp only [moving_avg_filter_sample, hi, if_true]
      rw [this]
      exact Or.inl he
    · have hl : win.length = w := hst.2.2.2.2.2.2.1
      match win, hst, hl with
      | [], _, hl => simp at hl; omega
      | x :: xs, hst, _ =>
        obtain ⟨f2, heq, hst2, hty2⟩ := moving_avg_filter_sample_state f w x xs s hw1 hw2 hs hst
        rw [heq]
        exact Or.inr ⟨_, hst2, by rw [hty2, hty]⟩
  | flush f _ ih =>
    rcases ih with he | ⟨win, hst, hty⟩
    · obtain ⟨hws, hty, _, his, hS, _, hh⟩ := he
      exact Or.inl (moving_avg_flush_empty f ftype w [] hws hty his hS hh)
    · obtain ⟨hws, _, his, hS, _, hh, _⟩ := hst
      exact Or.inl (moving_avg_flush_empty f ftype w _ hws hty his hS hh)

theorem MA_reachable_flush_empty (ftype : FilterType_t) (w : Nat) (hw1 : 1 ≤ w)
    (hw2 : w ≤ 32767) (f : MovingAverageFilter_t) (h : MA_reachable ftype w f) :
    MA_empty (moving_avg_flush f) ftype w := by
  rcases MA_reachable_cases ftype w hw1 hw2 _ (MA_reachable.flush f h) with he | ⟨win, hst, _⟩
  · exact he
  · have : (moving_avg_flush f).initialized = 1 := hst.2.1
    simp [moving_avg_flush] at this

/-! ## Rank filter: reachable states -/

theorem rank_filter_fill_from_empty (f : RankFilter_t) (w rank : Nat) (data : List Int)
    (_hw1 : 1 ≤ w) (_hw2 : w ≤ 32767) (he : RF_empty f w rank) (hd : w ≤ data.length)
    (hdr : ∀ x ∈ data, is_int16 x) :
    ∃ f2, rank_filter_fill_buffer f data =
        (FilterStatus_t.FilterOK, f2,
          some ((qsort_list sort_cmp_func (data.take w)).getD rank 0)) ∧
      RF_state f2 w rank (data.take w) := by
  obtain ⟨hws, hrk, hinit, his0, hS0, hh0, sw, hsw, hswl⟩ := he
  have hwr : ∀ y ∈ data.take w, is_int16 y := fun y hy => hdr y (List.mem_of_mem_take hy)
  have htl : (data.take w).length = w := by simp; omega
  have hbl : (int16s_to_bytes (data.take w)).length = 2 * w := by
    rw [int16s_to_bytes_length, htl]
  have hsplit : int16s_to_bytes data =
      int16s_to_bytes (data.take w) ++ int16s_to_bytes (data.drop w) := by
    rw [← int16s_to_bytes_append, List.take_append_drop]
  obtain ⟨fifo1, hwr1, hh1, his1, hfs1, hS1, hfl1, hr1⟩ :=
    FIFO_write_holds f.fifo []
      (int16s_to_bytes (data.take w)) (int16s_to_bytes (data.drop w)) w his0 hh0 hbl
      (by rw [hS0]; simp)
  rw [← hsplit] at hwr1
  rw [List.nil_append] at hh1
  obtain ⟨fifo2, hrd2, hh2, his2, hfs2, hS2, hfl2, hr2⟩ :=
    FIFO_read_holds fifo1 (int16s_to_bytes (data.take w)) w his1 hh1 (by omega)
  rw [List.take_of_length_le (by omega)] at hrd2
  rw [List.drop_of_length_le (by omega)] at hh2
  obtain ⟨fifo3, hwr3, hh3, his3, hfs3, hS3, hfl3, hr3⟩ :=
    FIFO_write_holds fifo2 [] (int16s_to_bytes (data.take w)) [] w his2 hh2 hbl
      (by rw [hS2, hS1, hS0]; simp)
  rw [List.append_nil] at hwr3
  rw [List.nil_append] at hh3
  have hS3e : fifo3.fifo8.FIFO_size = 2 * w := by rw [hS3, hS2, hS1, hS0]
  have hbuf2 : bytes_to_int16s (int16s_to_bytes (data.take w)) w = data.take w := by
    have := bytes_to_int16s_bytes_nil (data.take w) hwr
    rwa [htl] at this
  have hsort : qsort (memcpy_items sw (data.take w) w) w sort_cmp_func
      = qsort_list sort_cmp_func (data.take w) := by
    unfold qsort memcpy_items
    rw [List.take_of_length_le (le_of_eq htl), List.drop_of_length_le (le_of_eq hswl),
      List.append_nil, List.take_of_length_le (le_of_eq htl),
      List.drop_of_length_le (le_of_eq htl), List.append_nil]
  refine ⟨{ f with initialized := 1,
                   sorted_window := some (qsort_list sort_cmp_func (data.take w)),
                   fifo := fifo3 }, ?_,
    ⟨hws, hrk, rfl, his3, hS3e, hh3, htl, hwr, rfl⟩⟩
  unfold rank_filter_fill_buffer rank_filter_compute_first_output
  simp only [hinit, hws, hrk, hsw, ne_eq, not_true_eq_false, if_false, hwr1, hrd2, hwr3, hbuf2,
    Option.map_some', hsort, Option.getD_some]

theorem rank_filter_init_empty (f0 : RankFilter_t) (buf : List Nat) (w rank : Nat)
    (mem : List Int) (hw1 : 1 ≤ w) (hw2 : w ≤ 32767) (hrank : rank < w)
    (hbuf : 2 * w ≤ buf.length) (hmem : mem.length = w) :
    (rank_filter_init f0 (some buf) w rank (some mem)).1 = FilterStatus_t.FilterOK ∧
    RF_empty (rank_filter_init f0 (some buf) w rank (some mem)).2 w rank := by
  have hrk : ¬ (rank : Int) > (w : Int) - 1 := by omega
  have hinit : rank_filter_init f0 (some buf) w rank (some mem) =
      (FilterStatus_t.FilterOK,
       { f0 with window_size := w, rank := rank, initialized := 0, sorted_window := some mem,
                 fifo := FIFO_init f0.fifo (some buf) w 2 FIFO_NO_FLAGS }) := by
    unfold rank_filter_init
    simp only [hrk, if_false, reduceCtorEq]
  obtain ⟨hh0, his0, _, hS0, _, _⟩ :=
    FIFO_init_holds f0.fifo buf w FIFO_NO_FLAGS hw1 hw2 hbuf
  rw [hinit]
  exact ⟨rfl, rfl, rfl, rfl, his0, hS0, hh0, mem, rfl, hmem⟩

theorem rank_filter_flush_empty (f : RankFilter_t) (w rank : Nat) (bytes : List Nat)
    (sw : List Int) (hws : f.window_size = w) (hrk : f.rank = rank)
    (his : f.fifo.item_size = 2) (hS : f.fifo.fifo8.FIFO_size = 2 * w)
    (hh : FIFO8_holds f.fifo.fifo8 bytes) (hsw : f.sorted_window = some sw)
    (hswl : sw.length = w) :
    RF_empty (rank_filter_flush f) w rank :=
  ⟨hws, hrk, rfl, his, hS, FIFO8_flush_holds _ _ hh, sw, hsw, hswl⟩

theorem RF_reachable_cases (w rank : Nat) (hw1 : 1 ≤ w) (hw2 : w ≤ 32767)
    (f : RankFilter_t) (h : RF_reachable w rank f) :
    RF_empty f w rank ∨ ∃ win, RF_state f w rank win := by
  induction h with
  | init f0 buf mem hrank hbuf hmem =>
    exact Or.inl (rank_filter_init_empty f0 buf w rank mem hw1 hw2 hrank hbuf hmem).2
  | fill f data _ hd hr ih =>
    rcases ih with he | ⟨win, hst⟩
    · obtain ⟨f2, heq, hst2⟩ := rank_filter_fill_from_empty f w rank data hw1 hw2 he hd hr
      rw [heq]
      exact Or.inr ⟨_, hst2⟩
    · have hi : f.initialized ≠ 0 := by rw [hst.2.2.1]; omega
      have : rank_filter_fill_buffer f data = (FilterStatus_t.FilterError, f, none) := by
        simp only [rank_filter_fill_buffer, hi, ne_eq, not_false_eq_true, if_true]
      rw [this]
      exact Or.inr ⟨win, hst⟩
  | step f s _ hs ih =>
    rcases ih with he | ⟨win, hst⟩
    · have hi : f.initialized = 0 := he.2.2.1
      have : rank_filter_filter_sample f s = (FilterStatus_t.FilterError, f, none) := by
        simp only [rank_filter_filter_sample, hi, if_true]
      rw [this]
      exact Or.inl he
    · have hl : win.length = w := hst.2.2.2.2.2.2.1
      match win, hst, hl with
      | [], _, hl => simp at hl; omega
      | x :: xs, hst, _ =>
        obtain ⟨f2, heq, hst2⟩ := rank_filter_filter_sample_state f w rank x xs s hw1 hw2 hs hst
        rw [heq]
        exact Or.inr ⟨_, hst2⟩
  | flush f _ ih =>
    rcases ih with he | ⟨win, hst⟩
    · obtain ⟨hws, hrk, _, his, hS, hh, sw, hsw, hswl⟩ := he
      exact Or.inl (rank_filter_flush_empty f w rank [] sw hws hrk his hS hh hsw hswl)
    · obtain ⟨hws, hrk, _, his, hS, hh, hl, _, hsw⟩ := hst
      exact Or.inl (rank_filter_flush_empty f w rank _ _ hws hrk his hS hh hsw
        (by rw [qsort_list_length, hl]))

theorem RF_reachable_flush_empty (w rank : Nat) (hw1 : 1 ≤ w) (hw2 : w ≤ 32767)
    (f : RankFilter_t) (h : RF_reachable w rank f) :
    RF_empty (rank_filter_flush f) w rank := by
  rcases RF_reachable_cases w rank hw1 hw2 _ (RF_reachable.flush f h) with he | ⟨win, hst⟩
  · exact he
  · have : (rank_filter_flush f).initialized = 1 := hst.2.2.1
    simp [rank_filter_flush] at this

/-! ## Flush then fill -/

/-- C16: flush then fill behaves like a fresh filter, for both filter types.
Let `f` be a moving-average handle and `rf` a rank-filter handle reachable from
their init by fill, step and flush calls (window size `1 <= w <= 32767`), and `X`
a window of `w` `int16_t` samples.  With `a` the result of flush then fill on the
reachable handle and `b` the result of fill on a freshly initialised handle with
the same parameters: both return `FilterOK` with the same first output, both
handles are initialized with the ring holding `X`, they have the same running
sum (the same sorted window), and the steps on any further `int16_t` samples
return the same statuses and outputs. -/
theorem C16_flush_then_fill_like_fresh (ftype : FilterType_t) (w rank : Nat)
    (f f0 : MovingAverageFilter_t) (buf0 : List Nat)
    (rf rf0 : RankFilter_t) (rbuf0 : List Nat) (mem0 : List Int) (X rest : List Int)
    (a b : FilterStatus_t × MovingAverageFilter_t × Option Int)
    (ra rb : FilterStatus_t × RankFilter_t × Option Int)
    (hw1 : 1 ≤ w) (hw2 : w ≤ 32767) (hrank : rank < w)
    (hf : MA_reachable ftype w f) (hbuf0 : 2 * w ≤ buf0.length)
    (hrf : RF_reachable w rank rf) (hrbuf0 : 2 * w ≤ rbuf0.length) (hmem0 : mem0.length = w)
    (hX : X.length = w) (hXr : ∀ x ∈ X, is_int16 x) (hrest : ∀ x ∈ rest, is_int16 x)
    (ha : a = moving_avg_fill_buffer (moving_avg_flush f) X)
    (hb : b = moving_avg_fill_buffer (moving_avg_init f0 ftype (some buf0) w).2 X)
    (hra : ra = rank_filter_fill_buffer (rank_filter_flush rf) X)
    (hrb : rb = rank_filter_fill_buffer
      (rank_filter_init rf0 (some rbuf0) w rank (some mem0)).2 X) :
    (a.1 = FilterStatus_t.FilterOK ∧ b.1 = FilterStatus_t.FilterOK ∧ a.2.2 = b.2.2 ∧
      a.2.2 ≠ none ∧
      a.2.1.initialized = 1 ∧ b.2.1.initialized = 1 ∧
      bytes_to_int16s (FIFO_read a.2.1.fifo w).2.2.1 w = X ∧
      bytes_to_int16s (FIFO_read b.2.1.fifo w).2.2.1 w = X ∧
      a.2.1.prev_acc = b.2.1.prev_acc ∧
      (moving_avg_run a.2.1 rest).2 = (moving_avg_run b.2.1 rest).2) ∧
    (ra.1 = FilterStatus_t.FilterOK ∧ rb.1 = FilterStatus_t.FilterOK ∧ ra.2.2 = rb.2.2 ∧
      ra.2.2 ≠ none ∧
      ra.2.1.initialized = 1 ∧ rb.2.1.initialized = 1 ∧
      bytes_to_int16s (FIFO_read ra.2.1.fifo w).2.2.1 w = X ∧
      bytes_to_int16s (FIFO_read rb.2.1.fifo w).2.2.1 w = X ∧
      ra.2.1.sorted_window = rb.2.1.sorted_window ∧
      (rank_filter_run ra.2.1 rest).2 = (rank_filter_run rb.2.1 rest).2) := by
  have hXt : X.take w = X := List.take_of_length_le (le_of_eq hX)
  constructor
  · obtain ⟨fa, hea, hsa, hta⟩ := moving_avg_fill_from_empty _ ftype w X hw1 hw2
      (MA_reachable_flush_empty ftype w hw1 hw2 f hf) (le_of_eq hX.symm) hXr
    obtain ⟨fb, heb, hsb, htb⟩ := moving_avg_fill_from_empty _ ftype w X hw1 hw2
      (moving_avg_init_empty f0 ftype buf0 w hw1 hw2 hbuf0) (le_of_eq hX.symm) hXr
    rw [hXt] at hea heb hsa hsb
    obtain ⟨pa, _, _, ca, _⟩ := MA_state_observe fa w X hw1 hw2 hsa
    obtain ⟨pb, _, _, cb, _⟩ := MA_state_observe fb w X hw1 hw2 hsb
    obtain ⟨fa2, hrunA, _⟩ := moving_avg_run_state w hw1 hw2 rest fa X hsa hrest
    obtain ⟨fb2, hrunB, _⟩ := moving_avg_run_state w hw1 hw2 rest fb X hsb hrest
    rw [ha, hb, hea, heb]
    refine ⟨rfl, rfl, rfl, by simp, hsa.2.1, hsb.2.1, ca, cb, by rw [pa, pb], ?_⟩
    show (moving_avg_run fa rest).2 = (moving_avg_run fb rest).2
    rw [hrunA, hrunB, hta, htb]
  · obtain ⟨fa, hea, hsa⟩ := rank_filter_fill_from_empty _ w rank X hw1 hw2
      (RF_reachable_flush_empty w rank hw1 hw2 rf hrf) (le_of_eq hX.symm) hXr
    obtain ⟨fb, heb, hsb⟩ := rank_filter_fill_from_empty _ w rank X hw1 hw2
      (rank_filter_init_empty rf0 rbuf0 w rank mem0 hw1 hw2 hrank hrbuf0 hmem0).2
      (le_of_eq hX.symm) hXr
    rw [hXt] at hea heb hsa hsb
    obtain ⟨pa, _, ca⟩ := RF_state_observe fa w rank X hsa
    obtain ⟨pb, _, cb⟩ := RF_state_observe fb w rank X hsb
    obtain ⟨fa2, hrunA, _⟩ := rank_filter_run_state w rank hw1 hw2 rest fa X hsa hrest
    obtain ⟨fb2, hrunB, _⟩ := rank_filter_run_state w rank hw1 hw2 rest fb X hsb hrest
    rw [hra, hrb, hea, heb]
    refine ⟨rfl, rfl, rfl, by simp, hsa.2.2.1, hsb.2.2.1, ca, cb, by rw [pa, pb], ?_⟩
    show (rank_filter_run fa rest).2 = (rank_filter_run fb rest).2
    rw [hrunA, hrunB]

theorem C16_flush_then_fill_like_fresh_witness :
    (moving_avg_fill_buffer
        (moving_avg_flush
          (moving_avg_filter_sample
            (moving_avg_fill_buffer
              (moving_avg_init
                ⟨0, 0, 0, 0, FilterType_t.FilterLowPass, ⟨⟨none, 0, 0, 0, 0, 0⟩, 0, 0⟩⟩
                FilterType_t.FilterHighPass (some [0, 0, 0, 0]) 2).2 [4, -6]).2.1 9).2.1)
        [10, 20]).2.2
      = (moving_avg_fill_buffer
          (moving_avg_init
            ⟨0, 0, 0, 0, FilterType_t.FilterLowPass, ⟨⟨none, 0, 0, 0, 0, 0⟩, 0, 0⟩⟩
            FilterType_t.FilterHighPass (some [7, 7, 7, 7]) 2).2 [10, 20]).2.2 ∧
    (rank_filter_fill_buffer
        (rank_filter_flush
          (rank_filter_filter_sample
            (rank_filter_fill_buffer
              (rank_filter_init ⟨none, 0, 0, 0, ⟨⟨none, 0, 0, 0, 0, 0⟩, 0, 0⟩⟩
                (some [0, 0, 0, 0]) 2 1 (some [0, 0])).2 [4, -6]).2.1 9).2.1)
        [10, 20]).2.1.sorted_window
      = (rank_filter_fill_buffer
          (rank_filter_init ⟨none, 0, 0, 0, ⟨⟨none, 0, 0, 0, 0, 0⟩, 0, 0⟩⟩
            (some [7, 7, 7, 7]) 2 1 (some [5, 5])).2 [10, 20]).2.1.sorted_window :=
  ⟨(C16_flush_then_fill_like_fresh FilterType_t.FilterHighPass 2 1
      (moving_avg_filter_sample
        (moving_avg_fill_buffer
          (moving_avg_init
            ⟨0, 0, 0, 0, FilterType_t.FilterLowPass, ⟨⟨none, 0, 0, 0, 0, 0⟩, 0, 0⟩⟩
            FilterType_t.FilterHighPass (some [0, 0, 0, 0]) 2).2 [4, -6]).2.1 9).2.1
      ⟨0, 0, 0, 0, FilterType_t.FilterLowPass, ⟨⟨none, 0, 0, 0, 0, 0⟩, 0, 0⟩⟩ [7, 7, 7, 7]
      (rank_filter_filter_sample
        (rank_filter_fill_buffer
          (rank_filter_init ⟨none, 0, 0, 0, ⟨⟨none, 0, 0, 0, 0, 0⟩, 0, 0⟩⟩
            (some [0, 0, 0, 0]) 2 1 (some [0, 0])).2 [4, -6]).2.1 9).2.1
      ⟨none, 0, 0, 0, ⟨⟨none, 0, 0, 0, 0, 0⟩, 0, 0⟩⟩ [7, 7, 7, 7] [5, 5] [10, 20] [1, 2, 3]
      _ _ _ _ (by decide) (by decide) (by decide)
      (MA_reachable.step _ 9
        (MA_reachable.fill _ [4, -6] (MA_reachable.init _ [0, 0, 0, 0] (by decide))
          (by decide) (by decide)) (by decide))
      (by decide)
      (RF_reachable.step _ 9
        (RF_reachable.fill _ [4, -6]
          (RF_reachable.init _ [0, 0, 0, 0] [0, 0] (by decide) (by decide) (by decide))
          (by decide) (by decide)) (by decide))
      (by decide) (by decide) (by decide) (by decide) (by decide) rfl rfl rfl rfl).1.2.2.1,
   (C16_flush_then_fill_like_fresh FilterType_t.FilterHighPass 2 1
      (moving_avg_filter_sample
        (moving_avg_fill_buffer
          (moving_avg_init
            ⟨0, 0, 0, 0, FilterType_t.FilterLowPass, ⟨⟨none, 0, 0, 0, 0, 0⟩, 0, 0⟩⟩
            FilterType_t.FilterHighPass (some [0, 0, 0, 0]) 2).2 [4, -6]).2.1 9).2.1
      ⟨0, 0, 0, 0, FilterType_t.FilterLowPass, ⟨⟨none, 0, 0, 0, 0, 0⟩, 0, 0⟩⟩ [7, 7, 7, 7]
      (rank_filter_filter_sample
        (rank_filter_fill_buffer
          (rank_filter_init ⟨none, 0, 0, 0, ⟨⟨none, 0, 0, 0, 0, 0⟩, 0, 0⟩⟩
            (some [0, 0, 0, 0]) 2 1 (some [0, 0])).2 [4, -6]).2.1 9).2.1
      ⟨none, 0, 0, 0, ⟨⟨none, 0, 0, 0, 0, 0⟩, 0, 0⟩⟩ [7, 7, 7, 7] [5, 5] [10, 20] [1, 2, 3]
      _ _ _ _ (by decide) (by decide) (by decide)
      (MA_reachable.step _ 9
        (MA_reachable.fill _ [4, -6] (MA_reachable.init _ [0, 0, 0, 0] (by decide))
          (by decide) (by decide)) (by decide))
      (by decide)
      (RF_reachable.step _ 9
        (RF_reachable.fill _ [4, -6]
          (RF_reachable.init _ [0, 0, 0, 0] [0, 0] (by decide) (by decide) (by decide))
          (by decide) (by decide)) (by decide))
      (by decide) (by decide) (by decide) (by decide) (by decide) rfl rfl rfl rfl).2.2.2.2.2.2.2.2.2.1⟩

/-! ## The byte ring: reads in general -/

theorem FIFO8_contents_of_holds (f : FIFO8_t) (bytes : List Nat) (h : FIFO8_holds f bytes) :
    FIFO8_contents f = bytes := by
  obtain ⟨buf, hwf, hc, hb⟩ := h
  apply List.ext_getElem
  · simp [FIFO8_contents, hc]
  · intro i h1 h2
    simp only [FIFO8_contents, List.getElem_map, List.getElem_range, load_byte, hwf.hbuf,
      Option.getD_some]
    rw [hb i h2, List.getD_eq_getElem?_getD, List.getElem?_eq_getElem h2]
    rfl

theorem FIFO8_holds_counter (f : FIFO8_t) (bytes : List Nat) (h : FIFO8_holds f bytes) :
    f.counter = bytes.length ∧ bytes.length ≤ f.FIFO_size ∧ 0 < f.FIFO_size ∧
    f.FIFO_size ≤ 65535 ∧ f.r_index < f.FIFO_size ∧
    f.w_index = (f.r_index + bytes.length) % f.FIFO_size ∧ f.pBuffer ≠ none := by
  obtain ⟨buf, hwf, hc, _⟩ := h
  refine ⟨hc, by rw [← hc]; exact hwf.hc, hwf.hpos, hwf.hmax, hwf.hr, by rw [← hc]; exact hwf.hw,
    by rw [hwf.hbuf]; simp⟩

/-- Reading one byte of a non-empty ring. -/
theorem FIFO8_read_step (f : FIFO8_t) (b : Nat) (bs : List Nat) (len : Nat)
    (h : FIFO8_holds f (b :: bs)) :
    FIFO8_holds { f with r_index := (f.r_index + 1) % f.FIFO_size, counter := f.counter - 1 } bs ∧
    FIFO8_read_loop (len + 1) f =
      ((FIFO8_read_loop len
          { f with r_index := (f.r_index + 1) % f.FIFO_size, counter := f.counter - 1 }).1,
       (FIFO8_read_loop len
          { f with r_index := (f.r_index + 1) % f.FIFO_size, counter := f.counter - 1 }).2.1,
       b :: (FIFO8_read_loop len
          { f with r_index := (f.r_index + 1) % f.FIFO_size, counter := f.counter - 1 }).2.2.1,
       (FIFO8_read_loop len
          { f with r_index := (f.r_index + 1) % f.FIFO_size,
                   counter := f.counter - 1 }).2.2.2 + 1) := by
  obtain ⟨buf, hwf, hc, hb⟩ := h
  have hS := hwf.hpos
  have hr1 := ring_next hwf.hr hwf.hmax
  have hcnt : f.counter = bs.length + 1 := by simpa using hc
  have hlenS : bs.length + 1 ≤ f.FIFO_size := by have := hwf.hc; omega
  have hb0 : buf.getD f.r_index 0 = b := by
    have := hb 0 (by simp)
    simpa [Nat.mod_eq_of_lt hwf.hr] using this
  constructor
  · refine ⟨buf, ⟨hwf.hbuf, hS, hwf.hmax, hwf.hlen, Nat.mod_lt _ hS, ?_, ?_⟩, ?_, ?_⟩
    · have := hwf.hc
      simp only
      omega
    · simp only
      rw [hwf.hw, Nat.mod_add_mod]
      congr 1
      omega
    · simp only
      omega
    · intro i hi
      simp only
      rw [Nat.mod_add_mod]
      have := hb (i + 1) (by simpa using hi)
      rw [show f.r_index + 1 + i = f.r_index + (i + 1) by omega, this]
      simp
  · rw [FIFO8_read_loop]
    have hne : f.counter ≠ 0 := by omega
    have hlb : load_byte f.pBuffer f.r_index = b := by
      simp only [load_byte, hwf.hbuf, Option.getD_some]
      exact hb0
    simp only [hne, ne_eq, not_false_eq_true, if_true, hr1, hlb]

theorem FIFO8_read_loop_general (n : Nat) :
    ∀ (f : FIFO8_t) (bytes : List Nat), FIFO8_holds f bytes →
      FIFO8_read_loop n f =
        (if n ≤ bytes.length then FIFO_error_t.FIFO_OK else FIFO_error_t.FIFO_UNDERFLOW,
         { f with r_index := (f.r_index + min n bytes.length) % f.FIFO_size,
                  counter := f.counter - min n bytes.length },
         bytes.take n, min n bytes.length) ∧
      FIFO8_holds
        { f with r_index := (f.r_index + min n bytes.length) % f.FIFO_size,
                 counter := f.counter - min n bytes.length } (bytes.drop n) := by
  induction n with
  | zero =>
    intro f bytes h
    have hr := (FIFO8_holds_counter f bytes h).2.2.2.2.1
    have e : ({ f with r_index := (f.r_index + min 0 bytes.length) % f.FIFO_size,
                       counter := f.counter - min 0 bytes.length } : FIFO8_t) = f := by
      cases f
      simp only [Nat.zero_min, Nat.add_zero, Nat.sub_zero]
      congr 1
      exact Nat.mod_eq_of_lt hr
    rw [e]
    exact ⟨by simp [FIFO8_read_loop], by simpa using h⟩
  | succ n ih =>
    intro f bytes h
    match bytes, h with
    | [], h =>
      have hc := (FIFO8_holds_counter f [] h).1
      have hr := (FIFO8_holds_counter f [] h).2.2.2.2.1
      have e : ({ f with r_index := (f.r_index + min (n + 1) ([] : List Nat).length) % f.FIFO_size,
                         counter := f.counter - min (n + 1) ([] : List Nat).length } : FIFO8_t)
          = f := by
        cases f
        simp only [List.length_nil, Nat.min_zero, Nat.add_zero, Nat.sub_zero]
        congr 1
        exact Nat.mod_eq_of_lt hr
      rw [e]
      refine ⟨?_, by simpa using h⟩
      rw [FIFO8_read_loop]
      have hz : f.counter = 0 := by simpa using hc
      simp [hz]
    | b :: bs, h =>
      obtain ⟨hh1, hstep⟩ := FIFO8_read_step f b bs n h
      obtain ⟨heq, hh2⟩ := ih _ bs hh1
      have hmin : min (n + 1) (b :: bs).length = min n bs.length + 1 := by
        simp only [List.length_cons]
        omega
      have est : ({ f with r_index := (f.r_index + min (n + 1) (b :: bs).length) % f.FIFO_size,
                           counter := f.counter - min (n + 1) (b :: bs).length } : FIFO8_t)
          = { ({ f with r_index := (f.r_index + 1) % f.FIFO_size,
                        counter := f.counter - 1 } : FIFO8_t) with
              r_index := ((f.r_index + 1) % f.FIFO_size + min n bs.length) % f.FIFO_size,
              counter := f.counter - 1 - min n bs.length } := by
        rw [hmin]
        simp only [Nat.mod_add_mod]
        congr 1
        · omega
        · congr 1
          omega
      rw [est]
      refine ⟨?_, by simpa using hh2⟩
      rw [hstep, heq, hmin]
      simp only [List.length_cons, Nat.add_le_add_iff_right, List.take_succ_cons]

/-! ## The byte ring: single-byte writes -/

/-- Writing one byte into a ring that is not full. -/
theorem FIFO8_write_step_free (f : FIFO8_t) (bytes : List Nat) (b : Nat) (rest : List Nat)
    (len : Nat) (h : FIFO8_holds f bytes) (hfree : bytes.length < f.FIFO_size) :
    FIFO8_holds
      { f with pBuffer := store_byte f.pBuffer f.w_index b,
               w_index := (f.w_index + 1) % f.FIFO_size,
               counter := f.counter + 1 } (bytes ++ [b]) ∧
    FIFO8_write_loop (len + 1) f (b :: rest) =
      ((FIFO8_write_loop len
          { f with pBuffer := store_byte f.pBuffer f.w_index b,
                   w_index := (f.w_index + 1) % f.FIFO_size,
                   counter := f.counter + 1 } rest).1,
       (FIFO8_write_loop len
          { f with pBuffer := store_byte f.pBuffer f.w_index b,
                   w_index := (f.w_index + 1) % f.FIFO_size,
                   counter := f.counter + 1 } rest).2.1,
       (FIFO8_write_loop len
          { f with pBuffer := store_byte f.pBuffer f.w_index b,
                   w_index := (f.w_index + 1) % f.FIFO_size,
                   counter := f.counter + 1 } rest).2.2 + 1) := by
  obtain ⟨buf, hwf, hc, hb⟩ := h
  have hS := hwf.hpos
  have hwlt : f.w_index < f.FIFO_size := by rw [hwf.hw]; exact Nat.mod_lt _ hS
  have hw1 := ring_next hwlt hwf.hmax
  have hcne : f.counter ≠ f.FIFO_size := by omega
  have hclt : f.counter < f.FIFO_size := by omega
  have hst : store_byte f.pBuffer f.w_index b = some (buf.set f.w_index b) := by
    simp only [store_byte, hwf.hbuf, Option.map_some']
  constructor
  · rw [hst]
    refine ⟨buf.set f.w_index b,
      ⟨rfl, hS, hwf.hmax, by simpa using hwf.hlen, hwf.hr, ?_, ?_⟩, ?_, ?_⟩
    · simp only
      omega
    · simp only
      rw [hwf.hw, Nat.mod_add_mod]
      congr 1
    · simp only [List.length_append, List.length_singleton]
      omega
    · intro i hi
      simp only [List.length_append, List.length_singleton] at hi
      simp only
      by_cases hic : i = bytes.length
      · subst hic
        have hwi : (f.r_index + bytes.length) % f.FIFO_size = f.w_index := by
          rw [hwf.hw, hc]
        have hl := hwf.hlen
        rw [hwi]
        simp [List.getD_eq_getElem?_getD, List.getElem?_set, show f.w_index < buf.length by omega]
      · have hi2 : i < bytes.length := by omega
        have hne : f.w_index ≠ (f.r_index + i) % f.FIFO_size := by
          rw [hwf.hw]
          exact (ring_index_ne hwf.hr (by omega) (by omega)).symm
        have := hb i hi2
        simp only [List.getD_eq_getElem?_getD] at this ⊢
        rw [List.getElem?_set, if_neg hne, this, List.getElem?_append_left hi2]
  · rw [FIFO8_write_loop]
    simp only [hcne, ne_eq, not_false_eq_true, true_or, if_true, hw1, and_false, if_false,
      hclt, List.headD_cons, List.tail_cons]

/-- Writing one byte into a full ring in loop mode: the oldest byte is dropped. -/
theorem FIFO8_write_step_full (f : FIFO8_t) (bytes : List Nat) (b : Nat) (rest : List Nat)
    (len : Nat) (h : FIFO8_holds f bytes) (hfull : bytes.length = f.FIFO_size)
    (hflags : f.flags ≠ 0) :
    FIFO8_holds
      { f with pBuffer := store_byte f.pBuffer f.w_index b,
               w_index := (f.w_index + 1) % f.FIFO_size,
               r_index := (f.r_index + 1) % f.FIFO_size } (bytes.tail ++ [b]) ∧
    FIFO8_write_loop (len + 1) f (b :: rest) =
      ((FIFO8_write_loop len
          { f with pBuffer := store_byte f.pBuffer f.w_index b,
                   w_index := (f.w_index + 1) % f.FIFO_size,
                   r_index := (f.r_index + 1) % f.FIFO_size } rest).1,
       (FIFO8_write_loop len
          { f with pBuffer := store_byte f.pBuffer f.w_index b,
                   w_index := (f.w_index + 1) % f.FIFO_size,
                   r_index := (f.r_index + 1) % f.FIFO_size } rest).2.1,
       (FIFO8_write_loop len
          { f with pBuffer := store_byte f.pBuffer f.w_index b,
                   w_index := (f.w_index + 1) % f.FIFO_size,
                   r_index := (f.r_index + 1) % f.FIFO_size } rest).2.2 + 1) := by
  obtain ⟨buf, hwf, hc, hb⟩ := h
  have hS := hwf.hpos
  have hwr : f.w_index = f.r_index := by
    rw [hwf.hw, hc, hfull, Nat.add_mod_right]
    exact Nat.mod_eq_of_lt hwf.hr
  have hwlt : f.w_index < f.FIFO_size := by rw [hwr]; exact hwf.hr
  have hw1 := ring_next hwlt hwf.hmax
  have hceq : f.counter = f.FIFO_size := by omega
  have hst : store_byte f.pBuffer f.w_index b = some (buf.set f.w_index b) := by
    simp only [store_byte, hwf.hbuf, Option.map_some']
  have htl : bytes.tail.length = f.FIFO_size - 1 := by simp [hfull]
  constructor
  · rw [hst]
    refine ⟨buf.set f.w_index b,
      ⟨rfl, hS, hwf.hmax, by simpa using hwf.hlen, Nat.mod_lt _ hS, hwf.hc, ?_⟩, ?_, ?_⟩
    · simp only
      rw [hwr, hceq, Nat.add_mod_right, Nat.mod_mod]
    · simp only [List.length_append, List.length_singleton, htl]
      omega
    · intro i hi
      simp only [List.length_append, List.length_singleton, htl] at hi
      simp only
      rw [Nat.mod_add_mod]
      by_cases hic : i = f.FIFO_size - 1
      · subst hic
        have hwi : (f.r_index + 1 + (f.FIFO_size - 1)) % f.FIFO_size = f.w_index := by
          rw [show f.r_index + 1 + (f.FIFO_size - 1) = f.r_index + f.FIFO_size by omega,
            Nat.add_mod_right, hwr]
          exact Nat.mod_eq_of_lt hwf.hr
        have hl := hwf.hlen
        rw [hwi]
        have hidx : (bytes.tail ++ [b]).getD (f.FIFO_size - 1) 0 = b := by
          rw [List.getD_eq_getElem?_getD, List.getElem?_append_right (by rw [htl])]
          simp [htl]
        rw [hidx]
        simp [List.getD_eq_getElem?_getD, List.getElem?_set, show f.w_index < buf.length by omega]
      · have hi2 : i < f.FIFO_size - 1 := by omega
        have hne : f.w_index ≠ (f.r_index + 1 + i) % f.FIFO_size := by
          rw [hwr]
          have := ring_index_ne hwf.hr (show 0 < i + 1 by omega)
            (show i + 1 < f.FIFO_size by omega)
          rw [Nat.add_zero, Nat.mod_eq_of_lt hwf.hr] at this
          rw [show f.r_index + 1 + i = f.r_index + (i + 1) by omega]
          exact this
        have hbi := hb (i + 1) (by omega)
        rw [show f.r_index + 1 + i = f.r_index + (i + 1) by omega] at hne ⊢
        simp only [List.getD_eq_getElem?_getD] at hbi ⊢
        rw [List.getElem?_set, if_neg hne, hbi,
          List.getElem?_append_left (by rw [htl]; exact hi2)]
        cases bytes with
        | nil => simp at hfull; omega
        | cons x xs => simp
  · rw [FIFO8_write_loop]
    have hnlt : ¬ f.counter < f.FIFO_size := by omega
    have hfl : f.flags ≠ 0 ∧ FIFO_LOOP ≠ 0 := ⟨hflags, by decide⟩
    have hw1r : (f.w_index + 1) % f.FIFO_size = (f.r_index + 1) % f.FIFO_size := by rw [hwr]
    have hloop : ¬ FIFO_LOOP = 0 := by decide
    have hfl0 : ¬ f.flags = 0 := hflags
    simp only [hceq, hfl0, hloop, ne_eq, not_true_eq_false, not_false_eq_true, false_or,
      and_self, and_true, lt_irrefl, if_true, if_false, hw1, List.headD_cons, List.tail_cons,
      hw1r]

/-! ## The byte ring: writes in general -/

theorem FIFO8_write_loop_no_flags (data : List Nat) :
    ∀ (f : FIFO8_t) (bytes extra : List Nat), FIFO8_holds f bytes → f.flags = 0 →
      ∃ f2, FIFO8_write_loop data.length f (data ++ extra) =
          (if bytes.length + data.length ≤ f.FIFO_size then FIFO_error_t.FIFO_OK
            else FIFO_error_t.FIFO_OVERFLOW,
           f2, min data.length (f.FIFO_size - bytes.length)) ∧
        FIFO8_holds f2 (bytes ++ data.take (f.FIFO_size - bytes.length)) ∧
        f2.FIFO_size = f.FIFO_size ∧ f2.flags = f.flags ∧ f2.r_index = f.r_index ∧
        f2.w_index = (f.w_index + min data.length (f.FIFO_size - bytes.length)) % f.FIFO_size ∧
        (bytes.length = f.FIFO_size → f2 = f) := by
  induction data with
  | nil =>
    intro f bytes extra h _
    obtain ⟨_, hle, _, _, _, hw, _⟩ := FIFO8_holds_counter f bytes h
    have hwlt : f.w_index < f.FIFO_size := by rw [hw]; exact Nat.mod_lt _ (by omega)
    refine ⟨f, ?_, by simpa using h, rfl, rfl, rfl, ?_, fun _ => rfl⟩
    · simp [FIFO8_write_loop, hle]
    · simp [Nat.mod_eq_of_lt hwlt]
  | cons b rest ih =>
    intro f bytes extra h hfl
    obtain ⟨hc, hle, hS, _, _, hw, _⟩ := FIFO8_holds_counter f bytes h
    have hwlt : f.w_index < f.FIFO_size := by rw [hw]; exact Nat.mod_lt _ hS
    by_cases hfull : bytes.length = f.FIFO_size
    · refine ⟨f, ?_, ?_, rfl, rfl, rfl, ?_, fun _ => rfl⟩
      · simp only [List.length_cons, List.cons_append]
        rw [FIFO8_write_loop]
        have hceq : f.counter = f.FIFO_size := by omega
        have hnle : ¬ bytes.length + (rest.length + 1) ≤ f.FIFO_size := by omega
        have hmin : min (rest.length + 1) (f.FIFO_size - bytes.length) = 0 := by omega
        simp only [hceq, hfl, ne_eq, not_true_eq_false, false_and, or_self, if_false, hnle, hmin]
      · have : f.FIFO_size - bytes.length = 0 := by omega
        rw [this]
        simpa using h
      · have hmin : min (b :: rest).length (f.FIFO_size - bytes.length) = 0 := by omega
        rw [hmin, Nat.add_zero, Nat.mod_eq_of_lt hwlt]
    · have hfree : bytes.length < f.FIFO_size := by omega
      obtain ⟨hh1, hstep⟩ := FIFO8_write_step_free f bytes b (rest ++ extra) rest.length h hfree
      obtain ⟨f2, heq, hh2, hs2, hfl2, hr2, hw2, _⟩ := ih _ (bytes ++ [b]) extra hh1 hfl
      simp only [List.length_append, List.length_singleton] at heq hh2 hw2
      have htake : (b :: rest).take (f.FIFO_size - bytes.length)
          = b :: rest.take (f.FIFO_size - (bytes.length + 1)) := by
        have e : f.FIFO_size - bytes.length = (f.FIFO_size - (bytes.length + 1)) + 1 := by omega
        rw [e, List.take_succ_cons]
      refine ⟨f2, ?_, ?_, by simpa using hs2, by simpa using hfl2, by simpa using hr2, ?_,
        fun hf => absurd hf hfull⟩
      · simp only [List.length_cons, List.cons_append]
        rw [hstep, heq]
        have hmin : min (rest.length + 1) (f.FIFO_size - bytes.length)
            = min rest.length (f.FIFO_size - (bytes.length + 1)) + 1 := by omega
        rw [hmin]
        by_cases hfit : bytes.length + 1 + rest.length ≤ f.FIFO_size
        · have hfit2 : bytes.length + (rest.length + 1) ≤ f.FIFO_size := by omega
          simp only [hfit, hfit2, if_true]
        · have hfit2 : ¬ bytes.length + (rest.length + 1) ≤ f.FIFO_size := by omega
          simp only [hfit, hfit2, if_false]
      · rw [htake]
        simpa using hh2
      · rw [hw2]
        simp only [List.length_cons]
        rw [Nat.mod_add_mod]
        congr 1
        omega

theorem last_n_of_le (n : Nat) (l : List Nat) (h : l.length ≤ n) : last_n n l = l := by
  unfold last_n
  rw [show l.length - n = 0 by omega, List.drop_zero]

theorem last_n_length (n : Nat) (l : List Nat) : (last_n n l).length = min l.length n := by
  unfold last_n
  rw [List.length_drop]
  omega

theorem last_n_append_singleton_full (n : Nat) (x b : Nat) (xs : List Nat)
    (h : (x :: xs).length = n) : last_n n ((x :: xs) ++ [b]) = xs ++ [b] := by
  unfold last_n
  have e : ((x :: xs) ++ [b]).length - n = 1 := by
    simp only [List.length_append, List.length_cons, List.length_singleton,
      List.length_nil] at h ⊢
    omega
  rw [e]
  rfl

theorem last_n_last_n_append (n : Nat) (a c : List Nat) :
    last_n n (last_n n a ++ c) = last_n n (a ++ c) := by
  unfold last_n
  by_cases h : a.length ≤ n
  · rw [show a.length - n = 0 by omega, List.drop_zero]
  · have hl : (a.drop (a.length - n)).length = n := by
      rw [List.length_drop]
      omega
    rw [List.length_append, hl, List.length_append]
    have e1 : n + c.length - n = c.length := by omega
    have e2 : a.length + c.length - n = (a.length - n) + c.length := by omega
    rw [e1, e2]
    have e3 : (a ++ c).drop (a.length - n) = a.drop (a.length - n) ++ c :=
      List.drop_append_of_le_length (by omega)
    rw [← List.drop_drop, e3]

theorem last_n_drop_oldest (n : Nat) (bytes : List Nat) (b : Nat) (rest : List Nat)
    (h : bytes.length = n) (hn : 0 < n) :
    last_n n (bytes ++ b :: rest) = last_n n (bytes.tail ++ [b] ++ rest) := by
  cases bytes with
  | nil => simp at h; omega
  | cons x xs =>
    rw [show x :: xs ++ b :: rest = ((x :: xs) ++ [b]) ++ rest by simp,
      ← last_n_last_n_append, last_n_append_singleton_full n x b xs h]
    rfl

theorem FIFO8_write_loop_loop_mode (data : List Nat) :
    ∀ (f : FIFO8_t) (bytes extra : List Nat), FIFO8_holds f bytes → f.flags ≠ 0 →
      ∃ f2, FIFO8_write_loop data.length f (data ++ extra) =
          (FIFO_error_t.FIFO_OK, f2, data.length) ∧
        FIFO8_holds f2 (last_n f.FIFO_size (bytes ++ data)) ∧
        f2.FIFO_size = f.FIFO_size ∧ f2.flags = f.flags ∧
        f2.r_index = (f.r_index + (bytes.length + data.length - f.FIFO_size)) % f.FIFO_size ∧
        f2.w_index = (f.w_index + data.length) % f.FIFO_size := by
  induction data with
  | nil =>
    intro f bytes extra h _
    obtain ⟨_, hle, hS, _, hr, hw, _⟩ := FIFO8_holds_counter f bytes h
    have hwlt : f.w_index < f.FIFO_size := by rw [hw]; exact Nat.mod_lt _ hS
    refine ⟨f, by simp [FIFO8_write_loop], ?_, rfl, rfl, ?_, ?_⟩
    · rw [List.append_nil, last_n_of_le _ _ hle]
      exact h
    · simp only [List.length_nil, Nat.add_zero]
      rw [show bytes.length - f.FIFO_size = 0 by omega, Nat.add_zero, Nat.mod_eq_of_lt hr]
    · simp [Nat.mod_eq_of_lt hwlt]
  | cons b rest ih =>
    intro f bytes extra h hfl
    obtain ⟨hc, hle, hS, _, hr, hw, _⟩ := FIFO8_holds_counter f bytes h
    by_cases hfull : bytes.length = f.FIFO_size
    · obtain ⟨hh1, hstep⟩ :=
        FIFO8_write_step_full f bytes b (rest ++ extra) rest.length h hfull hfl
      obtain ⟨f2, heq, hh2, hs2, hfl2, hr2, hw2⟩ := ih _ (bytes.tail ++ [b]) extra hh1 hfl
      have htl : bytes.tail.length = f.FIFO_size - 1 := by simp [hfull]
      simp only [List.length_append, List.length_singleton, htl] at heq hh2 hr2 hw2
      refine ⟨f2, ?_, ?_, by simpa using hs2, by simpa using hfl2, ?_, ?_⟩
      · simp only [List.length_cons, List.cons_append]
        rw [hstep, heq]
      · rw [last_n_drop_oldest f.FIFO_size bytes b rest hfull hS]
        exact hh2
      · rw [hr2]
        simp only [List.length_cons]
        rw [Nat.mod_add_mod]
        congr 1
        omega
      · rw [hw2]
        simp only [List.length_cons]
        rw [Nat.mod_add_mod]
        congr 1
        omega
    · have hfree : bytes.length < f.FIFO_size := by omega
      obtain ⟨hh1, hstep⟩ := FIFO8_write_step_free f bytes b (rest ++ extra) rest.length h hfree
      obtain ⟨f2, heq, hh2, hs2, hfl2, hr2, hw2⟩ := ih _ (bytes ++ [b]) extra hh1 hfl
      simp only [List.length_append, List.length_singleton] at heq hh2 hr2 hw2
      refine ⟨f2, ?_, ?_, by simpa using hs2, by simpa using hfl2, ?_, ?_⟩
      · simp only [List.length_cons, List.cons_append]
        rw [hstep, heq]
      · simpa using hh2
      · rw [hr2]
        simp only [List.length_cons]
        congr 2
        omega
      · rw [hw2]
        simp only [List.length_cons]
        rw [Nat.mod_add_mod]
        congr 1
        omega

/-! ## The item ring: general item size -/

theorem item_bytes_len_general (n isz : Nat) (h : n * isz ≤ 65535) :
    to_uint16 (to_uint32 ((n : Int) * (isz : Int))) = n * isz := by
  have e : (n : Int) * (isz : Int) = ((n * isz : Nat) : Int) := by push_cast; rfl
  rw [e]
  generalize n * isz = m at h
  unfold to_uint16 to_uint32
  omega

theorem dvd_min_of_dvd (k a b : Nat) (ha : k ∣ a) (hb : k ∣ b) : k ∣ min a b := by
  rcases Nat.le_total a b with h | h
  · rw [Nat.min_eq_left h]; exact ha
  · rw [Nat.min_eq_right h]; exact hb

theorem FIFO_aligned_counts (fifo : FIFO_t) (cap isz flags : Nat) (bytes : List Nat)
    (hisz : 1 ≤ isz) (h : FIFO_aligned fifo cap isz flags bytes) :
    ∃ k, bytes.length = k * isz ∧ k ≤ cap ∧ cap * isz ≤ 65535 ∧ 1 ≤ cap ∧
      FIFO_get_data_count fifo = k ∧ FIFO_get_free_space fifo = cap - k ∧
      FIFO_contents fifo = bytes ∧ fifo.fifo8.counter = k * isz := by
  obtain ⟨his, hfs, hS, hfl, hh, ⟨k, hk⟩, hr⟩ := h
  obtain ⟨hc, hle, hpos, hmax, _, _, _⟩ := FIFO8_holds_counter _ _ hh
  rw [hS] at hle hpos hmax
  have hk2 : bytes.length = k * isz := by rw [hk, Nat.mul_comm]
  have hkc : k ≤ cap := by
    rw [hk2] at hle
    exact Nat.le_of_mul_le_mul_right hle (by omega)
  have hcap : 1 ≤ cap := by
    rcases Nat.eq_zero_or_pos cap with e | e
    · rw [e, Nat.zero_mul] at hpos; omega
    · exact e
  have hdiv : k * isz / isz = k := Nat.mul_div_cancel k (by omega)
  have hkb : k ≤ 65535 := by
    have : k * 1 ≤ k * isz := Nat.mul_le_mul_left k hisz
    omega
  have hcapb : cap ≤ 65535 := by
    have : cap * 1 ≤ cap * isz := Nat.mul_le_mul_left cap hisz
    omega
  refine ⟨k, hk2, hkc, hmax, hcap, ?_, ?_, FIFO8_contents_of_holds _ _ hh, by rw [hc, hk2]⟩
  · unfold FIFO_get_data_count FIFO8_get_data_count
    rw [hc, hk2, his, hdiv]
    exact to_uint16_of_range hkb
  · unfold FIFO_get_free_space FIFO8_get_free_space
    rw [hc, hk2, his, hS]
    have e1 : to_uint16 (((cap * isz : Nat) : Int) - ((k * isz : Nat) : Int))
        = (cap - k) * isz := by
      have hle2 : k * isz ≤ cap * isz := Nat.mul_le_mul_right isz hkc
      rw [Nat.sub_mul]
      generalize cap * isz = A at hle2 hmax
      generalize k * isz = B at hle2
      unfold to_uint16
      omega
    rw [e1, Nat.mul_div_cancel _ (by omega)]
    exact to_uint16_of_range (by omega)

theorem FIFO_read_general (fifo : FIFO_t) (cap isz flags : Nat) (bytes : List Nat) (n : Nat)
    (h : FIFO_aligned fifo cap isz flags bytes) (hn : n * isz ≤ 65535) :
    FIFO_read fifo n =
      (if n * isz ≤ bytes.length then FIFO_error_t.FIFO_OK else FIFO_error_t.FIFO_UNDERFLOW,
       { fifo with fifo8 :=
          { fifo.fifo8 with
            r_index := (fifo.fifo8.r_index + min (n * isz) bytes.length) % (cap * isz),
            counter := fifo.fifo8.counter - min (n * isz) bytes.length } },
       bytes.take (n * isz), min (n * isz) bytes.length / isz) ∧
    FIFO_aligned
      { fifo with fifo8 :=
          { fifo.fifo8 with
            r_index := (fifo.fifo8.r_index + min (n * isz) bytes.length) % (cap * isz),
            counter := fifo.fifo8.counter - min (n * isz) bytes.length } }
      cap isz flags (bytes.drop (n * isz)) := by
  obtain ⟨his, hfs, hS, hfl, hh, hdl, hdr⟩ := h
  obtain ⟨_, _, _, _, _, _, hnn⟩ := FIFO8_holds_counter _ _ hh
  obtain ⟨heq, hh2⟩ := FIFO8_read_loop_general (n * isz) fifo.fifo8 bytes hh
  rw [← hS]
  constructor
  · unfold FIFO_read FIFO8_read
    rw [his, item_bytes_len_general n isz hn]
    simp only [hnn, if_false, heq]
  · refine ⟨his, hfs, hS, hfl, hh2, ?_, ?_⟩
    · rw [List.length_drop]
      exact (Nat.dvd_sub' hdl (Dvd.intro_left n rfl))
    · show isz ∣ (fifo.fifo8.r_index + min (n * isz) bytes.length) % fifo.fifo8.FIFO_size
      rw [hS, Nat.dvd_mod_iff (Dvd.intro_left cap rfl)]
      exact Nat.dvd_add hdr (dvd_min_of_dvd _ _ _ (Dvd.intro_left n rfl) hdl)

theorem FIFO_write_fits (fifo : FIFO_t) (cap isz flags : Nat) (bytes data : List Nat) (n : Nat)
    (h : FIFO_aligned fifo cap isz flags bytes) (hd : data.length = n * isz)
    (hfit : bytes.length + n * isz ≤ cap * isz) :
    ∃ fifo2, FIFO_write fifo data n = (FIFO_error_t.FIFO_OK, fifo2, n * isz / isz) ∧
      FIFO_aligned fifo2 cap isz flags (bytes ++ data) ∧
      fifo2.fifo8.r_index = fifo.fifo8.r_index := by
  obtain ⟨his, hfs, hS, hfl, hh, hdl, hdr⟩ := h
  obtain ⟨_, _, _, hmax, _, _, hnn⟩ := FIFO8_holds_counter _ _ hh
  rw [hS] at hmax
  obtain ⟨f2, heq, hh2, hs2, hfl2, hr2, _⟩ :=
    FIFO8_write_loop_holds data fifo.fifo8 bytes [] hh (by rw [hd, hS]; exact hfit)
  rw [List.append_nil, hd] at heq
  refine ⟨{ fifo with fifo8 := f2 }, ?_, ⟨his, hfs, by rw [hs2, hS], by rw [hfl2, hfl], hh2, ?_,
    by rw [hr2]; exact hdr⟩, hr2⟩
  · unfold FIFO_write FIFO8_write
    rw [his, item_bytes_len_general n isz (by omega)]
    simp only [hnn, if_false, heq]
  · rw [List.length_append, hd]
    exact Nat.dvd_add hdl (Dvd.intro_left n rfl)

theorem FIFO_write_no_flags (fifo : FIFO_t) (cap isz : Nat) (bytes data : List Nat) (n : Nat)
    (h : FIFO_aligned fifo cap isz 0 bytes) (hd : data.length = n * isz)
    (hn : n * isz ≤ 65535) :
    ∃ fifo2, FIFO_write fifo data n =
        (if bytes.length + n * isz ≤ cap * isz then FIFO_error_t.FIFO_OK
          else FIFO_error_t.FIFO_OVERFLOW,
         fifo2, min (n * isz) (cap * isz - bytes.length) / isz) ∧
      FIFO_aligned fifo2 cap isz 0 (bytes ++ data.take (cap * isz - bytes.length)) ∧
      fifo2.fifo8.r_index = fifo.fifo8.r_index ∧
      (bytes.length = cap * isz → fifo2 = fifo) := by
  obtain ⟨his, hfs, hS, hfl, hh, hdl, hdr⟩ := h
  obtain ⟨_, hle, _, hmax, _, _, hnn⟩ := FIFO8_holds_counter _ _ hh
  obtain ⟨f2, heq, hh2, hs2, hfl2, hr2, _, hfull⟩ :=
    FIFO8_write_loop_no_flags data fifo.fifo8 bytes [] hh hfl
  rw [List.append_nil, hd, hS] at heq
  rw [hS] at hh2 hfull hle
  refine ⟨{ fifo with fifo8 := f2 }, ?_, ⟨his, hfs, by rw [hs2, hS], by rw [hfl2, hfl], hh2, ?_,
    by rw [hr2]; exact hdr⟩, hr2, ?_⟩
  · unfold FIFO_write FIFO8_write
    rw [his, item_bytes_len_general n isz hn]
    simp only [hnn, if_false, heq]
  · rw [List.length_append, List.length_take, hd]
    have h1 : isz ∣ cap * isz - bytes.length := Nat.dvd_sub' (Dvd.intro_left cap rfl) hdl
    rw [Nat.min_comm]
    exact Nat.dvd_add hdl (dvd_min_of_dvd _ _ _ (Dvd.intro_left n rfl) h1)
  · intro hf
    rw [hfull hf]

theorem FIFO_write_loop_mode (fifo : FIFO_t) (cap isz flags : Nat) (bytes data : List Nat)
    (n : Nat) (h : FIFO_aligned fifo cap isz flags bytes) (hflags : flags ≠ 0)
    (hd : data.length = n * isz) (hn : n * isz ≤ 65535) :
    ∃ fifo2, FIFO_write fifo data n = (FIFO_error_t.FIFO_OK, fifo2, n * isz / isz) ∧
      FIFO_aligned fifo2 cap isz flags (last_n (cap * isz) (bytes ++ data)) ∧
      fifo2.fifo8.r_index =
        (fifo.fifo8.r_index + (bytes.length + n * isz - cap * isz)) % (cap * isz) := by
  obtain ⟨his, hfs, hS, hfl, hh, hdl, hdr⟩ := h
  obtain ⟨_, hle, _, hmax, _, _, hnn⟩ := FIFO8_holds_counter _ _ hh
  obtain ⟨f2, heq, hh2, hs2, hfl2, hr2, _⟩ :=
    FIFO8_write_loop_loop_mode data fifo.fifo8 bytes [] hh (by rw [hfl]; exact hflags)
  rw [List.append_nil, hd] at heq
  rw [hS] at hh2
  rw [hS, hd] at hr2
  have hsum : isz ∣ bytes.length + n * isz := Nat.dvd_add hdl (Dvd.intro_left n rfl)
  refine ⟨{ fifo with fifo8 := f2 }, ?_, ⟨his, hfs, by rw [hs2, hS], by rw [hfl2, hfl], hh2, ?_,
    ?_⟩, hr2⟩
  · unfold FIFO_write FIFO8_write
    rw [his, item_bytes_len_general n isz hn]
    simp only [hnn, if_false, heq]
  · rw [last_n_length, List.length_append, hd]
    exact dvd_min_of_dvd _ _ _ hsum (Dvd.intro_left cap rfl)
  · show isz ∣ f2.r_index
    rw [hr2, Nat.dvd_mod_iff (Dvd.intro_left cap rfl)]
    exact Nat.dvd_add hdr (Nat.dvd_sub' hsum (Dvd.intro_left cap rfl))

/-! ## The item ring: reachable states -/

theorem FIFO_init_aligned (fifo : FIFO_t) (buf : List Nat) (cap isz flags : Nat)
    (hpos : 1 ≤ cap * isz) (hmax : cap * isz ≤ 65535) (hbuf : cap * isz ≤ buf.length) :
    FIFO_aligned (FIFO_init fifo (some buf) cap isz flags) cap isz flags [] ∧
    (FIFO_init fifo (some buf) cap isz flags).fifo8.r_index = 0 ∧
    (FIFO_init fifo (some buf) cap isz flags).fifo8.w_index = 0 := by
  have hsz : to_uint16 ((cap : Int) * (isz : Int)) = cap * isz := by
    have e : (cap : Int) * (isz : Int) = ((cap * isz : Nat) : Int) := by push_cast; rfl
    rw [e]
    generalize cap * isz = m at hmax
    unfold to_uint16
    omega
  have e : FIFO_init fifo (some buf) cap isz flags =
      { fifo8 := { pBuffer := some buf, FIFO_size := cap * isz, flags := flags,
                   counter := 0, r_index := 0, w_index := 0 },
        item_size := isz, fifo_size := cap } := by
    unfold FIFO_init FIFO8_init
    simp only [hsz]
  rw [e]
  refine ⟨⟨rfl, rfl, rfl, rfl, ⟨buf, ?_, rfl, ?_⟩, Nat.dvd_zero _, Nat.dvd_zero _⟩, rfl, rfl⟩
  · exact
      { hbuf := rfl
        hpos := hpos
        hmax := hmax
        hlen := hbuf
        hr := hpos
        hc := Nat.zero_le _
        hw := by show 0 = (0 + 0) % (cap * isz); simp }
  · intro i hi
    simp at hi

theorem FIFO_flush_aligned (fifo : FIFO_t) (cap isz flags : Nat) (bytes : List Nat)
    (h : FIFO_aligned fifo cap isz flags bytes) :
    FIFO_aligned (FIFO_flush fifo) cap isz flags [] ∧
    (FIFO_flush fifo).fifo8.r_index = 0 ∧ (FIFO_flush fifo).fifo8.w_index = 0 := by
  obtain ⟨his, hfs, hS, hfl, hh, _, _⟩ := h
  exact ⟨⟨his, hfs, hS, hfl, FIFO8_flush_holds _ _ hh, Nat.dvd_zero _, Nat.dvd_zero _⟩, rfl, rfl⟩

/-- Every reachable item ring is in an item-aligned state. -/
theorem FIFO_reachable_aligned (cap isz flags : Nat) (fifo : FIFO_t)
    (hpos : 1 ≤ cap * isz) (hmax : cap * isz ≤ 65535)
    (h : FIFO_reachable cap isz flags fifo) :
    ∃ bytes, FIFO_aligned fifo cap isz flags bytes := by
  induction h with
  | init fifo0 buf hbuf => exact ⟨[], (FIFO_init_aligned fifo0 buf cap isz flags hpos hmax hbuf).1⟩
  | write fifo data n _ hd hn ih =>
    obtain ⟨bytes, hb⟩ := ih
    by_cases hf : flags = 0
    · subst hf
      obtain ⟨fifo2, heq, h2, _⟩ := FIFO_write_no_flags fifo cap isz bytes data n hb hd hn
      rw [heq]
      exact ⟨_, h2⟩
    · obtain ⟨fifo2, heq, h2, _⟩ := FIFO_write_loop_mode fifo cap isz flags bytes data n hb hf hd hn
      rw [heq]
      exact ⟨_, h2⟩
  | read fifo n _ hn ih =>
    obtain ⟨bytes, hb⟩ := ih
    obtain ⟨heq, h2⟩ := FIFO_read_general fifo cap isz flags bytes n hb hn
    rw [heq]
    exact ⟨_, h2⟩
  | flush fifo _ ih =>
    obtain ⟨bytes, hb⟩ := ih
    exact ⟨[], (FIFO_flush_aligned fifo cap isz flags bytes hb).1⟩

/-! ## Overwrite mode -/

theorem FIFO_aligned_count_of_length (fifo : FIFO_t) (cap isz flags : Nat) (bytes : List Nat)
    (k : Nat) (hisz : 1 ≤ isz) (h : FIFO_aligned fifo cap isz flags bytes)
    (hk : bytes.length = k * isz) :
    k ≤ cap ∧ FIFO_get_data_count fifo = k ∧ FIFO_get_free_space fifo = cap - k ∧
    FIFO_contents fifo = bytes ∧ fifo.fifo8.counter = k * isz := by
  obtain ⟨k2, hk2, hle, _, _, hc, hf, hcont, hcnt⟩ := FIFO_aligned_counts fifo cap isz flags bytes hisz h
  have e : k2 = k := by
    rw [hk2] at hk
    exact Nat.eq_of_mul_eq_mul_right (by omega) hk
  subst e
  exact ⟨hle, hc, hf, hcont, hcnt⟩

theorem min_mul_right (a b c : Nat) : min (a * c) (b * c) = min a b * c := by
  rcases Nat.le_total a b with h | h
  · rw [Nat.min_eq_left h, Nat.min_eq_left (Nat.mul_le_mul_right c h)]
  · rw [Nat.min_eq_right h, Nat.min_eq_right (Nat.mul_le_mul_right c h)]

theorem last_n_min_length (n : Nat) (l : List Nat) : last_n (min l.length n) l = last_n n l := by
  unfold last_n
  congr 1
  omega

/-- C17: overwrite (loop) mode never fails and keeps the newest items.  For a
ring of `cap >= 1` items of `isz >= 1` bytes (`cap * isz <= 65535`) initialised
with `FIFO_LOOP`, in any state reachable by item-granular calls, and `n` items
given by their `n * isz <= 65535` bytes, `FIFO_write` returns `FIFO_OK` and
reports `n` items; afterwards the item count is `min (count + n) cap`, the
contents in read order are the last `min (count + n) cap` items (that many times
`isz` bytes) of the old contents followed by the new items, and the read index
has advanced by the `count + n - cap` dropped items, modulo the byte size. -/
theorem C17_loop_write_keeps_newest (cap isz : Nat) (fifo : FIFO_t) (data : List Nat) (n : Nat)
    (hcap : 1 ≤ cap) (hisz : 1 ≤ isz) (hmax : cap * isz ≤ 65535)
    (h : FIFO_reachable cap isz FIFO_LOOP fifo)
    (hd : data.length = n * isz) (hn : n * isz ≤ 65535) :
    (FIFO_write fifo data n).1 = FIFO_error_t.FIFO_OK ∧
    (FIFO_write fifo data n).2.2 = n ∧
    FIFO_get_data_count (FIFO_write fifo data n).2.1 = min (FIFO_get_data_count fifo + n) cap ∧
    FIFO_contents (FIFO_write fifo data n).2.1 =
      last_n (min (FIFO_get_data_count fifo + n) cap * isz) (FIFO_contents fifo ++ data) ∧
    (FIFO_write fifo data n).2.1.fifo8.r_index =
      (fifo.fifo8.r_index + (FIFO_get_data_count fifo + n - cap) * isz) % (cap * isz) := by
  have hpos : 1 ≤ cap * isz := Nat.mul_pos hcap hisz
  obtain ⟨bytes, hb⟩ := FIFO_reachable_aligned cap isz FIFO_LOOP fifo hpos hmax h
  obtain ⟨k, hk, _, _, _, hc, _, hcont, _⟩ := FIFO_aligned_counts fifo cap isz FIFO_LOOP bytes hisz hb
  obtain ⟨fifo2, heq, h2, hr2⟩ :=
    FIFO_write_loop_mode fifo cap isz FIFO_LOOP bytes data n hb (by decide) hd hn
  have hlen : (bytes ++ data).length = (k + n) * isz := by
    rw [List.length_append, hk, hd, Nat.add_mul]
  have hl2 : (last_n (cap * isz) (bytes ++ data)).length = min (k + n) cap * isz := by
    rw [last_n_length, hlen, min_mul_right]
  obtain ⟨_, hc2, _, hcont2, _⟩ :=
    FIFO_aligned_count_of_length fifo2 cap isz FIFO_LOOP _ _ hisz h2 hl2
  rw [heq, hc, hcont]
  refine ⟨rfl, Nat.mul_div_cancel n (by omega), hc2, ?_, ?_⟩
  · show FIFO_contents fifo2 = _
    rw [hcont2, ← min_mul_right, ← hlen, last_n_min_length]
  · show fifo2.fifo8.r_index = _
    rw [hr2, hk, ← Nat.add_mul, ← Nat.sub_mul]

theorem C17_loop_write_keeps_newest_witness :
    (FIFO_write
        (FIFO_write (FIFO_init ⟨⟨none, 0, 0, 0, 0, 0⟩, 0, 0⟩ (some [0, 0, 0, 0, 0, 0]) 3 2 FIFO_LOOP)
          [1, 2, 3, 4] 2).2.1
        [5, 6, 7, 8, 9, 10] 3).1 = FIFO_error_t.FIFO_OK ∧
    FIFO_contents
      (FIFO_write
        (FIFO_write (FIFO_init ⟨⟨none, 0, 0, 0, 0, 0⟩, 0, 0⟩ (some [0, 0, 0, 0, 0, 0]) 3 2 FIFO_LOOP)
          [1, 2, 3, 4] 2).2.1
        [5, 6, 7, 8, 9, 10] 3).2.1 = [5, 6, 7, 8, 9, 10] ∧
    (FIFO_write
        (FIFO_write (FIFO_init ⟨⟨none, 0, 0, 0, 0, 0⟩, 0, 0⟩ (some [0, 0, 0, 0, 0, 0]) 3 2 FIFO_LOOP)
          [1, 2, 3, 4] 2).2.1
        [5, 6, 7, 8, 9, 10] 3).2.1.fifo8.r_index = 4 :=
  have key := C17_loop_write_keeps_newest 3 2
    (FIFO_write (FIFO_init ⟨⟨none, 0, 0, 0, 0, 0⟩, 0, 0⟩ (some [0, 0, 0, 0, 0, 0]) 3 2 FIFO_LOOP)
      [1, 2, 3, 4] 2).2.1
    [5, 6, 7, 8, 9, 10] 3 (by decide) (by decide) (by decide)
    (FIFO_reachable.write _ [1, 2, 3, 4] 2
      (FIFO_reachable.init ⟨⟨none, 0, 0, 0, 0, 0⟩, 0, 0⟩ [0, 0, 0, 0, 0, 0] (by decide))
      (by decide) (by decide))
    (by decide) (by decide)
  ⟨key.1, key.2.2.2.1.trans (by decide), key.2.2.2.2.trans (by decide)⟩

/-! ## Write overflow and read underflow -/

/-- C18: non-overwrite write overflow and short write.  For a ring of `cap >= 1`
items of `isz >= 1` bytes (`cap * isz <= 65535`) initialised with
`FIFO_NO_FLAGS`, in any state reachable by item-granular calls, and a request of
`n` items given by their `n * isz <= 65535` bytes: `FIFO_write` returns
`FIFO_OK` exactly when `n` is at most the free space in items, and then all `n`
items are appended; otherwise it returns `FIFO_OVERFLOW`, appends exactly the
first `free space` items of the request, reports that number and leaves the ring
full.  A write of `n >= 1` items into a full ring returns `FIFO_OVERFLOW`,
reports 0 and leaves the handle (count, indices, storage) unchanged. -/
theorem C18_no_flags_write_overflow (cap isz : Nat) (fifo : FIFO_t) (data : List Nat) (n : Nat)
    (hcap : 1 ≤ cap) (hisz : 1 ≤ isz) (hmax : cap * isz ≤ 65535)
    (h : FIFO_reachable cap isz FIFO_NO_FLAGS fifo)
    (hd : data.length = n * isz) (hn : n * isz ≤ 65535) :
    ((FIFO_write fifo data n).1 = FIFO_error_t.FIFO_OK ↔ n ≤ FIFO_get_free_space fifo) ∧
    (n ≤ FIFO_get_free_space fifo →
      (FIFO_write fifo data n).2.2 = n ∧
      FIFO_contents (FIFO_write fifo data n).2.1 = FIFO_contents fifo ++ data ∧
      FIFO_get_data_count (FIFO_write fifo data n).2.1 = FIFO_get_data_count fifo + n) ∧
    (FIFO_get_free_space fifo < n →
      (FIFO_write fifo data n).1 = FIFO_error_t.FIFO_OVERFLOW ∧
      (FIFO_write fifo data n).2.2 = FIFO_get_free_space fifo ∧
      FIFO_contents (FIFO_write fifo data n).2.1 =
        FIFO_contents fifo ++ data.take (FIFO_get_free_space fifo * isz) ∧
      FIFO_get_data_count (FIFO_write fifo data n).2.1 = cap ∧
      FIFO_get_free_space (FIFO_write fifo data n).2.1 = 0) ∧
    (FIFO_get_free_space fifo = 0 → 1 ≤ n →
      FIFO_write fifo data n = (FIFO_error_t.FIFO_OVERFLOW, fifo, 0)) := by
  have hpos : 1 ≤ cap * isz := Nat.mul_pos hcap hisz
  obtain ⟨bytes, hb⟩ := FIFO_reachable_aligned cap isz FIFO_NO_FLAGS fifo hpos hmax h
  obtain ⟨k, hk, hkc, _, _, hc, hf, hcont, _⟩ :=
    FIFO_aligned_counts fifo cap isz FIFO_NO_FLAGS bytes hisz hb
  obtain ⟨fifo2, heq, h2, _, hfull⟩ := FIFO_write_no_flags fifo cap isz bytes data n hb hd hn
  have hfree : cap * isz - bytes.length = (cap - k) * isz := by rw [hk, Nat.sub_mul]
  have hcond : bytes.length + n * isz ≤ cap * isz ↔ n ≤ cap - k := by
    rw [hk, ← Nat.add_mul]
    constructor
    · intro hle
      have := Nat.le_of_mul_le_mul_right hle (by omega : 0 < isz)
      omega
    · intro hle
      exact Nat.mul_le_mul_right isz (by omega)
  have hitems : min (n * isz) (cap * isz - bytes.length) / isz = min n (cap - k) := by
    rw [hfree, min_mul_right, Nat.mul_div_cancel _ (by omega : 0 < isz)]
  rw [hfree] at h2
  rw [heq, hf, hc, hcont, hitems]
  refine ⟨?_, ?_, ?_, ?_⟩
  · show (if bytes.length + n * isz ≤ cap * isz then FIFO_error_t.FIFO_OK
        else FIFO_error_t.FIFO_OVERFLOW) = FIFO_error_t.FIFO_OK ↔ _
    rw [← hcond]
    by_cases hc1 : bytes.length + n * isz ≤ cap * isz
    · simp [hc1]
    · simp [hc1]
  · intro hle
    have htake : data.take ((cap - k) * isz) = data :=
      List.take_of_length_le (by rw [hd]; exact Nat.mul_le_mul_right isz hle)
    rw [htake] at h2
    have hl2 : (bytes ++ data).length = (k + n) * isz := by
      rw [List.length_append, hk, hd, Nat.add_mul]
    obtain ⟨_, hc2, _, hcont2, _⟩ :=
      FIFO_aligned_count_of_length fifo2 cap isz FIFO_NO_FLAGS _ _ hisz h2 hl2
    exact ⟨Nat.min_eq_left hle, hcont2, hc2⟩
  · intro hlt
    have hl2 : (bytes ++ data.take ((cap - k) * isz)).length = cap * isz := by
      rw [List.length_append, List.length_take, hk, hd, min_mul_right,
        Nat.min_eq_left (Nat.le_of_lt hlt), ← Nat.add_mul]
      congr 1
      omega
    obtain ⟨_, hc2, hf2, hcont2, _⟩ :=
      FIFO_aligned_count_of_length fifo2 cap isz FIFO_NO_FLAGS _ _ hisz h2 hl2
    refine ⟨?_, Nat.min_eq_right (Nat.le_of_lt hlt), hcont2, hc2, by rw [hf2]; omega⟩
    show (if bytes.length + n * isz ≤ cap * isz then FIFO_error_t.FIFO_OK
        else FIFO_error_t.FIFO_OVERFLOW) = FIFO_error_t.FIFO_OVERFLOW
    rw [if_neg (by rw [hcond]; omega)]
  · intro h0 h1
    have hkk : k = cap := by omega
    have hbl : bytes.length = cap * isz := by rw [hk, hkk]
    rw [hfull hbl, if_neg (by rw [hcond]; omega), Nat.min_eq_right (by omega), h0]

theorem C18_no_flags_write_overflow_witness :
    (FIFO_write
        (FIFO_write
          (FIFO_init ⟨⟨none, 0, 0, 0, 0, 0⟩, 0, 0⟩ (some [0, 0, 0, 0, 0, 0]) 3 2 FIFO_NO_FLAGS)
          [1, 2, 3, 4] 2).2.1
        [5, 6, 7, 8, 9, 10] 3).1 = FIFO_error_t.FIFO_OVERFLOW ∧
    (FIFO_write
        (FIFO_write
          (FIFO_init ⟨⟨none, 0, 0, 0, 0, 0⟩, 0, 0⟩ (some [0, 0, 0, 0, 0, 0]) 3 2 FIFO_NO_FLAGS)
          [1, 2, 3, 4] 2).2.1
        [5, 6, 7, 8, 9, 10] 3).2.2 = 1 ∧
    FIFO_contents
      (FIFO_write
        (FIFO_write
          (FIFO_init ⟨⟨none, 0, 0, 0, 0, 0⟩, 0, 0⟩ (some [0, 0, 0, 0, 0, 0]) 3 2 FIFO_NO_FLAGS)
          [1, 2, 3, 4] 2).2.1
        [5, 6, 7, 8, 9, 10] 3).2.1 = [1, 2, 3, 4, 5, 6] :=
  have key := (C18_no_flags_write_overflow 3 2
    (FIFO_write
      (FIFO_init ⟨⟨none, 0, 0, 0, 0, 0⟩, 0, 0⟩ (some [0, 0, 0, 0, 0, 0]) 3 2 FIFO_NO_FLAGS)
      [1, 2, 3, 4] 2).2.1
    [5, 6, 7, 8, 9, 10] 3 (by decide) (by decide) (by decide)
    (FIFO_reachable.write _ [1, 2, 3, 4] 2
      (FIFO_reachable.init ⟨⟨none, 0, 0, 0, 0, 0⟩, 0, 0⟩ [0, 0, 0, 0, 0, 0] (by decide))
      (by decide) (by decide))
    (by decide) (by decide)).2.2.1 (by decide)
  ⟨key.1, key.2.1.trans (by decide), key.2.2.1.trans (by decide)⟩

/-- C19: read underflow and short read.  For a ring of `cap >= 1` items of
`isz >= 1` bytes (`cap * isz <= 65535`), with any flags, in any state reachable
by item-granular calls, and a request of `n` items (`n * isz <= 65535`):
`FIFO_read` returns `FIFO_OK` exactly when `n` is at most the item count; then
it returns the `n` oldest items in order, reports `n`, decreases the count by
`n`, advances the read index by `n` slots modulo the capacity, leaves the write
index and the storage unchanged, and the remaining contents are the old ones
without the first `n` items.  Otherwise it returns `FIFO_UNDERFLOW`, returns all
stored items, reports their number and leaves the ring empty. -/
theorem C19_read_underflow_short_read (cap isz flags : Nat) (fifo : FIFO_t) (n : Nat)
    (hcap : 1 ≤ cap) (hisz : 1 ≤ isz) (hmax : cap * isz ≤ 65535)
    (h : FIFO_reachable cap isz flags fifo) (hn : n * isz ≤ 65535) :
    ((FIFO_read fifo n).1 = FIFO_error_t.FIFO_OK ↔ n ≤ FIFO_get_data_count fifo) ∧
    (n ≤ FIFO_get_data_count fifo →
      (FIFO_read fifo n).2.2.1 = (FIFO_contents fifo).take (n * isz) ∧
      (FIFO_read fifo n).2.2.2 = n ∧
      FIFO_get_data_count (FIFO_read fifo n).2.1 = FIFO_get_data_count fifo - n ∧
      (FIFO_read fifo n).2.1.fifo8.r_index = (fifo.fifo8.r_index + n * isz) % (cap * isz) ∧
      (FIFO_read fifo n).2.1.fifo8.r_index / isz = (fifo.fifo8.r_index / isz + n) % cap ∧
      (FIFO_read fifo n).2.1.fifo8.w_index = fifo.fifo8.w_index ∧
      (FIFO_read fifo n).2.1.fifo8.pBuffer = fifo.fifo8.pBuffer ∧
      FIFO_contents (FIFO_read fifo n).2.1 = (FIFO_contents fifo).drop (n * isz)) ∧
    (FIFO_get_data_count fifo < n →
      (FIFO_read fifo n).1 = FIFO_error_t.FIFO_UNDERFLOW ∧
      (FIFO_read fifo n).2.2.1 = FIFO_contents fifo ∧
      (FIFO_read fifo n).2.2.2 = FIFO_get_data_count fifo ∧
      FIFO_get_data_count (FIFO_read fifo n).2.1 = 0 ∧
      FIFO_not_empty (FIFO_read fifo n).2.1 = false) := by
  have hpos : 1 ≤ cap * isz := Nat.mul_pos hcap hisz
  have hisz0 : 0 < isz := by omega
  obtain ⟨bytes, hb⟩ := FIFO_reachable_aligned cap isz flags fifo hpos hmax h
  obtain ⟨k, hk, hkc, _, _, hc, hf, hcont, hcnt⟩ :=
    FIFO_aligned_counts fifo cap isz flags bytes hisz hb
  obtain ⟨heq, h2⟩ := FIFO_read_general fifo cap isz flags bytes n hb hn
  have hcond : n * isz ≤ bytes.length ↔ n ≤ k := by
    rw [hk]
    constructor
    · intro hle
      exact Nat.le_of_mul_le_mul_right hle hisz0
    · intro hle
      exact Nat.mul_le_mul_right isz hle
  have hmin : min (n * isz) bytes.length = min n k * isz := by rw [hk, min_mul_right]
  have hl2 : (bytes.drop (n * isz)).length = (k - n) * isz := by
    rw [List.length_drop, hk, Nat.sub_mul]
  have h2r : FIFO_aligned (FIFO_read fifo n).2.1 cap isz flags (bytes.drop (n * isz)) := by
    rw [heq]
    exact h2
  obtain ⟨_, hc2, _, hcont2, hcnt2⟩ :=
    FIFO_aligned_count_of_length _ cap isz flags _ _ hisz h2r hl2
  have hst : (FIFO_read fifo n).1 =
      if n * isz ≤ bytes.length then FIFO_error_t.FIFO_OK else FIFO_error_t.FIFO_UNDERFLOW := by
    rw [heq]
  have hret : (FIFO_read fifo n).2.2.1 = bytes.take (n * isz) := by rw [heq]
  have hcntr : (FIFO_read fifo n).2.2.2 = min n k := by
    rw [heq]
    show min (n * isz) bytes.length / isz = min n k
    rw [hmin, Nat.mul_div_cancel _ hisz0]
  have hri : (FIFO_read fifo n).2.1.fifo8.r_index =
      (fifo.fifo8.r_index + min n k * isz) % (cap * isz) := by
    rw [heq, ← hmin]
  have hwi : (FIFO_read fifo n).2.1.fifo8.w_index = fifo.fifo8.w_index := by rw [heq]
  have hpb : (FIFO_read fifo n).2.1.fifo8.pBuffer = fifo.fifo8.pBuffer := by rw [heq]
  rw [hc, hcont]
  refine ⟨?_, ?_, ?_⟩
  · rw [hst, ← hcond]
    by_cases hc1 : n * isz ≤ bytes.length
    · simp [hc1]
    · simp [hc1]
  · intro hle
    refine ⟨hret, by rw [hcntr, Nat.min_eq_left hle], hc2, by rw [hri, Nat.min_eq_left hle], ?_,
      hwi, hpb, hcont2⟩
    obtain ⟨q, hq⟩ := hb.2.2.2.2.2.2
    rw [hri, Nat.min_eq_left hle, hq, Nat.mul_comm isz q, ← Nat.add_mul,
      Nat.mul_mod_mul_right, Nat.mul_div_cancel _ hisz0, Nat.mul_div_cancel _ hisz0]
  · intro hlt
    have hk0 : k - n = 0 := by omega
    refine ⟨by rw [hst, if_neg (by rw [hcond]; omega)], ?_, by rw [hcntr]; omega,
      by rw [hc2, hk0], ?_⟩
    · rw [hret]
      exact List.take_of_length_le (by rw [hk]; exact Nat.mul_le_mul_right isz (Nat.le_of_lt hlt))
    · unfold FIFO_not_empty FIFO8_not_empty
      rw [hcnt2, hk0, Nat.zero_mul]
      decide

theorem C19_read_underflow_short_read_witness :
    (FIFO_read
        (FIFO_write
          (FIFO_init ⟨⟨none, 0, 0, 0, 0, 0⟩, 0, 0⟩ (some [0, 0, 0, 0, 0, 0]) 3 2 FIFO_NO_FLAGS)
          [1, 2, 3, 4] 2).2.1 3).1 = FIFO_error_t.FIFO_UNDERFLOW ∧
    (FIFO_read
        (FIFO_write
          (FIFO_init ⟨⟨none, 0, 0, 0, 0, 0⟩, 0, 0⟩ (some [0, 0, 0, 0, 0, 0]) 3 2 FIFO_NO_FLAGS)
          [1, 2, 3, 4] 2).2.1 3).2.2.1 = [1, 2, 3, 4] ∧
    (FIFO_read
        (FIFO_write
          (FIFO_init ⟨⟨none, 0, 0, 0, 0, 0⟩, 0, 0⟩ (some [0, 0, 0, 0, 0, 0]) 3 2 FIFO_NO_FLAGS)
          [1, 2, 3, 4] 2).2.1 3).2.2.2 = 2 :=
  have key := (C19_read_underflow_short_read 3 2 FIFO_NO_FLAGS
    (FIFO_write
      (FIFO_init ⟨⟨none, 0, 0, 0, 0, 0⟩, 0, 0⟩ (some [0, 0, 0, 0, 0, 0]) 3 2 FIFO_NO_FLAGS)
      [1, 2, 3, 4] 2).2.1
    3 (by decide) (by decide) (by decide)
    (FIFO_reachable.write _ [1, 2, 3, 4] 2
      (FIFO_reachable.init ⟨⟨none, 0, 0, 0, 0, 0⟩, 0, 0⟩ [0, 0, 0, 0, 0, 0] (by decide))
      (by decide) (by decide))
    (by decide)).2.2 (by decide)
  ⟨key.1, key.2.1.trans (by decide), key.2.2.1.trans (by decide)⟩

/-! ## The count law -/

/-- A fitting sequence of writes and reads keeps the ring item-aligned, and the
item count grows by the items written minus the items read. -/
theorem FIFO_run_count (cap isz flags : Nat) (hisz : 1 ≤ isz) (ops : List FIFO_op) :
    ∀ (fifo : FIFO_t) (bytes : List Nat), FIFO_aligned fifo cap isz flags bytes →
      FIFO_ops_fit fifo ops →
      ∃ bytes2, FIFO_aligned (FIFO_run fifo ops) cap isz flags bytes2 ∧
        FIFO_get_data_count (FIFO_run fifo ops) + FIFO_items_read ops =
          FIFO_get_data_count fifo + FIFO_items_written ops := by
  induction ops with
  | nil =>
    intro fifo bytes hb _
    exact ⟨bytes, hb, rfl⟩
  | cons op rest ih =>
    intro fifo bytes hb hfit
    obtain ⟨k, hk, hkc, hmax, _, hc, hf, _, _⟩ :=
      FIFO_aligned_counts fifo cap isz flags bytes hisz hb
    cases op with
    | write data n =>
      obtain ⟨hd, hn, hrest⟩ := hfit
      rw [hb.1] at hd
      rw [hf] at hn
      have hfits : bytes.length + n * isz ≤ cap * isz := by
        rw [hk, ← Nat.add_mul]
        exact Nat.mul_le_mul_right isz (by omega)
      obtain ⟨fifo2, heq, h2, _⟩ := FIFO_write_fits fifo cap isz flags bytes data n hb hd hfits
      have hl2 : (bytes ++ data).length = (k + n) * isz := by
        rw [List.length_append, hk, hd, Nat.add_mul]
      obtain ⟨_, hc2, _⟩ := FIFO_aligned_count_of_length fifo2 cap isz flags _ _ hisz h2 hl2
      rw [heq] at hrest
      obtain ⟨bytes2, ha, hcount⟩ := ih fifo2 _ h2 hrest
      have e : FIFO_run fifo (FIFO_op.write data n :: rest) = FIFO_run fifo2 rest := by
        show FIFO_run (FIFO_write fifo data n).2.1 rest = _
        rw [heq]
      rw [e]
      refine ⟨bytes2, ha, ?_⟩
      show FIFO_get_data_count (FIFO_run fifo2 rest) + FIFO_items_read rest =
        FIFO_get_data_count fifo + (n + FIFO_items_written rest)
      omega
    | read n =>
      obtain ⟨hn, hrest⟩ := hfit
      rw [hc] at hn
      have hnb : n * isz ≤ 65535 := by
        have : n * isz ≤ cap * isz := Nat.mul_le_mul_right isz (by omega)
        omega
      obtain ⟨heq, h2⟩ := FIFO_read_general fifo cap isz flags bytes n hb hnb
      have h2r : FIFO_aligned (FIFO_read fifo n).2.1 cap isz flags (bytes.drop (n * isz)) := by
        rw [heq]
        exact h2
      have hl2 : (bytes.drop (n * isz)).length = (k - n) * isz := by
        rw [List.length_drop, hk, Nat.sub_mul]
      obtain ⟨_, hc2, _⟩ := FIFO_aligned_count_of_length _ cap isz flags _ _ hisz h2r hl2
      obtain ⟨bytes2, ha, hcount⟩ := ih _ _ h2r hrest
      refine ⟨bytes2, ha, ?_⟩
      show FIFO_get_data_count (FIFO_run (FIFO_read fifo n).2.1 rest) +
          (n + FIFO_items_read rest) = FIFO_get_data_count fifo + FIFO_items_written rest
      omega

/-- C20: buffer count law under wraparound.  For a ring of `cap >= 1` items of
`isz >= 1` bytes (`cap * isz <= 65535`) with any flags, freshly initialised by
`FIFO_init` or just flushed by `FIFO_flush` from a reachable state, and every
finite sequence of `FIFO_write` and `FIFO_read` calls in which each write fits
in the free space and each read asks for no more than the stored items: the
items read never exceed the items written, `FIFO_get_data_count` after the
sequence is the items written minus the items read, and `FIFO_get_free_space`
is the capacity minus that number. -/
theorem C20_count_law_under_wraparound (cap isz flags : Nat) (start : FIFO_t)
    (ops : List FIFO_op) (hcap : 1 ≤ cap) (hisz : 1 ≤ isz) (hmax : cap * isz ≤ 65535)
    (hstart : (∃ fifo0 buf, cap * isz ≤ buf.length ∧
        start = FIFO_init fifo0 (some buf) cap isz flags) ∨
      (∃ g, FIFO_reachable cap isz flags g ∧ start = FIFO_flush g))
    (hfit : FIFO_ops_fit start ops) :
    FIFO_items_read ops ≤ FIFO_items_written ops ∧
    FIFO_get_data_count (FIFO_run start ops) = FIFO_items_written ops - FIFO_items_read ops ∧
    FIFO_get_free_space (FIFO_run start ops) =
      cap - (FIFO_items_written ops - FIFO_items_read ops) := by
  have hpos : 1 ≤ cap * isz := Nat.mul_pos hcap hisz
  have hs : FIFO_aligned start cap isz flags [] := by
    rcases hstart with ⟨fifo0, buf, hbuf, e⟩ | ⟨g, hg, e⟩
    · rw [e]
      exact (FIFO_init_aligned fifo0 buf cap isz flags hpos hmax hbuf).1
    · obtain ⟨bytes, hb⟩ := FIFO_reachable_aligned cap isz flags g hpos hmax hg
      rw [e]
      exact (FIFO_flush_aligned g cap isz flags bytes hb).1
  obtain ⟨_, hc0, _⟩ := FIFO_aligned_count_of_length start cap isz flags [] 0 hisz hs (by simp)
  obtain ⟨bytes2, ha, hcount⟩ := FIFO_run_count cap isz flags hisz ops start [] hs hfit
  obtain ⟨k, _, _, _, _, hc, hf, _, _⟩ :=
    FIFO_aligned_counts (FIFO_run start ops) cap isz flags bytes2 hisz ha
  rw [hc0, hc] at hcount
  rw [hc, hf]
  refine ⟨by omega, by omega, ?_⟩
  congr 1
  omega

theorem C20_count_law_under_wraparound_witness :
    FIFO_get_data_count
      (FIFO_run
        (FIFO_init ⟨⟨none, 0, 0, 0, 0, 0⟩, 0, 0⟩ (some [0, 0, 0, 0, 0, 0]) 3 2 FIFO_LOOP)
        [FIFO_op.write [1, 2, 3, 4] 2, FIFO_op.read 1, FIFO_op.write [5, 6, 7, 8] 2,
          FIFO_op.read 2, FIFO_op.write [9, 10] 1]) = 2 ∧
    FIFO_get_free_space
      (FIFO_run
        (FIFO_init ⟨⟨none, 0, 0, 0, 0, 0⟩, 0, 0⟩ (some [0, 0, 0, 0, 0, 0]) 3 2 FIFO_LOOP)
        [FIFO_op.write [1, 2, 3, 4] 2, FIFO_op.read 1, FIFO_op.write [5, 6, 7, 8] 2,
          FIFO_op.read 2, FIFO_op.write [9, 10] 1]) = 1 :=
  have key := C20_count_law_under_wraparound 3 2 FIFO_LOOP
    (FIFO_init ⟨⟨none, 0, 0, 0, 0, 0⟩, 0, 0⟩ (some [0, 0, 0, 0, 0, 0]) 3 2 FIFO_LOOP)
    [FIFO_op.write [1, 2, 3, 4] 2, FIFO_op.read 1, FIFO_op.write [5, 6, 7, 8] 2,
      FIFO_op.read 2, FIFO_op.write [9, 10] 1]
    (by decide) (by decide) (by decide)
    (Or.inl ⟨⟨⟨none, 0, 0, 0, 0, 0⟩, 0, 0⟩, [0, 0, 0, 0, 0, 0], by decide, rfl⟩)
    ⟨by decide, by decide, by decide, by decide, by decide, by decide, by decide, by decide,
      trivial⟩
  ⟨key.2.1.trans (by decide), key.2.2.trans (by decide)⟩

/-! ## The ring buffer structural invariant -/

/-- Every ring reachable by calls with any arguments is a well-formed byte ring
of the initial byte size. -/
theorem FIFO_reachable_any_holds (cap isz flags : Nat) (fifo : FIFO_t)
    (hpos : 1 ≤ cap * isz) (hmax : cap * isz ≤ 65535)
    (h : FIFO_reachable_any cap isz flags fifo) :
    fifo.item_size = isz ∧ fifo.fifo8.FIFO_size = cap * isz ∧ fifo.fifo8.flags = flags ∧
    ∃ bytes, FIFO8_holds fifo.fifo8 bytes := by
  induction h with
  | init fifo0 buf hbuf =>
    obtain ⟨⟨his, _, hS, hfl, hh, _, _⟩, _⟩ := FIFO_init_aligned fifo0 buf cap isz flags hpos hmax hbuf
    exact ⟨his, hS, hfl, [], hh⟩
  | write fifo data n _ hd ih =>
    obtain ⟨his, hS, hfl, bytes, hh⟩ := ih
    obtain ⟨_, _, _, _, _, _, hnn⟩ := FIFO8_holds_counter _ _ hh
    have hsplit : data = data.take (to_uint16 (to_uint32 ((n : Int) * (isz : Int)))) ++
        data.drop (to_uint16 (to_uint32 ((n : Int) * (isz : Int)))) :=
      (List.take_append_drop _ _).symm
    have hlen : (data.take (to_uint16 (to_uint32 ((n : Int) * (isz : Int))))).length =
        to_uint16 (to_uint32 ((n : Int) * (isz : Int))) :=
      List.length_take_of_le hd
    have hw : (FIFO_write fifo data n).2.1.fifo8 =
        (FIFO8_write_loop (to_uint16 (to_uint32 ((n : Int) * (isz : Int)))) fifo.fifo8 data).2.1 := by
      unfold FIFO_write FIFO8_write
      rw [his]
      simp only [hnn, if_false]
    refine ⟨his, ?_⟩
    rw [hw]
    generalize to_uint16 (to_uint32 ((n : Int) * (isz : Int))) = t at hsplit hlen
    by_cases hf : fifo.fifo8.flags = 0
    · obtain ⟨f2, heq, hh2, hs2, hfl2, _⟩ :=
        FIFO8_write_loop_no_flags (data.take t) fifo.fifo8 bytes (data.drop t) hh hf
      rw [hlen, ← hsplit] at heq
      rw [heq]
      exact ⟨by rw [hs2, hS], by rw [hfl2, hfl], _, hh2⟩
    · obtain ⟨f2, heq, hh2, hs2, hfl2, _⟩ :=
        FIFO8_write_loop_loop_mode (data.take t) fifo.fifo8 bytes (data.drop t) hh hf
      rw [hlen, ← hsplit] at heq
      rw [heq]
      exact ⟨by rw [hs2, hS], by rw [hfl2, hfl], _, hh2⟩
  | read fifo n _ ih =>
    obtain ⟨his, hS, hfl, bytes, hh⟩ := ih
    obtain ⟨_, _, _, _, _, _, hnn⟩ := FIFO8_holds_counter _ _ hh
    obtain ⟨heq, hh2⟩ := FIFO8_read_loop_general
      (to_uint16 (to_uint32 ((n : Int) * (isz : Int)))) fifo.fifo8 bytes hh
    have hr : (FIFO_read fifo n).2.1.fifo8 =
        (FIFO8_read_loop (to_uint16 (to_uint32 ((n : Int) * (isz : Int)))) fifo.fifo8).2.1 := by
      unfold FIFO_read FIFO8_read
      rw [his]
      simp only [hnn, if_false]
    refine ⟨his, ?_⟩
    rw [hr, heq]
    exact ⟨hS, hfl, _, hh2⟩
  | flush fifo _ ih =>
    obtain ⟨his, hS, hfl, bytes, hh⟩ := ih
    exact ⟨his, hS, hfl, [], FIFO8_flush_holds _ _ hh⟩

/-- The byte-level facts of a well-formed ring. -/
theorem FIFO8_holds_structure (f : FIFO8_t) (bytes : List Nat) (h : FIFO8_holds f bytes) :
    f.counter ≤ f.FIFO_size ∧ f.r_index < f.FIFO_size ∧ f.w_index < f.FIFO_size ∧
    f.w_index = (f.r_index + f.counter) % f.FIFO_size := by
  obtain ⟨hc, hle, hS, _, hr, hw, _⟩ := FIFO8_holds_counter f bytes h
  refine ⟨by rw [hc]; exact hle, hr, by rw [hw]; exact Nat.mod_lt _ hS, by rw [hc]; exact hw⟩

/-- C21 (counterexample): the item alignment does not survive a call whose byte
length is truncated.  On a ring of 2 items of 3 bytes holding one item, the
call `FIFO_read` of 21846 items passes the byte length `65538 mod 65536 = 2` to
the byte ring: it returns `FIFO_OK`, and leaves `counter = 1` and
`r_index = 2`, neither a multiple of the item size. -/
theorem C21_truncated_request_breaks_alignment :
    (FIFO_read
        (FIFO_write (FIFO_init ⟨⟨none, 0, 0, 0, 0, 0⟩, 0, 0⟩ (some [0, 0, 0, 0, 0, 0]) 2 3
          FIFO_NO_FLAGS) [1, 2, 3] 1).2.1 21846) =
      (FIFO_error_t.FIFO_OK, ⟨⟨some [1, 2, 3, 0, 0, 0], 6, 0, 1, 2, 3⟩, 3, 2⟩, [1, 2], 0) ∧
    ¬ (3 ∣ (FIFO_read
        (FIFO_write (FIFO_init ⟨⟨none, 0, 0, 0, 0, 0⟩, 0, 0⟩ (some [0, 0, 0, 0, 0, 0]) 2 3
          FIFO_NO_FLAGS) [1, 2, 3] 1).2.1 21846).2.1.fifo8.counter) ∧
    ¬ (3 ∣ (FIFO_read
        (FIFO_write (FIFO_init ⟨⟨none, 0, 0, 0, 0, 0⟩, 0, 0⟩ (some [0, 0, 0, 0, 0, 0]) 2 3
          FIFO_NO_FLAGS) [1, 2, 3] 1).2.1 21846).2.1.fifo8.r_index) := by
  decide

/-- C21 (amended): ring buffer structural invariant.  For a ring initialised by
`FIFO_init` with byte size `S = cap * isz` in `1..65535` and any flags: after
any finite sequence of `FIFO_write`, `FIFO_read` and `FIFO_flush` calls with any
arguments and any status, `counter <= S`, `r_index < S`, `w_index < S` and
`w_index = (r_index + counter) mod S`; and when every write and read asks for
`n` items with `n * isz <= 65535`, `counter`, `r_index` and `w_index` are
multiples of `isz`, the item count is at most `cap` and both indices are item
slots below `cap`. -/
theorem C21_ring_structural_invariant (cap isz flags : Nat) (fifo : FIFO_t)
    (hpos : 1 ≤ cap * isz) (hmax : cap * isz ≤ 65535) :
    (FIFO_reachable_any cap isz flags fifo →
      fifo.fifo8.FIFO_size = cap * isz ∧
      fifo.fifo8.counter ≤ cap * isz ∧ fifo.fifo8.r_index < cap * isz ∧
      fifo.fifo8.w_index < cap * isz ∧
      fifo.fifo8.w_index = (fifo.fifo8.r_index + fifo.fifo8.counter) % (cap * isz)) ∧
    (FIFO_reachable cap isz flags fifo →
      fifo.fifo8.FIFO_size = cap * isz ∧
      fifo.fifo8.counter ≤ cap * isz ∧ fifo.fifo8.r_index < cap * isz ∧
      fifo.fifo8.w_index < cap * isz ∧
      fifo.fifo8.w_index = (fifo.fifo8.r_index + fifo.fifo8.counter) % (cap * isz) ∧
      isz ∣ fifo.fifo8.counter ∧ isz ∣ fifo.fifo8.r_index ∧ isz ∣ fifo.fifo8.w_index ∧
      FIFO_get_data_count fifo ≤ cap ∧
      fifo.fifo8.r_index / isz < cap ∧ fifo.fifo8.w_index / isz < cap) := by
  have hisz : 1 ≤ isz := by
    rcases Nat.eq_zero_or_pos isz with e | e
    · rw [e, Nat.mul_zero] at hpos; omega
    · exact e
  constructor
  · intro h
    obtain ⟨_, hS, _, bytes, hh⟩ := FIFO_reachable_any_holds cap isz flags fifo hpos hmax h
    obtain ⟨h1, h2, h3, h4⟩ := FIFO8_holds_structure _ _ hh
    rw [hS] at h1 h2 h3 h4
    exact ⟨hS, h1, h2, h3, h4⟩
  · intro h
    obtain ⟨bytes, hb⟩ := FIFO_reachable_aligned cap isz flags fifo hpos hmax h
    obtain ⟨k, hk, hkc, _, _, hc, _, _, hcnt⟩ := FIFO_aligned_counts fifo cap isz flags bytes hisz hb
    obtain ⟨_, _, hS, _, hh, _, hdr⟩ := hb
    obtain ⟨h1, h2, h3, h4⟩ := FIFO8_holds_structure _ _ hh
    rw [hS] at h1 h2 h3 h4
    have hdc : isz ∣ fifo.fifo8.counter := by rw [hcnt]; exact Dvd.intro_left k rfl
    have hdw : isz ∣ fifo.fifo8.w_index := by
      rw [h4, Nat.dvd_mod_iff (Dvd.intro_left cap rfl)]
      exact Nat.dvd_add hdr hdc
    refine ⟨hS, h1, h2, h3, h4, hdc, hdr, hdw, by rw [hc]; exact hkc, ?_, ?_⟩
    · exact Nat.div_lt_of_lt_mul (by rw [Nat.mul_comm]; exact h2)
    · exact Nat.div_lt_of_lt_mul (by rw [Nat.mul_comm]; exact h3)

theorem C21_ring_structural_invariant_witness :
    (FIFO_read
        (FIFO_write (FIFO_init ⟨⟨none, 0, 0, 0, 0, 0⟩, 0, 0⟩ (some [0, 0, 0, 0, 0, 0]) 2 3
          FIFO_LOOP) [1, 2, 3, 4, 5, 6, 7, 8, 9] 3).2.1 1).2.1.fifo8.w_index < 2 * 3 ∧
    3 ∣ (FIFO_read
        (FIFO_write (FIFO_init ⟨⟨none, 0, 0, 0, 0, 0⟩, 0, 0⟩ (some [0, 0, 0, 0, 0, 0]) 2 3
          FIFO_LOOP) [1, 2, 3, 4, 5, 6, 7, 8, 9] 3).2.1 1).2.1.fifo8.r_index :=
  have key := C21_ring_structural_invariant 2 3 FIFO_LOOP
    (FIFO_read
        (FIFO_write (FIFO_init ⟨⟨none, 0, 0, 0, 0, 0⟩, 0, 0⟩ (some [0, 0, 0, 0, 0, 0]) 2 3
          FIFO_LOOP) [1, 2, 3, 4, 5, 6, 7, 8, 9] 3).2.1 1).2.1
    (by decide) (by decide)
  ⟨(key.1 (FIFO_reachable_any.read _ 1
      (FIFO_reachable_any.write _ [1, 2, 3, 4, 5, 6, 7, 8, 9] 3
        (FIFO_reachable_any.init ⟨⟨none, 0, 0, 0, 0, 0⟩, 0, 0⟩ [0, 0, 0, 0, 0, 0] (by decide))
        (by decide)))).2.2.2.1,
   (key.2 (FIFO_reachable.read _ 1
      (FIFO_reachable.write _ [1, 2, 3, 4, 5, 6, 7, 8, 9] 3
        (FIFO_reachable.init ⟨⟨none, 0, 0, 0, 0, 0⟩, 0, 0⟩ [0, 0, 0, 0, 0, 0] (by decide))
        (by decide) (by decide))
      (by decide))).2.2.2.2.2.2.1⟩

/-! ## The item ring: peeking at items -/

/-- A positive multiple of `isz` below another multiple leaves room for one item. -/
theorem mul_lt_room (a b isz : Nat) (h : a * isz < b * isz) : a * isz + isz ≤ b * isz := by
  have h1 : a < b := Nat.lt_of_mul_lt_mul_right h
  have h2 : (a + 1) * isz ≤ b * isz := Nat.mul_le_mul_right isz h1
  rw [Nat.add_mul, Nat.one_mul] at h2
  exact h2

/-- The item at item position `j` of the contents is the `isz` bytes of the
storage at offset `(r_index + j * isz) mod S`, which do not wrap. -/
theorem load_item_of_aligned (fifo : FIFO_t) (cap isz flags : Nat) (bytes : List Nat)
    (h : FIFO_aligned fifo cap isz flags bytes) (j : Nat)
    (hj : j * isz + isz ≤ bytes.length) :
    load_item fifo.fifo8.pBuffer ((fifo.fifo8.r_index + j * isz) % (cap * isz)) isz =
      (bytes.drop (j * isz)).take isz ∧
    (fifo.fifo8.r_index + j * isz) % (cap * isz) + isz ≤ cap * isz ∧
    isz ∣ (fifo.fifo8.r_index + j * isz) % (cap * isz) := by
  obtain ⟨his, hfs, hS, hfl, hh, hdl, hdr⟩ := h
  obtain ⟨buf, hwf, hc, hb⟩ := hh
  have hSpos : 0 < cap * isz := by rw [← hS]; exact hwf.hpos
  have hdvd : isz ∣ (fifo.fifo8.r_index + j * isz) % (cap * isz) := by
    rw [Nat.dvd_mod_iff (Dvd.intro_left cap rfl)]
    exact Nat.dvd_add hdr (Dvd.intro_left j rfl)
  have hroom : (fifo.fifo8.r_index + j * isz) % (cap * isz) + isz ≤ cap * isz := by
    obtain ⟨m, hm⟩ := hdvd
    have hlt := Nat.mod_lt (fifo.fifo8.r_index + j * isz) hSpos
    rw [hm, Nat.mul_comm isz m] at hlt ⊢
    exact mul_lt_room m cap isz hlt
  refine ⟨?_, hroom, hdvd⟩
  apply List.ext_getElem
  · rw [List.length_take, List.length_drop]
    simp only [load_item, List.length_map, List.length_range]
    omega
  · intro i h1 h2
    have hi : i < isz := by
      simp only [load_item, List.length_map, List.length_range] at h1
      exact h1
    have hidx : (fifo.fifo8.r_index + j * isz) % (cap * isz) + i =
        (fifo.fifo8.r_index + (j * isz + i)) % (cap * isz) := by
      have e1 : (fifo.fifo8.r_index + j * isz + i) % (cap * isz) =
          ((fifo.fifo8.r_index + j * isz) % (cap * isz) + i) % (cap * isz) :=
        (Nat.mod_add_mod _ _ _).symm
      rw [← Nat.add_assoc, e1]
      exact (Nat.mod_eq_of_lt (by omega)).symm
    have hbi := hb (j * isz + i) (by omega)
    rw [hS, ← hidx] at hbi
    simp only [load_item, List.getElem_map, List.getElem_range, load_byte, hwf.hbuf,
      Option.getD_some, List.getElem_take, List.getElem_drop]
    rw [hbi, List.getD_eq_getElem?_getD, List.getElem?_eq_getElem (by omega)]
    rfl

/-- The unaligned midpoint computed by `FIFO_get_middle_item` on a non-empty
ring holding `c` bytes: `c / 2` bytes after the read index, modulo the size. -/
theorem middle_ptr_arith (r w S c : Nat) (hS : S ≤ 65535) (hr : r < S) (hc1 : 1 ≤ c)
    (hcS : c ≤ S) (hw : w = (r + c) % S) :
    (if w > r then to_uint16 (((w : Int) + (r : Int)).tdiv 2)
     else if r + to_uint16 (((w : Int) + ((S : Int) - (r : Int))).tdiv 2) < S
       then to_uint16
         ((to_uint16 (((w : Int) + ((S : Int) - (r : Int))).tdiv 2) : Int) + (r : Int))
       else to_uint16
         ((to_uint16 (((w : Int) + ((S : Int) - (r : Int))).tdiv 2) : Int) -
           ((S : Int) - (r : Int))))
    = (r + c / 2) % S := by
  have e1 := @wrap_mod (r + c) S (by omega)
  have e2 := @wrap_mod (r + c / 2) S (by omega)
  rw [e1] at hw
  rw [e2]
  by_cases h1 : r + c < S
  · rw [if_pos h1] at hw
    have hwr : w > r := by omega
    rw [if_pos hwr, Int.tdiv_eq_ediv (by omega) (by omega)]
    unfold to_uint16
    split <;> omega
  · rw [if_neg h1] at hw
    have hwr : ¬ w > r := by omega
    rw [if_neg hwr, Int.tdiv_eq_ediv (by omega) (by omega)]
    have hm : to_uint16 (((w : Int) + ((S : Int) - (r : Int))) / 2) = c / 2 := by
      unfold to_uint16
      omega
    rw [hm]
    unfold to_uint16
    split <;> omega

/-- Rounding down to the item size removes an offset smaller than one item. -/
theorem align_down (base e isz : Nat) (hd : isz ∣ base) (he : e < isz) :
    (base + e) - (base + e) % isz = base := by
  obtain ⟨m, hm⟩ := hd
  rw [hm, Nat.mul_add_mod, Nat.mod_eq_of_lt he]
  omega

/-- Half of `k` items, in bytes: `k / 2` whole items and less than one item. -/
theorem half_items (k isz : Nat) (hisz : 1 ≤ isz) :
    ∃ e, e < isz ∧ k * isz / 2 = k / 2 * isz + e := by
  have hk : k = 2 * (k / 2) + k % 2 := by omega
  have h2 : k * isz = 2 * (k / 2 * isz) + k % 2 * isz := by
    conv_lhs => rw [hk]
    rw [Nat.add_mul, Nat.mul_assoc]
  rcases Nat.mod_two_eq_zero_or_one k with h | h
  · rw [h, Nat.zero_mul, Nat.add_zero] at h2
    exact ⟨0, by omega, by omega⟩
  · rw [h, Nat.one_mul] at h2
    exact ⟨isz / 2, by omega, by omega⟩

/-- The offset computed by `FIFO_get_middle_item` on a non-empty item-aligned
ring holding `k` items: the slot `k / 2` items after the read index. -/
theorem FIFO_middle_ptr_general (fifo : FIFO_t) (cap isz flags : Nat) (bytes : List Nat)
    (k : Nat) (hisz : 1 ≤ isz) (h : FIFO_aligned fifo cap isz flags bytes)
    (hk : bytes.length = k * isz) (hk1 : 1 ≤ k) :
    FIFO_middle_ptr fifo = (fifo.fifo8.r_index + k / 2 * isz) % (cap * isz) := by
  obtain ⟨his, hfs, hS, hfl, hh, hdl, hdr⟩ := h
  obtain ⟨hc, hle, hSpos, hmax, hr, hw, _⟩ := FIFO8_holds_counter _ _ hh
  have hc1 : 1 ≤ bytes.length := by
    rw [hk]
    exact Nat.mul_pos hk1 hisz
  have hM := middle_ptr_arith fifo.fifo8.r_index fifo.fifo8.w_index fifo.fifo8.FIFO_size
    bytes.length hmax hr hc1 hle hw
  obtain ⟨e, he, hhalf⟩ := half_items k isz hisz
  rw [← hk] at hhalf
  have hdvdS : isz ∣ fifo.fifo8.FIFO_size := by rw [hS]; exact Dvd.intro_left cap rfl
  have hbase : isz ∣ (fifo.fifo8.r_index + k / 2 * isz) % fifo.fifo8.FIFO_size := by
    rw [Nat.dvd_mod_iff hdvdS]
    exact Nat.dvd_add hdr (Dvd.intro_left _ rfl)
  have hroom : (fifo.fifo8.r_index + k / 2 * isz) % fifo.fifo8.FIFO_size + isz ≤
      fifo.fifo8.FIFO_size := by
    obtain ⟨m, hm⟩ := hbase
    have hlt := Nat.mod_lt (fifo.fifo8.r_index + k / 2 * isz) hSpos
    rw [hm, Nat.mul_comm isz m]
    rw [hm, Nat.mul_comm isz m, hS] at hlt
    rw [hS]
    exact mul_lt_room m cap isz hlt
  have hsplit : (fifo.fifo8.r_index + bytes.length / 2) % fifo.fifo8.FIFO_size =
      (fifo.fifo8.r_index + k / 2 * isz) % fifo.fifo8.FIFO_size + e := by
    rw [hhalf, ← Nat.add_assoc, ← Nat.mod_add_mod]
    exact Nat.mod_eq_of_lt (by omega)
  have hdef : FIFO_middle_ptr fifo =
      to_uint16
        ((((fifo.fifo8.r_index + bytes.length / 2) % fifo.fifo8.FIFO_size : Nat) : Int) -
          ((((fifo.fifo8.r_index + bytes.length / 2) % fifo.fifo8.FIFO_size) %
            fifo.item_size : Nat) : Int)) := by
    rw [← hM]
    rfl
  rw [hdef, his, ← hS]
  have hal := align_down _ e isz hbase he
  rw [← hsplit] at hal
  have hmle := Nat.mod_le ((fifo.fifo8.r_index + bytes.length / 2) % fifo.fifo8.FIFO_size) isz
  have hlt := Nat.mod_lt (fifo.fifo8.r_index + bytes.length / 2) hSpos
  rw [← hal]
  generalize (fifo.fifo8.r_index + bytes.length / 2) % fifo.fifo8.FIFO_size = M at hmle hlt ⊢
  generalize M % isz = q at hmle ⊢
  unfold to_uint16
  omega

/-! ## The middle item -/

/-- C22: the middle item is the logical midpoint of the occupied span.  For a
ring of `cap >= 1` items of `isz >= 1` bytes (`cap * isz <= 65535`, any flags)
in a state reachable by item-granular calls and holding at least one item,
`FIFO_get_middle_item` returns the stored item `count / 2` positions after the
oldest one in read order (`count / 2 < count`); the offset it computes is the
slot `count / 2` items after the read index modulo the byte size, a multiple of
the item size, and the item lies inside the `cap * isz` bytes of the backing
storage. -/
theorem C22_middle_item_midpoint (cap isz flags : Nat) (fifo : FIFO_t)
    (hcap : 1 ≤ cap) (hisz : 1 ≤ isz) (hmax : cap * isz ≤ 65535)
    (h : FIFO_reachable cap isz flags fifo) (hne : 1 ≤ FIFO_get_data_count fifo) :
    FIFO_get_middle_item fifo =
      ((FIFO_contents fifo).drop (FIFO_get_data_count fifo / 2 * isz)).take isz ∧
    FIFO_get_data_count fifo / 2 < FIFO_get_data_count fifo ∧
    FIFO_middle_ptr fifo =
      (fifo.fifo8.r_index + FIFO_get_data_count fifo / 2 * isz) % (cap * isz) ∧
    isz ∣ FIFO_middle_ptr fifo ∧
    FIFO_middle_ptr fifo + isz ≤ cap * isz ∧
    ∃ buf, fifo.fifo8.pBuffer = some buf ∧ FIFO_middle_ptr fifo + isz ≤ buf.length := by
  have hpos : 1 ≤ cap * isz := Nat.mul_pos hcap hisz
  obtain ⟨bytes, hb⟩ := FIFO_reachable_aligned cap isz flags fifo hpos hmax h
  obtain ⟨k, hk, hkc, _, _, hc, _, hcont, _⟩ :=
    FIFO_aligned_counts fifo cap isz flags bytes hisz hb
  rw [hc] at hne ⊢
  rw [hcont]
  have hptr := FIFO_middle_ptr_general fifo cap isz flags bytes k hisz hb hk hne
  have hj : k / 2 * isz + isz ≤ bytes.length := by
    rw [hk]
    have h1 : (k / 2 + 1) * isz ≤ k * isz := Nat.mul_le_mul_right isz (by omega)
    rw [Nat.add_mul, Nat.one_mul] at h1
    exact h1
  obtain ⟨hitem, hroom, hdvd⟩ := load_item_of_aligned fifo cap isz flags bytes hb (k / 2) hj
  obtain ⟨buf, hwf, _, _⟩ := hb.2.2.2.2.1
  have hlen := hwf.hlen
  rw [hb.2.2.1] at hlen
  refine ⟨?_, by omega, hptr, by rw [hptr]; exact hdvd, by rw [hptr]; exact hroom,
    buf, hwf.hbuf, by rw [hptr]; omega⟩
  unfold FIFO_get_middle_item
  rw [hptr, hb.1]
  exact hitem

theorem C22_middle_item_midpoint_witness :
    FIFO_get_middle_item
      (FIFO_write
        (FIFO_read
          (FIFO_write
            (FIFO_init ⟨⟨none, 0, 0, 0, 0, 0⟩, 0, 0⟩ (some [0, 0, 0, 0, 0, 0, 0, 0, 0]) 3 3
              FIFO_NO_FLAGS)
            [1, 2, 3, 4, 5, 6, 7, 8, 9] 3).2.1 2).2.1
        [10, 11, 12] 1).2.1 = [10, 11, 12] ∧
    FIFO_middle_ptr
      (FIFO_write
        (FIFO_read
          (FIFO_write
            (FIFO_init ⟨⟨none, 0, 0, 0, 0, 0⟩, 0, 0⟩ (some [0, 0, 0, 0, 0, 0, 0, 0, 0]) 3 3
              FIFO_NO_FLAGS)
            [1, 2, 3, 4, 5, 6, 7, 8, 9] 3).2.1 2).2.1
        [10, 11, 12] 1).2.1 = 0 :=
  have key := C22_middle_item_midpoint 3 3 FIFO_NO_FLAGS
    (FIFO_write
      (FIFO_read
        (FIFO_write
          (FIFO_init ⟨⟨none, 0, 0, 0, 0, 0⟩, 0, 0⟩ (some [0, 0, 0, 0, 0, 0, 0, 0, 0]) 3 3
            FIFO_NO_FLAGS)
          [1, 2, 3, 4, 5, 6, 7, 8, 9] 3).2.1 2).2.1
      [10, 11, 12] 1).2.1
    (by decide) (by decide) (by decide)
    (FIFO_reachable.write _ [10, 11, 12] 1
      (FIFO_reachable.read _ 2
        (FIFO_reachable.write _ [1, 2, 3, 4, 5, 6, 7, 8, 9] 3
          (FIFO_reachable.init ⟨⟨none, 0, 0, 0, 0, 0⟩, 0, 0⟩ [0, 0, 0, 0, 0, 0, 0, 0, 0]
            (by decide))
          (by decide) (by decide))
        (by decide))
      (by decide) (by decide))
    (by decide)
  ⟨key.1.trans (by decide), key.2.2.1.trans (by decide)⟩

/-! ## First and last item -/

/-- The offset computed by `FIFO_get_first_item` on a non-empty item-aligned
ring holding `k` items: the slot of the newest item, one item before the write
index. -/
theorem FIFO_first_ptr_general (fifo : FIFO_t) (cap isz flags : Nat) (bytes : List Nat)
    (k : Nat) (hisz : 1 ≤ isz) (h : FIFO_aligned fifo cap isz flags bytes)
    (hk : bytes.length = k * isz) (hk1 : 1 ≤ k) :
    (if fifo.fifo8.w_index = 0 then
        to_uint16 ((fifo.fifo8.FIFO_size : Int) - (fifo.item_size : Int))
      else to_uint16 ((fifo.fifo8.w_index : Int) - (fifo.item_size : Int)))
      = (fifo.fifo8.r_index + (k - 1) * isz) % (cap * isz) ∧
    (fifo.fifo8.r_index + (k - 1) * isz) % (cap * isz) =
      (fifo.fifo8.w_index / isz + cap - 1) % cap * isz := by
  have hj : (k - 1) * isz + isz ≤ bytes.length := by
    rw [hk]
    have h1 : (k - 1 + 1) * isz ≤ k * isz := Nat.mul_le_mul_right isz (by omega)
    rw [Nat.add_mul, Nat.one_mul] at h1
    exact h1
  obtain ⟨_, hroom, _⟩ := load_item_of_aligned fifo cap isz flags bytes h (k - 1) hj
  obtain ⟨his, hfs, hS, hfl, hh, hdl, hdr⟩ := h
  obtain ⟨hc, hle, hSpos, hmax, hr, hw, _⟩ := FIFO8_holds_counter _ _ hh
  have hkk : k * isz = (k - 1) * isz + isz := by
    have h1 : k = k - 1 + 1 := by omega
    conv_lhs => rw [h1]
    rw [Nat.add_mul, Nat.one_mul]
  have hw2 : fifo.fifo8.w_index =
      ((fifo.fifo8.r_index + (k - 1) * isz) % (cap * isz) + isz) % (cap * isz) := by
    rw [hw, hk, hS, hkk, ← Nat.add_assoc, Nat.mod_add_mod]
  rw [hS] at hSpos hmax
  have hbase :
      (if fifo.fifo8.w_index = 0 then
        to_uint16 ((fifo.fifo8.FIFO_size : Int) - (fifo.item_size : Int))
      else to_uint16 ((fifo.fifo8.w_index : Int) - (fifo.item_size : Int)))
      = (fifo.fifo8.r_index + (k - 1) * isz) % (cap * isz) := by
    rw [his, hS]
    generalize (fifo.fifo8.r_index + (k - 1) * isz) % (cap * isz) = b at hroom hw2 ⊢
    have e1 := @wrap_mod (b + isz) (cap * isz) (by omega)
    rw [e1] at hw2
    generalize cap * isz = S at hroom hw2 hSpos hmax e1 ⊢
    unfold to_uint16
    split at hw2 <;> split <;> omega
  refine ⟨hbase, ?_⟩
  have hwlt : fifo.fifo8.w_index < cap * isz := by
    rw [hw, hS]
    exact Nat.mod_lt _ hSpos
  have hdw : isz ∣ fifo.fifo8.w_index := by
    rw [hw, hS, Nat.dvd_mod_iff (Dvd.intro_left cap rfl)]
    exact Nat.dvd_add hdr hdl
  obtain ⟨m, hm⟩ := hdw
  have hmlt : m < cap := by
    rw [hm, Nat.mul_comm isz m] at hwlt
    exact Nat.lt_of_mul_lt_mul_right hwlt
  have hcap : 1 ≤ cap := by omega
  rw [hm, Nat.mul_div_cancel_left m (by omega : 0 < isz), ← Nat.mul_mod_mul_right]
  rw [← hbase, his, hS, hm]
  have e2 := @wrap_mod ((m + cap - 1) * isz) (cap * isz) (by
    have : (m + cap - 1) * isz < (2 * cap) * isz :=
      Nat.mul_lt_mul_of_pos_right (by omega) (by omega)
    rw [Nat.mul_assoc] at this
    exact this)
  rw [e2]
  have e3 : (m + cap - 1) * isz + isz = m * isz + cap * isz := by
    have h1 : m + cap = (m + cap - 1) + 1 := by omega
    rw [← Nat.add_mul, h1, Nat.add_mul, Nat.one_mul]
    simp
  have e4 : isz * m = m * isz := Nat.mul_comm _ _
  have e5 : m = 0 ∨ isz ≤ m * isz := by
    rcases Nat.eq_zero_or_pos m with e | e
    · exact Or.inl e
    · right
      have : 1 * isz ≤ m * isz := Nat.mul_le_mul_right isz e
      omega
  have e6 : isz ≤ cap * isz := by
    have : 1 * isz ≤ cap * isz := Nat.mul_le_mul_right isz hcap
    omega
  rw [e4]
  rcases e5 with e5 | e5
  · subst e5
    simp only [Nat.zero_mul, Nat.zero_add] at e3 ⊢
    generalize (cap - 1) * isz = X at e3 ⊢
    generalize cap * isz = S at e3 e6 hmax ⊢
    unfold to_uint16
    simp only [if_true]
    split <;> omega
  · have hmne : m * isz ≠ 0 := by omega
    simp only [hmne, if_false]
    generalize (m + cap - 1) * isz = X at e3 ⊢
    generalize hmi : m * isz = W at e3 e5 hwlt ⊢
    generalize cap * isz = S at e3 e6 hmax hwlt ⊢
    unfold to_uint16
    split <;> omega

/-- C23: first and last item.  For a ring of `cap >= 1` items of `isz >= 1`
bytes (`cap * isz <= 65535`, any flags) in a state reachable by item-granular
calls and holding at least one item: `FIFO_get_first_item` returns the most
recently written item (the last item of the contents in read order), which is
the item stored in slot `(write slot - 1) mod cap`; `FIFO_get_last_item`
returns the oldest stored item, and a following `FIFO_read` of one item
succeeds and returns exactly that item.  Both functions only read the handle:
their embedding returns the item alone. -/
theorem C23_first_and_last_item (cap isz flags : Nat) (fifo : FIFO_t)
    (hcap : 1 ≤ cap) (hisz : 1 ≤ isz) (hmax : cap * isz ≤ 65535)
    (h : FIFO_reachable cap isz flags fifo) (hne : 1 ≤ FIFO_get_data_count fifo) :
    FIFO_get_first_item fifo =
      (FIFO_contents fifo).drop ((FIFO_get_data_count fifo - 1) * isz) ∧
    FIFO_get_first_item fifo =
      load_item fifo.fifo8.pBuffer ((fifo.fifo8.w_index / isz + cap - 1) % cap * isz) isz ∧
    FIFO_get_last_item fifo = (FIFO_contents fifo).take isz ∧
    (FIFO_read fifo 1).1 = FIFO_error_t.FIFO_OK ∧
    (FIFO_read fifo 1).2.2.1 = FIFO_get_last_item fifo ∧
    (FIFO_read fifo 1).2.2.2 = 1 := by
  have hpos : 1 ≤ cap * isz := Nat.mul_pos hcap hisz
  obtain ⟨bytes, hb⟩ := FIFO_reachable_aligned cap isz flags fifo hpos hmax h
  obtain ⟨k, hk, hkc, _, _, hc, _, hcont, _⟩ :=
    FIFO_aligned_counts fifo cap isz flags bytes hisz hb
  rw [hc] at hne ⊢
  rw [hcont]
  have hkk : k * isz = (k - 1) * isz + isz := by
    have h1 : k = k - 1 + 1 := by omega
    conv_lhs => rw [h1]
    rw [Nat.add_mul, Nat.one_mul]
  have hge : isz ≤ bytes.length := by rw [hk, hkk]; omega
  obtain ⟨hptr, hslot⟩ := FIFO_first_ptr_general fifo cap isz flags bytes k hisz hb hk hne
  obtain ⟨hnew, _, _⟩ := load_item_of_aligned fifo cap isz flags bytes hb (k - 1)
    (by rw [hk, ← hkk])
  obtain ⟨hold, _, _⟩ := load_item_of_aligned fifo cap isz flags bytes hb 0
    (by rw [Nat.zero_mul, Nat.zero_add]; exact hge)
  rw [Nat.zero_mul, Nat.add_zero, List.drop_zero] at hold
  have hb2 := hb
  obtain ⟨his, _, hS, _, hh, _, _⟩ := hb2
  obtain ⟨_, _, _, _, hr, _, _⟩ := FIFO8_holds_counter _ _ hh
  rw [Nat.mod_eq_of_lt (by rw [← hS]; exact hr)] at hold
  have hfirst : FIFO_get_first_item fifo =
      load_item fifo.fifo8.pBuffer
        ((fifo.fifo8.r_index + (k - 1) * isz) % (cap * isz)) isz := by
    unfold FIFO_get_first_item
    simp only []
    rw [hptr, his]
  have hlast : FIFO_get_last_item fifo = bytes.take isz := by
    unfold FIFO_get_last_item
    rw [his]
    exact hold
  have htake : (bytes.drop ((k - 1) * isz)).take isz = bytes.drop ((k - 1) * isz) :=
    List.take_of_length_le (by rw [List.length_drop, hk, hkk]; omega)
  obtain ⟨heq, _⟩ := FIFO_read_general fifo cap isz flags bytes 1 hb (by omega)
  rw [Nat.one_mul] at heq
  refine ⟨by rw [hfirst, hnew, htake], by rw [hfirst, hslot], hlast, ?_, ?_, ?_⟩
  · rw [heq]
    exact if_pos hge
  · rw [heq, hlast]
  · rw [heq]
    show min isz bytes.length / isz = 1
    rw [Nat.min_eq_left hge, Nat.div_self (by omega)]

theorem C23_first_and_last_item_witness :
    FIFO_get_first_item
      (FIFO_write
        (FIFO_read
          (FIFO_write
            (FIFO_init ⟨⟨none, 0, 0, 0, 0, 0⟩, 0, 0⟩ (some [0, 0, 0, 0, 0, 0, 0, 0, 0]) 3 3
              FIFO_NO_FLAGS)
            [1, 2, 3, 4, 5, 6, 7, 8, 9] 3).2.1 2).2.1
        [10, 11, 12] 1).2.1 = [10, 11, 12] ∧
    FIFO_get_last_item
      (FIFO_write
        (FIFO_read
          (FIFO_write
            (FIFO_init ⟨⟨none, 0, 0, 0, 0, 0⟩, 0, 0⟩ (some [0, 0, 0, 0, 0, 0, 0, 0, 0]) 3 3
              FIFO_NO_FLAGS)
            [1, 2, 3, 4, 5, 6, 7, 8, 9] 3).2.1 2).2.1
        [10, 11, 12] 1).2.1 = [7, 8, 9] :=
  have key := C23_first_and_last_item 3 3 FIFO_NO_FLAGS
    (FIFO_write
      (FIFO_read
        (FIFO_write
          (FIFO_init ⟨⟨none, 0, 0, 0, 0, 0⟩, 0, 0⟩ (some [0, 0, 0, 0, 0, 0, 0, 0, 0]) 3 3
            FIFO_NO_FLAGS)
          [1, 2, 3, 4, 5, 6, 7, 8, 9] 3).2.1 2).2.1
      [10, 11, 12] 1).2.1
    (by decide) (by decide) (by decide)
    (FIFO_reachable.write _ [10, 11, 12] 1
      (FIFO_reachable.read _ 2
        (FIFO_reachable.write _ [1, 2, 3, 4, 5, 6, 7, 8, 9] 3
          (FIFO_reachable.init ⟨⟨none, 0, 0, 0, 0, 0⟩, 0, 0⟩ [0, 0, 0, 0, 0, 0, 0, 0, 0]
            (by decide))
          (by decide) (by decide))
        (by decide))
      (by decide) (by decide))
    (by decide)
  ⟨key.1.trans (by decide), key.2.2.1.trans (by decide)⟩

/-! ## Flush -/

/-- C24: flush frame.  For every handle, `FIFO_flush` sets `counter`, `r_index`
and `w_index` to 0 and leaves the storage bytes, the byte size, the flags,
`item_size` and `fifo_size` unchanged, so `FIFO_not_empty` is false; for an
item size of at least 1 the item count is 0, and for a 16-bit byte size the free
space is the whole ring, `FIFO_size / item_size` items, which is `fifo_size` when
the byte size is `fifo_size * item_size`.  `moving_avg_flush` and
`rank_filter_flush` flush the ring and clear `initialized`, leaving
`window_size`, the kind or rank, the running sum and `sorted_window` as they
were. -/
theorem C24_flush_frame (fifo : FIFO_t) (ma : MovingAverageFilter_t) (rf : RankFilter_t) :
    ((FIFO_flush fifo).fifo8.counter = 0 ∧ (FIFO_flush fifo).fifo8.r_index = 0 ∧
      (FIFO_flush fifo).fifo8.w_index = 0 ∧
      (FIFO_flush fifo).fifo8.pBuffer = fifo.fifo8.pBuffer ∧
      (FIFO_flush fifo).fifo8.FIFO_size = fifo.fifo8.FIFO_size ∧
      (FIFO_flush fifo).fifo8.flags = fifo.fifo8.flags ∧
      (FIFO_flush fifo).item_size = fifo.item_size ∧
      (FIFO_flush fifo).fifo_size = fifo.fifo_size ∧
      FIFO_not_empty (FIFO_flush fifo) = false) ∧
    (1 ≤ fifo.item_size → FIFO_get_data_count (FIFO_flush fifo) = 0) ∧
    (1 ≤ fifo.item_size → fifo.fifo8.FIFO_size ≤ 65535 →
      FIFO_get_free_space (FIFO_flush fifo) = fifo.fifo8.FIFO_size / fifo.item_size) ∧
    (1 ≤ fifo.item_size → fifo.fifo8.FIFO_size ≤ 65535 →
      fifo.fifo8.FIFO_size = fifo.fifo_size * fifo.item_size →
      FIFO_get_free_space (FIFO_flush fifo) = fifo.fifo_size) ∧
    ((moving_avg_flush ma).fifo = FIFO_flush ma.fifo ∧ (moving_avg_flush ma).initialized = 0 ∧
      (moving_avg_flush ma).window_size = ma.window_size ∧
      (moving_avg_flush ma).type = ma.type ∧ (moving_avg_flush ma).prev_acc = ma.prev_acc ∧
      (moving_avg_flush ma).buffer_size = ma.buffer_size) ∧
    ((rank_filter_flush rf).fifo = FIFO_flush rf.fifo ∧ (rank_filter_flush rf).initialized = 0 ∧
      (rank_filter_flush rf).window_size = rf.window_size ∧
      (rank_filter_flush rf).rank = rf.rank ∧
      (rank_filter_flush rf).sorted_window = rf.sorted_window) := by
  have hfree : fifo.fifo8.FIFO_size ≤ 65535 →
      FIFO_get_free_space (FIFO_flush fifo) = fifo.fifo8.FIFO_size / fifo.item_size := by
    intro hS
    have hdiv := Nat.div_le_self fifo.fifo8.FIFO_size fifo.item_size
    have e1 : FIFO8_get_free_space (FIFO_flush fifo).fifo8 = fifo.fifo8.FIFO_size := by
      show to_uint16 ((fifo.fifo8.FIFO_size : Int) - ((0 : Nat) : Int)) = _
      unfold to_uint16
      omega
    unfold FIFO_get_free_space
    rw [e1]
    show to_uint16 ((fifo.fifo8.FIFO_size / fifo.item_size : Nat) : Int) = _
    exact to_uint16_of_range (by omega)
  refine ⟨⟨rfl, rfl, rfl, rfl, rfl, rfl, rfl, rfl, rfl⟩, ?_, ?_, ?_,
    ⟨rfl, rfl, rfl, rfl, rfl, rfl⟩, ⟨rfl, rfl, rfl, rfl, rfl⟩⟩
  · intro _
    show to_uint16 ((0 / fifo.item_size : Nat) : Int) = 0
    rw [Nat.zero_div]
    rfl
  · intro _ hS
    exact hfree hS
  · intro h1 hS he
    rw [hfree hS, he, Nat.mul_div_cancel _ (by omega)]

theorem C24_flush_frame_witness :
    FIFO_get_data_count
      (FIFO_flush
        (FIFO_write (FIFO_init ⟨⟨none, 0, 0, 0, 0, 0⟩, 0, 0⟩ (some [0, 0, 0, 0, 0, 0]) 3 2
          FIFO_LOOP) [1, 2, 3, 4] 2).2.1) = 0 ∧
    FIFO_get_free_space
      (FIFO_flush
        (FIFO_write (FIFO_init ⟨⟨none, 0, 0, 0, 0, 0⟩, 0, 0⟩ (some [0, 0, 0, 0, 0, 0]) 3 2
          FIFO_LOOP) [1, 2, 3, 4] 2).2.1) = 3 ∧
    (FIFO_flush
        (FIFO_write (FIFO_init ⟨⟨none, 0, 0, 0, 0, 0⟩, 0, 0⟩ (some [0, 0, 0, 0, 0, 0]) 3 2
          FIFO_LOOP) [1, 2, 3, 4] 2).2.1).fifo8.pBuffer = some [1, 2, 3, 4, 0, 0] :=
  have key := C24_flush_frame
    (FIFO_write (FIFO_init ⟨⟨none, 0, 0, 0, 0, 0⟩, 0, 0⟩ (some [0, 0, 0, 0, 0, 0]) 3 2
      FIFO_LOOP) [1, 2, 3, 4] 2).2.1
    ⟨0, 0, 0, 0, FilterType_t.FilterLowPass, ⟨⟨none, 0, 0, 0, 0, 0⟩, 0, 0⟩⟩
    ⟨none, 0, 0, 0, ⟨⟨none, 0, 0, 0, 0, 0⟩, 0, 0⟩⟩
  ⟨key.2.1 (by decide), key.2.2.2.1 (by decide) (by decide) (by decide),
    key.1.2.2.2.1.trans (by decide)⟩

/-! ## Filter ring capacity -/

/-- The item count and the contents of a well-formed ring holding `k` items. -/
theorem FIFO_holds_item_count (fifo : FIFO_t) (bytes : List Nat) (k isz : Nat)
    (hisz : 1 ≤ isz) (his : fifo.item_size = isz) (hh : FIFO8_holds fifo.fifo8 bytes)
    (hk : bytes.length = k * isz) :
    FIFO_get_data_count fifo = k ∧ FIFO_contents fifo = bytes := by
  obtain ⟨hc, hle, _, hmax, _, _, _⟩ := FIFO8_holds_counter _ _ hh
  have hkb : k ≤ 65535 := by
    have : k * 1 ≤ k * isz := Nat.mul_le_mul_left k hisz
    omega
  refine ⟨?_, FIFO8_contents_of_holds _ _ hh⟩
  unfold FIFO_get_data_count FIFO8_get_data_count
  rw [hc, hk, his, Nat.mul_div_cancel k (by omega)]
  exact to_uint16_of_range hkb

/-- C25 (counterexample): a 16-bit window size whose byte size does not fit the
16-bit size field.  With `window_size = 32768` the byte size `2 * 32768` is
stored as 0: after `moving_avg_init`, and after a successful
`rank_filter_init`, the free space is 0 items, not 32768; with
`window_size = 40000` it is 7232. -/
theorem C25_large_window_capacity_truncated :
    FIFO_get_free_space
      (moving_avg_init
        ⟨0, 0, 0, 0, FilterType_t.FilterLowPass, ⟨⟨none, 0, 0, 0, 0, 0⟩, 0, 0⟩⟩
        FilterType_t.FilterLowPass (some (List.replicate 65536 0)) 32768).2.fifo = 0 ∧
    (rank_filter_init ⟨none, 0, 0, 0, ⟨⟨none, 0, 0, 0, 0, 0⟩, 0, 0⟩⟩
        (some (List.replicate 65536 0)) 32768 0 (some (List.replicate 32768 0))).1
      = FilterStatus_t.FilterOK ∧
    FIFO_get_free_space
      (rank_filter_init ⟨none, 0, 0, 0, ⟨⟨none, 0, 0, 0, 0, 0⟩, 0, 0⟩⟩
        (some (List.replicate 65536 0)) 32768 0 (some (List.replicate 32768 0))).2.fifo = 0 ∧
    FIFO_get_free_space
      (moving_avg_init
        ⟨0, 0, 0, 0, FilterType_t.FilterLowPass, ⟨⟨none, 0, 0, 0, 0, 0⟩, 0, 0⟩⟩
        FilterType_t.FilterLowPass (some (List.replicate 80000 0)) 40000).2.fifo = 7232 := by
  decide

/-- C25 (amended): the filter ring holds exactly the window.  For every window
size `w` with `1 <= w <= 32767` (and `rank < w` for the rank filter), with
storage of at least `2 * w` bytes: immediately after `moving_avg_init`, and
after `rank_filter_init`, which returns `FilterOK`, the ring is empty with
`FIFO_get_data_count = 0` and `FIFO_get_free_space = w`; a fill of `w`
`int16_t` samples returns `FilterOK` and leaves all `w` of them in the ring, in
order. -/
theorem C25_filter_ring_capacity (w rank : Nat) (f0 : MovingAverageFilter_t)
    (ftype : FilterType_t) (buf : List Nat) (rf0 : RankFilter_t) (rbuf : List Nat)
    (mem : List Int) (X : List Int)
    (hw1 : 1 ≤ w) (hw2 : w ≤ 32767) (hrank : rank < w) (hbuf : 2 * w ≤ buf.length)
    (hrbuf : 2 * w ≤ rbuf.length) (hmem : mem.length = w) (hX : X.length = w)
    (hXr : ∀ x ∈ X, is_int16 x) :
    (FIFO_get_data_count (moving_avg_init f0 ftype (some buf) w).2.fifo = 0 ∧
      FIFO_get_free_space (moving_avg_init f0 ftype (some buf) w).2.fifo = w ∧
      (moving_avg_fill_buffer (moving_avg_init f0 ftype (some buf) w).2 X).1
        = FilterStatus_t.FilterOK ∧
      FIFO_get_data_count
        (moving_avg_fill_buffer (moving_avg_init f0 ftype (some buf) w).2 X).2.1.fifo = w ∧
      FIFO_contents
        (moving_avg_fill_buffer (moving_avg_init f0 ftype (some buf) w).2 X).2.1.fifo
        = int16s_to_bytes X) ∧
    ((rank_filter_init rf0 (some rbuf) w rank (some mem)).1 = FilterStatus_t.FilterOK ∧
      FIFO_get_data_count (rank_filter_init rf0 (some rbuf) w rank (some mem)).2.fifo = 0 ∧
      FIFO_get_free_space (rank_filter_init rf0 (some rbuf) w rank (some mem)).2.fifo = w ∧
      (rank_filter_fill_buffer (rank_filter_init rf0 (some rbuf) w rank (some mem)).2 X).1
        = FilterStatus_t.FilterOK ∧
      FIFO_get_data_count
        (rank_filter_fill_buffer
          (rank_filter_init rf0 (some rbuf) w rank (some mem)).2 X).2.1.fifo = w ∧
      FIFO_contents
        (rank_filter_fill_buffer
          (rank_filter_init rf0 (some rbuf) w rank (some mem)).2 X).2.1.fifo
        = int16s_to_bytes X) := by
  have hXt : X.take w = X := List.take_of_length_le (le_of_eq hX)
  have hblen : (int16s_to_bytes X).length = w * 2 := by
    rw [int16s_to_bytes_length, hX, Nat.mul_comm]
  constructor
  · have hinit : (moving_avg_init f0 ftype (some buf) w).2.fifo =
        FIFO_init f0.fifo (some buf) w 2 FIFO_LOOP := rfl
    obtain ⟨hal, _⟩ := FIFO_init_aligned f0.fifo buf w 2 FIFO_LOOP (by omega) (by omega)
      (by omega)
    obtain ⟨_, hc0, hf0, _⟩ :=
      FIFO_aligned_count_of_length _ w 2 FIFO_LOOP [] 0 (by omega) hal (by simp)
    obtain ⟨fa, hea, hsa, _⟩ := moving_avg_fill_from_empty _ ftype w X hw1 hw2
      (moving_avg_init_empty f0 ftype buf w hw1 hw2 hbuf) (le_of_eq hX.symm) hXr
    rw [hXt] at hsa
    obtain ⟨hcnt, hcont⟩ := FIFO_holds_item_count fa.fifo (int16s_to_bytes X) w 2 (by omega)
      hsa.2.2.1 hsa.2.2.2.2.2.1 hblen
    rw [hinit, hea]
    exact ⟨hc0, by rw [hf0]; omega, rfl, hcnt, hcont⟩
  · obtain ⟨hok, hemp⟩ := rank_filter_init_empty rf0 rbuf w rank mem hw1 hw2 hrank hrbuf hmem
    have hrk : ¬ ((rank : Int) > (w : Int) - 1) := by omega
    have hinit : (rank_filter_init rf0 (some rbuf) w rank (some mem)).2.fifo =
        FIFO_init rf0.fifo (some rbuf) w 2 FIFO_NO_FLAGS := by
      unfold rank_filter_init
      simp [hrk]
    obtain ⟨hal, _⟩ := FIFO_init_aligned rf0.fifo rbuf w 2 FIFO_NO_FLAGS (by omega) (by omega)
      (by omega)
    obtain ⟨_, hc0, hf0, _⟩ :=
      FIFO_aligned_count_of_length _ w 2 FIFO_NO_FLAGS [] 0 (by omega) hal (by simp)
    obtain ⟨fa, hea, hsa⟩ := rank_filter_fill_from_empty _ w rank X hw1 hw2 hemp
      (le_of_eq hX.symm) hXr
    rw [hXt] at hsa
    obtain ⟨hcnt, hcont⟩ := FIFO_holds_item_count fa.fifo (int16s_to_bytes X) w 2 (by omega)
      hsa.2.2.2.1 hsa.2.2.2.2.2.1 hblen
    rw [hinit, hea]
    exact ⟨hok, hc0, by rw [hf0]; omega, rfl, hcnt, hcont⟩

theorem C25_filter_ring_capacity_witness :
    FIFO_get_free_space
      (moving_avg_init
        ⟨0, 0, 0, 0, FilterType_t.FilterLowPass, ⟨⟨none, 0, 0, 0, 0, 0⟩, 0, 0⟩⟩
        FilterType_t.FilterHighPass (some [0, 0, 0, 0, 0, 0]) 3).2.fifo = 3 ∧
    FIFO_contents
      (rank_filter_fill_buffer
        (rank_filter_init ⟨none, 0, 0, 0, ⟨⟨none, 0, 0, 0, 0, 0⟩, 0, 0⟩⟩
          (some [0, 0, 0, 0, 0, 0]) 3 1 (some [0, 0, 0])).2 [5, -1, 256]).2.1.fifo
      = [5, 0, 255, 255, 0, 1] :=
  have key := C25_filter_ring_capacity 3 1
    ⟨0, 0, 0, 0, FilterType_t.FilterLowPass, ⟨⟨none, 0, 0, 0, 0, 0⟩, 0, 0⟩⟩
    FilterType_t.FilterHighPass [0, 0, 0, 0, 0, 0]
    ⟨none, 0, 0, 0, ⟨⟨none, 0, 0, 0, 0, 0⟩, 0, 0⟩⟩ [0, 0, 0, 0, 0, 0] [0, 0, 0] [5, -1, 256]
    (by decide) (by decide) (by decide) (by decide) (by decide) (by decide) (by decide)
    (by decide)
  ⟨key.1.2.1, key.2.2.2.2.2.2.trans (by decide)⟩

/-! ## The accumulator of the moving average -/

theorem sum_int16_is_int32 (l : List Int) (hl : ∀ x ∈ l, is_int16 x) (hn : l.length ≤ 65535) :
    is_int32 l.sum := by
  have hb := sum_int16_bounds l hl
  unfold is_int32
  have : (l.length : Int) ≤ 65535 := by exact_mod_cast hn
  omega

theorem window_acc_values_spec (a : List Int) (ha : ∀ x ∈ a, is_int16 x)
    (hlen : a.length ≤ 65535) (n : Nat) :
    ∀ i, i + n ≤ a.length →
      window_acc_values a n i (a.take i).sum =
        (List.range n).map (fun j => (a.take (i + j + 1)).sum) := by
  induction n with
  | zero =>
    intro i _
    rfl
  | succ n ih =>
    intro i hi
    have e0 : (a.take i).sum + a.getD i 0 = (a.take (i + 1)).sum :=
      (take_succ_sum a i (by omega)).symm
    have hr : is_int32 (a.take (i + 1)).sum :=
      sum_int16_is_int32 _ (fun x hx => ha x (List.mem_of_mem_take hx))
        (by rw [List.length_take]; omega)
    rw [window_acc_values, e0, to_int32_of_range hr.1 hr.2, ih (i + 1) (by omega),
      List.range_succ_eq_map, List.map_cons, List.map_map]
    congr 1
    apply List.map_congr_left
    intro j _
    simp only [Function.comp]
    congr 2
    omega

theorem moving_avg_sequence_acc_values_spec (data : List Int) (p : Nat) (tail : List Int)
    (hr : ∀ s ∈ data, is_int16 s) (ht : ∀ s ∈ tail, is_int16 s)
    (hn : data.length ≤ 65535) (hq : 2 * p + 1 + tail.length ≤ 65535) (remaining : Nat) :
    ∀ i, i + remaining + (2 * p + 1) ≤ data.length →
      moving_avg_sequence_acc_values data p remaining i
          ((window_at data (2 * p + 1) i).sum + tail.sum)
        = (List.range remaining).map (fun j =>
            (window_at data (2 * p + 1) (i + j + 1)).sum + tail.sum) := by
  induction remaining with
  | zero =>
    intro i _
    rfl
  | succ remaining ih =>
    intro i hi
    have hidx : to_uint32 ((i : Int) + 2 * (p : Int) + 1) = i + (2 * p + 1) := by
      have e : (i : Int) + 2 * (p : Int) + 1 = ((i + (2 * p + 1) : Nat) : Int) := by
        push_cast; ring
      rw [e]
      exact to_uint32_of_range (by omega)
    have hslide := window_at_slide data (2 * p + 1) i (by omega) (by omega)
    have e0 : (window_at data (2 * p + 1) i).sum + tail.sum +
        (data.getD (i + (2 * p + 1)) 0 - data.getD i 0) =
        (window_at data (2 * p + 1) (i + 1)).sum + tail.sum := by
      rw [hslide]; ring
    have hrng : is_int32 ((window_at data (2 * p + 1) (i + 1)).sum + tail.sum) := by
      rw [← List.sum_append]
      apply sum_int16_is_int32
      · intro x hx
        rcases List.mem_append.mp hx with h1 | h1
        · exact window_at_int16 data _ _ hr x h1
        · exact ht x h1
      · rw [List.length_append, window_at_length data _ _ (by omega)]
        exact hq
    rw [moving_avg_sequence_acc_values]
    simp only [hidx]
    rw [e0, to_int32_of_range hrng.1 hrng.2, ih (i + 1) (by omega),
      List.range_succ_eq_map, List.map_cons, List.map_map]
    congr 1
    apply List.map_congr_left
    intro j _
    simp only [Function.comp]
    congr 3
    omega

/-- The accumulator values of the batch moving average, for any window parity:
the partial sums of the first window, then for each further output the sum of
`2 * p + 1` consecutive samples plus the samples of the first window beyond its
first `2 * p + 1` (none for odd `w`, the sample `data[w - 1]` for even `w`). -/
theorem moving_avg_filter_sequence_acc_values_eq (data : List Int) (w : Nat) (hw1 : 1 ≤ w)
    (hwn : w ≤ data.length) (hn : data.length ≤ 65535) (hr : ∀ s ∈ data, is_int16 s) :
    moving_avg_filter_sequence_acc_values data data.length w =
      (List.range w).map (fun j => (data.take (j + 1)).sum) ++
      (List.range (data.length - w)).map (fun j =>
        (window_at data (2 * ((w - 1) / 2) + 1) (j + 1)).sum +
          ((data.drop (2 * ((w - 1) / 2) + 1)).take (w - (2 * ((w - 1) / 2) + 1))).sum) := by
  have hp : to_uint32 (((w : Int) - 1).tdiv 2) = (w - 1) / 2 := by
    rw [Int.tdiv_eq_ediv (by omega) (by omega)]
    unfold to_uint32
    omega
  have hrec : to_uint32
      ((filter_windowed_get_expected_output_len data.length w : Int) - 1) = data.length - w := by
    unfold filter_windowed_get_expected_output_len to_uint32
    omega
  have hacc : window_acc data w = (data.take w).sum :=
    window_acc_eq_sum data hr w hwn (by omega)
  have hfirst := window_acc_values_spec data hr hn w 0 (by omega)
  simp only [List.take_zero, List.sum_nil, Nat.zero_add] at hfirst
  have hsplit : (data.take w).sum =
      (window_at data (2 * ((w - 1) / 2) + 1) 0).sum +
        ((data.drop (2 * ((w - 1) / 2) + 1)).take (w - (2 * ((w - 1) / 2) + 1))).sum := by
    have e : w = (2 * ((w - 1) / 2) + 1) + (w - (2 * ((w - 1) / 2) + 1)) := by omega
    conv_lhs => rw [e, List.take_add, List.sum_append]
    simp [window_at]
  have hloop := moving_avg_sequence_acc_values_spec data ((w - 1) / 2)
    ((data.drop (2 * ((w - 1) / 2) + 1)).take (w - (2 * ((w - 1) / 2) + 1))) hr
    (fun x hx => hr x (List.mem_of_mem_drop (List.mem_of_mem_take hx))) hn
    (by rw [List.length_take, List.length_drop]; omega) (data.length - w) 0 (by omega)
  simp only [Nat.zero_add] at hloop
  unfold moving_avg_filter_sequence_acc_values
  have hgt : ¬ w > data.length := by omega
  simp only [hgt, if_false, hp, hrec, hacc, hfirst]
  rw [hsplit, hloop]

theorem moving_avg_fill_buffer_acc_values_eq (f : MovingAverageFilter_t) (ftype : FilterType_t)
    (w : Nat) (data : List Int) (hw1 : 1 ≤ w) (hw2 : w ≤ 32767) (he : MA_empty f ftype w)
    (hd : w ≤ data.length) (hdr : ∀ x ∈ data, is_int16 x) :
    moving_avg_fill_buffer_acc_values f data =
      (List.range w).map (fun j => ((data.take w).take (j + 1)).sum) := by
  obtain ⟨hws, hty, hinit, his0, hS0, hr0, hh0⟩ := he
  have hwr : ∀ y ∈ data.take w, is_int16 y := fun y hy => hdr y (List.mem_of_mem_take hy)
  have htl : (data.take w).length = w := by simp; omega
  have hbl : (int16s_to_bytes (data.take w)).length = 2 * w := by
    rw [int16s_to_bytes_length, htl]
  have hsplit : int16s_to_bytes data =
      int16s_to_bytes (data.take w) ++ int16s_to_bytes (data.drop w) := by
    rw [← int16s_to_bytes_append, List.take_append_drop]
  obtain ⟨fifo1, hwr1, hh1, his1, hfs1, hS1, hfl1, hr1⟩ :=
    FIFO_write_holds f.fifo []
      (int16s_to_bytes (data.take w)) (int16s_to_bytes (data.drop w)) w his0 hh0 hbl
      (by rw [hS0]; simp)
  rw [← hsplit] at hwr1
  rw [List.nil_append] at hh1
  obtain ⟨fifo2, hrd2, hh2, his2, hfs2, hS2, hfl2, hr2⟩ :=
    FIFO_read_holds fifo1 (int16s_to_bytes (data.take w)) w his1 hh1 (by omega)
  rw [List.take_of_length_le (by omega)] at hrd2
  rw [List.drop_of_length_le (by omega)] at hh2
  obtain ⟨fifo3, hwr3, hh3, his3, hfs3, hS3, hfl3, hr3⟩ :=
    FIFO_write_holds fifo2 [] (int16s_to_bytes (data.take w)) [] w his2 hh2 hbl
      (by rw [hS2, hS1, hS0]; simp)
  rw [List.append_nil] at hwr3
  have hbuf2 : bytes_to_int16s (int16s_to_bytes (data.take w)) w = data.take w := by
    have := bytes_to_int16s_bytes_nil (data.take w) hwr
    rwa [htl] at this
  have hu : to_uint16 (w : Int) = w := to_uint16_of_range (by omega)
  have hvals := window_acc_values_spec (data.take w) hwr (by omega) w 0 (by omega)
  simp only [List.take_zero, List.sum_nil, Nat.zero_add] at hvals
  unfold moving_avg_fill_buffer_acc_values moving_avg_compute_first_output_acc_values
  simp only [hinit, hws, ne_eq, not_true_eq_false, if_false, hu, hwr1, hrd2, hwr3, hbuf2, hvals]

theorem moving_avg_filter_sample_acc_value_eq (f : MovingAverageFilter_t) (w : Nat) (x : Int)
    (xs : List Int) (s : Int) (hw1 : 1 ≤ w) (hw2 : w ≤ 32767)
    (h : MA_state f w (x :: xs)) :
    moving_avg_filter_sample_acc_value f s = some ((xs ++ [s]).sum) := by
  obtain ⟨hws, hinit, his, hS, hr, hh, hlen, hrange, hacc⟩ := h
  have hx : is_int16 x := hrange x (by simp)
  have hlen2 : xs.length + 1 = w := by simpa using hlen
  have hbl : (int16s_to_bytes (x :: xs)).length = 2 * w := by
    rw [int16s_to_bytes_length, hlen]
  obtain ⟨fifo2, hrd, hh2, his2, hfs2, hS2, hfl2, hr2⟩ :=
    FIFO_read_holds f.fifo (int16s_to_bytes (x :: xs)) 1 his hh (by omega)
  have htake : (int16s_to_bytes (x :: xs)).take (2 * 1) = int16s_to_bytes [x] := by
    rw [int16s_to_bytes_take]; rfl
  have hdrop : (int16s_to_bytes (x :: xs)).drop (2 * 1) = int16s_to_bytes xs := by
    rw [int16s_to_bytes_drop]; rfl
  rw [htake] at hrd
  rw [hdrop] at hh2
  obtain ⟨fifo3, hwr, hh3, his3, hfs3, hS3, hfl3, hr3⟩ :=
    FIFO_write_holds fifo2 (int16s_to_bytes xs) (int16_to_bytes s) [] 1 his2 hh2
      (by simp [int16_to_bytes])
      (by rw [int16s_to_bytes_length, hS2, hS]; omega)
  rw [List.append_nil] at hwr
  have hlast : int16_at (int16s_to_bytes [x]) 0 = x := by
    have := int16_at_bytes_nil [x] (by intro y hy; simp at hy; rw [hy]; exact hx) 0 (by simp)
    simpa using this
  have e : f.prev_acc + (s - x) = (xs ++ [s]).sum := by
    rw [hacc]; simp; ring
  unfold moving_avg_filter_sample_acc_value
  have hi : ¬ f.initialized = 0 := by omega
  simp only [hi, if_false, hrd, ne_eq, not_true_eq_false, hwr, hlast, e]

theorem moving_avg_run_acc_values_eq (w : Nat) (hw1 : 1 ≤ w) (hw2 : w ≤ 32767)
    (rest : List Int) :
    ∀ (f : MovingAverageFilter_t) (win : List Int), MA_state f w win →
      (∀ s ∈ rest, is_int16 s) →
      moving_avg_run_acc_values f rest =
        (List.range rest.length).map (fun k =>
          some (window_at (win ++ rest) w (k + 1)).sum) := by
  induction rest with
  | nil =>
    intro f win _ _
    rfl
  | cons s rest ih =>
    intro f win h hr
    have hl : win.length = w := h.2.2.2.2.2.2.1
    match win, h, hl with
    | [], _, hl => simp at hl; omega
    | x :: xs, h, hl =>
      have hxl : xs.length + 1 = w := by simpa using hl
      have hv := moving_avg_filter_sample_acc_value_eq f w x xs s hw1 hw2 h
      obtain ⟨f1, hstep, hst1, _⟩ :=
        moving_avg_filter_sample_state f w x xs s hw1 hw2 (hr s (by simp)) h
      have hrun := ih f1 (xs ++ [s]) hst1 (fun y hy => hr y (by simp [hy]))
      have e1 : window_at (x :: xs ++ s :: rest) w (0 + 1) = xs ++ [s] := by
        simp only [window_at, Nat.zero_add, List.cons_append, List.drop_succ_cons, List.drop_zero]
        rw [show xs ++ s :: rest = (xs ++ [s]) ++ rest by simp,
          List.take_left' (by simp; omega)]
      have e2 : ∀ k, window_at (x :: xs ++ s :: rest) w (k + 1 + 1)
          = window_at (xs ++ [s] ++ rest) w (k + 1) := by
        intro k
        simp [window_at]
      rw [moving_avg_run_acc_values, hv, hstep]
      simp only [hrun, List.length_cons, List.range_succ_eq_map, List.map_cons,
        List.map_map, e1]
      congr 1
      apply List.map_congr_left
      intro k _
      simp only [Function.comp, e2]

/-- C26: the 32-bit accumulator never overflows.  In `moving_avg_filter_sequence`
on `n` `int16_t` samples with `1 <= w <= n <= 65535` (odd or even `w`), each of
the `n` values computed for the accumulator (the `w` of the first sum and the
`n - w` of the recursive part) lies in `[-2^31, 2^31 - 1]`, so storing it to
`int32_t` does not change it.  In the streaming path with `1 <= ws <= 32767`,
the same holds for the `ws` values of `moving_avg_compute_first_output` during
the fill and for the value of every `moving_avg_filter_sample` that follows,
each of which performs its update. -/
theorem C26_accumulator_in_range (data : List Int) (w : Nat) (f0 : MovingAverageFilter_t)
    (ftype : FilterType_t) (buf : List Nat) (ws : Nat) (x : List Int)
    (hw1 : 1 ≤ w) (hwn : w ≤ data.length) (hn : data.length ≤ 65535)
    (hr : ∀ s ∈ data, is_int16 s)
    (hs1 : 1 ≤ ws) (hs2 : ws ≤ 32767) (hbuf : 2 * ws ≤ buf.length) (hx : ws ≤ x.length)
    (hxr : ∀ s ∈ x, is_int16 s) :
    ((moving_avg_filter_sequence_acc_values data data.length w).length = data.length ∧
      ∀ e ∈ moving_avg_filter_sequence_acc_values data data.length w,
        is_int32 e ∧ to_int32 e = e) ∧
    ((moving_avg_stream_acc_values f0 ftype (some buf) ws x).1.length = ws ∧
      (∀ e ∈ (moving_avg_stream_acc_values f0 ftype (some buf) ws x).1,
        is_int32 e ∧ to_int32 e = e) ∧
      (moving_avg_stream_acc_values f0 ftype (some buf) ws x).2.length = x.length - ws ∧
      ∀ v ∈ (moving_avg_stream_acc_values f0 ftype (some buf) ws x).2,
        ∃ e, v = some e ∧ is_int32 e ∧ to_int32 e = e) := by
  have hwrap : ∀ e, is_int32 e → is_int32 e ∧ to_int32 e = e :=
    fun e he => ⟨he, to_int32_of_range he.1 he.2⟩
  constructor
  · rw [moving_avg_filter_sequence_acc_values_eq data w hw1 hwn hn hr]
    constructor
    · simp only [List.length_append, List.length_map, List.length_range]
      omega
    · intro e he
      apply hwrap
      rcases List.mem_append.mp he with h1 | h1
      · obtain ⟨j, _, rfl⟩ := List.mem_map.mp h1
        exact sum_int16_is_int32 _ (fun y hy => hr y (List.mem_of_mem_take hy))
          (by rw [List.length_take]; omega)
      · obtain ⟨j, _, rfl⟩ := List.mem_map.mp h1
        rw [← List.sum_append]
        apply sum_int16_is_int32
        · intro y hy
          rcases List.mem_append.mp hy with h2 | h2
          · exact window_at_int16 data _ _ hr y h2
          · exact hr y (List.mem_of_mem_drop (List.mem_of_mem_take h2))
        · simp only [List.length_append, window_at, List.length_take, List.length_drop]
          omega
  · obtain ⟨fa, hea, hsa, _⟩ := moving_avg_fill_state f0 ftype buf ws x hs1 hs2 hbuf hx hxr
    have hfill := moving_avg_fill_buffer_acc_values_eq _ ftype ws x hs1 hs2
      (moving_avg_init_empty f0 ftype buf ws hs1 hs2 hbuf) hx hxr
    have hdr : ∀ s ∈ x.drop ws, is_int16 s := fun s hs => hxr s (List.mem_of_mem_drop hs)
    have hrun := moving_avg_run_acc_values_eq ws hs1 hs2 (x.drop ws) fa (x.take ws) hsa hdr
    rw [List.take_append_drop] at hrun
    have h1 : (moving_avg_stream_acc_values f0 ftype (some buf) ws x).1 =
        (List.range ws).map (fun j => ((x.take ws).take (j + 1)).sum) := hfill
    have h2 : (moving_avg_stream_acc_values f0 ftype (some buf) ws x).2 =
        (List.range (x.drop ws).length).map (fun k =>
          some (window_at x ws (k + 1)).sum) := by
      show moving_avg_run_acc_values
        (moving_avg_fill_buffer (moving_avg_init f0 ftype (some buf) ws).2 x).2.1
        (x.drop ws) = _
      rw [hea]
      exact hrun
    rw [h1, h2]
    refine ⟨by simp, ?_, by simp, ?_⟩
    · intro e he
      apply hwrap
      obtain ⟨j, _, rfl⟩ := List.mem_map.mp he
      exact sum_int16_is_int32 _
        (fun y hy => hxr y (List.mem_of_mem_take (List.mem_of_mem_take hy)))
        (by simp only [List.length_take]; omega)
    · intro v hv
      obtain ⟨k, _, rfl⟩ := List.mem_map.mp hv
      refine ⟨_, rfl, ?_⟩
      apply hwrap
      exact sum_int16_is_int32 _ (window_at_int16 x _ _ hxr)
        (by simp only [window_at, List.length_take, List.length_drop]; omega)

theorem C26_accumulator_in_range_witness :
    (∀ e ∈ moving_avg_filter_sequence_acc_values [32767, 32767, -32768, 32767] 4 2,
      is_int32 e ∧ to_int32 e = e) ∧
    ∀ v ∈ (moving_avg_stream_acc_values
        ⟨0, 0, 0, 0, FilterType_t.FilterLowPass, ⟨⟨none, 0, 0, 0, 0, 0⟩, 0, 0⟩⟩
        FilterType_t.FilterLowPass (some [0, 0, 0, 0]) 2 [32767, 32767, -32768]).2,
      ∃ e, v = some e ∧ is_int32 e ∧ to_int32 e = e :=
  have key := C26_accumulator_in_range [32767, 32767, -32768, 32767] 2
    ⟨0, 0, 0, 0, FilterType_t.FilterLowPass, ⟨⟨none, 0, 0, 0, 0, 0⟩, 0, 0⟩⟩
    FilterType_t.FilterLowPass [0, 0, 0, 0] 2 [32767, 32767, -32768]
    (by decide) (by decide) (by decide) (by decide) (by decide) (by decide) (by decide)
    (by decide) (by decide)
  ⟨key.1.2, key.2.2.2.2⟩

/-! ## Rank filter: the step cannot fail -/

/-- The free space of a well-formed ring of `cap` items holding `k` items. -/
theorem FIFO_holds_free_space (fifo : FIFO_t) (bytes : List Nat) (k cap isz : Nat)
    (hisz : 1 ≤ isz) (his : fifo.item_size = isz) (hS : fifo.fifo8.FIFO_size = cap * isz)
    (hh : FIFO8_holds fifo.fifo8 bytes) (hk : bytes.length = k * isz) :
    FIFO_get_free_space fifo = cap - k := by
  obtain ⟨hc, hle, _, hmax, _, _, _⟩ := FIFO8_holds_counter _ _ hh
  rw [hS] at hle hmax
  have hkc : k ≤ cap := by
    rw [hk] at hle
    exact Nat.le_of_mul_le_mul_right hle (by omega)
  have hcapb : cap ≤ 65535 := by
    have : cap * 1 ≤ cap * isz := Nat.mul_le_mul_left cap hisz
    omega
  unfold FIFO_get_free_space FIFO8_get_free_space
  rw [hc, hk, his, hS]
  have e1 : to_uint16 (((cap * isz : Nat) : Int) - ((k * isz : Nat) : Int))
      = (cap - k) * isz := by
    have hle2 : k * isz ≤ cap * isz := Nat.mul_le_mul_right isz hkc
    rw [Nat.sub_mul]
    generalize cap * isz = A at hle2 hmax
    generalize k * isz = B at hle2
    unfold to_uint16
    omega
  rw [e1, Nat.mul_div_cancel _ (by omega)]
  exact to_uint16_of_range (by omega)

/-- The scan of a window that contains the retired sample finds it, and the rank
of the new sample is `-1` or an index of the window. -/
theorem rank_scan_bounds (sw : List Int) (last new : Int) (hmem : last ∈ sw) :
    0 ≤ (rank_scan sw last new sw.length 0 (-1) (-1)).1 ∧
    (rank_scan sw last new sw.length 0 (-1) (-1)).1 < sw.length ∧
    sw.getD (rank_scan sw last new sw.length 0 (-1) (-1)).1.toNat 0 = last ∧
    ((rank_scan sw last new sw.length 0 (-1) (-1)).2 = -1 ∨
      (0 ≤ (rank_scan sw last new sw.length 0 (-1) (-1)).2 ∧
        (rank_scan sw last new sw.length 0 (-1) (-1)).2 < sw.length)) := by
  have hscan := rank_scan_eq sw last new sw.length 0 (-1) (-1)
  simp only [if_true] at hscan
  rw [hscan]
  obtain ⟨L, hFL, hL, hLp⟩ : ∃ L : Nat,
      first_index_from (fun v => decide (v = last)) sw sw.length 0 = (L : Int) ∧
      L < sw.length ∧ sw.getD L 0 = last := by
    rcases first_index_from_spec (fun v => decide (v = last)) sw sw.length 0 with
      ⟨_, h2⟩ | ⟨m, h1, _, h3, h4, _⟩
    · obtain ⟨j, hj, e⟩ := List.mem_iff_getElem.mp hmem
      have := h2 j (by omega) (by omega)
      rw [getD_of_lt sw j hj, e] at this
      simp at this
    · exact ⟨m, h1, by omega, by simpa using h4⟩
  simp only [hFL]
  refine ⟨by omega, by omega, by simpa using hLp, ?_⟩
  rcases first_index_from_spec (fun v => decide (v ≥ new)) sw sw.length 0 with
    ⟨hFN, _⟩ | ⟨N, hFN, _, hN, _, _⟩
  · exact Or.inl hFN
  · right
    rw [hFN]
    omega

/-- Every array access of the in-place update stays inside the window. -/
theorem rank_filter_update_accesses_inside (sw : List Int) (last new : Int)
    (hlen1 : 1 ≤ sw.length) (hlen2 : sw.length ≤ 65535) (hmem : last ∈ sw) :
    0 ≤ (rank_filter_update_accesses sw sw.length last new).1 ∧
    (rank_filter_update_accesses sw sw.length last new).1 +
      ((rank_filter_update_accesses sw sw.length last new).2.2.1 / 2 : Nat) ≤ sw.length ∧
    0 ≤ (rank_filter_update_accesses sw sw.length last new).2.1 ∧
    (rank_filter_update_accesses sw sw.length last new).2.1 +
      ((rank_filter_update_accesses sw sw.length last new).2.2.1 / 2 : Nat) ≤ sw.length ∧
    0 ≤ (rank_filter_update_accesses sw sw.length last new).2.2.2 ∧
    (rank_filter_update_accesses sw sw.length last new).2.2.2 < sw.length := by
  obtain ⟨h1, h2, _, h4⟩ := rank_scan_bounds sw last new hmem
  unfold rank_filter_update_accesses
  simp only []
  generalize (rank_scan sw last new sw.length 0 (-1) (-1)).1 = lr at h1 h2 ⊢
  generalize (rank_scan sw last new sw.length 0 (-1) (-1)).2 = sr at h4 ⊢
  rcases h4 with h4 | ⟨h4, h5⟩
  · subst h4
    simp only [if_true]
    by_cases c1 : lr < (sw.length : Int) - 1
    · simp only [c1, if_true]
      unfold to_uint32
      omega
    · have c2 : ¬ lr > (sw.length : Int) - 1 := by omega
      simp only [c1, c2, if_false]
      omega
  · have hne : ¬ sr = -1 := by omega
    simp only [hne, if_false]
    by_cases c1 : lr < sr
    · simp only [c1, if_true]
      unfold to_uint32
      omega
    · by_cases c2 : lr > sr
      · simp only [c1, c2, if_false, if_true]
        unfold to_uint32
        omega
      · simp only [c1, c2, if_false]
        omega

/-- One step on a filled rank filter, call by call. -/
theorem rank_filter_step_facts (f : RankFilter_t) (w rank : Nat) (x : Int)
    (xs : List Int) (s : Int) (hw1 : 1 ≤ w) (hw2 : w ≤ 32767) (hs : is_int16 s)
    (h : RF_state f w rank (x :: xs)) :
    FIFO_get_data_count f.fifo = w ∧ FIFO_get_free_space f.fifo = 0 ∧
    (FIFO_read f.fifo 1).1 = FIFO_error_t.FIFO_OK ∧
    int16_at (FIFO_read f.fifo 1).2.2.1 0 = x ∧
    FIFO_get_free_space (FIFO_read f.fifo 1).2.1 = 1 ∧
    (FIFO_write (FIFO_read f.fifo 1).2.1 (int16_to_bytes s) 1).1 = FIFO_error_t.FIFO_OK ∧
    f.sorted_window = some (qsort_list sort_cmp_func (x :: xs)) ∧
    (rank_filter_filter_sample f s).1 = FilterStatus_t.FilterOK ∧
    FIFO_get_data_count (rank_filter_filter_sample f s).2.1.fifo = w ∧
    FIFO_get_free_space (rank_filter_filter_sample f s).2.1.fifo = 0 := by
  obtain ⟨f2, hstep, hst2⟩ := rank_filter_filter_sample_state f w rank x xs s hw1 hw2 hs h
  obtain ⟨hws, hrk, hinit, his, hS, hh, hlen, hrange, hsw⟩ := h
  have hx : is_int16 x := hrange x (by simp)
  have hlen2 : xs.length + 1 = w := by simpa using hlen
  have hbl : (int16s_to_bytes (x :: xs)).length = w * 2 := by
    rw [int16s_to_bytes_length, hlen, Nat.mul_comm]
  have hS' : f.fifo.fifo8.FIFO_size = w * 2 := by rw [hS, Nat.mul_comm]
  obtain ⟨fifo2, hrd, hh2, his2, hfs2, hS2, hfl2, hr2⟩ :=
    FIFO_read_holds f.fifo (int16s_to_bytes (x :: xs)) 1 his hh (by omega)
  have htake : (int16s_to_bytes (x :: xs)).take (2 * 1) = int16s_to_bytes [x] := by
    rw [int16s_to_bytes_take]; rfl
  have hdrop : (int16s_to_bytes (x :: xs)).drop (2 * 1) = int16s_to_bytes xs := by
    rw [int16s_to_bytes_drop]; rfl
  rw [htake] at hrd
  rw [hdrop] at hh2
  obtain ⟨fifo3, hwr, hh3, his3, hfs3, hS3, hfl3, hr3⟩ :=
    FIFO_write_holds fifo2 (int16s_to_bytes xs) (int16_to_bytes s) [] 1 his2 hh2
      (by simp [int16_to_bytes])
      (by rw [int16s_to_bytes_length, hS2, hS]; omega)
  rw [List.append_nil] at hwr
  have hlast : int16_at (int16s_to_bytes [x]) 0 = x := by
    have := int16_at_bytes_nil [x] (by intro y hy; simp at hy; rw [hy]; exact hx) 0 (by simp)
    simpa using this
  have hc0 := (FIFO_holds_item_count f.fifo _ w 2 (by omega) his hh hbl).1
  have hf0 := FIFO_holds_free_space f.fifo _ w w 2 (by omega) his hS' hh hbl
  have hf1 := FIFO_holds_free_space fifo2 _ (w - 1) w 2 (by omega) his2 (by rw [hS2, hS'])
    hh2 (by rw [int16s_to_bytes_length]; omega)
  obtain ⟨_, _, _, his4, hS4, hh4, hlen4, _, _⟩ := hst2
  have hbl4 : (int16s_to_bytes (xs ++ [s])).length = w * 2 := by
    rw [int16s_to_bytes_length, hlen4, Nat.mul_comm]
  have hc4 := (FIFO_holds_item_count f2.fifo _ w 2 (by omega) his4 hh4 hbl4).1
  have hf4 := FIFO_holds_free_space f2.fifo _ w w 2 (by omega) his4
    (by rw [hS4, Nat.mul_comm]) hh4 hbl4
  rw [hstep, hrd]
  refine ⟨hc0, by rw [hf0]; omega, rfl, hlast, by rw [hf1]; omega, ?_, hsw, rfl, hc4,
    by rw [hf4]; omega⟩
  show (FIFO_write fifo2 (int16_to_bytes s) 1).1 = FIFO_error_t.FIFO_OK
  rw [hwr]

/-- C27: the rank filter step cannot fail once filled.  For a window size
`1 <= w <= 32767`, a rank below `w`, storage of at least `2 * w` bytes, an
allocated sorted window of `w` elements and `int16_t` samples `x` (the first `w`
given to the fill, the others to earlier steps), every call of the driver
returns `FilterOK`, and on the handle it leaves, for every further `int16_t`
sample `s`: the ring is full (`w` items, no free space); the read of the oldest
item succeeds and leaves exactly one free slot; the write of `s` succeeds; the
scan finds the retired sample in `sorted_window` (its rank is an index
`0..w-1`, never `-1`); the destination and source ranges of the `memmove` and
the store of the new sample stay inside indices `0..w-1`;
`rank_filter_filter_sample` returns `FilterOK` and the ring is full again. -/
theorem C27_rank_step_cannot_fail (f0 : RankFilter_t) (buf : List Nat) (w rank : Nat)
    (mem : List Int) (x : List Int) (s : Int) (hw1 : 1 ≤ w) (hw2 : w ≤ 32767)
    (hrank : rank < w) (hbuf : 2 * w ≤ buf.length) (hmem : mem.length = w)
    (hx : w ≤ x.length) (hxr : ∀ v ∈ x, is_int16 v) (hs : is_int16 s) :
    (∀ r ∈ (rank_filter_stream f0 (some buf) w rank (some mem) x).2.2,
      r.1 = FilterStatus_t.FilterOK) ∧
    FIFO_get_data_count (rank_filter_stream f0 (some buf) w rank (some mem) x).2.1.fifo = w ∧
    FIFO_get_free_space (rank_filter_stream f0 (some buf) w rank (some mem) x).2.1.fifo = 0 ∧
    (FIFO_read (rank_filter_stream f0 (some buf) w rank (some mem) x).2.1.fifo 1).1
      = FIFO_error_t.FIFO_OK ∧
    FIFO_get_free_space
      (FIFO_read (rank_filter_stream f0 (some buf) w rank (some mem) x).2.1.fifo 1).2.1 = 1 ∧
    (FIFO_write
      (FIFO_read (rank_filter_stream f0 (some buf) w rank (some mem) x).2.1.fifo 1).2.1
      (int16_to_bytes s) 1).1 = FIFO_error_t.FIFO_OK ∧
    (∃ sw last,
      (rank_filter_stream f0 (some buf) w rank (some mem) x).2.1.sorted_window = some sw ∧
      sw.length = w ∧
      last = int16_at
        (FIFO_read (rank_filter_stream f0 (some buf) w rank (some mem) x).2.1.fifo 1).2.2.1 0 ∧
      (rank_scan sw last s w 0 (-1) (-1)).1 ≠ -1 ∧
      0 ≤ (rank_scan sw last s w 0 (-1) (-1)).1 ∧
      (rank_scan sw last s w 0 (-1) (-1)).1 < w ∧
      sw.getD (rank_scan sw last s w 0 (-1) (-1)).1.toNat 0 = last ∧
      0 ≤ (rank_filter_update_accesses sw w last s).1 ∧
      (rank_filter_update_accesses sw w last s).1 +
        ((rank_filter_update_accesses sw w last s).2.2.1 / 2 : Nat) ≤ w ∧
      0 ≤ (rank_filter_update_accesses sw w last s).2.1 ∧
      (rank_filter_update_accesses sw w last s).2.1 +
        ((rank_filter_update_accesses sw w last s).2.2.1 / 2 : Nat) ≤ w ∧
      0 ≤ (rank_filter_update_accesses sw w last s).2.2.2 ∧
      (rank_filter_update_accesses sw w last s).2.2.2 < w) ∧
    (rank_filter_filter_sample
      (rank_filter_stream f0 (some buf) w rank (some mem) x).2.1 s).1
      = FilterStatus_t.FilterOK ∧
    FIFO_get_data_count (rank_filter_filter_sample
      (rank_filter_stream f0 (some buf) w rank (some mem) x).2.1 s).2.1.fifo = w ∧
    FIFO_get_free_space (rank_filter_filter_sample
      (rank_filter_stream f0 (some buf) w rank (some mem) x).2.1 s).2.1.fifo = 0 := by
  obtain ⟨f2, hstr, hst⟩ := rank_filter_stream_spec f0 buf w rank mem x hw1 hw2 hrank
    hbuf hmem hx hxr
  have hwl : (window_at x w (x.length - w)).length = w :=
    window_at_length x w (x.length - w) (by omega)
  rw [hstr]
  match hwin : window_at x w (x.length - w), hwl with
  | [], hl => simp at hl; omega
  | y :: ys, hl =>
    rw [hwin] at hst
    obtain ⟨a1, a2, a3, a4, a5, a6, a7, a8, a9, a10⟩ :=
      rank_filter_step_facts f2 w rank y ys s hw1 hw2 hs hst
    have hswl : (qsort_list sort_cmp_func (y :: ys)).length = w := by
      rw [qsort_list_length]; exact hl
    have hmemb : y ∈ qsort_list sort_cmp_func (y :: ys) :=
      (qsort_list_perm (y :: ys)).mem_iff.mpr (by simp)
    obtain ⟨b1, b2, b3, _⟩ := rank_scan_bounds (qsort_list sort_cmp_func (y :: ys)) y s hmemb
    obtain ⟨c1, c2, c3, c4, c5, c6⟩ :=
      rank_filter_update_accesses_inside (qsort_list sort_cmp_func (y :: ys)) y s
        (by omega) (by omega) hmemb
    rw [hswl] at b1 b2 b3 c1 c2 c3 c4 c5 c6
    refine ⟨?_, a1, a2, a3, a5, a6,
      ⟨_, y, a7, hswl, a4.symm, by omega, b1, by exact_mod_cast b2, b3, c1, by exact_mod_cast c2,
        c3, by exact_mod_cast c4, c5, by exact_mod_cast c6⟩, a8, a9, a10⟩
    intro r hr
    simp only [List.mem_map] at hr
    obtain ⟨k, _, hk⟩ := hr
    rw [← hk]

theorem C27_rank_step_cannot_fail_witness :
    FIFO_get_free_space
      (FIFO_read
        (rank_filter_stream ⟨none, 0, 0, 0, ⟨⟨none, 0, 0, 0, 0, 0⟩, 0, 0⟩⟩
          (some [0, 0, 0, 0, 0, 0]) 3 1 (some [0, 0, 0]) [4, -6, 9, 2]).2.1.fifo 1).2.1 = 1 ∧
    (rank_filter_filter_sample
      (rank_filter_stream ⟨none, 0, 0, 0, ⟨⟨none, 0, 0, 0, 0, 0⟩, 0, 0⟩⟩
        (some [0, 0, 0, 0, 0, 0]) 3 1 (some [0, 0, 0]) [4, -6, 9, 2]).2.1 7).1
      = FilterStatus_t.FilterOK :=
  have key := C27_rank_step_cannot_fail ⟨none, 0, 0, 0, ⟨⟨none, 0, 0, 0, 0, 0⟩, 0, 0⟩⟩
    [0, 0, 0, 0, 0, 0] 3 1 [0, 0, 0] [4, -6, 9, 2] 7
    (by decide) (by decide) (by decide) (by decide) (by decide) (by decide) (by decide)
    (by decide)
  ⟨key.2.2.2.2.1, key.2.2.2.2.2.2.2.1⟩

/-! ## FIFO order -/

/-- In non-overwrite mode the bytes read so far followed by the bytes still
stored are the initial contents followed by the bytes stored by the writes. -/
theorem FIFO_run_order (cap isz : Nat) (hisz : 1 ≤ isz) (ops : List FIFO_op) :
    ∀ (fifo : FIFO_t) (bytes : List Nat), FIFO_aligned fifo cap isz 0 bytes →
      FIFO_ops_item_granular isz ops →
      FIFO_bytes_read fifo ops ++ FIFO_contents (FIFO_run fifo ops) =
        bytes ++ FIFO_bytes_stored fifo ops := by
  induction ops with
  | nil =>
    intro fifo bytes hb _
    obtain ⟨_, _, _, _, _, _, _, hcont, _⟩ := FIFO_aligned_counts fifo cap isz 0 bytes hisz hb
    show [] ++ FIFO_contents fifo = bytes ++ []
    rw [hcont, List.nil_append, List.append_nil]
  | cons op rest ih =>
    intro fifo bytes hb hg
    cases op with
    | write data n =>
      obtain ⟨hd, hn, hrest⟩ := hg
      obtain ⟨fifo2, heq, h2, _, _⟩ := FIFO_write_no_flags fifo cap isz bytes data n hb hd hn
      have hdl : isz ∣ bytes.length := hb.2.2.2.2.2.1
      have his : fifo.item_size = isz := hb.1
      have hdm : isz ∣ min (n * isz) (cap * isz - bytes.length) :=
        dvd_min_of_dvd _ _ _ (Dvd.intro_left n rfl)
          (Nat.dvd_sub' (Dvd.intro_left cap rfl) hdl)
      have hst : data.take ((FIFO_write fifo data n).2.2 * fifo.item_size) =
          data.take (cap * isz - bytes.length) := by
        rw [heq, his]
        show data.take (min (n * isz) (cap * isz - bytes.length) / isz * isz) = _
        rw [Nat.div_mul_cancel hdm, ← hd, Nat.min_comm, List.take_eq_take.mpr]
        rw [Nat.min_assoc, Nat.min_self]
      have hih := ih fifo2 _ h2 hrest
      show FIFO_bytes_read (FIFO_write fifo data n).2.1 rest ++
          FIFO_contents (FIFO_run (FIFO_write fifo data n).2.1 rest) =
        bytes ++ (data.take ((FIFO_write fifo data n).2.2 * fifo.item_size) ++
          FIFO_bytes_stored (FIFO_write fifo data n).2.1 rest)
      rw [hst, heq]
      show FIFO_bytes_read fifo2 rest ++ FIFO_contents (FIFO_run fifo2 rest) = _
      rw [hih, List.append_assoc]
    | read n =>
      obtain ⟨hn, hrest⟩ := hg
      obtain ⟨heq, h2⟩ := FIFO_read_general fifo cap isz 0 bytes n hb hn
      have hih := ih _ _ h2 hrest
      show (FIFO_read fifo n).2.2.1 ++ FIFO_bytes_read (FIFO_read fifo n).2.1 rest ++
          FIFO_contents (FIFO_run (FIFO_read fifo n).2.1 rest) =
        bytes ++ FIFO_bytes_stored (FIFO_read fifo n).2.1 rest
      rw [heq]
      simp only []
      rw [List.append_assoc, hih, ← List.append_assoc, List.take_append_drop]

/-- C28: FIFO order across wraparound.  For a ring of `cap >= 1` items of
`isz >= 1` bytes (`cap * isz <= 65535`) in non-overwrite mode, reachable by
item-granular calls and empty (at whatever index position), and every finite
sequence of item-granular `FIFO_write` and `FIFO_read` calls, whatever their
status: the bytes returned by the reads, in call order, followed by the contents
left in the ring, are exactly the bytes stored by the writes, in call order; so
what was read is an initial segment of what was stored and the contents are the
rest.  Moreover, on a full reachable ring, reading all `cap` items and writing
them back succeeds and leaves the contents in read order unchanged. -/
theorem C28_fifo_order (cap isz : Nat) (fifo g : FIFO_t) (ops : List FIFO_op)
    (hcap : 1 ≤ cap) (hisz : 1 ≤ isz) (hmax : cap * isz ≤ 65535)
    (h : FIFO_reachable cap isz FIFO_NO_FLAGS fifo) (hempty : FIFO_get_data_count fifo = 0)
    (hops : FIFO_ops_item_granular isz ops)
    (hg : FIFO_reachable cap isz FIFO_NO_FLAGS g) (hfull : FIFO_get_data_count g = cap) :
    FIFO_bytes_read fifo ops ++ FIFO_contents (FIFO_run fifo ops) =
      FIFO_bytes_stored fifo ops ∧
    FIFO_bytes_read fifo ops <+: FIFO_bytes_stored fifo ops ∧
    FIFO_contents (FIFO_run fifo ops) =
      (FIFO_bytes_stored fifo ops).drop (FIFO_bytes_read fifo ops).length ∧
    (FIFO_read g cap).1 = FIFO_error_t.FIFO_OK ∧
    (FIFO_read g cap).2.2.1 = FIFO_contents g ∧
    FIFO_get_data_count (FIFO_read g cap).2.1 = 0 ∧
    (FIFO_write (FIFO_read g cap).2.1 (FIFO_read g cap).2.2.1 cap).1 = FIFO_error_t.FIFO_OK ∧
    FIFO_contents (FIFO_write (FIFO_read g cap).2.1 (FIFO_read g cap).2.2.1 cap).2.1 =
      FIFO_contents g := by
  have hpos : 1 ≤ cap * isz := Nat.mul_pos hcap hisz
  obtain ⟨bytes, hb⟩ := FIFO_reachable_aligned cap isz FIFO_NO_FLAGS fifo hpos hmax h
  obtain ⟨k, hk, _, _, _, hc, _, _, _⟩ :=
    FIFO_aligned_counts fifo cap isz FIFO_NO_FLAGS bytes hisz hb
  have hk0 : k = 0 := by rw [← hc, hempty]
  have hnil : bytes = [] := by
    apply List.eq_nil_of_length_eq_zero
    rw [hk, hk0, Nat.zero_mul]
  rw [hnil] at hb
  have hord := FIFO_run_order cap isz hisz ops fifo [] hb hops
  rw [List.nil_append] at hord
  obtain ⟨gb, hgb⟩ := FIFO_reachable_aligned cap isz FIFO_NO_FLAGS g hpos hmax hg
  obtain ⟨kg, hkg, _, _, _, hcg, _, hcontg, _⟩ :=
    FIFO_aligned_counts g cap isz FIFO_NO_FLAGS gb hisz hgb
  have hkc : kg = cap := by rw [← hcg, hfull]
  rw [hkc] at hkg
  obtain ⟨heq, h2⟩ := FIFO_read_general g cap isz FIFO_NO_FLAGS gb cap hgb hmax
  rw [List.take_of_length_le (le_of_eq hkg)] at heq
  rw [List.drop_of_length_le (le_of_eq hkg)] at h2
  have h2r : FIFO_aligned (FIFO_read g cap).2.1 cap isz FIFO_NO_FLAGS [] := by
    rw [heq]
    exact h2
  obtain ⟨_, hc2, _⟩ := FIFO_aligned_count_of_length _ cap isz FIFO_NO_FLAGS [] 0 hisz h2r
    (by simp)
  obtain ⟨g3, heq3, h3, _⟩ := FIFO_write_fits (FIFO_read g cap).2.1 cap isz FIFO_NO_FLAGS []
    gb cap h2r hkg (by simp)
  rw [List.nil_append] at h3
  obtain ⟨_, _, _, _, _, _, _, hcont3, _⟩ :=
    FIFO_aligned_counts g3 cap isz FIFO_NO_FLAGS gb hisz h3
  have hret : (FIFO_read g cap).2.2.1 = gb := by rw [heq]
  refine ⟨hord, ⟨_, hord⟩, ?_, ?_, by rw [hret, hcontg], hc2, ?_, ?_⟩
  · rw [← hord, List.drop_left]
  · rw [heq]
    exact if_pos (le_of_eq hkg.symm)
  · rw [hret, heq3]
  · rw [hret, heq3, hcontg]
    exact hcont3

theorem C28_fifo_order_witness :
    FIFO_bytes_read
      (FIFO_read
        (FIFO_write (FIFO_init ⟨⟨none, 0, 0, 0, 0, 0⟩, 0, 0⟩ (some [0, 0, 0, 0, 0, 0]) 3 2
          FIFO_NO_FLAGS) [1, 2, 3, 4] 2).2.1 2).2.1
      [FIFO_op.write [5, 6, 7, 8] 2, FIFO_op.read 1, FIFO_op.write [9, 10, 11, 12, 13, 14] 3,
        FIFO_op.read 3] ++
    FIFO_contents
      (FIFO_run
        (FIFO_read
          (FIFO_write (FIFO_init ⟨⟨none, 0, 0, 0, 0, 0⟩, 0, 0⟩ (some [0, 0, 0, 0, 0, 0]) 3 2
            FIFO_NO_FLAGS) [1, 2, 3, 4] 2).2.1 2).2.1
        [FIFO_op.write [5, 6, 7, 8] 2, FIFO_op.read 1, FIFO_op.write [9, 10, 11, 12, 13, 14] 3,
          FIFO_op.read 3])
      = [5, 6, 7, 8, 9, 10, 11, 12] ∧
    FIFO_contents
      (FIFO_write
        (FIFO_read
          (FIFO_write (FIFO_init ⟨⟨none, 0, 0, 0, 0, 0⟩, 0, 0⟩ (some [0, 0, 0, 0, 0, 0]) 3 2
            FIFO_NO_FLAGS) [1, 2, 3, 4, 5, 6] 3).2.1 3).2.1
        (FIFO_read
          (FIFO_write (FIFO_init ⟨⟨none, 0, 0, 0, 0, 0⟩, 0, 0⟩ (some [0, 0, 0, 0, 0, 0]) 3 2
            FIFO_NO_FLAGS) [1, 2, 3, 4, 5, 6] 3).2.1 3).2.2.1 3).2.1
      = [1, 2, 3, 4, 5, 6] :=
  have key := C28_fifo_order 3 2
    (FIFO_read
      (FIFO_write (FIFO_init ⟨⟨none, 0, 0, 0, 0, 0⟩, 0, 0⟩ (some [0, 0, 0, 0, 0, 0]) 3 2
        FIFO_NO_FLAGS) [1, 2, 3, 4] 2).2.1 2).2.1
    (FIFO_write (FIFO_init ⟨⟨none, 0, 0, 0, 0, 0⟩, 0, 0⟩ (some [0, 0, 0, 0, 0, 0]) 3 2
      FIFO_NO_FLAGS) [1, 2, 3, 4, 5, 6] 3).2.1
    [FIFO_op.write [5, 6, 7, 8] 2, FIFO_op.read 1, FIFO_op.write [9, 10, 11, 12, 13, 14] 3,
      FIFO_op.read 3]
    (by decide) (by decide) (by decide)
    (FIFO_reachable.read _ 2
      (FIFO_reachable.write _ [1, 2, 3, 4] 2
        (FIFO_reachable.init ⟨⟨none, 0, 0, 0, 0, 0⟩, 0, 0⟩ [0, 0, 0, 0, 0, 0] (by decide))
        (by decide) (by decide))
      (by decide))
    (by decide)
    ⟨by decide, by decide, by decide, by decide, by decide, by decide, trivial⟩
    (FIFO_reachable.write _ [1, 2, 3, 4, 5, 6] 3
      (FIFO_reachable.init ⟨⟨none, 0, 0, 0, 0, 0⟩, 0, 0⟩ [0, 0, 0, 0, 0, 0] (by decide))
      (by decide) (by decide))
    (by decide)
  ⟨key.1.trans (by decide), key.2.2.2.2.2.2.2.trans (by decide)⟩

/-! ## The low-pass output -/

/-- The quotient of a sum of `w` `int16_t` values by `w` needs no narrowing. -/
theorem sum_tdiv_store (l : List Int) (w : Nat) (hw1 : 1 ≤ w) (hw2 : w ≤ 65535)
    (hl : l.length = w) (hr : ∀ s ∈ l, is_int16 s) :
    is_int16 (l.sum.tdiv w) ∧ to_int16 (l.sum.tdiv (to_int32 w)) = l.sum.tdiv w ∧
    to_int16 (l.sum.tdiv (w : Int)) = l.sum.tdiv w := by
  have hb := sum_int16_bounds l hr
  rw [hl] at hb
  have h16 := tdiv_int16 l.sum w hw1 hb.1 hb.2
  rw [to_int32_of_range (by omega) (by omega)]
  exact ⟨h16, to_int16_of_range h16, to_int16_of_range h16⟩

theorem moving_avg_sequence_loop_general (data : List Int) (w p : Nat) (tail : List Int)
    (hw1 : 1 ≤ w) (hw2 : w ≤ 65535) (hq : 2 * p + 1 + tail.length = w)
    (hr : ∀ s ∈ data, is_int16 s) (ht : ∀ s ∈ tail, is_int16 s) (hn : data.length ≤ 65535)
    (remaining : Nat) :
    ∀ i, i + remaining + (2 * p + 1) ≤ data.length →
      moving_avg_sequence_loop data w p remaining i
          ((window_at data (2 * p + 1) i).sum + tail.sum)
        = (List.range remaining).map (fun j =>
            (i + j + 1, ((window_at data (2 * p + 1) (i + j + 1)).sum + tail.sum).tdiv w)) := by
  induction remaining with
  | zero => intro i _; simp [moving_avg_sequence_loop]
  | succ r ih =>
    intro i hi
    have hnext : to_uint32 ((i : Int) + 2 * (p : Int) + 1) = i + (2 * p + 1) := by
      have e : (i : Int) + 2 * (p : Int) + 1 = ((i + (2 * p + 1) : Nat) : Int) := by
        push_cast; ring
      rw [e]
      exact to_uint32_of_range (by omega)
    have hslide := window_at_slide data (2 * p + 1) i (by omega) (by omega)
    have e0 : (window_at data (2 * p + 1) i).sum + tail.sum +
        (data.getD (i + (2 * p + 1)) 0 - data.getD i 0) =
        (window_at data (2 * p + 1) (i + 1) ++ tail).sum := by
      rw [List.sum_append, hslide]; ring
    have hmem : ∀ s ∈ window_at data (2 * p + 1) (i + 1) ++ tail, is_int16 s := by
      intro x hx
      rcases List.mem_append.mp hx with h1 | h1
      · exact window_at_int16 data _ _ hr x h1
      · exact ht x h1
    have hlen : (window_at data (2 * p + 1) (i + 1) ++ tail).length = w := by
      rw [List.length_append, window_at_length data _ _ (by omega)]
      exact hq
    have hrng := sum_int16_is_int32 _ hmem (by omega)
    obtain ⟨_, hst, _⟩ := sum_tdiv_store _ w hw1 hw2 hlen hmem
    rw [moving_avg_sequence_loop]
    simp only [hnext]
    rw [e0, to_int32_of_range hrng.1 hrng.2, hst, List.sum_append, ih (i + 1) (by omega),
      List.range_succ_eq_map, List.map_cons, List.map_map]
    congr 1
    apply List.map_congr_left
    intro j _
    simp only [Function.comp]
    rw [show i + 1 + j + 1 = i + (j + 1) + 1 by omega]

/-- The stores of the batch moving average are the exact quotients of the
accumulator values from the end of the first sum on, for any window parity. -/
theorem moving_avg_filter_sequence_stores (data : List Int) (w : Nat) (hw1 : 1 ≤ w)
    (hwn : w ≤ data.length) (hn : data.length ≤ 65535) (hr : ∀ s ∈ data, is_int16 s) :
    (moving_avg_filter_sequence data data.length w).2.1.map Prod.snd =
      ((moving_avg_filter_sequence_acc_values data data.length w).drop (w - 1)).map
        (fun e => e.tdiv w) ∧
    ∀ e ∈ (moving_avg_filter_sequence_acc_values data data.length w).drop (w - 1),
      is_int16 (e.tdiv w) ∧ to_int16 (e.tdiv w) = e.tdiv w := by
  have hp : to_uint32 (((w : Int) - 1).tdiv 2) = (w - 1) / 2 := by
    rw [Int.tdiv_eq_ediv (by omega) (by omega)]
    unfold to_uint32
    omega
  have hrec : to_uint32
      ((filter_windowed_get_expected_output_len data.length w : Int) - 1) = data.length - w := by
    unfold filter_windowed_get_expected_output_len to_uint32
    omega
  have hacc : window_acc data w = (data.take w).sum :=
    window_acc_eq_sum data hr w hwn (by omega)
  have htr : ∀ s ∈ data.take w, is_int16 s := fun s hs => hr s (List.mem_of_mem_take hs)
  have htl : (data.take w).length = w := by rw [List.length_take]; omega
  obtain ⟨h016, _, h0⟩ := sum_tdiv_store (data.take w) w hw1 (by omega) htl htr
  have hsplit : (data.take w).sum =
      (window_at data (2 * ((w - 1) / 2) + 1) 0).sum +
        ((data.drop (2 * ((w - 1) / 2) + 1)).take (w - (2 * ((w - 1) / 2) + 1))).sum := by
    have e : w = (2 * ((w - 1) / 2) + 1) + (w - (2 * ((w - 1) / 2) + 1)) := by omega
    conv_lhs => rw [e, List.take_add, List.sum_append]
    simp [window_at]
  have htailr : ∀ s ∈ (data.drop (2 * ((w - 1) / 2) + 1)).take (w - (2 * ((w - 1) / 2) + 1)),
      is_int16 s := fun x hx => hr x (List.mem_of_mem_drop (List.mem_of_mem_take hx))
  have htaill : 2 * ((w - 1) / 2) + 1 +
      ((data.drop (2 * ((w - 1) / 2) + 1)).take (w - (2 * ((w - 1) / 2) + 1))).length = w := by
    rw [List.length_take, List.length_drop]; omega
  have hloop := moving_avg_sequence_loop_general data w ((w - 1) / 2) _ hw1 (by omega)
    htaill hr htailr hn (data.length - w) 0 (by omega)
  have hvals := moving_avg_filter_sequence_acc_values_eq data w hw1 hwn hn hr
  have hdrop : ((List.range w).map (fun j => (data.take (j + 1)).sum)).drop (w - 1) =
      [(data.take w).sum] := by
    have e : w = (w - 1) + 1 := by omega
    conv_lhs => rw [e, List.range_succ, List.map_append]
    rw [List.drop_left' (by simp)]
    simp only [List.map_cons, List.map_nil]
    rw [← e]
  have hdrop2 : (moving_avg_filter_sequence_acc_values data data.length w).drop (w - 1) =
      (data.take w).sum ::
        (List.range (data.length - w)).map (fun j =>
          (window_at data (2 * ((w - 1) / 2) + 1) (j + 1)).sum +
            ((data.drop (2 * ((w - 1) / 2) + 1)).take (w - (2 * ((w - 1) / 2) + 1))).sum) := by
    rw [hvals, List.drop_append_of_le_length (by simp), hdrop]
    rfl
  constructor
  · rw [hdrop2]
    unfold moving_avg_filter_sequence
    have hgt : ¬ w > data.length := by omega
    simp only [hgt, if_false, hp, hrec, hacc, h0]
    rw [hsplit, hloop]
    simp only [List.map_cons, List.map_map, Nat.zero_add]
    rfl
  · rw [hdrop2]
    intro e he
    rcases List.mem_cons.mp he with h1 | h1
    · rw [h1]
      exact ⟨h016, to_int16_of_range h016⟩
    · obtain ⟨j, _, rfl⟩ := List.mem_map.mp h1
      rw [← List.sum_append]
      have hmem : ∀ s ∈ window_at data (2 * ((w - 1) / 2) + 1) (j + 1) ++
          (data.drop (2 * ((w - 1) / 2) + 1)).take (w - (2 * ((w - 1) / 2) + 1)),
          is_int16 s := by
        intro x hx
        rcases List.mem_append.mp hx with h2 | h2
        · exact window_at_int16 data _ _ hr x h2
        · exact htailr x h2
      have hj := List.mem_range.mp ‹j ∈ List.range (data.length - w)›
      obtain ⟨h16, _, _⟩ := sum_tdiv_store _ w hw1 (by omega)
        (by rw [List.length_append, window_at_length data _ _ (by omega)]; exact htaill) hmem
      exact ⟨h16, to_int16_of_range h16⟩

/-- C29: the low-pass output always fits the 16-bit output type.  For every
`w >= 1` and every list of `w` `int16_t` samples with sum `S`, the truncated
quotient `S / w` is an `int16_t` value; for a 16-bit `w`, `produce_output` in
low-pass mode returns exactly `S / w`; and every value stored by
`moving_avg_filter_sequence` (`1 <= bw <= n <= 65535`, odd or even `bw`) is
the exact truncated quotient of the accumulator value by `bw`, an `int16_t`
value that the store does not narrow. -/
theorem C29_low_pass_output_fits (l : List Int) (w : Nat) (c : Int) (data : List Int)
    (bw : Nat) (hw1 : 1 ≤ w) (hl : l.length = w) (hlr : ∀ s ∈ l, is_int16 s)
    (hb1 : 1 ≤ bw) (hbn : bw ≤ data.length) (hn : data.length ≤ 65535)
    (hr : ∀ s ∈ data, is_int16 s) :
    is_int16 (l.sum.tdiv w) ∧
    (w ≤ 65535 → produce_output c l.sum w FilterType_t.FilterLowPass = l.sum.tdiv w) ∧
    (moving_avg_filter_sequence data data.length bw).2.1.map Prod.snd =
      ((moving_avg_filter_sequence_acc_values data data.length bw).drop (bw - 1)).map
        (fun e => e.tdiv bw) ∧
    (∀ e ∈ (moving_avg_filter_sequence_acc_values data data.length bw).drop (bw - 1),
      is_int16 (e.tdiv bw) ∧ to_int16 (e.tdiv bw) = e.tdiv bw) := by
  have hb := sum_int16_bounds l hlr
  rw [hl] at hb
  obtain ⟨h1, h2⟩ := moving_avg_filter_sequence_stores data bw hb1 hbn hn hr
  exact ⟨tdiv_int16 l.sum w hw1 hb.1 hb.2,
    fun hw2 => produce_output_low_pass l w c hw1 hw2 hl hlr, h1, h2⟩

theorem C29_low_pass_output_fits_witness :
    is_int16 (([-32768, -32768, -32767] : List Int).sum.tdiv (3 : Nat)) ∧
    produce_output 0 ([-32768, -32768, -32767] : List Int).sum 3 FilterType_t.FilterLowPass
      = -32767 ∧
    (moving_avg_filter_sequence [32767, 32767, -32768, 32767] 4 2).2.1.map Prod.snd
      = [32767, 32767, 0] :=
  have key := C29_low_pass_output_fits [-32768, -32768, -32767] 3 0
    [32767, 32767, -32768, 32767] 2
    (by decide) (by decide) (by decide) (by decide) (by decide) (by decide) (by decide)
  ⟨key.1, (key.2.1 (by decide)).trans (by decide), key.2.2.1.trans (by decide)⟩

/-! ## Batch moving average: array indices -/

theorem moving_avg_sequence_read_indices_bound (p n : Nat) (hn : n ≤ 65535) (remaining : Nat) :
    ∀ i, i + remaining + (2 * p + 1) ≤ n →
      ∀ j ∈ moving_avg_sequence_read_indices p remaining i, j < n := by
  induction remaining with
  | zero =>
    intro i _ j hj
    simp [moving_avg_sequence_read_indices] at hj
  | succ r ih =>
    intro i hi j hj
    have hnext : to_uint32 ((i : Int) + 2 * (p : Int) + 1) = i + (2 * p + 1) := by
      have e : (i : Int) + 2 * (p : Int) + 1 = ((i + (2 * p + 1) : Nat) : Int) := by
        push_cast; ring
      rw [e]
      exact to_uint32_of_range (by omega)
    rw [moving_avg_sequence_read_indices] at hj
    simp only [hnext, List.mem_cons] at hj
    rcases hj with h | h | h
    · omega
    · omega
    · exact ih (i + 1) (by omega) j h

/-- C30: the batch moving average never indexes outside its arrays.  For every
`data_size = n <= 65535` and window size `1 <= w <= n` (odd or even), every
index of `data` read by `moving_avg_filter_sequence` (the `i < w` of the first
sum; `next_sample_id = i + 2 * ((w - 1) / 2) + 1` and `prev_sample_id = i` of the
`n - w` iterations of the recursive part) is below `n`, and every index of `y`
written is at most `n - w`, whatever the data. -/
theorem C30_batch_indices_in_bounds (data : List Int) (n w : Nat) (hw1 : 1 ≤ w) (hwn : w ≤ n)
    (hn : n ≤ 65535) :
    (∀ j ∈ moving_avg_filter_sequence_read_indices n w, j < n) ∧
    (moving_avg_filter_sequence_read_indices n w).length = w + 2 * (n - w) ∧
    (∀ k ∈ (moving_avg_filter_sequence data n w).2.1.map Prod.fst, k ≤ n - w) ∧
    (moving_avg_filter_sequence data n w).2.1.map Prod.fst = List.range (n - w + 1) := by
  have hp : to_uint32 (((w : Int) - 1).tdiv 2) = (w - 1) / 2 := by
    rw [Int.tdiv_eq_ediv (by omega) (by omega)]
    unfold to_uint32
    omega
  have hrec : to_uint32
      ((filter_windowed_get_expected_output_len n w : Int) - 1) = n - w := by
    unfold filter_windowed_get_expected_output_len to_uint32
    omega
  have hgt : ¬ w > n := by omega
  have hidx : moving_avg_filter_sequence_read_indices n w =
      List.range w ++ moving_avg_sequence_read_indices ((w - 1) / 2) (n - w) 0 := by
    unfold moving_avg_filter_sequence_read_indices
    simp only [hgt, if_false, hp, hrec]
  have hlen : ∀ (r i : Nat),
      (moving_avg_sequence_read_indices ((w - 1) / 2) r i).length = 2 * r := by
    intro r
    induction r with
    | zero => intro i; rfl
    | succ r ih =>
      intro i
      rw [moving_avg_sequence_read_indices]
      simp only [List.length_cons, ih]
      omega
  have hst : (moving_avg_filter_sequence data n w).2.1.map Prod.fst =
      List.range (n - w + 1) := by
    unfold moving_avg_filter_sequence
    simp only [hgt, if_false, hp, hrec, List.map_cons, moving_avg_sequence_loop_indices]
    rw [List.range_succ_eq_map]
    congr 1
    apply List.map_congr_left
    intro j _
    omega
  refine ⟨?_, by rw [hidx, List.length_append, List.length_range, hlen], ?_, hst⟩
  · intro j hj
    rw [hidx] at hj
    rcases List.mem_append.mp hj with h | h
    · have := List.mem_range.mp h
      omega
    · exact moving_avg_sequence_read_indices_bound ((w - 1) / 2) n hn (n - w) 0 (by omega) j h
  · intro k hk
    rw [hst] at hk
    have := List.mem_range.mp hk
    omega

theorem C30_batch_indices_in_bounds_witness :
    (∀ j ∈ moving_avg_filter_sequence_read_indices 5 2, j < 5) ∧
    moving_avg_filter_sequence_read_indices 5 2 = [0, 1, 1, 0, 2, 1, 3, 2] ∧
    (moving_avg_filter_sequence [1, 3, 5, 7, 9] 5 2).2.1.map Prod.fst = [0, 1, 2, 3] :=
  have key := C30_batch_indices_in_bounds [1, 3, 5, 7, 9] 5 2 (by decide) (by decide)
    (by decide)
  ⟨key.1, by decide, key.2.2.2.trans (by decide)⟩

/-! ## The overwrite flag -/

/-- C31 (divergence): the overwrite mode is selected by `flags != 0`, not by the
bit `FIFO_LOOP`.  The test `pFIFO->flags && FIFO_LOOP` is a logical
conjunction: on a full ring of 2 bytes initialised with `flags = 0x02`, whose
bit `0x01` is clear, the write of one byte returns `FIFO_OK`, overwrites the
oldest byte and advances the read index, exactly as with `flags = FIFO_LOOP`;
only `flags = 0` gives `FIFO_OVERFLOW` with the handle unchanged.  For every
flags value the status of that write is `FIFO_OVERFLOW` when `flags = 0` and
`FIFO_OK` otherwise. -/
theorem C31_flag_test_is_logical (flags : Nat) :
    2 % 2 = 0 ∧
    FIFO8_write (FIFO8_write (FIFO8_init ⟨none, 0, 0, 0, 0, 0⟩ (some [0, 0]) 2 2) [1, 2] 2).2.1
      [3] 1 = (FIFO_error_t.FIFO_OK, ⟨some [3, 2], 2, 2, 2, 1, 1⟩, 1) ∧
    FIFO8_write
      (FIFO8_write (FIFO8_init ⟨none, 0, 0, 0, 0, 0⟩ (some [0, 0]) 2 FIFO_LOOP) [1, 2] 2).2.1
      [3] 1 = (FIFO_error_t.FIFO_OK, ⟨some [3, 2], 2, 1, 2, 1, 1⟩, 1) ∧
    FIFO8_write
      (FIFO8_write (FIFO8_init ⟨none, 0, 0, 0, 0, 0⟩ (some [0, 0]) 2 FIFO_NO_FLAGS)
        [1, 2] 2).2.1
      [3] 1 = (FIFO_error_t.FIFO_OVERFLOW, ⟨some [1, 2], 2, 0, 2, 0, 0⟩, 0) ∧
    FIFO8_write
      (FIFO8_write (FIFO8_init ⟨none, 0, 0, 0, 0, 0⟩ (some [0, 0]) 2 flags) [1, 2] 2).2.1
      [3] 1 =
      if flags = 0 then (FIFO_error_t.FIFO_OVERFLOW, ⟨some [1, 2], 2, flags, 2, 0, 0⟩, 0)
      else (FIFO_error_t.FIFO_OK, ⟨some [3, 2], 2, flags, 2, 1, 1⟩, 1) := by
  refine ⟨by decide, by decide, by decide, by decide, ?_⟩
  by_cases h : flags = 0
  · subst h
    decide
  · have hl : ¬ FIFO_LOOP = 0 := by decide
    simp [FIFO8_write, FIFO8_write_loop, FIFO8_init, store_byte, h, hl]

end DigitalFilters
